import Mathlib

/-!
# olaris-rename: the filename identification engine

A shallow embedding of `identify/file.go` and `identify/util.go`.

Conventions of the embedding

* A Go `string` holding text is a `List Char` (the code points of the
  UTF-8 text); `len(s)` in bytes is `utf8Len`.
* A Go `int` is an `Int`; `strconv.Atoi` checks the 64-bit range.
* `regexp` is embedded as a small backtracking matcher with the
  leftmost-first preference order of Go's `regexp` package; every pattern
  of the source is written as a term of `Re` next to its source text.
* A function that may fail at run time, or whose recursion is bounded by
  fuel, returns an `Option`.
-/

namespace Olaris

/-! ## Regular expressions -/

/-- Abstract syntax of the regular expressions used by the source. -/
inductive Re where
  | eps : Re
  | cls : (Char → Bool) → Re
  | seq : Re → Re → Re
  | alt : Re → Re → Re
  | star : Re → Re
  | cap : Nat → Re → Re
  | bot : Re
  | eot : Re

/-- Capture slots: slot `n` holds the text of group `n`, `[]` when unset. -/
abbrev Caps := List (List Char)

/-- Outcome of a successful match attempt: end position and captures. -/
abbrev MatchEnd := Nat × Caps

/-- Continuation of the matcher: position, rest of the input, captures. -/
abbrev Cont := Nat → List Char → Caps → Option MatchEnd

/-- First success of two attempts (the preference order of alternation). -/
def orElse (a b : Option MatchEnd) : Option MatchEnd :=
  match a with
  | some r => some r
  | none => b

/-- Greedy iteration of `step`; an iteration must consume input. -/
def starLoop (step : Nat → List Char → Caps → Cont → Option MatchEnd) :
    Nat → Nat → List Char → Caps → Cont → Option MatchEnd
  | 0, i, s, c, k => k i s c
  | fuel + 1, i, s, c, k =>
    orElse
      (step i s c (fun j s1 c1 => if i < j then starLoop step fuel j s1 c1 k else none))
      (k i s c)

/-- Backtracking matcher at position `i` with remaining input `s`. -/
def Re.run : Re → Nat → List Char → Caps → Cont → Option MatchEnd
  | .eps, i, s, c, k => k i s c
  | .cls p, i, s, c, k =>
    match s with
    | [] => none
    | x :: t => if p x then k (i + 1) t c else none
  | .seq a b, i, s, c, k => a.run i s c (fun j s1 c1 => b.run j s1 c1 k)
  | .alt a b, i, s, c, k => orElse (a.run i s c k) (b.run i s c k)
  | .star a, i, s, c, k => starLoop a.run s.length i s c k
  | .cap n a, i, s, c, k => a.run i s c (fun j s1 c1 => k j s1 (c1.set n (s.take (j - i))))
  | .bot, i, s, c, k => if i = 0 then k i s c else none
  | .eot, i, s, c, k =>
    match s with
    | [] => k i s c
    | _ :: _ => none

/-- A compiled pattern: its syntax and its number of capture groups. -/
structure Regexp where
  re : Re
  ngroups : Nat

/-- Try to match at position `i` (rest `s`): end position and submatches. -/
def Regexp.matchAt (r : Regexp) (i : Nat) (s : List Char) : Option MatchEnd :=
  match r.re.run i s (List.replicate (r.ngroups + 1) []) (fun j _ c => some (j, c)) with
  | some (j, c) => some (j, c.set 0 (s.take (j - i)))
  | none => none

/-- Leftmost match at or after position `i`: start, end, submatches. -/
def Regexp.findFrom (r : Regexp) : Nat → List Char → Option (Nat × Nat × Caps)
  | i, [] =>
    match r.matchAt i [] with
    | some (j, c) => some (i, j, c)
    | none => none
  | i, x :: t =>
    match r.matchAt i (x :: t) with
    | some (j, c) => some (i, j, c)
    | none => r.findFrom (i + 1) t

/-- Go `FindStringSubmatch`: `none` is Go's `nil`. -/
def Regexp.FindStringSubmatch (r : Regexp) (s : List Char) : Option Caps :=
  match r.findFrom 0 s with
  | some (_, _, c) => some c
  | none => none

/-! ### Pattern combinators -/

/-- A literal character. -/
def chr (c : Char) : Re := .cls (fun x => x == c)

/-- A character class given by its members. -/
def oneOf (cs : List Char) : Re := .cls (fun x => cs.contains x)

/-- A negated character class. -/
def noneOf (cs : List Char) : Re := .cls (fun x => !cs.contains x)

/-- The class `\d` (ASCII digits) and `[0-9]`. -/
def isDigit (c : Char) : Bool := decide ('0'.toNat ≤ c.toNat) && decide (c.toNat ≤ '9'.toNat)

/-- The pattern `\d`. -/
def digit : Re := .cls isDigit

/-- Optional greedy `r?`. -/
def opt (r : Re) : Re := .alt r .eps

/-- The pattern `r+`. -/
def plus (r : Re) : Re := .seq r (.star r)

/-- Concatenation of a list of patterns. -/
def seqs : List Re → Re
  | [] => .eps
  | [r] => r
  | r :: rs => .seq r (seqs rs)

/-- Ordered alternation of a non-empty list of patterns. -/
def alts : List Re → Re
  | [] => .eps
  | [r] => r
  | r :: rs => .alt r (alts rs)

/-- A literal string. -/
def lit (s : String) : Re := seqs (s.toList.map chr)

/-! ## The Go library functions the source calls -/

/-- Go `unicode.IsSpace`. -/
def isSpace (c : Char) : Bool :=
  let n := c.toNat
  (decide (9 ≤ n) && decide (n ≤ 13)) || n == 32 || n == 0x85 || n == 0xA0 || n == 0x1680 ||
    (decide (0x2000 ≤ n) && decide (n ≤ 0x200A)) || n == 0x2028 || n == 0x2029 ||
    n == 0x202F || n == 0x205F || n == 0x3000

/-- Remove the longest suffix of characters satisfying `p`. -/
def trimRightBy (p : Char → Bool) (s : List Char) : List Char :=
  (s.reverse.dropWhile p).reverse

/-- Go `strings.TrimSpace`. -/
def TrimSpace (s : List Char) : List Char :=
  trimRightBy isSpace (s.dropWhile isSpace)

/-- Go `strings.Trim(s, " ")`. -/
def trimBlank (s : List Char) : List Char :=
  trimRightBy (fun c => c == ' ') (s.dropWhile (fun c => c == ' '))

/-- Go `strings.TrimRight(s, " ")`. -/
def trimRightBlank (s : List Char) : List Char :=
  trimRightBy (fun c => c == ' ') s

/-- Go `len(s)`: the number of bytes of the UTF-8 encoding. -/
def utf8Len (s : List Char) : Nat :=
  (s.map Char.utf8Size).sum

/-- Value of a run of ASCII digits read from the left with accumulator `acc`;
`none` when a character is not a digit. -/
def digitsValue : List Char → Nat → Option Nat
  | [], acc => some acc
  | c :: t, acc => if isDigit c then digitsValue t (acc * 10 + (c.toNat - 48)) else none

/-- Largest Go `int` plus one (64-bit platform). -/
def intLimit : Nat := 9223372036854775808

/-- Go `strconv.Atoi`: an optional sign and at least one ASCII digit, the
value within the range of `int`; `none` is a non-nil error. -/
def Atoi (s : List Char) : Option Int :=
  match s with
  | [] => none
  | c :: t =>
    if c == '-' then
      match t with
      | [] => none
      | _ :: _ =>
        match digitsValue t 0 with
        | some n => if n ≤ intLimit then some (-(n : Int)) else none
        | none => none
    else if c == '+' then
      match t with
      | [] => none
      | _ :: _ =>
        match digitsValue t 0 with
        | some n => if n < intLimit then some (n : Int) else none
        | none => none
    else
      match digitsValue (c :: t) 0 with
      | some n => if n < intLimit then some (n : Int) else none
      | none => none

/-- The decimal digit character of `d < 10`. -/
def digitChar (d : Nat) : Char :=
  match d with
  | 0 => '0' | 1 => '1' | 2 => '2' | 3 => '3' | 4 => '4'
  | 5 => '5' | 6 => '6' | 7 => '7' | 8 => '8' | _ => '9'

/-- Decimal digits of `n`, most significant first, in front of `acc`. -/
def natDigitsAux : Nat → Nat → List Char → List Char
  | 0, _, acc => acc
  | fuel + 1, n, acc =>
    if n < 10 then digitChar n :: acc
    else natDigitsAux fuel (n / 10) (digitChar (n % 10) :: acc)

/-- Decimal rendering of a natural number (no padding). -/
def natDigits (n : Nat) : List Char := natDigitsAux (n + 1) n []

/-- Go `fmt.Sprintf("%d", n)`. -/
def fmtD (n : Int) : List Char :=
  if n < 0 then '-' :: natDigits n.natAbs else natDigits n.natAbs

/-- Left padding with `'0'` up to `w` characters. -/
def padZero (w : Nat) (s : List Char) : List Char :=
  List.replicate (w - s.length) '0' ++ s

/-- Go `fmt.Sprintf("%02d", n)`: the sign, if any, comes before the zeros. -/
def fmt02d (n : Int) : List Char :=
  if n < 0 then '-' :: padZero 1 (natDigits n.natAbs) else padZero 2 (natDigits n.natAbs)

/-- Go `fmt.Sprintf("%02s", s)`: the width counts characters and the padding
is made of zeros (the behaviour the tests of the repository rely on). -/
def fmt02s (s : List Char) : List Char := padZero 2 s

/-! ## EpisodeInfo and ParseEpisodeString -/

/-- EpisodeInfo holds parsed episode number(s). -/
structure EpisodeInfo where
  Start : Int
  End : Int
  IsRange : Bool
  deriving DecidableEq, Repr

/-- GetFirstEpisodeForLookup returns the first episode number. -/
def EpisodeInfo.GetFirstEpisodeForLookup (ei : EpisodeInfo) : Int := ei.Start

/-- GetEpisodeRange: `fmt.Sprintf("%d-%d", Start, End)` for a range,
`fmt.Sprintf("%d", Start)` otherwise. -/
def EpisodeInfo.GetEpisodeRange (ei : EpisodeInfo) : List Char :=
  if ei.IsRange then fmtD ei.Start ++ '-' :: fmtD ei.End
  else fmtD ei.Start

/-- The pattern `^E?(\d+)(?:(?:-E?|E)(\d+))?$`. -/
def episodeStringPattern : Regexp :=
  ⟨seqs [.bot, opt (chr 'E'), .cap 1 (plus digit),
      opt (seqs [.alt (.seq (chr '-') (opt (chr 'E'))) (chr 'E'), .cap 2 (plus digit)]),
      .eot], 2⟩

/-- The errors of `ParseEpisodeString`, one per `fmt.Errorf` of the source,
and `indexOutOfRange` for a failing slice access. -/
inductive EpError where
  | emptyString
  | invalidFormat
  | badStart
  | badEnd
  | startGreaterThanEnd
  | indexOutOfRange
  deriving DecidableEq, Repr

deriving instance DecidableEq for Except

/-- ParseEpisodeString of `identify/file.go`. -/
def ParseEpisodeString (epStr : List Char) : Except EpError EpisodeInfo :=
  if epStr = [] then .error .emptyString
  else
    let epStr := TrimSpace epStr
    match episodeStringPattern.FindStringSubmatch epStr with
    | none => .error .invalidFormat
    | some ms =>
      match ms[1]? with
      | none => .error .indexOutOfRange
      | some m1 =>
        match Atoi m1 with
        | none => .error .badStart
        | some start =>
          match ms[2]? with
          | none => .ok ⟨start, start, false⟩
          | some m2 =>
            if m2 ≠ [] then
              match Atoi m2 with
              | none => .error .badEnd
              | some e =>
                if start > e then .error .startGreaterThanEnd
                else .ok ⟨start, e, true⟩
            else .ok ⟨start, start, false⟩

/-! ## More of the Go library: strings and path/filepath (Unix) -/

/-- Go `strings.TrimSuffix`. -/
def TrimSuffix (s suffix : List Char) : List Char :=
  if suffix.isSuffixOf s then s.take (s.length - suffix.length) else s

/-- Scan of `strings.Replace` for a non-empty `old`; `skip` counts the
characters of the occurrence being replaced that are still to be dropped. -/
def replaceScan (old new : List Char) : Nat → List Char → List Char
  | _, [] => []
  | skip + 1, _ :: t => replaceScan old new skip t
  | 0, c :: t =>
    if old.isPrefixOf (c :: t) then new ++ replaceScan old new (old.length - 1) t
    else c :: replaceScan old new 0 t

/-- Go `strings.Replace(s, old, new, -1)`; an empty `old` matches before
every character and at the end. -/
def Replace (s old new : List Char) : List Char :=
  match old with
  | [] => new ++ s.flatMap (fun c => c :: new)
  | _ :: _ => replaceScan old new 0 s

/-- Go `strings.Join`. -/
def Join (ws : List (List Char)) (sep : List Char) : List Char :=
  match ws with
  | [] => []
  | [w] => w
  | w :: rest => w ++ sep ++ Join rest sep

/-- Go `strings.Fields`: the maximal runs of non-space characters; `cur` is
the run being read, reversed. -/
def fieldsAux : List Char → List Char → List (List Char)
  | [], cur => if cur = [] then [] else [cur.reverse]
  | c :: t, cur =>
    if isSpace c then
      (if cur = [] then fieldsAux t [] else cur.reverse :: fieldsAux t [])
    else fieldsAux t (c :: cur)

/-- Go `strings.Fields`. -/
def Fields (s : List Char) : List (List Char) := fieldsAux s []

/-- Scan of `filepath.Ext` over the reversed path; `acc` is the suffix read. -/
def extScan : List Char → List Char → List Char
  | [], _ => []
  | c :: t, acc =>
    if c == '/' then []
    else if c == '.' then c :: acc
    else extScan t (c :: acc)

/-- Go `filepath.Ext`: the suffix beginning at the final dot of the final
element of the path, empty if there is none. -/
def Ext (path : List Char) : List Char := extScan path.reverse []

/-- The text after the last separator. -/
def lastElement (path : List Char) : List Char :=
  (path.reverse.takeWhile (fun c => c != '/')).reverse

/-- Go `filepath.Base`. -/
def Base (path : List Char) : List Char :=
  if path = [] then ['.']
  else
    let p := lastElement (trimRightBy (fun c => c == '/') path)
    if p = [] then ['/'] else p

/-- The elements of a path between separators; `cur` is reversed. -/
def splitSlash : List Char → List Char → List (List Char)
  | [], cur => [cur.reverse]
  | c :: t, cur => if c == '/' then cur.reverse :: splitSlash t [] else splitSlash t (c :: cur)

/-- The `..` step of `filepath.Clean` on the reversed output buffer: drop
characters down to the previous separator or to index `dotdot`. -/
def cleanBacktrack (dotdot : Nat) : List Char → List Char
  | [] => []
  | c :: t => if dotdot < t.length && c != '/' then cleanBacktrack dotdot t else t

/-- The loop of `filepath.Clean`, one path element at a time; `out` is the
reversed output buffer. -/
def cleanLoop (rooted : Bool) : List (List Char) → List Char → Nat → List Char
  | [], out, _ => out
  | e :: es, out, dotdot =>
    if e = [] || e = ['.'] then cleanLoop rooted es out dotdot
    else if e = ['.', '.'] then
      if dotdot < out.length then cleanLoop rooted es (cleanBacktrack dotdot out) dotdot
      else if !rooted then
        let out1 := if 0 < out.length then '/' :: out else out
        let out2 := '.' :: '.' :: out1
        cleanLoop rooted es out2 out2.length
      else cleanLoop rooted es out dotdot
    else
      let out1 :=
        if (rooted && out.length != 1) || (!rooted && out.length != 0) then '/' :: out else out
      cleanLoop rooted es (e.reverse ++ out1) dotdot

/-- Go `filepath.Clean`. -/
def Clean (path : List Char) : List Char :=
  match path with
  | [] => ['.']
  | c :: _ =>
    let rooted := c == '/'
    let out := cleanLoop rooted (splitSlash path []) (if rooted then ['/'] else [])
      (if rooted then 1 else 0)
    if out = [] then ['.'] else out.reverse

/-- Go `filepath.Dir`: all but the last element of the path, cleaned. -/
def Dir (path : List Char) : List Char :=
  Clean (path.reverse.dropWhile (fun c => c != '/')).reverse

/-! ## Replacement of all matches of a pattern -/

/-- The loop of `Regexp.ReplaceAllString` with a literal replacement.
`last` is the end of the previous match, `pos` the search position,
`pending` the text between them and `rest` the input from `pos` on. -/
def replaceAllLoop (r : Regexp) (repl : List Char) :
    Nat → Nat → Nat → List Char → List Char → List Char
  | 0, _, _, pending, rest => pending ++ rest
  | fuel + 1, last, pos, pending, rest =>
    match r.findFrom pos rest with
    | none => pending ++ rest
    | some (a0, a1, _) =>
      let copied := pending ++ rest.take (a0 - pos)
      let ins := if last < a1 || a0 == 0 then repl else []
      if a1 == pos then
        match rest with
        | [] => copied ++ ins
        | x :: t => copied ++ ins ++ replaceAllLoop r repl fuel a1 (pos + 1) [x] t
      else copied ++ ins ++ replaceAllLoop r repl fuel a1 a1 [] (rest.drop (a1 - pos))

/-- Go `Regexp.ReplaceAllString(src, repl)` for a replacement without `$`. -/
def Regexp.ReplaceAllString (r : Regexp) (src repl : List Char) : List Char :=
  replaceAllLoop r repl (src.length + 2) 0 0 [] src

/-! ## The tables of `identify/util.go` -/

/-- DefaultMovieFormat of `util.go`. -/
def DefaultMovieFormat : List Char := "{n} ({y})/{n} ({y}) {r}".toList

/-- DefaultSeriesFormat of `util.go`. -/
def DefaultSeriesFormat : List Char := "{n}/Stagione {s}/{n} - S{s}E{e} - {x}{r}".toList

/-- Membership in a Go `map[string]bool` given by its `true` keys. -/
def inTable (keys : List String) (k : List Char) : Bool :=
  keys.any (fun x => x.toList == k)

/-- The map `addYearToSeries`. -/
def addYearToSeries (k : List Char) : Bool :=
  inTable ["The Flash", "Doctor Who", "Magnum P.I.", "Charmed"] k

/-- The map `SupportedMusicExtensions`. -/
def SupportedMusicExtensions (k : List Char) : Bool :=
  inTable [".mp3", ".flac", ".3pg", ".aac", ".alac", ".opus", ".ogg", ".wav", ".wmv", ".ape"] k

/-- The map `SupportedVideoExtensions`. -/
def SupportedVideoExtensions (k : List Char) : Bool :=
  inTable [".mp4", ".mkv", ".mov", ".avi", ".webm", ".wmv", ".mpg", ".mpeg", ".m2ts"] k

/-- The slice `order`. -/
def order : List String :=
  ["yearAsSeason", "year", "season", "episode", "episodeAnime", "groupAnime", "audio",
   "resolution", "quality", "codec", "group", "proper", "repack", "hardcoded", "extended",
   "internal"]

/-- The map `ignoreMovie`. -/
def ignoreMovie (k : String) : Bool :=
  ["season", "episode", "episodeAnime", "groupAnime"].contains k

/-- The characters a literal matches under the flag `(?i)`: the simple case
folding orbit (for `s` it contains U+017F and for `k` U+212A). -/
def foldOrbit (c : Char) : List Char :=
  if c.isAlpha then
    c.toUpper :: c.toLower ::
      (if c.toLower == 's' then [Char.ofNat 0x17F]
       else if c.toLower == 'k' then [Char.ofNat 0x212A] else [])
  else [c]

/-- A literal character under `(?i)`. -/
def chrI (c : Char) : Re := oneOf (foldOrbit c)

/-- A literal string under `(?i)`. -/
def litI (s : String) : Re := seqs (s.toList.map chrI)

/-- The class `[EX]` under `(?i)`. -/
def classEX : Re := oneOf ['E', 'X', 'e', 'x']

/-- The class `\w`. -/
def isWord (c : Char) : Bool := c.isAlphanum || c == '_'

/-- The class `\s` of the regexp syntax: `[\t\n\f\r ]`. -/
def isReSpace (c : Char) : Bool :=
  c == '\t' || c == '\n' || c == Char.ofNat 12 || c == '\r' || c == ' '

/-- The pattern `.` (any character but a newline). -/
def anyChar : Re := .cls (fun c => c != '\n')

/-- The map `matchers`: the patterns, each under its key. -/
def matchers : List (String × Regexp) :=
  [ -- ([\[\(]?((?:19[0-9]|20[012])[0-9])[\]\)]?)
    ("year",
      ⟨.cap 1 (seqs [opt (oneOf ['[', '(']),
          .cap 2 (seqs [.alt (seqs [lit "19", digit]) (seqs [lit "20", oneOf ['0', '1', '2']]),
            digit]),
          opt (oneOf [']', ')'])]), 2⟩),
    -- (?i)(s?([0-9]{1,2}))[EX]
    ("season",
      ⟨seqs [.cap 1 (seqs [opt (chrI 's'), .cap 2 (seqs [digit, opt digit])]), classEX], 2⟩),
    -- (?i)(s?([0-9]{4}))[EX]
    ("yearAsSeason",
      ⟨seqs [.cap 1 (seqs [opt (chrI 's'), .cap 2 (seqs [digit, digit, digit, digit])]),
          classEX], 2⟩),
    -- (?i)[EX]([0-9]{2})(?:-?[EX]?([0-9]{2}))?
    ("episode",
      ⟨seqs [classEX, .cap 1 (seqs [digit, digit]),
          opt (seqs [opt (chr '-'), opt classEX, .cap 2 (seqs [digit, digit])])], 2⟩),
    -- (?i)(([0-9]{3,4}p))
    ("resolution",
      ⟨.cap 1 (.cap 2 (seqs [digit, digit, digit, opt digit, chrI 'p'])), 2⟩),
    -- MP3|DD5\.?1|Dual[\- ]Audio|LiNE|DTS|AAC(?:\.?2\.0)?|AC3(?:\.5\.1)?
    ("audio",
      ⟨alts [lit "MP3", seqs [lit "DD5", opt (chr '.'), chr '1'],
          seqs [lit "Dual", oneOf ['-', ' '], lit "Audio"], lit "LiNE", lit "DTS",
          seqs [lit "AAC", opt (seqs [opt (chr '.'), lit "2.0"])],
          seqs [lit "AC3", opt (lit ".5.1")]], 0⟩),
    -- ((?:PPV\.)?[HP]DTV|(?:HD)?CAM|B[DR]Rip|(?:HD-?)?TS|(?:PPV )?WEB-?DL(?: DVDRip)?|HDRip|
    --  DVDRip|DVDRIP|CamRip|W[EB]BRip|BluRay|DvDScr|hdtv|telesync)
    ("quality",
      ⟨.cap 1 (alts [seqs [opt (lit "PPV."), oneOf ['H', 'P'], lit "DTV"],
          seqs [opt (lit "HD"), lit "CAM"],
          seqs [chr 'B', oneOf ['D', 'R'], lit "Rip"],
          seqs [opt (seqs [lit "HD", opt (chr '-')]), lit "TS"],
          seqs [opt (lit "PPV "), lit "WEB", opt (chr '-'), lit "DL", opt (lit " DVDRip")],
          lit "HDRip", lit "DVDRip", lit "DVDRIP", lit "CamRip",
          seqs [chr 'W', oneOf ['E', 'B'], lit "BRip"],
          lit "BluRay", lit "DvDScr", lit "hdtv", lit "telesync"]), 1⟩),
    -- (?i)xvid|x264|x265|h265|h\.?264|h\.?265
    ("codec",
      ⟨alts [litI "xvid", litI "x264", litI "x265", litI "h265",
          seqs [chrI 'h', opt (chr '.'), litI "264"],
          seqs [chrI 'h', opt (chr '.'), litI "265"]], 0⟩),
    -- (- ?([^-]+(?:-={[^-]+-?$)?))$
    ("group",
      ⟨seqs [.cap 1 (seqs [chr '-', opt (chr ' '),
          .cap 2 (seqs [plus (noneOf ['-']),
            opt (seqs [lit "-=\x7b", plus (noneOf ['-']), opt (chr '-'), .eot])])]), .eot], 2⟩),
    ("proper", ⟨lit "PROPER", 0⟩),
    ("repack", ⟨lit "REPACK", 0⟩),
    ("hardcoded", ⟨lit "HC", 0⟩),
    -- (?i)INTERNAL
    ("internal", ⟨litI "INTERNAL", 0⟩),
    -- (EXTENDED(:?.CUT)?)
    ("extended",
      ⟨.cap 1 (seqs [lit "EXTENDED", opt (.cap 2 (seqs [opt (chr ':'), anyChar, lit "CUT"]))]),
        2⟩),
    -- [-_ p.](\d{2})[-_ (v\[](\d{2})?
    ("episodeAnime",
      ⟨seqs [oneOf ['-', '_', ' ', 'p', '.'], .cap 1 (seqs [digit, digit]),
          oneOf ['-', '_', ' ', '(', 'v', '['], opt (.cap 2 (seqs [digit, digit]))], 2⟩),
    -- ^(\[\w*\])\s(.*)\s-
    ("groupAnime",
      ⟨seqs [.bot, .cap 1 (seqs [chr '[', .star (.cls isWord), chr ']']), .cls isReSpace,
          .cap 2 (.star anyChar), .cls isReSpace, chr '-'], 2⟩) ]

/-- The pattern `\s{2,}.*` of the cleaning pass. -/
def spacesTail : Regexp :=
  ⟨seqs [.cls isReSpace, .cls isReSpace, .star (.cls isReSpace), .star anyChar], 0⟩

/-- Lookup in the map `matchers`; `none` is the nil pointer of a missing key. -/
def matcher (name : String) : Option Regexp :=
  (matchers.find? (fun p => p.1 == name)).map (fun p => p.2)

/-! ## Options, ParsedFile and the external collaborators -/

/-- Options of `identify/file.go`. -/
structure Options where
  Lookup : Bool := false
  ForceMovie : Bool := false
  ForceSeries : Bool := false
  OriginalFile : List Char := []
  MovieFormat : List Char := []
  SeriesFormat : List Char := []
  DryRun : Bool := false
  TMDBLanguage : List Char := []
  deriving DecidableEq, Repr

/-- ParsedFile of `identify/file.go`. -/
structure ParsedFile where
  Year : List Char := []
  Season : List Char := []
  Episode : List Char := []
  EpisodeName : List Char := []
  ExternalName : List Char := []
  CleanName : List Char := []
  Filepath : List Char := []
  Filename : List Char := []
  Extension : List Char := []
  Quality : List Char := []
  Resolution : List Char := []
  Group : List Char := []
  AnimeGroup : List Char := []
  IsSeries : Bool := false
  IsMovie : Bool := false
  IsMusic : Bool := false
  ExternalID : Int := 0
  OriginalFile : List Char := []
  Options : Options := {}
  hasYearAsSeason : Bool := false
  deriving DecidableEq, Repr

/-- A series of a catalog search result (`tmdb.TvShort`). -/
structure TvShort where
  ID : Int
  Name : List Char
  FirstAirDate : List Char

/-- A movie of a catalog search result (`tmdb.MovieShort`). -/
structure MovieShort where
  ID : Int
  Title : List Char

/-- A season of the details of a series (`tmdb.TV.Seasons`). -/
structure TvSeason where
  Name : List Char
  SeasonNumber : Int

/-- What the source takes from outside `src/`: the constant
`DefaultTMDBLanguage`, the Unicode text functions `strings.ToLower` and
`cases.Title(language.English).String`, and the TMDB client. A catalog
call takes the options map as a list of key/value pairs; `none` is a
non-nil error. -/
structure Env where
  DefaultTMDBLanguage : List Char
  ToLower : List Char → List Char
  Title : List Char → List Char
  SearchTv : List Char → List (String × List Char) → Option (List TvShort)
  SearchMovie : List Char → List (String × List Char) → Option (List MovieShort)
  GetTvEpisodeInfo : Int → Int → Int → List (String × List Char) → Option (List Char)
  GetTvInfo : Int → List (String × List Char) → List TvSeason

/-- ASCII lower-casing of one character. -/
def asciiLower (c : Char) : Char :=
  if c.isUpper then Char.ofNat (c.toNat + 32) else c

/-- ASCII upper-casing of one character. -/
def asciiUpper (c : Char) : Char :=
  if c.isLower then Char.ofNat (c.toNat - 32) else c

/-- Whether an ASCII character continues a word without being a letter of
it: the period, the colon and the apostrophe (the classes MidNumLet,
MidLetter and Single_Quote of the Unicode word break property). -/
def isMidChar (c : Char) : Bool := c == '.' || c == ':' || c == '\''

/-- The text function `cases.Title(language.English).String` on ASCII text:
in every word the first letter is upper-cased and the later letters are
lower-cased. `midWord` says whether a letter of the current word has been
written, `wasMid` whether the previous character was a period, a colon or an
apostrophe. Such a character continues the word unless it follows another
one; digits and underscores belong to the word without being its first
letter (so "1080p" gives "1080P" and "s01e22" gives "S01e22"); every other
character that is no letter ends the word. -/
def asciiTitle : Bool → Bool → List Char → List Char
  | _, _, [] => []
  | midWord, wasMid, c :: t =>
    let midWord := if wasMid && isMidChar c then false else midWord
    if c.isAlpha then
      (if midWord then asciiLower c else asciiUpper c) :: asciiTitle true false t
    else if isMidChar c then c :: asciiTitle midWord true t
    else if c.isDigit || c == '_' then c :: asciiTitle midWord false t
    else c :: asciiTitle false false t

/-- An environment for evaluating the code on ASCII file names with the
catalog unreachable: the text functions are those of Go on ASCII text. -/
def offlineEnv : Env where
  DefaultTMDBLanguage := "en-US".toList
  ToLower := fun s => s.map asciiLower
  Title := fun s => asciiTitle false false s
  SearchTv := fun _ _ => none
  SearchMovie := fun _ _ => none
  GetTvEpisodeInfo := fun _ _ _ _ => none
  GetTvInfo := fun _ _ => []

/-- The function getOpts of `identify/file.go`. -/
def getOpts (env : Env) (o : List Options) : Options :=
  let opts : Options := match o with
    | [] => {}
    | o0 :: _ => o0
  let opts := if opts.MovieFormat = [] then { opts with MovieFormat := DefaultMovieFormat } else opts
  let opts :=
    if opts.SeriesFormat = [] then { opts with SeriesFormat := DefaultSeriesFormat } else opts
  if opts.TMDBLanguage = [] then { opts with TMDBLanguage := env.DefaultTMDBLanguage } else opts

/-- GetDefaultOptions of `identify/file.go`. -/
def GetDefaultOptions (env : Env) : Options := getOpts env []

/-- The words `properTitleCase` keeps in lower case. -/
def smallWords (w : List Char) : Bool :=
  inTable ["a", "an", "and", "as", "at", "but", "by", "for", "in", "of", "on", "or", "the",
    "to", "via"] w

/-- The loop of `properTitleCase`; `first` says whether the word has index 0. -/
def titleWords (env : Env) : Bool → List (List Char) → List (List Char)
  | _, [] => []
  | first, word :: rest =>
    let lower := env.ToLower word
    (if first || !smallWords lower then env.Title lower else lower) :: titleWords env false rest

/-- The function properTitleCase of `identify/file.go`. -/
def properTitleCase (env : Env) (s : List Char) : List Char :=
  Join (titleWords env true (Fields s)) [' ']

/-! ## The catalog lookup -/

/-- The episode numbers `Start, ..., End` of the loop of `queryTmdb`. -/
def episodeNumbers (info : EpisodeInfo) : List Int :=
  (List.range (info.End + 1 - info.Start).toNat).map (fun k => info.Start + (k : Int))

/-- The function queryTmdb of `identify/file.go`, as a function of the record.
The returned error is dropped by its only caller and is not modelled;
`none` stands for a run that does not return. -/
def queryTmdb (env : Env) (p : ParsedFile) : Option ParsedFile :=
  let options : List (String × List Char) :=
    ("language", p.Options.TMDBLanguage) ::
      (if p.Year ≠ [] then [("first_air_date_year", p.Year), ("year", p.Year)] else [])
  if p.IsSeries then
    match env.SearchTv p.CleanName options with
    | none => some p
    | some [] => some p
    | some (tv :: _) =>
      let p := { p with ExternalID := tv.ID, ExternalName := tv.Name, CleanName := tv.Name }
      let p :=
        if tv.FirstAirDate ≠ [] ∧ p.Year = [] then
          { p with Year := tv.FirstAirDate.takeWhile (fun c => c != '-') }
        else p
      match Atoi p.Season with
      | none => some p
      | some seasonNum =>
        match ParseEpisodeString p.Episode with
        | .error .indexOutOfRange => none
        | r =>
          let info : EpisodeInfo := match r with
            | .ok i => i
            | .error _ => ⟨1, 1, false⟩
          if info.Start ≤ info.End ∧ info.End = (intLimit : Int) - 1 then none
          else
            let episodeTitles := (episodeNumbers info).filterMap (fun n =>
              match env.GetTvEpisodeInfo tv.ID seasonNum n options with
              | some name => if name ≠ [] then some name else none
              | none => none)
            if episodeTitles ≠ [] then
              some { p with EpisodeName := Join episodeTitles " & ".toList }
            else some p
  else if p.IsMovie then
    match env.SearchMovie p.CleanName options with
    | none => some p
    | some [] => some p
    | some (mov :: _) =>
      some { p with ExternalID := mov.ID, ExternalName := mov.Title, CleanName := mov.Title }
  else some p

/-! ## NewParsedFile -/

/-- The body of the `switch` of the matching pass for matcher `name` with
submatches `res`; `none` is an index out of range. -/
def applyMatch (f : ParsedFile) (name : String) (res : Caps) : Option ParsedFile :=
  if name = "yearAsSeason" then
    if 1 < res.length then
      match res[2]? with
      | some r2 => some { f with hasYearAsSeason := true, Season := r2 }
      | none => none
    else some f
  else if name = "year" then
    match res[2]? with
    | some r2 => if f.Season = r2 then some f else some { f with Year := r2 }
    | none => none
  else if name = "season" then
    if f.Season = [] then
      match res[2]? with
      | some r2 => some { f with Season := fmt02s r2 }
      | none => none
    else some f
  else if name = "episode" then
    match res[0]? with
    | none => none
    | some r0 =>
      match ParseEpisodeString r0 with
      | .error .indexOutOfRange => none
      | .error _ =>
        match res[1]? with
        | some r1 => some { f with Episode := fmt02s r1 }
        | none => none
      | .ok episodeInfo =>
        if episodeInfo.IsRange then
          some { f with
            Episode := fmt02d episodeInfo.Start ++ "-E".toList ++ fmt02d episodeInfo.End }
        else some { f with Episode := fmt02d episodeInfo.Start }
  else if name = "quality" then
    match res[1]? with
    | some r1 => some { f with Quality := r1 }
    | none => none
  else if name = "resolution" then
    match res[2]? with
    | some r2 => some { f with Resolution := r2 }
    | none => none
  else if name = "groupAnime" then
    match res[1]? with
    | some r1 => some { f with AnimeGroup := r1 }
    | none => none
  else if name = "episodeAnime" then
    if f.Episode = [] then
      match res[0]? with
      | some r0 => some { f with Episode := trimBlank r0, Season := "00".toList }
      | none => none
    else some f
  else some f

/-- The first loop over `order` (the matching pass) on `filename`. -/
def matchingPass (filename : List Char) : List String → ParsedFile → Option ParsedFile
  | [], f => some f
  | name :: rest, f =>
    match matcher name with
    | none => none
    | some re =>
      match re.FindStringSubmatch filename with
      | none => matchingPass filename rest f
      | some res =>
        if 0 < res.length then
          match applyMatch f name res with
          | some f1 => matchingPass filename rest f1
          | none => none
        else matchingPass filename rest f

/-- Outcome of the decision chain: a classified record, or the call
`NewParsedFile(fileParent+f.Extension, opts)` to be made. -/
inductive Decision where
  | done (f : ParsedFile)
  | retry (path : List Char) (opts : Options)

/-- The decision chain `if opts.ForceMovie ... else ...` of NewParsedFile. -/
def classify (f : ParsedFile) (opts : Options) (filePath : List Char) : Decision :=
  if opts.ForceMovie then .done { f with IsMovie := true, Episode := [], Season := [] }
  else if opts.ForceSeries then .done { f with IsSeries := true }
  else if f.Season ≠ [] then .done { f with IsSeries := true }
  else if f.Year ≠ [] ∧ f.Episode = [] then .done { f with IsMovie := true }
  else if f.Year ≠ [] ∧ f.Episode ≠ [] then
    .done { f with IsMovie := true, Episode := [], Season := [] }
  else if f.Episode ≠ [] ∧ f.Season ≠ [] then .done { f with IsSeries := true }
  else
    let fileParent := Base (Dir filePath)
    if fileParent ≠ [] ∧ opts.OriginalFile = [] ∧ fileParent ≠ ['.'] then
      .retry (fileParent ++ f.Extension) { opts with OriginalFile := filePath }
    else .done f

/-- The body of the second loop over `order` for a matcher that matched. -/
def cleanStep (f : ParsedFile) (name : String) (re : Regexp) (res : Caps)
    (cleanName : List Char) : Option (List Char) :=
  if (f.IsMovie && !ignoreMovie name) || f.IsSeries then
    if name = "episode" then
      match res[0]? with
      | some r0 => some (Replace cleanName r0 [' '])
      | none => none
    else if name = "season" then
      match res[1]? with
      | some r1 => some (Replace cleanName r1 [' '])
      | none => none
    else if name = "groupAnime" then
      match res[1]? with
      | some r1 => some (Replace cleanName r1 [' '])
      | none => none
    else
      let oldName := cleanName
      let cleanName := re.ReplaceAllString cleanName [' ']
      if utf8Len (trimRightBlank cleanName) < 2 then some oldName else some cleanName
  else some cleanName

/-- The second loop over `order` (the cleaning pass). -/
def cleaningPass (f : ParsedFile) : List String → List Char → Option (List Char)
  | [], cleanName => some cleanName
  | name :: rest, cleanName =>
    match matcher name with
    | none => none
    | some re =>
      match re.FindStringSubmatch cleanName with
      | none => cleaningPass f rest cleanName
      | some res =>
        if 0 < res.length then
          match cleanStep f name re res cleanName with
          | some c1 => cleaningPass f rest c1
          | none => none
        else cleaningPass f rest cleanName

/-- The end of the cleaning: trimming and, unless an anime group was found,
truncation at the first run of spaces and title-casing. -/
def polish (env : Env) (f : ParsedFile) (cleanName : List Char) : List Char :=
  let cleanName := trimBlank cleanName
  if f.AnimeGroup = [] then properTitleCase env (spacesTail.ReplaceAllString cleanName [])
  else cleanName

/-- The translation of a year used as season into a season number. -/
def translateSeason (env : Env) (f : ParsedFile) : ParsedFile :=
  if 0 < f.ExternalID ∧ f.hasYearAsSeason = true then
    let seasons := env.GetTvInfo f.ExternalID [("language", f.Options.TMDBLanguage)]
    match seasons.find? (fun s => s.Name == "Season ".toList ++ f.Season) with
    | some s => { f with Season := fmtD s.SeasonNumber }
    | none => f
  else f

/-- NewParsedFile from the statement `cleanName = strings.Replace(cleanName,
":", "", -1)` to its `return f`. -/
def finish (env : Env) (opts : Options) (f : ParsedFile) (cleanName : List Char) :
    Option ParsedFile :=
  let f := { f with CleanName := Replace cleanName [':'] [] }
  match (if opts.Lookup then queryTmdb env f else some f) with
  | none => none
  | some f =>
    let f := translateSeason env f
    let f :=
      if addYearToSeries f.CleanName ∧ f.Year ≠ [] then
        { f with CleanName := f.CleanName ++ " (".toList ++ f.Year ++ ")".toList }
      else f
    some { f with CleanName := Replace f.CleanName [':'] [] }

/-- The record NewParsedFile starts from: the path, the options, the
extension `filepath.Ext(filePath)` and the file name
`filepath.Base(strings.TrimSuffix(filePath, f.Extension))`. -/
def initialFile (env : Env) (filePath : List Char) (o : List Options) : ParsedFile :=
  let opts := getOpts env o
  { Filepath := filePath, OriginalFile := opts.OriginalFile, Options := opts,
    Extension := Ext filePath, Filename := Base (TrimSuffix filePath (Ext filePath)) }

/-- NewParsedFile of `identify/file.go`. The variadic options are a list;
`fuel` bounds the depth of the recursion into the parent directory name, and
`none` means that no record is returned (fuel exhausted or run-time failure). -/
def NewParsedFile (env : Env) : Nat → List Char → List Options → Option ParsedFile
  | 0, _, _ => none
  | fuel + 1, filePath, o =>
    let opts := getOpts env o
    let f := initialFile env filePath o
    if SupportedVideoExtensions f.Extension then
      match matchingPass f.Filename order f with
      | none => none
      | some f =>
        let cleanName := Replace f.Filename ['.'] [' ']
        if !f.IsMusic then
          match classify f opts filePath with
          | .retry path opts1 => NewParsedFile env fuel path [opts1]
          | .done f =>
            match cleaningPass f order cleanName with
            | none => none
            | some cleanName => finish env opts f (polish env f cleanName)
        else finish env opts f cleanName
    else if SupportedMusicExtensions f.Extension then some { f with IsMusic := true }
    else some f

/-- SourcePath of `identify/file.go`: the original file if there is one,
otherwise the path of the record. -/
def ParsedFile.SourcePath (p : ParsedFile) : List Char :=
  if p.OriginalFile = [] then p.Filepath else p.OriginalFile

/-- TargetName of `identify/file.go` up to the statement
`newName = strings.Trim(newName, " ")`: the template with its placeholders
replaced one after the other. -/
def ParsedFile.substituted (p : ParsedFile) : List Char :=
  let newName :=
    if p.IsMovie then p.Options.MovieFormat
    else if p.IsSeries then
      let newName := p.Options.SeriesFormat
      let newName := Replace newName ['{', 's', '}'] p.Season
      let newName := Replace newName ['{', 'e', '}'] p.Episode
      Replace newName ['{', 'x', '}'] p.EpisodeName
    else p.Filename
  let newName := Replace newName ['{', 'n', '}'] p.CleanName
  let newName := Replace newName ['{', 'r', '}'] p.Resolution
  let newName := Replace newName ['{', 'q', '}'] p.Quality
  Replace newName ['{', 'y', '}'] p.Year

/-- TargetName of `identify/file.go`. The expression
`newName[len(newName)-1]` is an index out of range on the empty string:
`none`. The byte it reads is a period exactly when the last character is
one, and the slice `newName[0 : len(newName)-1]` then drops that
character. -/
def ParsedFile.TargetName (p : ParsedFile) : Option (List Char) :=
  let newName := trimBlank p.substituted
  match newName.getLast? with
  | none => none
  | some last =>
    let newName := if last = '.' then newName.dropLast else newName
    some (newName ++ p.Extension)

/-! ## Definitions used in the statements and proofs -/


/-- A non-empty run of ASCII digits. -/
def IsDigitRun (d : List Char) : Prop := d ≠ [] ∧ ∀ c ∈ d, isDigit c = true

/-- The number a run of digits denotes in base ten. -/
def decimalValue (d : List Char) : Nat := d.foldl (fun acc c => acc * 10 + (c.toNat - 48)) 0

/-- The grammar `E? digits ((-E? | E) digits)?`: `s` is an episode token
with first digit run `d1` and second digit run `d2` (`none` when absent). -/
def IsEpisodeToken (s d1 : List Char) (d2 : Option (List Char)) : Prop :=
  ∃ pre, (pre = [] ∨ pre = ['E']) ∧ IsDigitRun d1 ∧
    match d2 with
    | none => s = pre ++ d1
    | some e => IsDigitRun e ∧
        ∃ sep, (sep = ['-'] ∨ sep = ['-', 'E'] ∨ sep = ['E']) ∧ s = pre ++ d1 ++ sep ++ e


/-- The unpadded decimal rendering of an integer: a minus sign for a
negative number, then the digits of its absolute value, without a leading
zero unless the digits are "0". -/
def IsDecimalOf (s : List Char) (n : Int) : Prop :=
  ∃ ds, IsDigitRun ds ∧ decimalValue ds = n.natAbs ∧ (ds.head? = some '0' → ds = ['0']) ∧
    s = if n < 0 then '-' :: ds else ds


/-- The fields the matching pass never writes. -/
def SameFrame (f g : ParsedFile) : Prop :=
  g.IsMusic = f.IsMusic ∧ g.IsSeries = f.IsSeries ∧ g.IsMovie = f.IsMovie ∧
    g.ExternalID = f.ExternalID ∧ g.Filename = f.Filename ∧ g.Extension = f.Extension ∧
    g.Filepath = f.Filepath ∧ g.OriginalFile = f.OriginalFile ∧ g.Options = f.Options

/-- The number of submatches the `switch` of the matching pass and the
cleaning pass read for a matcher. -/
def neededLength (name : String) : Nat :=
  if name = "yearAsSeason" ∨ name = "year" ∨ name = "season" ∨ name = "resolution" then 3
  else if name = "episode" ∨ name = "quality" ∨ name = "groupAnime" then 2
  else 1

/-- The matcher of `name` exists and has the capture groups the code reads. -/
def matcherFits (name : String) : Bool :=
  match matcher name with
  | some re => decide (neededLength name ≤ re.ngroups + 1)
  | none => false

/-! ### What a pattern matches -/

/-- The texts a pattern matches (anchors match the empty text). -/
def Re.Matches : Re → List Char → Prop
  | .eps, w => w = []
  | .cls p, w => ∃ x, w = [x] ∧ p x = true
  | .seq a b, w => ∃ u v, w = u ++ v ∧ a.Matches u ∧ b.Matches v
  | .alt a b, w => a.Matches w ∨ b.Matches w
  | .star a, w => ∃ ws : List (List Char), w = ws.flatten ∧ ∀ u ∈ ws, a.Matches u
  | .cap _ a, w => a.Matches w
  | .bot, w => w = []
  | .eot, w => w = []

/-- The texts capture group `n` of a pattern can hold after a match. -/
def Re.Captures : Re → Nat → List Char → Prop
  | .seq a b, n, v => a.Captures n v ∨ b.Captures n v
  | .alt a b, n, v => a.Captures n v ∨ b.Captures n v
  | .star a, n, v => a.Captures n v
  | .cap m a, n, v => (m = n ∧ a.Matches v) ∨ a.Captures n v
  | _, _, _ => False

/-- What a successful run of `re` from `(i, s, c)` hands to its continuation:
the rest `s1` after a text matched by `re`, the position after it, and
capture slots that differ from `c` only by captures of `re`. -/
def RunSpec (re : Re) (i : Nat) (s : List Char) (c0 : Caps) (j : Nat) (s1 : List Char)
    (c1 : Caps) : Prop :=
  (∃ w, s = w ++ s1 ∧ j = i + w.length ∧ re.Matches w) ∧ c1.length = c0.length ∧
    ∀ n, c1[n]? = c0[n]? ∨ ∃ v, c1[n]? = some v ∧ re.Captures n v

/-! ### The end of NewParsedFile and the catalog lookup, in parts -/

/-- The fields the end of NewParsedFile (lookup, season translation, year
suffix) never writes. -/
def SameIdentity (f r : ParsedFile) : Prop :=
  r.IsMovie = f.IsMovie ∧ r.IsSeries = f.IsSeries ∧ r.IsMusic = f.IsMusic ∧
    r.Filename = f.Filename ∧ r.Filepath = f.Filepath ∧ r.OriginalFile = f.OriginalFile ∧
    r.Extension = f.Extension ∧ r.Options = f.Options ∧ r.Episode = f.Episode ∧
    r.hasYearAsSeason = f.hasYearAsSeason

/-- The options map of `queryTmdb`. -/
def tmdbOptions (p : ParsedFile) : List (String × List Char) :=
  ("language", p.Options.TMDBLanguage) ::
    (if p.Year ≠ [] then [("first_air_date_year", p.Year), ("year", p.Year)] else [])

/-- The part of `queryTmdb` that fetches the episode titles of series
`tvID`, season `seasonNum`. -/
def queryEpisodes (env : Env) (p : ParsedFile) (tvID seasonNum : Int)
    (options : List (String × List Char)) : Option ParsedFile :=
  match ParseEpisodeString p.Episode with
  | .error .indexOutOfRange => none
  | r =>
    let info : EpisodeInfo := match r with
      | .ok i => i
      | .error _ => ⟨1, 1, false⟩
    if info.Start ≤ info.End ∧ info.End = (intLimit : Int) - 1 then none
    else
      let episodeTitles := (episodeNumbers info).filterMap (fun n =>
        match env.GetTvEpisodeInfo tvID seasonNum n options with
        | some name => if name ≠ [] then some name else none
        | none => none)
      if episodeTitles ≠ [] then
        some { p with EpisodeName := Join episodeTitles " & ".toList }
      else some p

/-- The part of `queryTmdb` that takes over the first search result `tv`. -/
def adoptSeries (p : ParsedFile) (tv : TvShort) : ParsedFile :=
  let p := { p with ExternalID := tv.ID, ExternalName := tv.Name, CleanName := tv.Name }
  if tv.FirstAirDate ≠ [] ∧ p.Year = [] then
    { p with Year := tv.FirstAirDate.takeWhile (fun c => c != '-') }
  else p

/-- The number of classification flags that are set. -/
def flagCount (f : ParsedFile) : Nat :=
  f.IsMovie.toNat + f.IsSeries.toNat + f.IsMusic.toNat

/-! ### The fields the matching pass writes, matcher by matcher -/

/-- The submatches of the matcher `name` on `filename` (`none`: no match). -/
def submatch (name : String) (filename : List Char) : Option Caps :=
  match matcher name with
  | some re => re.FindStringSubmatch filename
  | none => none

/-- The text the `episode` case of the matching pass writes. -/
def episodeText (res : Caps) : List Char :=
  match ParseEpisodeString (res.getD 0 []) with
  | .ok i =>
    if i.IsRange then fmt02d i.Start ++ "-E".toList ++ fmt02d i.End else fmt02d i.Start
  | .error _ => fmt02s (res.getD 1 [])

/-- The season after the year-as-season case. -/
def seasonOfYear (filename : List Char) : List Char :=
  match submatch "yearAsSeason" filename with
  | some res => res.getD 2 []
  | none => []

/-- The year after the year case: a year equal to the season is dropped. -/
def matchedYear (filename : List Char) : List Char :=
  match submatch "year" filename with
  | some res => if seasonOfYear filename = res.getD 2 [] then [] else res.getD 2 []
  | none => []

/-- The season after the season case. -/
def seasonOfSeason (filename : List Char) : List Char :=
  if seasonOfYear filename = [] then
    match submatch "season" filename with
    | some res => fmt02s (res.getD 2 [])
    | none => []
  else seasonOfYear filename

/-- The episode after the episode case. -/
def episodeOfEpisode (filename : List Char) : List Char :=
  match submatch "episode" filename with
  | some res => episodeText res
  | none => []

/-- Whether the anime episode case is honoured. -/
def animeHonoured (filename : List Char) : Bool :=
  episodeOfEpisode filename == [] && (submatch "episodeAnime" filename).isSome

/-- The season the matching pass leaves. -/
def matchedSeason (filename : List Char) : List Char :=
  if animeHonoured filename then "00".toList else seasonOfSeason filename

/-- The episode the matching pass leaves. -/
def matchedEpisode (filename : List Char) : List Char :=
  if animeHonoured filename then
    match submatch "episodeAnime" filename with
    | some res => trimBlank (res.getD 0 [])
    | none => []
  else episodeOfEpisode filename

/-- Group `n` is captured on every path through the pattern. -/
def Re.Sets : Re → Nat → Prop
  | .seq a b, n => a.Sets n ∨ b.Sets n
  | .alt a b, n => a.Sets n ∧ b.Sets n
  | .cap m a, n => m = n ∨ a.Sets n
  | _, _ => False

/-! ### Title-casing in the words of the specification -/

/-- The closed list of minor words. -/
def minorWords : List (List Char) :=
  ["a".toList, "an".toList, "and".toList, "as".toList, "at".toList, "but".toList, "by".toList,
    "for".toList, "in".toList, "of".toList, "on".toList, "or".toList, "the".toList, "to".toList,
    "via".toList]

/-- The word at index `i` after title-casing: the first word is lower-cased
and capitalised; a later word that equals a minor word when lower-cased is
written in lower case; every other word is lower-cased and capitalised. -/
def titleCaseWord (env : Env) (i : Nat) (word : List Char) : List Char :=
  if i = 0 then env.Title (env.ToLower word)
  else if env.ToLower word ∈ minorWords then env.ToLower word
  else env.Title (env.ToLower word)

/-- The words of `s`, each title-cased by its index, joined by single spaces. -/
def properTitleCaseSpec (env : Env) (s : List Char) : List Char :=
  Join ((Fields s).enum.map (fun p => titleCaseWord env p.1 p.2)) [' ']

/-! ### Templates and placeholders, in the words of the specification -/

/-- The template TargetName starts from: the movie format, the series
format, or the bare file name. -/
def nameTemplate (p : ParsedFile) : List Char :=
  if p.IsMovie then p.Options.MovieFormat
  else if p.IsSeries then p.Options.SeriesFormat
  else p.Filename

/-- The placeholder table: the keys `s`, `e`, `x` are replaced for a series
only, the keys `n`, `r`, `q`, `y` for every kind. -/
def placeholders (p : ParsedFile) : List (Char × List Char) :=
  (if p.IsMovie = false ∧ p.IsSeries = true then
    [('s', p.Season), ('e', p.Episode), ('x', p.EpisodeName)] else []) ++
  [('n', p.CleanName), ('r', p.Resolution), ('q', p.Quality), ('y', p.Year)]

/-- The value a placeholder table gives to the key `k`. -/
def placeholderValue (tbl : List (Char × List Char)) (k : Char) : Option (List Char) :=
  (tbl.find? (fun p => p.1 == k)).map (fun p => p.2)

/-- One pass over a template: every token `{k}` whose key `k` is in the
table is replaced by its value, and everything else (other brace tokens
included) is copied. -/
def fillTemplate (tbl : List (Char × List Char)) : List Char → List Char
  | c :: k :: c2 :: t =>
    if c = '{' ∧ c2 = '}' then
      match placeholderValue tbl k with
      | some v => v ++ fillTemplate tbl t
      | none => c :: fillTemplate tbl (k :: c2 :: t)
    else c :: fillTemplate tbl (k :: c2 :: t)
  | s => s

/-- Whether the braces of a text open and close one after the other: no
brace inside an open brace, no closing brace outside, none left open.
`inside` says whether a brace is open. -/
def bracesFlat : Bool → List Char → Bool
  | inside, [] => !inside
  | false, c :: t =>
    if c = '{' then bracesFlat true t else if c = '}' then false else bracesFlat false t
  | true, c :: t =>
    if c = '{' then false else if c = '}' then bracesFlat false t else bracesFlat true t

/-- The text without one trailing period, if it has one. -/
def dropPeriod (s : List Char) : List Char :=
  if s.getLast? = some '.' then s.dropLast else s

/-- The text functions of the environment write the character `a` only into
texts that already contain it. -/
def Env.KeepsOut (env : Env) (a : Char) : Prop :=
  ∀ s, a ∉ s → a ∉ env.ToLower s ∧ a ∉ env.Title s

/-- A season text: empty, or at least two characters, all of them decimal
digits. -/
def IsSeasonText (s : List Char) : Prop :=
  s = [] ∨ (2 ≤ s.length ∧ ∀ c ∈ s, isDigit c = true)

/-- The largest index of a capture group in a pattern (0 if there is none). -/
def Re.groupCount : Re → Nat
  | .seq a b => max a.groupCount b.groupCount
  | .alt a b => max a.groupCount b.groupCount
  | .star a => a.groupCount
  | .cap n a => max n a.groupCount
  | _ => 0

/-- The decision chain without its branch `f.Episode != "" && f.Season != ""`. -/
def classifyWithoutBoth (f : ParsedFile) (opts : Options) (filePath : List Char) : Decision :=
  if opts.ForceMovie then .done { f with IsMovie := true, Episode := [], Season := [] }
  else if opts.ForceSeries then .done { f with IsSeries := true }
  else if f.Season ≠ [] then .done { f with IsSeries := true }
  else if f.Year ≠ [] ∧ f.Episode = [] then .done { f with IsMovie := true }
  else if f.Year ≠ [] ∧ f.Episode ≠ [] then
    .done { f with IsMovie := true, Episode := [], Season := [] }
  else
    let fileParent := Base (Dir filePath)
    if fileParent ≠ [] ∧ opts.OriginalFile = [] ∧ fileParent ≠ ['.'] then
      .retry (fileParent ++ f.Extension) { opts with OriginalFile := filePath }
    else .done f

/-- The statement `if addYearToSeries[f.CleanName] && f.Year != ""` of
NewParsedFile: the year is appended to the name of a series of the table. -/
def addYear (f : ParsedFile) : ParsedFile :=
  if addYearToSeries f.CleanName ∧ f.Year ≠ [] then
    { f with CleanName := f.CleanName ++ " (".toList ++ f.Year ++ ")".toList }
  else f

/-- Go `episodeNum++` on an `int`: the successor, wrapping around at the
largest value. -/
def intSucc (n : Int) : Int :=
  if n = (intLimit : Int) - 1 then -(intLimit : Int) else n + 1

/-- The loop `for episodeNum := episodeInfo.Start; episodeNum <=
episodeInfo.End; episodeNum++` of `queryTmdb`, iteration by iteration:
`lookup` is the call `agent.GetTvEpisodeInfo` as a function of the episode
number, `last` is `episodeInfo.End`, `titles` is `episodeTitles`; the first
argument bounds the number of tests of the loop condition, and `none` means
that the bound was reached. -/
def episodeLoop (lookup : Int → Option (List Char)) (last : Int) :
    Nat → Int → List (List Char) → Option (List (List Char))
  | 0, _, _ => none
  | fuel + 1, episodeNum, titles =>
    if episodeNum ≤ last then
      match lookup episodeNum with
      | none => episodeLoop lookup last fuel (intSucc episodeNum) titles
      | some name =>
        if 0 < name.length then episodeLoop lookup last fuel (intSucc episodeNum) (titles ++ [name])
        else episodeLoop lookup last fuel (intSucc episodeNum) titles
    else some titles

/-- The titles kept from the lookups of the episode numbers `nums`, in the
order of `nums`: a failed lookup and an empty title give nothing. -/
def keptTitles (lookup : Int → Option (List Char)) (nums : List Int) : List (List Char) :=
  nums.filterMap (fun n => (lookup n).filter (fun name => !name.isEmpty))

/-- An environment whose catalog knows one series, with identifier 7, and
gives every episode of every season the title "Pilot". -/
def pilotEnv : Env :=
  { offlineEnv with
    SearchTv := fun _ _ => some [⟨7, "Show".toList, []⟩]
    GetTvEpisodeInfo := fun _ _ _ _ => some "Pilot".toList }

/-- A series with season "01" and the episode range "05-E06". -/
def pilotFile : ParsedFile where
  IsSeries := true
  CleanName := "Show".toList
  Season := "01".toList
  Episode := "05-E06".toList

/-- The part `[EX]?([0-9]{2})` of the episode matcher. -/
def episodeTail2 : Re := seqs [opt classEX, .cap 2 (seqs [digit, digit])]

/-- The part `-?[EX]?([0-9]{2})` of the episode matcher. -/
def episodeTail : Re := seqs [opt (chr '-'), opt classEX, .cap 2 (seqs [digit, digit])]

/-- The episode matcher, with its optional tail named. -/
def episodeMatcher : Regexp :=
  ⟨seqs [classEX, .cap 1 (seqs [digit, digit]), opt episodeTail], 2⟩

/-- The options with the dry-run flag set to `b`. -/
def Options.withDryRun (o : Options) (b : Bool) : Options :=
  { o with DryRun := b }

/-- The record with the dry-run flag of its options set to `b`; every other
field is kept. -/
def ParsedFile.withDryRun (f : ParsedFile) (b : Bool) : ParsedFile :=
  { f with Options := f.Options.withDryRun b }

/-- The outcome of the decision chain with the dry-run flag set to `b`. -/
def Decision.withDryRun (d : Decision) (b : Bool) : Decision :=
  match d with
  | .done f => .done (f.withDryRun b)
  | .retry path opts => .retry path (opts.withDryRun b)

/-- The text before the first two adjacent whitespace characters (the whole
text if there are none). -/
def cutAtSpaces : List Char → List Char
  | a :: b :: t => if isReSpace a && isReSpace b then [] else a :: cutAtSpaces (b :: t)
  | s => s

/-! ### Continuations of the episode string pattern -/

/-- The final continuation of a match attempt. -/
def K0 : Cont := fun j _ c => some (j, c)

/-- The continuation `$` of the episode string pattern. -/
def eotK : Cont := fun j s c => Re.eot.run j s c K0

/-- The continuation `(\d+)$` of the episode string pattern. -/
def g2 : Cont := fun j s c => (Re.cap 2 (plus digit)).run j s c eotK

/-- The continuation `(?:(?:-E?|E)(\d+))?$` of the episode string pattern. -/
def K2 : Cont := fun j s c =>
  orElse
    (orElse
      ((chr '-').run j s c (fun j s c => orElse ((chr 'E').run j s c g2) (g2 j s c)))
      ((chr 'E').run j s c g2))
    (eotK j s c)


/-- The part of the match after the optional leading `E`. -/
def epCore (j0 : Nat) (u : List Char) (c : Caps) : Option MatchEnd :=
  if u.takeWhile isDigit = [] then none
  else K2 (j0 + (u.takeWhile isDigit).length) (u.dropWhile isDigit)
    (c.set 1 (u.takeWhile isDigit))


/-! ## Lemmas on the matcher -/

theorem orElse_none_right (a : Option MatchEnd) : orElse a none = a := by
  cases a <;> rfl

theorem orElse_none_left (a : Option MatchEnd) : orElse none a = a := rfl

theorem isDigit_ne_dash {d : Char} (h : isDigit d = true) : d ≠ '-' := by
  rintro rfl; revert h; decide

theorem isDigit_ne_E {d : Char} (h : isDigit d = true) : d ≠ 'E' := by
  rintro rfl; revert h; decide

theorem take_length_takeWhile (p : Char → Bool) (l : List Char) :
    l.take (l.takeWhile p).length = l.takeWhile p := by
  induction l with
  | nil => rfl
  | cons x t ih =>
    by_cases hx : p x = true
    · simp [List.takeWhile_cons, hx, ih]
    · simp [List.takeWhile_cons, hx]

theorem digit_run_nil (i : Nat) (c : Caps) (k : Cont) : digit.run i [] c k = none := rfl

theorem digit_run_cons (i : Nat) (x : Char) (t : List Char) (c : Caps) (k : Cont) :
    digit.run i (x :: t) c k = if isDigit x = true then k (i + 1) t c else none := rfl

/-- A greedy loop over digits whose continuation rejects a leading digit
takes the whole run of digits. -/
theorem starLoop_digit (k : Cont)
    (hk : ∀ j d t c, isDigit d = true → k j (d :: t) c = none) :
    ∀ (fuel i : Nat) (s : List Char) (c : Caps), s.length ≤ fuel →
      starLoop digit.run fuel i s c k
        = k (i + (s.takeWhile isDigit).length) (s.dropWhile isDigit) c := by
  intro fuel
  induction fuel with
  | zero =>
    intro i s c hs
    have : s = [] := List.length_eq_zero.mp (Nat.le_zero.mp hs)
    subst this
    simp [starLoop]
  | succ n ih =>
    intro i s c hs
    cases s with
    | nil => rw [starLoop, digit_run_nil]; rfl
    | cons x t =>
      rw [starLoop, digit_run_cons]
      by_cases hx : isDigit x = true
      · have ht : t.length ≤ n := by simpa using hs
        rw [if_pos hx, if_pos (Nat.lt_succ_self i), hk i x t c hx, orElse_none_right,
          ih (i + 1) t c ht]
        simp only [List.takeWhile_cons, List.dropWhile_cons, hx, if_true, List.length_cons]
        congr 1
        omega
      · rw [if_neg hx]
        simp [orElse, List.takeWhile_cons, List.dropWhile_cons, hx]

/-- A capture group `(\d+)` whose continuation rejects a leading digit. -/
theorem run_cap_digits (n : Nat) (k : Cont)
    (hk : ∀ j d t c, isDigit d = true → k j (d :: t) c = none)
    (i : Nat) (s : List Char) (c : Caps) :
    (Re.cap n (plus digit)).run i s c k
      = if s.takeWhile isDigit = [] then none
        else k (i + (s.takeWhile isDigit).length) (s.dropWhile isDigit)
          (c.set n (s.takeWhile isDigit)) := by
  have hrun : (Re.cap n (plus digit)).run i s c k
      = digit.run i s c (fun j s1 c1 => starLoop digit.run s1.length j s1 c1
          (fun j s1 c1 => k j s1 (c1.set n (s.take (j - i))))) := rfl
  rw [hrun]
  cases s with
  | nil => simp [digit_run_nil]
  | cons x t =>
    rw [digit_run_cons]
    by_cases hx : isDigit x = true
    · rw [if_pos hx, starLoop_digit (fun j s1 c1 => k j s1 (c1.set n ((x :: t).take (j - i))))
        (fun j d t1 c1 hd => hk j d t1 _ hd) t.length (i + 1) t c (le_refl _)]
      have e1 : i + 1 + (List.takeWhile isDigit t).length - i
          = (List.takeWhile isDigit t).length + 1 := by omega
      rw [e1]
      simp only [List.takeWhile_cons, List.dropWhile_cons, hx, if_true, List.length_cons,
        List.take_succ_cons]
      rw [take_length_takeWhile]
      simp
      congr 1
      omega
    · rw [if_neg hx]
      simp [List.takeWhile_cons, hx]



/-! ### An invariant of the capture slots -/

theorem orElse_some {a b : Option MatchEnd} {r : MatchEnd} (h : orElse a b = some r) :
    a = some r ∨ b = some r := by
  cases a with
  | none => exact Or.inr h
  | some x => exact Or.inl h

theorem starLoop_caps_inv (P : Caps → Prop)
    (step : Nat → List Char → Caps → Cont → Option MatchEnd)
    (hstep : ∀ i s c k r, P c → (∀ j s1 c1 r1, P c1 → k j s1 c1 = some r1 → P r1.2) →
      step i s c k = some r → P r.2) :
    ∀ (fuel i : Nat) (s : List Char) (c : Caps) (k : Cont) (r : MatchEnd), P c →
      (∀ j s1 c1 r1, P c1 → k j s1 c1 = some r1 → P r1.2) →
      starLoop step fuel i s c k = some r → P r.2 := by
  intro fuel
  induction fuel with
  | zero => intro i s c k r hc hk h; exact hk i s c r hc h
  | succ n ih =>
    intro i s c k r hc hk h
    rw [starLoop] at h
    rcases orElse_some h with h1 | h1
    · refine hstep i s c _ r hc ?_ h1
      intro j s1 c1 r1 hc1 hr1
      by_cases hij : i < j
      · rw [if_pos hij] at hr1
        exact ih j s1 c1 k r1 hc1 hk hr1
      · rw [if_neg hij] at hr1
        cases hr1
    · exact hk i s c r hc h1

/-- A property of the capture slots that `List.set` preserves holds of the
slots of every match. -/
theorem run_caps_inv (P : Caps → Prop) (hset : ∀ c n v, P c → P (c.set n v)) :
    ∀ (re : Re) (i : Nat) (s : List Char) (c : Caps) (k : Cont) (r : MatchEnd), P c →
      (∀ j s1 c1 r1, P c1 → k j s1 c1 = some r1 → P r1.2) →
      re.run i s c k = some r → P r.2 := by
  intro re
  induction re with
  | eps => intro i s c k r hc hk h; exact hk i s c r hc h
  | cls p =>
    intro i s c k r hc hk h
    cases s with
    | nil => cases h
    | cons x t =>
      simp only [Re.run] at h
      by_cases hp : p x = true
      · rw [if_pos hp] at h; exact hk _ _ _ r hc h
      · rw [if_neg hp] at h; cases h
  | seq a b iha ihb =>
    intro i s c k r hc hk h
    simp only [Re.run] at h
    exact iha i s c _ r hc (fun j s1 c1 r1 hc1 hr1 => ihb j s1 c1 k r1 hc1 hk hr1) h
  | alt a b iha ihb =>
    intro i s c k r hc hk h
    simp only [Re.run] at h
    rcases orElse_some h with h1 | h1
    · exact iha i s c k r hc hk h1
    · exact ihb i s c k r hc hk h1
  | star a iha =>
    intro i s c k r hc hk h
    simp only [Re.run] at h
    exact starLoop_caps_inv P a.run iha s.length i s c k r hc hk h
  | cap n a iha =>
    intro i s c k r hc hk h
    simp only [Re.run] at h
    exact iha i s c _ r hc (fun j s1 c1 r1 hc1 hr1 => hk j s1 _ r1 (hset c1 n _ hc1) hr1) h
  | bot =>
    intro i s c k r hc hk h
    simp only [Re.run] at h
    by_cases hi : i = 0
    · rw [if_pos hi] at h; exact hk _ _ _ r hc h
    · rw [if_neg hi] at h; cases h
  | eot =>
    intro i s c k r hc hk h
    cases s with
    | nil => exact hk _ _ _ r hc h
    | cons x t => cases h

theorem matchAt_length (r : Regexp) (i : Nat) (s : List Char) (m : MatchEnd)
    (h : r.matchAt i s = some m) : m.2.length = r.ngroups + 1 := by
  unfold Regexp.matchAt at h
  cases hrun : r.re.run i s (List.replicate (r.ngroups + 1) []) (fun j _ c => some (j, c)) with
  | none => rw [hrun] at h; cases h
  | some m1 =>
    have hinv := run_caps_inv (fun c => c.length = r.ngroups + 1)
      (fun c n v hc => by simpa using hc) r.re i s _ _ m1 (by simp)
      (fun j s1 c1 r1 hc1 hr1 => by cases hr1; exact hc1) hrun
    rw [hrun] at h
    obtain ⟨j, c⟩ := m1
    simp only [Option.some.injEq] at h
    rw [← h]
    simpa using hinv

theorem findFrom_length (r : Regexp) (s : List Char) :
    ∀ (i : Nat) (m : Nat × Nat × Caps), r.findFrom i s = some m →
      m.2.2.length = r.ngroups + 1 := by
  induction s with
  | nil =>
    intro i m h
    simp only [Regexp.findFrom] at h
    cases hm : r.matchAt i [] with
    | none => rw [hm] at h; cases h
    | some m1 =>
      rw [hm] at h
      obtain ⟨j, c⟩ := m1
      simp only [Option.some.injEq] at h
      rw [← h]
      exact matchAt_length r i [] _ hm
  | cons x t ih =>
    intro i m h
    simp only [Regexp.findFrom] at h
    cases hm : r.matchAt i (x :: t) with
    | none => rw [hm] at h; exact ih (i + 1) m h
    | some m1 =>
      rw [hm] at h
      obtain ⟨j, c⟩ := m1
      simp only [Option.some.injEq] at h
      rw [← h]
      exact matchAt_length r i (x :: t) _ hm

/-- The list `FindStringSubmatch` returns has one entry for the whole match
and one for each capture group. -/
theorem FindStringSubmatch_length (r : Regexp) (s : List Char) (res : Caps)
    (h : r.FindStringSubmatch s = some res) : res.length = r.ngroups + 1 := by
  unfold Regexp.FindStringSubmatch at h
  cases hf : r.findFrom 0 s with
  | none => rw [hf] at h; cases h
  | some m =>
    rw [hf] at h
    obtain ⟨a, b, c⟩ := m
    simp only [Option.some.injEq] at h
    rw [← h]
    exact findFrom_length r s 0 _ hf

/-! ### The episode string pattern -/

theorem chr_run_cons (a : Char) (i : Nat) (x : Char) (t : List Char) (c : Caps) (k : Cont) :
    (chr a).run i (x :: t) c k = if x = a then k (i + 1) t c else none := by
  simp [chr, Re.run]

theorem chr_run_nil (a : Char) (i : Nat) (c : Caps) (k : Cont) :
    (chr a).run i [] c k = none := rfl

theorem eotK_cons (j : Nat) (x : Char) (t : List Char) (c : Caps) : eotK j (x :: t) c = none := rfl

theorem eotK_nil (j : Nat) (c : Caps) : eotK j [] c = some (j, c) := rfl

theorem g2_eq (j : Nat) (s : List Char) (c : Caps) :
    g2 j s c = if s.takeWhile isDigit = [] then none
      else eotK (j + (s.takeWhile isDigit).length) (s.dropWhile isDigit)
        (c.set 2 (s.takeWhile isDigit)) :=
  run_cap_digits 2 eotK (fun _ _ _ _ _ => rfl) j s c

theorem g2_nil (j : Nat) (c : Caps) : g2 j [] c = none := by
  simp [g2_eq]

theorem g2_nondigit (j : Nat) (x : Char) (t : List Char) (c : Caps) (hx : isDigit x ≠ true) :
    g2 j (x :: t) c = none := by
  simp [g2_eq, List.takeWhile_cons, hx]

theorem K2_digit (j : Nat) (d : Char) (t : List Char) (c : Caps) (hd : isDigit d = true) :
    K2 j (d :: t) c = none := by
  simp [K2, chr_run_cons, isDigit_ne_dash hd, isDigit_ne_E hd, eotK_cons, orElse]

theorem K2_nil (j : Nat) (c : Caps) : K2 j [] c = some (j, c) := rfl

theorem episodeStringPattern_run (s : List Char) (c : Caps) :
    episodeStringPattern.re.run 0 s c K0
      = orElse ((chr 'E').run 0 s c (fun j s1 c1 => (Re.cap 1 (plus digit)).run j s1 c1 K2))
          ((Re.cap 1 (plus digit)).run 0 s c K2) := rfl

theorem isDigit_E : isDigit 'E' ≠ true := by decide

theorem isDigit_dash : isDigit '-' ≠ true := by decide

/-- The match of the episode string pattern at position 0: after an
optional `E`, the digit run and the continuation `K2`. -/
theorem episodeStringPattern_run_eq (s : List Char) (c : Caps) :
    episodeStringPattern.re.run 0 s c K0
      = match s with
        | [] => none
        | x :: t =>
          if x = 'E' then
            (if t.takeWhile isDigit = [] then none
             else K2 (1 + (t.takeWhile isDigit).length) (t.dropWhile isDigit)
               (c.set 1 (t.takeWhile isDigit)))
          else
            (if (x :: t).takeWhile isDigit = [] then none
             else K2 ((x :: t).takeWhile isDigit).length ((x :: t).dropWhile isDigit)
               (c.set 1 ((x :: t).takeWhile isDigit))) := by
  rw [episodeStringPattern_run]
  cases s with
  | nil => simp [chr_run_nil, run_cap_digits 1 K2 K2_digit, orElse]
  | cons x t =>
    rw [chr_run_cons]
    simp only [run_cap_digits 1 K2 K2_digit]
    by_cases hx : x = 'E'
    · subst hx
      simp [List.takeWhile_cons, isDigit_E, orElse_none_right]
    · simp [hx, orElse]

/-- No match of the episode string pattern starts after position 0. -/
theorem episodeStringPattern_findFrom_pos (s : List Char) :
    ∀ i, 0 < i → episodeStringPattern.findFrom i s = none := by
  induction s with
  | nil =>
    intro i hi
    have h : episodeStringPattern.matchAt i [] = none := by
      simp [Regexp.matchAt, episodeStringPattern, seqs, Re.run, Nat.pos_iff_ne_zero.mp hi]
    simp [Regexp.findFrom, h]
  | cons x t ih =>
    intro i hi
    have h : episodeStringPattern.matchAt i (x :: t) = none := by
      simp [Regexp.matchAt, episodeStringPattern, seqs, Re.run, Nat.pos_iff_ne_zero.mp hi]
    simp [Regexp.findFrom, h, ih (i + 1) (Nat.succ_pos i)]

/-- `FindStringSubmatch` of the anchored episode string pattern is the match
attempt at position 0. -/
theorem episodeStringPattern_find (s : List Char) :
    episodeStringPattern.FindStringSubmatch s
      = match episodeStringPattern.re.run 0 s [[], [], []] K0 with
        | some (j, c) => some (c.set 0 (s.take j))
        | none => none := by
  have hm : episodeStringPattern.matchAt 0 s
      = match episodeStringPattern.re.run 0 s [[], [], []] K0 with
        | some (j, c) => some (j, c.set 0 (s.take j))
        | none => none := rfl
  cases s with
  | nil =>
    simp only [Regexp.FindStringSubmatch, Regexp.findFrom, hm]
    cases episodeStringPattern.re.run 0 [] [[], [], []] K0 <;> rfl
  | cons x t =>
    simp only [Regexp.FindStringSubmatch, Regexp.findFrom, hm,
      episodeStringPattern_findFrom_pos t 1 Nat.one_pos]
    cases episodeStringPattern.re.run 0 (x :: t) [[], [], []] K0 <;> rfl

theorem K2_dash_E (j : Nat) (t : List Char) (c : Caps) :
    K2 j ('-' :: 'E' :: t) c = g2 (j + 2) t c := by
  simp [K2, chr_run_cons, eotK_cons, orElse_none_right, g2_nondigit _ _ _ _ isDigit_E]

theorem K2_dash_cons (j : Nat) (y : Char) (t : List Char) (c : Caps) (hy : y ≠ 'E') :
    K2 j ('-' :: y :: t) c = g2 (j + 1) (y :: t) c := by
  simp [K2, chr_run_cons, eotK_cons, orElse_none_right, hy, orElse_none_left]

theorem K2_dash_nil (j : Nat) (c : Caps) : K2 j ['-'] c = none := by
  simp [K2, chr_run_cons, chr_run_nil, eotK_cons, orElse_none_right, g2_nil]

theorem K2_E (j : Nat) (t : List Char) (c : Caps) : K2 j ('E' :: t) c = g2 (j + 1) t c := by
  simp [K2, chr_run_cons, eotK_cons, orElse_none_right, orElse_none_left]

theorem K2_other (j : Nat) (x : Char) (t : List Char) (c : Caps) (h1 : x ≠ '-') (h2 : x ≠ 'E') :
    K2 j (x :: t) c = none := by
  simp [K2, chr_run_cons, eotK_cons, h1, h2, orElse]

theorem takeWhile_digitRun_append (d rest : List Char) (hd : ∀ c ∈ d, isDigit c = true)
    (hr : ∀ x t, rest = x :: t → isDigit x ≠ true) :
    (d ++ rest).takeWhile isDigit = d ∧ (d ++ rest).dropWhile isDigit = rest := by
  induction d with
  | nil =>
    cases rest with
    | nil => simp
    | cons x t => simp [List.takeWhile_cons, List.dropWhile_cons, hr x t rfl]
  | cons a d ih =>
    have ha : isDigit a = true := hd a (List.mem_cons_self _ _)
    have ih2 := ih (fun c hc => hd c (List.mem_cons_of_mem _ hc))
    simp [List.takeWhile_cons, List.dropWhile_cons, ha, ih2.1, ih2.2]

theorem takeWhile_digitRun (d : List Char) (hd : ∀ c ∈ d, isDigit c = true) :
    d.takeWhile isDigit = d ∧ d.dropWhile isDigit = [] := by
  have := takeWhile_digitRun_append d [] hd (fun _ _ h => by cases h)
  simpa using this

theorem g2_digitRun (j : Nat) (d : List Char) (c : Caps) (hd : IsDigitRun d) :
    g2 j d c = some (j + d.length, c.set 2 d) := by
  rw [g2_eq, (takeWhile_digitRun d hd.2).1, (takeWhile_digitRun d hd.2).2, if_neg hd.1, eotK_nil]

theorem g2_some (j : Nat) (s : List Char) (c : Caps) (r : MatchEnd) (h : g2 j s c = some r) :
    IsDigitRun s := by
  rw [g2_eq] at h
  by_cases h1 : s.takeWhile isDigit = []
  · simp [h1] at h
  · rw [if_neg h1] at h
    cases h2 : s.dropWhile isDigit with
    | nil =>
      have hs : s.takeWhile isDigit = s := by
        have := List.takeWhile_append_dropWhile isDigit s
        rw [h2] at this
        simpa using this
      refine ⟨by rw [← hs]; exact h1, ?_⟩
      intro x hx
      rw [← hs] at hx
      exact (List.mem_takeWhile_imp hx)
    | cons x t => rw [h2, eotK_cons] at h; cases h

theorem episodeStringPattern_run_core (s : List Char) (c : Caps) :
    episodeStringPattern.re.run 0 s c K0
      = match s with
        | [] => none
        | x :: t => if x = 'E' then epCore 1 t c else epCore 0 (x :: t) c := by
  rw [episodeStringPattern_run_eq]
  cases s with
  | nil => rfl
  | cons x t =>
    by_cases hx : x = 'E'
    · simp [hx, epCore]
    · simp [hx, epCore]

theorem epCore_single (j0 : Nat) (d1 : List Char) (c : Caps) (h1 : IsDigitRun d1) :
    epCore j0 d1 c = some (j0 + d1.length, c.set 1 d1) := by
  rw [epCore, (takeWhile_digitRun d1 h1.2).1, (takeWhile_digitRun d1 h1.2).2, if_neg h1.1, K2_nil]

theorem epCore_range (j0 : Nat) (d1 sep d2 : List Char) (c : Caps) (h1 : IsDigitRun d1)
    (h2 : IsDigitRun d2) (hsep : sep = ['-'] ∨ sep = ['-', 'E'] ∨ sep = ['E']) :
    epCore j0 (d1 ++ sep ++ d2) c
      = some (j0 + (d1 ++ sep ++ d2).length, (c.set 1 d1).set 2 d2) := by
  obtain ⟨y, t2, hd2⟩ : ∃ y t2, d2 = y :: t2 := by
    cases d2 with
    | nil => exact absurd rfl h2.1
    | cons y t2 => exact ⟨y, t2, rfl⟩
  have hy : isDigit y = true := h2.2 y (by rw [hd2]; exact List.mem_cons_self _ _)
  have hsplit : ((d1 ++ sep ++ d2).takeWhile isDigit = d1)
      ∧ ((d1 ++ sep ++ d2).dropWhile isDigit = sep ++ d2) := by
    rw [List.append_assoc]
    apply takeWhile_digitRun_append d1 (sep ++ d2) h1.2
    intro x t hx
    rcases hsep with h | h | h <;> subst h <;> simp at hx <;> rw [← hx.1]
    · exact isDigit_dash
    · exact isDigit_dash
    · exact isDigit_E
  rw [epCore, hsplit.1, hsplit.2, if_neg h1.1]
  rcases hsep with h | h | h <;> subst h
  · rw [hd2]
    show K2 _ ('-' :: y :: t2) _ = _
    rw [K2_dash_cons _ _ _ _ (isDigit_ne_E hy), ← hd2, g2_digitRun _ _ _ h2]
    simp only [List.length_append, List.length_cons, List.length_nil]
    congr 2
    omega
  · show K2 _ ('-' :: 'E' :: d2) _ = _
    rw [K2_dash_E, g2_digitRun _ _ _ h2]
    simp only [List.length_append, List.length_cons, List.length_nil]
    congr 2
    omega
  · show K2 _ ('E' :: d2) _ = _
    rw [K2_E, g2_digitRun _ _ _ h2]
    simp only [List.length_append, List.length_cons, List.length_nil]
    congr 2
    omega

/-- Every token of the grammar is matched, with the two digit runs as
submatches 1 and 2. -/
theorem episodeStringPattern_of_token (s d1 : List Char) (d2 : Option (List Char))
    (h : IsEpisodeToken s d1 d2) :
    episodeStringPattern.FindStringSubmatch s = some [s, d1, d2.getD []] := by
  obtain ⟨pre, hpre, h1, hrest⟩ := h
  obtain ⟨x, t1, hd1⟩ : ∃ x t1, d1 = x :: t1 := by
    cases d1 with
    | nil => exact absurd rfl h1.1
    | cons x t1 => exact ⟨x, t1, rfl⟩
  have hx : isDigit x = true := h1.2 x (by rw [hd1]; exact List.mem_cons_self _ _)
  have hxE : x ≠ 'E' := isDigit_ne_E hx
  rw [episodeStringPattern_find, episodeStringPattern_run_core]
  cases d2 with
  | none =>
    simp only at hrest
    rcases hpre with hp | hp <;> subst hp
    · have hs : s = x :: t1 := by rw [hrest, hd1]; rfl
      simp only [hs, if_neg hxE]
      rw [← hd1, epCore_single 0 d1 _ h1]
      simp
    · have hs : s = 'E' :: d1 := by rw [hrest]; rfl
      simp only [hs, if_true]
      rw [epCore_single 1 d1 _ h1]
      simp [Nat.add_comm]
  | some e =>
    obtain ⟨h2, sep, hsep, hs⟩ := hrest
    rcases hpre with hp | hp <;> subst hp
    · have hs2 : s = x :: (t1 ++ sep ++ e) := by rw [hs, hd1]; rfl
      have hs3 : x :: (t1 ++ sep ++ e) = d1 ++ sep ++ e := by rw [hd1]; rfl
      simp only [hs2, if_neg hxE]
      rw [hs3, epCore_range 0 d1 sep e _ h1 h2 hsep]
      simp
    · have hs2 : s = 'E' :: (d1 ++ sep ++ e) := by rw [hs]; rfl
      simp only [hs2, if_true]
      rw [epCore_range 1 d1 sep e _ h1 h2 hsep]
      simp [Nat.add_comm]

theorem epCore_some (j0 : Nat) (u : List Char) (c : Caps) (r : MatchEnd)
    (h : epCore j0 u c = some r) :
    ∃ d1 d2, IsDigitRun d1 ∧
      match d2 with
      | none => u = d1
      | some e => IsDigitRun e ∧
          ∃ sep, (sep = ['-'] ∨ sep = ['-', 'E'] ∨ sep = ['E']) ∧ u = d1 ++ sep ++ e := by
  unfold epCore at h
  by_cases h1 : u.takeWhile isDigit = []
  · simp [h1] at h
  · rw [if_neg h1] at h
    have hrun : IsDigitRun (u.takeWhile isDigit) :=
      ⟨h1, fun x hx => List.mem_takeWhile_imp hx⟩
    have hu : u.takeWhile isDigit ++ u.dropWhile isDigit = u :=
      List.takeWhile_append_dropWhile isDigit u
    refine ⟨u.takeWhile isDigit, ?_⟩
    cases hdw : u.dropWhile isDigit with
    | nil =>
      refine ⟨none, hrun, ?_⟩
      rw [hdw] at hu
      simpa using hu.symm
    | cons x t =>
      rw [hdw] at h hu
      by_cases hx1 : x = '-'
      · subst hx1
        cases t with
        | nil => rw [K2_dash_nil] at h; cases h
        | cons y t2 =>
          by_cases hy : y = 'E'
          · subst hy
            rw [K2_dash_E] at h
            exact ⟨some t2, hrun, g2_some _ _ _ _ h, ['-', 'E'], Or.inr (Or.inl rfl),
              hu.symm.trans (by simp)⟩
          · rw [K2_dash_cons _ _ _ _ hy] at h
            exact ⟨some (y :: t2), hrun, g2_some _ _ _ _ h, ['-'], Or.inl rfl,
              hu.symm.trans (by simp)⟩
      · by_cases hx2 : x = 'E'
        · subst hx2
          rw [K2_E] at h
          exact ⟨some t, hrun, g2_some _ _ _ _ h, ['E'], Or.inr (Or.inr rfl),
            hu.symm.trans (by simp)⟩
        · rw [K2_other _ _ _ _ hx1 hx2] at h
          cases h

/-- Every text the pattern matches is a token of the grammar. -/
theorem episodeStringPattern_token_of_match (s : List Char) (ms : Caps)
    (h : episodeStringPattern.FindStringSubmatch s = some ms) :
    ∃ d1 d2, IsEpisodeToken s d1 d2 := by
  rw [episodeStringPattern_find, episodeStringPattern_run_core] at h
  cases s with
  | nil => simp at h
  | cons x t =>
    by_cases hx : x = 'E'
    · subst hx
      simp only [if_true] at h
      cases hc : epCore 1 t [[], [], []] with
      | none => rw [hc] at h; simp at h
      | some r =>
        obtain ⟨d1, d2, hd1, hrest⟩ := epCore_some _ _ _ _ hc
        refine ⟨d1, d2, ['E'], Or.inr rfl, hd1, ?_⟩
        cases d2 with
        | none => simp only at hrest ⊢; rw [hrest]; rfl
        | some e =>
          obtain ⟨he, sep, hsep, hu⟩ := hrest
          exact ⟨he, sep, hsep, by rw [hu]; simp⟩
    · simp only [if_neg hx] at h
      cases hc : epCore 0 (x :: t) [[], [], []] with
      | none => rw [hc] at h; simp at h
      | some r =>
        obtain ⟨d1, d2, hd1, hrest⟩ := epCore_some _ _ _ _ hc
        refine ⟨d1, d2, [], Or.inl rfl, hd1, ?_⟩
        cases d2 with
        | none => simp only at hrest ⊢; rw [hrest]; rfl
        | some e =>
          obtain ⟨he, sep, hsep, hu⟩ := hrest
          exact ⟨he, sep, hsep, by rw [hu]; simp⟩

/-- The value `digitsValue` computes on a run of digits. -/
theorem digitsValue_digitRun (d : List Char) (hd : ∀ c ∈ d, isDigit c = true) :
    ∀ acc, digitsValue d acc = some (d.foldl (fun a c => a * 10 + (c.toNat - 48)) acc) := by
  induction d with
  | nil => intro acc; rfl
  | cons x t ih =>
    intro acc
    have hx : isDigit x = true := hd x (List.mem_cons_self _ _)
    simp only [digitsValue, hx, if_true, List.foldl_cons]
    exact ih (fun c hc => hd c (List.mem_cons_of_mem _ hc)) _

theorem isDigit_ne_plus {d : Char} (h : isDigit d = true) : d ≠ '+' := by
  rintro rfl; revert h; decide

/-- `strconv.Atoi` on a run of digits: its value, if it fits an `int`. -/
theorem Atoi_digitRun (d : List Char) (hd : IsDigitRun d) :
    Atoi d = if decimalValue d < intLimit then some (decimalValue d : Int) else none := by
  obtain ⟨x, t, hxt⟩ : ∃ x t, d = x :: t := by
    cases d with
    | nil => exact absurd rfl hd.1
    | cons x t => exact ⟨x, t, rfl⟩
  have hx : isDigit x = true := hd.2 x (by rw [hxt]; exact List.mem_cons_self _ _)
  have hv := digitsValue_digitRun d hd.2 0
  subst hxt
  simp only [Atoi, beq_iff_eq, isDigit_ne_dash hx, isDigit_ne_plus hx, if_false, hv]
  rfl

theorem token_ne_nil {s d1 : List Char} {d2 : Option (List Char)}
    (h : IsEpisodeToken s d1 d2) : s ≠ [] := by
  obtain ⟨pre, _, h1, hrest⟩ := h
  intro hs
  subst hs
  cases d2 with
  | none =>
    simp only at hrest
    have := congrArg List.length hrest
    simp at this
    exact h1.1 (List.length_eq_zero.mp (by omega))
  | some e =>
    obtain ⟨_, sep, _, hs⟩ := hrest
    have := congrArg List.length hs
    simp at this
    exact h1.1 (List.length_eq_zero.mp (by omega))

theorem TrimSpace_nil : TrimSpace [] = [] := rfl

/-- What ParseEpisodeString returns on a token of the grammar. -/
theorem ParseEpisodeString_of_token (tok d1 : List Char) (d2 : Option (List Char))
    (h : IsEpisodeToken (TrimSpace tok) d1 d2) :
    ParseEpisodeString tok =
      if ¬ decimalValue d1 < intLimit then .error .badStart
      else match d2 with
        | none => .ok ⟨decimalValue d1, decimalValue d1, false⟩
        | some e =>
          if ¬ decimalValue e < intLimit then .error .badEnd
          else if decimalValue e < decimalValue d1 then .error .startGreaterThanEnd
          else .ok ⟨decimalValue d1, decimalValue e, true⟩ := by
  have htok : tok ≠ [] := by
    intro ht
    subst ht
    exact token_ne_nil h rfl
  have hfind := episodeStringPattern_of_token _ _ _ h
  obtain ⟨pre, _, h1, hrest⟩ := h
  unfold ParseEpisodeString
  simp only [htok, if_false, hfind]
  simp only [List.getElem?_cons_succ, List.getElem?_cons_zero, Atoi_digitRun d1 h1]
  by_cases hv1 : decimalValue d1 < intLimit
  · simp only [hv1, if_true, not_true_eq_false, if_false]
    cases d2 with
    | none => simp
    | some e =>
      obtain ⟨h2, _⟩ := hrest
      simp only [Option.getD_some, ne_eq, h2.1, not_false_eq_true, if_true, Atoi_digitRun e h2]
      by_cases hv2 : decimalValue e < intLimit
      · simp only [hv2, if_true, not_true_eq_false, if_false]
        by_cases hlt : decimalValue e < decimalValue d1
        · simp [hlt]
        · simp [hlt]
      · simp [hv2]
  · simp [hv1]

/-- What ParseEpisodeString returns on a non-empty text outside the grammar. -/
theorem ParseEpisodeString_not_token (tok : List Char) (htok : tok ≠ [])
    (h : ¬ ∃ d1 d2, IsEpisodeToken (TrimSpace tok) d1 d2) :
    ParseEpisodeString tok = .error .invalidFormat := by
  cases hf : episodeStringPattern.FindStringSubmatch (TrimSpace tok) with
  | none => simp [ParseEpisodeString, htok, hf]
  | some ms => exact absurd (episodeStringPattern_token_of_match _ _ hf) h

theorem digitChar_isDigit (d : Nat) : isDigit (digitChar d) = true := by
  unfold digitChar
  split <;> decide

theorem digitChar_value (d : Nat) (h : d < 10) : (digitChar d).toNat - 48 = d := by
  interval_cases d <;> rfl

theorem digitChar_eq_zero (d : Nat) (h : d < 10) (h0 : digitChar d = '0') : d = 0 := by
  interval_cases d <;> first | rfl | (revert h0; decide)

theorem decimalValue_snoc (ds : List Char) (c : Char) :
    decimalValue (ds ++ [c]) = decimalValue ds * 10 + (c.toNat - 48) := by
  simp [decimalValue, List.foldl_append]

/-- The digits `natDigitsAux` puts in front of its accumulator. -/
theorem natDigitsAux_spec :
    ∀ (fuel n : Nat) (acc : List Char), n < fuel →
      ∃ ds, natDigitsAux fuel n acc = ds ++ acc ∧ IsDigitRun ds ∧ decimalValue ds = n ∧
        (ds.head? = some '0' → ds = ['0']) := by
  intro fuel
  induction fuel with
  | zero => intro n acc h; omega
  | succ f ih =>
    intro n acc h
    by_cases hn : n < 10
    · refine ⟨[digitChar n], by simp [natDigitsAux, hn], ⟨by simp, ?_⟩, ?_, ?_⟩
      · intro c hc
        simp at hc
        rw [hc]
        exact digitChar_isDigit n
      · simp [decimalValue, digitChar_value n hn]
      · intro h0
        simp at h0
        rw [h0]
    · have hlt : n / 10 < f := by omega
      obtain ⟨ds, hds, hrun, hval, hhead⟩ := ih (n / 10) (digitChar (n % 10) :: acc) hlt
      refine ⟨ds ++ [digitChar (n % 10)], by simp [natDigitsAux, hn, hds], ⟨by simp, ?_⟩, ?_, ?_⟩
      · intro c hc
        rcases List.mem_append.mp hc with h1 | h1
        · exact hrun.2 c h1
        · simp at h1
          rw [h1]
          exact digitChar_isDigit _
      · rw [decimalValue_snoc, hval, digitChar_value _ (Nat.mod_lt _ (by decide))]
        omega
      · intro h0
        exfalso
        obtain ⟨x, t, hxt⟩ : ∃ x t, ds = x :: t := by
          cases ds with
          | nil => exact absurd rfl hrun.1
          | cons x t => exact ⟨x, t, rfl⟩
        have h1 : ds.head? = some '0' := by
          rw [hxt] at h0 ⊢
          simpa using h0
        have h2 := hhead h1
        rw [h2] at hval
        have : decimalValue ['0'] = 0 := rfl
        omega

/-- The rendering `natDigits n` is a run of digits denoting `n`, without a
leading zero unless it is `"0"`. -/
theorem natDigits_spec (n : Nat) :
    IsDigitRun (natDigits n) ∧ decimalValue (natDigits n) = n ∧
      ((natDigits n).head? = some '0' → natDigits n = ['0']) := by
  obtain ⟨ds, hds, h⟩ := natDigitsAux_spec (n + 1) n [] (Nat.lt_succ_self n)
  have : natDigits n = ds := by simpa [natDigits] using hds
  rw [this]
  exact h

theorem isDigit_not_isSpace {c : Char} (h : isDigit c = true) : isSpace c = false := by
  simp only [isDigit, Bool.and_eq_true, decide_eq_true_eq] at h
  have h1 : '0'.toNat = 48 := rfl
  have h2 : '9'.toNat = 57 := rfl
  rw [h1, h2] at h
  simp only [isSpace, Bool.or_eq_false_iff, Bool.and_eq_false_iff, decide_eq_false_iff_not,
    beq_eq_false_iff_ne, ne_eq]
  omega

/-- `strings.TrimSpace` leaves a text that starts and ends with a digit. -/
theorem TrimSpace_eq_self (s : List Char)
    (h1 : ∀ x t, s = x :: t → isDigit x = true)
    (h2 : ∀ x t, s.reverse = x :: t → isDigit x = true) : TrimSpace s = s := by
  have e1 : s.dropWhile isSpace = s := by
    cases s with
    | nil => rfl
    | cons x t => simp [List.dropWhile_cons, isDigit_not_isSpace (h1 x t rfl)]
  unfold TrimSpace trimRightBy
  rw [e1]
  cases hr : s.reverse with
  | nil => simp at hr; simp [hr]
  | cons x t =>
    simp only [List.dropWhile_cons, isDigit_not_isSpace (h2 x t hr)]
    rw [← hr]
    simp

theorem fmtD_natCast (a : Nat) : fmtD (a : Int) = natDigits a := by
  simp [fmtD]

theorem digitRun_head (d rest : List Char) (hd : IsDigitRun d) :
    ∀ x t, d ++ rest = x :: t → isDigit x = true := by
  intro x t h
  cases d with
  | nil => exact absurd rfl hd.1
  | cons y d1 =>
    simp at h
    rw [← h.1]
    exact hd.2 y (List.mem_cons_self _ _)

theorem digitRun_reverse (d : List Char) (hd : IsDigitRun d) : IsDigitRun d.reverse :=
  ⟨by simpa using hd.1, fun c hc => hd.2 c (List.mem_reverse.mp hc)⟩


/-! ### The passes of NewParsedFile -/

/-- ParseEpisodeString never fails on a slice access. -/
theorem ParseEpisodeString_no_index_error (tok : List Char) :
    ParseEpisodeString tok ≠ .error .indexOutOfRange := by
  by_cases htok : tok = []
  · subst htok; decide
  by_cases hg : ∃ d1 d2, IsEpisodeToken (TrimSpace tok) d1 d2
  · obtain ⟨d1, d2, h⟩ := hg
    rw [ParseEpisodeString_of_token tok d1 d2 h]
    split_ifs <;> try simp
    cases d2 with
    | none => simp
    | some e => simp only; split_ifs <;> simp
  · rw [ParseEpisodeString_not_token tok htok hg]
    simp

theorem SameFrame.refl (f : ParsedFile) : SameFrame f f :=
  ⟨rfl, rfl, rfl, rfl, rfl, rfl, rfl, rfl, rfl⟩

theorem SameFrame.trans {f g h : ParsedFile} (a : SameFrame f g) (b : SameFrame g h) :
    SameFrame f h := by
  obtain ⟨a1, a2, a3, a4, a5, a6, a7, a8, a9⟩ := a
  obtain ⟨b1, b2, b3, b4, b5, b6, b7, b8, b9⟩ := b
  exact ⟨b1.trans a1, b2.trans a2, b3.trans a3, b4.trans a4, b5.trans a5, b6.trans a6,
    b7.trans a7, b8.trans a8, b9.trans a9⟩

theorem applyMatch_frame (f g : ParsedFile) (name : String) (res : Caps)
    (h : applyMatch f name res = some g) : SameFrame f g := by
  unfold applyMatch at h
  repeat' split at h
  all_goals (cases h <;> exact ⟨rfl, rfl, rfl, rfl, rfl, rfl, rfl, rfl, rfl⟩)

theorem order_matcherFits : order.all matcherFits = true := by decide

theorem getElem?_of_lt (res : Caps) (n : Nat) (h : n < res.length) :
    ∃ r, res[n]? = some r := ⟨res[n], List.getElem?_eq_getElem h⟩

theorem applyMatch_isSome (f : ParsedFile) (name : String) (res : Caps)
    (h : neededLength name ≤ res.length) : ∃ g, applyMatch f name res = some g := by
  by_cases h1 : name = "yearAsSeason"
  · subst h1
    obtain ⟨r, hr⟩ := getElem?_of_lt res 2 (by simp [neededLength] at h; omega)
    simp only [applyMatch, if_true, hr]
    split_ifs <;> exact ⟨_, rfl⟩
  by_cases h2 : name = "year"
  · subst h2
    obtain ⟨r, hr⟩ := getElem?_of_lt res 2 (by simp [neededLength] at h; omega)
    simp [applyMatch, hr]
    split_ifs <;> exact ⟨_, rfl⟩
  by_cases h3 : name = "season"
  · subst h3
    obtain ⟨r, hr⟩ := getElem?_of_lt res 2 (by simp [neededLength] at h; omega)
    simp [applyMatch, hr]
    split_ifs <;> exact ⟨_, rfl⟩
  by_cases h4 : name = "episode"
  · subst h4
    obtain ⟨r0, hr0⟩ := getElem?_of_lt res 0 (by simp [neededLength] at h; omega)
    obtain ⟨r1, hr1⟩ := getElem?_of_lt res 1 (by simp [neededLength] at h; omega)
    have hp := ParseEpisodeString_no_index_error r0
    simp [applyMatch, hr0, hr1]
    split
    · rename_i he; exact absurd he hp
    · exact ⟨_, rfl⟩
    · split_ifs <;> exact ⟨_, rfl⟩
  by_cases h5 : name = "quality"
  · subst h5
    obtain ⟨r, hr⟩ := getElem?_of_lt res 1 (by simp [neededLength] at h; omega)
    simp [applyMatch, hr]
  by_cases h6 : name = "resolution"
  · subst h6
    obtain ⟨r, hr⟩ := getElem?_of_lt res 2 (by simp [neededLength] at h; omega)
    simp [applyMatch, hr]
  by_cases h7 : name = "groupAnime"
  · subst h7
    obtain ⟨r, hr⟩ := getElem?_of_lt res 1 (by simp [neededLength] at h; omega)
    simp [applyMatch, hr]
  by_cases h8 : name = "episodeAnime"
  · subst h8
    obtain ⟨r, hr⟩ := getElem?_of_lt res 0 (by simp [neededLength] at h; omega)
    simp [applyMatch, hr]
    split_ifs <;> exact ⟨_, rfl⟩
  · simp only [applyMatch, h1, h2, h3, h4, h5, h6, h7, h8, if_false]
    exact ⟨_, rfl⟩

/-- The matching pass over matchers that fit returns a record, with the
fields it never writes unchanged. -/
theorem matchingPass_total (filename : List Char) :
    ∀ (names : List String) (f : ParsedFile), names.all matcherFits = true →
      ∃ g, matchingPass filename names f = some g ∧ SameFrame f g := by
  intro names
  induction names with
  | nil => intro f _; exact ⟨f, rfl, SameFrame.refl f⟩
  | cons name rest ih =>
    intro f hall
    simp only [List.all_cons, Bool.and_eq_true] at hall
    obtain ⟨hfit, hrest⟩ := hall
    unfold matcherFits at hfit
    cases hm : matcher name with
    | none => rw [hm] at hfit; cases hfit
    | some re =>
      rw [hm] at hfit
      simp only [decide_eq_true_eq] at hfit
      simp only [matchingPass, hm]
      cases hf : re.FindStringSubmatch filename with
      | none => exact ih f hrest
      | some res =>
        have hlen := FindStringSubmatch_length re filename res hf
        obtain ⟨g1, hg1⟩ := applyMatch_isSome f name res (by omega)
        have hpos : 0 < res.length := by omega
        simp only [hpos, if_true, hg1]
        obtain ⟨g, hg, hfr⟩ := ih g1 hrest
        exact ⟨g, hg, (applyMatch_frame f g1 name res hg1).trans hfr⟩

theorem cleanStep_isSome (f : ParsedFile) (name : String) (re : Regexp) (res : Caps)
    (cleanName : List Char) (h : neededLength name ≤ res.length) :
    ∃ c, cleanStep f name re res cleanName = some c := by
  unfold cleanStep
  dsimp only
  split_ifs with hgo h1 h2 h3
  · subst h1
    obtain ⟨r, hr⟩ := getElem?_of_lt res 0 (by simp [neededLength] at h; omega)
    exact ⟨_, by rw [hr]⟩
  · subst h2
    obtain ⟨r, hr⟩ := getElem?_of_lt res 1 (by simp [neededLength] at h; omega)
    exact ⟨_, by rw [hr]⟩
  · subst h3
    obtain ⟨r, hr⟩ := getElem?_of_lt res 1 (by simp [neededLength] at h; omega)
    exact ⟨_, by rw [hr]⟩
  · exact ⟨_, rfl⟩
  · exact ⟨_, rfl⟩
  · exact ⟨_, rfl⟩

/-- The cleaning pass over matchers that fit returns a name. -/
theorem cleaningPass_total (f : ParsedFile) :
    ∀ (names : List String) (cleanName : List Char), names.all matcherFits = true →
      ∃ c, cleaningPass f names cleanName = some c := by
  intro names
  induction names with
  | nil => intro cleanName _; exact ⟨cleanName, rfl⟩
  | cons name rest ih =>
    intro cleanName hall
    simp only [List.all_cons, Bool.and_eq_true] at hall
    obtain ⟨hfit, hrest⟩ := hall
    unfold matcherFits at hfit
    cases hm : matcher name with
    | none => rw [hm] at hfit; cases hfit
    | some re =>
      rw [hm] at hfit
      simp only [decide_eq_true_eq] at hfit
      simp only [cleaningPass, hm]
      cases hf : re.FindStringSubmatch cleanName with
      | none => exact ih cleanName hrest
      | some res =>
        have hlen := FindStringSubmatch_length re cleanName res hf
        obtain ⟨c1, hc1⟩ := cleanStep_isSome f name re res cleanName (by omega)
        have hpos : 0 < res.length := by omega
        simp only [hpos, if_true, hc1]
        exact ih c1 hrest

theorem getOpts_flags (env : Env) (o : Options) :
    (getOpts env [o]).Lookup = o.Lookup ∧ (getOpts env [o]).ForceMovie = o.ForceMovie ∧
      (getOpts env [o]).ForceSeries = o.ForceSeries ∧
      (getOpts env [o]).OriginalFile = o.OriginalFile ∧ (getOpts env [o]).DryRun = o.DryRun := by
  unfold getOpts
  dsimp only
  split_ifs <;> exact ⟨rfl, rfl, rfl, rfl, rfl⟩

/-- Without lookup and with no external ID, the end of NewParsedFile only
writes the clean name. -/
theorem finish_no_lookup (env : Env) (opts : Options) (f : ParsedFile) (cleanName : List Char)
    (hl : opts.Lookup = false) (hid : f.ExternalID = 0) :
    ∃ r, finish env opts f cleanName = some r ∧ r = { f with CleanName := r.CleanName } := by
  unfold finish
  simp only [hl, Bool.false_eq_true, if_false]
  have ht : ∀ c, translateSeason env { f with CleanName := c } = { f with CleanName := c } := by
    intro c
    unfold translateSeason
    simp [hid]
  rw [ht]
  split_ifs <;> exact ⟨_, rfl, rfl⟩

/-- NewParsedFile on a video file whose decision chain ends without the
fallback to the parent directory. -/
theorem NewParsedFile_video_done (env : Env) (fuel : Nat) (path : List Char) (o : List Options)
    (g f1 : ParsedFile) (hext : SupportedVideoExtensions (Ext path) = true)
    (hm : matchingPass (initialFile env path o).Filename order (initialFile env path o) = some g)
    (hc : classify g (getOpts env o) path = .done f1) :
    NewParsedFile env (fuel + 1) path o =
      match cleaningPass f1 order (Replace g.Filename ['.'] [' ']) with
      | none => none
      | some c => finish env (getOpts env o) f1 (polish env f1 c) := by
  obtain ⟨g0, hg0, hfr⟩ := matchingPass_total (initialFile env path o).Filename order
    (initialFile env path o) order_matcherFits
  rw [hm] at hg0
  cases hg0
  have hmusic : g.IsMusic = false := hfr.1
  have hext2 : SupportedVideoExtensions (initialFile env path o).Extension = true := hext
  simp only [NewParsedFile, hext2, if_true, hm, hmusic, Bool.not_false, hc]

theorem initialFile_fields (env : Env) (path : List Char) (o : Options) :
    (initialFile env path [o]).ExternalID = 0 ∧ (initialFile env path [o]).IsMovie = false ∧
      (initialFile env path [o]).IsSeries = false ∧ (initialFile env path [o]).Filepath = path ∧
      (initialFile env path [o]).OriginalFile = o.OriginalFile :=
  ⟨rfl, rfl, rfl, rfl, (getOpts_flags env o).2.2.2.1⟩

/-- A video file that the decision chain classifies, parsed without lookup:
the result is the classified record with its clean name filled in. -/
theorem NewParsedFile_classified (env : Env) (fuel : Nat) (path : List Char) (o : Options)
    (g f1 : ParsedFile) (hext : SupportedVideoExtensions (Ext path) = true)
    (hl : o.Lookup = false)
    (hm : matchingPass (initialFile env path [o]).Filename order (initialFile env path [o])
      = some g)
    (hc : classify g (getOpts env [o]) path = .done f1) (hid : f1.ExternalID = g.ExternalID) :
    ∃ r, NewParsedFile env (fuel + 1) path [o] = some r ∧
      r = { f1 with CleanName := r.CleanName } := by
  obtain ⟨g0, hg0, hfr⟩ := matchingPass_total (initialFile env path [o]).Filename order
    (initialFile env path [o]) order_matcherFits
  rw [hm] at hg0
  cases hg0
  rw [NewParsedFile_video_done env fuel path [o] g f1 hext hm hc]
  obtain ⟨c, hc1⟩ := cleaningPass_total f1 order (Replace g.Filename ['.'] [' '])
    order_matcherFits
  rw [hc1]
  exact finish_no_lookup env (getOpts env [o]) f1 _ ((getOpts_flags env o).1.trans hl)
    (hid.trans (hfr.2.2.2.1.trans (initialFile_fields env path o).1))


/-! ### Soundness of the matcher -/

theorem starLoop_sound (a : Re)
    (step : Nat → List Char → Caps → Cont → Option MatchEnd)
    (hstep : ∀ i s c k r, step i s c k = some r →
      ∃ j s1 c1, k j s1 c1 = some r ∧ RunSpec a i s c j s1 c1) :
    ∀ (fuel i : Nat) (s : List Char) (c : Caps) (k : Cont) (r : MatchEnd),
      starLoop step fuel i s c k = some r →
      ∃ j s1 c1, k j s1 c1 = some r ∧ RunSpec (.star a) i s c j s1 c1 := by
  have hbase : ∀ i s c, RunSpec (.star a) i s c i s c := fun i s c =>
    ⟨⟨[], rfl, rfl, [], rfl, fun _ h => by cases h⟩, rfl, fun _ => Or.inl rfl⟩
  intro fuel
  induction fuel with
  | zero => intro i s c k r h; exact ⟨i, s, c, h, hbase i s c⟩
  | succ n ih =>
    intro i s c k r h
    rw [starLoop] at h
    rcases orElse_some h with h1 | h1
    · obtain ⟨j1, s1, c1, hk1, ⟨w1, hs1, hj1, hw1⟩, hl1, hc1⟩ := hstep i s c _ r h1
      by_cases hij : i < j1
      · rw [if_pos hij] at hk1
        obtain ⟨j2, s2, c2, hk2, ⟨w2, hs2, hj2, ws, hws, hall⟩, hl2, hc2⟩ := ih j1 s1 c1 k r hk1
        refine ⟨j2, s2, c2, hk2, ⟨w1 ++ w2, ?_, ?_, w1 :: ws, ?_, ?_⟩, hl2.trans hl1, ?_⟩
        · rw [hs1, hs2, List.append_assoc]
        · rw [hj2, hj1, List.length_append]; omega
        · rw [hws]; simp
        · intro u hu
          rcases List.mem_cons.mp hu with h0 | h0
          · rw [h0]; exact hw1
          · exact hall u h0
        · intro m
          rcases hc2 m with e2 | ⟨v, hv, hcap⟩
          · rcases hc1 m with e1 | ⟨v, hv, hcap⟩
            · exact Or.inl (e2.trans e1)
            · exact Or.inr ⟨v, e2.trans hv, hcap⟩
          · exact Or.inr ⟨v, hv, hcap⟩
      · rw [if_neg hij] at hk1; cases hk1
    · exact ⟨i, s, c, h1, hbase i s c⟩

/-- Soundness of the matcher: a successful run calls its continuation after
a text the pattern matches, with capture slots changed only by captures of
the pattern. -/
theorem run_sound :
    ∀ (re : Re) (i : Nat) (s : List Char) (c : Caps) (k : Cont) (r : MatchEnd),
      re.run i s c k = some r → ∃ j s1 c1, k j s1 c1 = some r ∧ RunSpec re i s c j s1 c1 := by
  intro re
  induction re with
  | eps =>
    intro i s c k r h
    exact ⟨i, s, c, h, ⟨[], rfl, rfl, rfl⟩, rfl, fun _ => Or.inl rfl⟩
  | cls p =>
    intro i s c k r h
    cases s with
    | nil => cases h
    | cons x t =>
      simp only [Re.run] at h
      by_cases hp : p x = true
      · rw [if_pos hp] at h
        exact ⟨i + 1, t, c, h, ⟨[x], rfl, rfl, x, rfl, hp⟩, rfl, fun _ => Or.inl rfl⟩
      · rw [if_neg hp] at h; cases h
  | seq a b iha ihb =>
    intro i s c k r h
    simp only [Re.run] at h
    obtain ⟨j1, s1, c1, hk1, ⟨w1, hs1, hj1, hw1⟩, hl1, hc1⟩ := iha i s c _ r h
    obtain ⟨j2, s2, c2, hk2, ⟨w2, hs2, hj2, hw2⟩, hl2, hc2⟩ := ihb j1 s1 c1 k r hk1
    refine ⟨j2, s2, c2, hk2, ⟨w1 ++ w2, ?_, ?_, w1, w2, rfl, hw1, hw2⟩, hl2.trans hl1, ?_⟩
    · rw [hs1, hs2, List.append_assoc]
    · rw [hj2, hj1, List.length_append]; omega
    · intro m
      rcases hc2 m with e2 | ⟨v, hv, hcap⟩
      · rcases hc1 m with e1 | ⟨v, hv, hcap⟩
        · exact Or.inl (e2.trans e1)
        · exact Or.inr ⟨v, e2.trans hv, Or.inl hcap⟩
      · exact Or.inr ⟨v, hv, Or.inr hcap⟩
  | alt a b iha ihb =>
    intro i s c k r h
    simp only [Re.run] at h
    rcases orElse_some h with h1 | h1
    · obtain ⟨j1, s1, c1, hk1, ⟨w1, hs1, hj1, hw1⟩, hl1, hc1⟩ := iha i s c k r h1
      refine ⟨j1, s1, c1, hk1, ⟨w1, hs1, hj1, Or.inl hw1⟩, hl1, ?_⟩
      intro m
      rcases hc1 m with e1 | ⟨v, hv, hcap⟩
      · exact Or.inl e1
      · exact Or.inr ⟨v, hv, Or.inl hcap⟩
    · obtain ⟨j1, s1, c1, hk1, ⟨w1, hs1, hj1, hw1⟩, hl1, hc1⟩ := ihb i s c k r h1
      refine ⟨j1, s1, c1, hk1, ⟨w1, hs1, hj1, Or.inr hw1⟩, hl1, ?_⟩
      intro m
      rcases hc1 m with e1 | ⟨v, hv, hcap⟩
      · exact Or.inl e1
      · exact Or.inr ⟨v, hv, Or.inr hcap⟩
  | star a iha =>
    intro i s c k r h
    simp only [Re.run] at h
    exact starLoop_sound a a.run iha s.length i s c k r h
  | cap n a iha =>
    intro i s c k r h
    simp only [Re.run] at h
    obtain ⟨j1, s1, c1, hk1, ⟨w1, hs1, hj1, hw1⟩, hl1, hc1⟩ := iha i s c _ r h
    have htake : s.take (j1 - i) = w1 := by
      rw [hs1, hj1]
      simp
    rw [htake] at hk1
    refine ⟨j1, s1, c1.set n w1, hk1, ⟨w1, hs1, hj1, hw1⟩, by simpa using hl1, ?_⟩
    intro m
    by_cases hmn : n = m
    · subst hmn
      by_cases hlt : n < c1.length
      · exact Or.inr ⟨w1, by simp [List.getElem?_set, hlt], Or.inl ⟨rfl, hw1⟩⟩
      · have e1 : (c1.set n w1)[n]? = c1[n]? := by
          simp [List.getElem?_set, hlt]
          omega
        rcases hc1 n with e | ⟨v, hv, hcap⟩
        · exact Or.inl (e1.trans e)
        · exact Or.inr ⟨v, e1.trans hv, Or.inr hcap⟩
    · have e1 : (c1.set n w1)[m]? = c1[m]? := by
        simp [List.getElem?_set, hmn]
      rcases hc1 m with e | ⟨v, hv, hcap⟩
      · exact Or.inl (e1.trans e)
      · exact Or.inr ⟨v, e1.trans hv, Or.inr hcap⟩
  | bot =>
    intro i s c k r h
    simp only [Re.run] at h
    by_cases hi : i = 0
    · rw [if_pos hi] at h
      exact ⟨i, s, c, h, ⟨[], rfl, rfl, rfl⟩, rfl, fun _ => Or.inl rfl⟩
    · rw [if_neg hi] at h; cases h
  | eot =>
    intro i s c k r h
    cases s with
    | nil => exact ⟨i, [], c, h, ⟨[], rfl, rfl, rfl⟩, rfl, fun _ => Or.inl rfl⟩
    | cons x t => cases h


theorem matchAt_sound (r : Regexp) (i : Nat) (s : List Char) (m : MatchEnd)
    (h : r.matchAt i s = some m) :
    (∃ w post, s = w ++ post ∧ m.1 = i + w.length ∧ r.re.Matches w ∧ m.2[0]? = some w) ∧
      ∀ n, 0 < n → n ≤ r.ngroups →
        ∃ v, m.2[n]? = some v ∧ (v = [] ∨ r.re.Captures n v) := by
  unfold Regexp.matchAt at h
  cases hrun : r.re.run i s (List.replicate (r.ngroups + 1) []) (fun j _ c => some (j, c)) with
  | none => rw [hrun] at h; cases h
  | some m1 =>
    rw [hrun] at h
    obtain ⟨j, s1, c1, hk, ⟨w, hs, hj, hw⟩, hl, hc⟩ := run_sound r.re i s _ _ m1 hrun
    simp only [Option.some.injEq] at hk
    subst hk
    simp only [Option.some.injEq] at h
    subst h
    have htake : s.take (j - i) = w := by rw [hs, hj]; simp
    simp only [htake]
    have hlen : c1.length = r.ngroups + 1 := by simpa using hl
    refine ⟨⟨w, s1, hs, hj, hw, ?_⟩, ?_⟩
    · have h0 : 0 < c1.length := by omega
      simp [List.getElem?_set, h0]
    · intro n hn hle
      have e1 : (c1.set 0 w)[n]? = c1[n]? := by
        simp [List.getElem?_set, Nat.pos_iff_ne_zero.mp hn]
        intro h0; omega
      rw [e1]
      rcases hc n with e | ⟨v, hv, hcap⟩
      · refine ⟨[], ?_, Or.inl rfl⟩
        rw [e]
        simp [List.getElem?_replicate]
        omega
      · exact ⟨v, hv, Or.inr hcap⟩

/-- Soundness of `FindStringSubmatch`: entry 0 is an infix of the text that
the pattern matches, and entry `n` is empty or a capture of group `n`. -/
theorem FindStringSubmatch_sound (r : Regexp) (s : List Char) (res : Caps)
    (h : r.FindStringSubmatch s = some res) :
    (∃ pre w post, s = pre ++ w ++ post ∧ r.re.Matches w ∧ res[0]? = some w) ∧
      ∀ n, 0 < n → n ≤ r.ngroups →
        ∃ v, res[n]? = some v ∧ (v = [] ∨ r.re.Captures n v) := by
  have key : ∀ (t : List Char) (i : Nat) (m : Nat × Nat × Caps), r.findFrom i t = some m →
      (∃ pre w post, t = pre ++ w ++ post ∧ r.re.Matches w ∧ m.2.2[0]? = some w) ∧
        ∀ n, 0 < n → n ≤ r.ngroups →
          ∃ v, m.2.2[n]? = some v ∧ (v = [] ∨ r.re.Captures n v) := by
    intro t
    induction t with
    | nil =>
      intro i m hm
      simp only [Regexp.findFrom] at hm
      cases hma : r.matchAt i [] with
      | none => rw [hma] at hm; cases hm
      | some m1 =>
        rw [hma] at hm
        obtain ⟨j, c1⟩ := m1
        simp only [Option.some.injEq] at hm
        subst hm
        obtain ⟨⟨w, post, hs, _, hw, h0⟩, hcaps⟩ := matchAt_sound r i [] _ hma
        exact ⟨⟨[], w, post, by simpa using hs, hw, h0⟩, hcaps⟩
    | cons x t ih =>
      intro i m hm
      simp only [Regexp.findFrom] at hm
      cases hma : r.matchAt i (x :: t) with
      | none =>
        rw [hma] at hm
        obtain ⟨⟨pre, w, post, hs, hw, h0⟩, hcaps⟩ := ih (i + 1) m hm
        exact ⟨⟨x :: pre, w, post, by rw [hs]; simp, hw, h0⟩, hcaps⟩
      | some m1 =>
        rw [hma] at hm
        obtain ⟨j, c1⟩ := m1
        simp only [Option.some.injEq] at hm
        subst hm
        obtain ⟨⟨w, post, hs, _, hw, h0⟩, hcaps⟩ := matchAt_sound r i (x :: t) _ hma
        exact ⟨⟨[], w, post, by simpa using hs, hw, h0⟩, hcaps⟩
  unfold Regexp.FindStringSubmatch at h
  cases hf : r.findFrom 0 s with
  | none => rw [hf] at h; cases h
  | some m =>
    rw [hf] at h
    obtain ⟨a, b, c1⟩ := m
    simp only [Option.some.injEq] at h
    subst h
    exact key s 0 _ hf

/-- Capture group 2 of the year matcher holds four digits. -/
theorem year_capture (re : Regexp) (hre : matcher "year" = some re) (v : List Char)
    (h : re.re.Captures 2 v) : v.length = 4 ∧ ∀ c ∈ v, isDigit c = true := by
  simp [matcher, matchers] at hre
  subst hre
  simp only [Re.Captures, Re.Matches, seqs, opt, oneOf, lit, chr, digit, String.toList,
    List.map, false_or, or_false, true_and] at h
  simp at h
  obtain ⟨u, t, rfl, hu, x, rfl, hx⟩ := h
  rcases hu with ⟨a, b, rfl, rfl, y, rfl, hy⟩ | ⟨a, b, rfl, rfl, y, rfl, hy⟩
  · refine ⟨rfl, ?_⟩
    intro c hc
    simp at hc
    rcases hc with h | h | h | h <;> subst h <;> first | assumption | decide
  · refine ⟨rfl, ?_⟩
    intro c hc
    simp at hc
    rcases hc with h | h | h | h
    · subst h; decide
    · subst h; decide
    · subst h; rcases hy with h | h | h <;> subst h <;> decide
    · subst h; exact hx

theorem applyMatch_Year_of_ne (f g : ParsedFile) (name : String) (res : Caps)
    (hne : name ≠ "year") (h : applyMatch f name res = some g) : g.Year = f.Year := by
  unfold applyMatch at h
  repeat' split at h
  all_goals first
    | exact absurd (by assumption) hne
    | (cases h <;> rfl)

theorem matchingPass_Year_of_not_mem (filename : List Char) :
    ∀ (names : List String) (f g : ParsedFile), "year" ∉ names →
      matchingPass filename names f = some g → g.Year = f.Year := by
  intro names
  induction names with
  | nil => intro f g _ h; cases h; rfl
  | cons name rest ih =>
    intro f g hmem h
    have hne : name ≠ "year" := fun e => hmem (by rw [e]; exact List.mem_cons_self _ _)
    have hrest : "year" ∉ rest := fun e => hmem (List.mem_cons_of_mem _ e)
    simp only [matchingPass] at h
    cases hm : matcher name with
    | none => rw [hm] at h; cases h
    | some re =>
      rw [hm] at h
      simp only at h
      cases hf : re.FindStringSubmatch filename with
      | none => rw [hf] at h; exact ih f g hrest h
      | some res =>
        rw [hf] at h
        simp only at h
        by_cases hpos : 0 < res.length
        · rw [if_pos hpos] at h
          cases ha : applyMatch f name res with
          | none => rw [ha] at h; cases h
          | some f1 =>
            rw [ha] at h
            exact (ih f1 g hrest h).trans (applyMatch_Year_of_ne f f1 name res hne ha)
        · rw [if_neg hpos] at h
          exact ih f g hrest h

theorem matchingPass_cons (filename : List Char) (name : String) (rest : List String)
    (f g : ParsedFile) (h : matchingPass filename (name :: rest) f = some g) :
    ∃ f1, matchingPass filename [name] f = some f1 ∧ matchingPass filename rest f1 = some g := by
  simp only [matchingPass] at h ⊢
  cases hm : matcher name with
  | none => rw [hm] at h; cases h
  | some re =>
    rw [hm] at h
    simp only at h ⊢
    cases hf : re.FindStringSubmatch filename with
    | none => rw [hf] at h; exact ⟨f, rfl, h⟩
    | some res =>
      rw [hf] at h
      simp only at h ⊢
      by_cases hpos : 0 < res.length
      · rw [if_pos hpos] at h ⊢
        cases ha : applyMatch f name res with
        | none => rw [ha] at h; cases h
        | some f1 => rw [ha] at h; exact ⟨f1, rfl, h⟩
      · rw [if_neg hpos] at h ⊢
        exact ⟨f, rfl, h⟩

theorem matchingPass_year_step (filename : List Char) (f g : ParsedFile)
    (h : matchingPass filename ["year"] f = some g) :
    g.Year = f.Year ∨ g.Year = [] ∨ (g.Year.length = 4 ∧ ∀ c ∈ g.Year, isDigit c = true) := by
  simp only [matchingPass] at h
  cases hm : matcher "year" with
  | none => rw [hm] at h; cases h
  | some re =>
    rw [hm] at h
    simp only at h
    have hng : re.ngroups = 2 := by
      simp [matcher, matchers] at hm
      rw [← hm]
    cases hf : re.FindStringSubmatch filename with
    | none => rw [hf] at h; cases h; exact Or.inl rfl
    | some res =>
      rw [hf] at h
      simp only at h
      by_cases hpos : 0 < res.length
      · rw [if_pos hpos] at h
        obtain ⟨v, hv, hcap⟩ := (FindStringSubmatch_sound re filename res hf).2 2 (by decide)
          (by omega)
        cases ha : applyMatch f "year" res with
        | none => rw [ha] at h; cases h
        | some f1 =>
          rw [ha] at h
          cases h
          simp [applyMatch, hv] at ha
          by_cases hs : f.Season = v
          · rw [if_pos hs] at ha
            cases ha
            exact Or.inl rfl
          · rw [if_neg hs] at ha
            cases ha
            rcases hcap with h0 | hcap
            · exact Or.inr (Or.inl h0)
            · exact Or.inr (Or.inr (year_capture re hm v hcap))
      · rw [if_neg hpos] at h
        cases h
        exact Or.inl rfl

/-- The year the matching pass leaves is empty or four digits. -/
theorem matchingPass_Year (filename : List Char) (f g : ParsedFile) (hf : f.Year = [])
    (h : matchingPass filename order f = some g) :
    g.Year = [] ∨ (g.Year.length = 4 ∧ ∀ c ∈ g.Year, isDigit c = true) := by
  have horder : order = "yearAsSeason" :: "year" :: order.drop 2 := by decide
  rw [horder] at h
  obtain ⟨f1, h1, h⟩ := matchingPass_cons _ _ _ _ _ h
  obtain ⟨f2, h2, h⟩ := matchingPass_cons _ _ _ _ _ h
  have e1 : f1.Year = f.Year := matchingPass_Year_of_not_mem filename _ f f1 (by decide) h1
  have e3 : g.Year = f2.Year :=
    matchingPass_Year_of_not_mem filename _ f2 g (by decide) h
  rw [e3]
  rcases matchingPass_year_step filename f1 f2 h2 with e2 | e2 | e2
  · exact Or.inl (e2.trans (e1.trans hf))
  · exact Or.inl e2
  · exact Or.inr e2

/-! ## Claims on the episode-range parser -/

/-- C1 (as stated, refuted): the token "9223372036854775808" is a single
digit run of the grammar, yet ParseEpisodeString rejects it, because its
value does not fit an `int`. -/
theorem ParseEpisodeString_rejects_overflowing_start :
    IsEpisodeToken (TrimSpace "9223372036854775808".toList) "9223372036854775808".toList none ∧
      ParseEpisodeString "9223372036854775808".toList = .error .badStart :=
  ⟨⟨[], Or.inl rfl, ⟨by decide, by decide⟩, by decide⟩, by decide⟩

/-- C1 (amended): for every token whose whitespace-trimmed form is an
optional 'E', a digit run d1 and optionally a separator ('-', '-E' or 'E')
followed by a digit run d2, where both values are below 2^63 and
value(d1) <= value(d2), ParseEpisodeString succeeds with Start = value(d1),
End = value(d2) when d2 is present and End = Start otherwise, and IsRange
true exactly when d2 is present. -/
theorem ParseEpisodeString_accepts_token (tok d1 : List Char) (d2 : Option (List Char))
    (h : IsEpisodeToken (TrimSpace tok) d1 d2)
    (hb1 : decimalValue d1 < intLimit)
    (hb2 : ∀ e, d2 = some e → decimalValue e < intLimit ∧ decimalValue d1 ≤ decimalValue e) :
    ParseEpisodeString tok
      = .ok ⟨decimalValue d1, ((d2.map decimalValue).getD (decimalValue d1) : Nat),
          d2.isSome⟩ := by
  rw [ParseEpisodeString_of_token tok d1 d2 h]
  cases d2 with
  | none => simp [hb1]
  | some e =>
    obtain ⟨h1, h2⟩ := hb2 e rfl
    simp [hb1, h1, Nat.not_lt.mpr h2]

/-- C1 (witness): "E22-E23" and "  22" at the amended theorem, and the
other tokens the claim lists. -/
theorem ParseEpisodeString_accepts_token_witness :
    (IsEpisodeToken (TrimSpace "E22-E23".toList) "22".toList (some "23".toList) ∧
      ParseEpisodeString "E22-E23".toList = .ok ⟨22, 23, true⟩) ∧
    (IsEpisodeToken (TrimSpace "  22".toList) "22".toList none ∧
      ParseEpisodeString "  22".toList = .ok ⟨22, 22, false⟩) ∧
    (ParseEpisodeString "22".toList = .ok ⟨22, 22, false⟩ ∧
      ParseEpisodeString "22  ".toList = .ok ⟨22, 22, false⟩ ∧
      ParseEpisodeString "E22E23".toList = .ok ⟨22, 23, true⟩ ∧
      ParseEpisodeString "22E23".toList = .ok ⟨22, 23, true⟩ ∧
      ParseEpisodeString "22-E23".toList = .ok ⟨22, 23, true⟩) :=
  have t1 : IsEpisodeToken (TrimSpace "E22-E23".toList) "22".toList (some "23".toList) :=
    ⟨['E'], Or.inr rfl, ⟨by decide, by decide⟩, ⟨by decide, by decide⟩, ['-', 'E'],
      Or.inr (Or.inl rfl), by decide⟩
  have t2 : IsEpisodeToken (TrimSpace "  22".toList) "22".toList none :=
    ⟨[], Or.inl rfl, ⟨by decide, by decide⟩, by decide⟩
  ⟨⟨t1, ParseEpisodeString_accepts_token "E22-E23".toList "22".toList (some "23".toList) t1
      (by decide) (fun e he => by cases he; decide)⟩,
   ⟨t2, ParseEpisodeString_accepts_token "  22".toList "22".toList none t2
      (by decide) (fun e he => by cases he)⟩,
   by decide⟩

/-- C2 (as stated, refuted): "1-9223372036854775808" is a token of the
grammar with start 1 <= end, yet ParseEpisodeString rejects it, because the
end value does not fit an `int`. -/
theorem ParseEpisodeString_rejects_overflowing_end :
    IsEpisodeToken (TrimSpace "1-9223372036854775808".toList) "1".toList
        (some "9223372036854775808".toList) ∧
      decimalValue "1".toList ≤ decimalValue "9223372036854775808".toList ∧
      ParseEpisodeString "1-9223372036854775808".toList = .error .badEnd :=
  ⟨⟨[], Or.inl rfl, ⟨by decide, by decide⟩, ⟨by decide, by decide⟩, ['-'], Or.inl rfl,
      by decide⟩, by decide, by decide⟩

/-- C2 (amended): ParseEpisodeString returns an error if and only if the
token is empty, or its whitespace-trimmed form does not match the grammar
E? digits ((-E? | E) digits)?, or it matches and a number is 2^63 or more, or
both numbers are present and start > end; "", "ABC", "22@23", "23-22" and
"E22--E23" are rejected. -/
theorem ParseEpisodeString_error_iff :
    (∀ tok : List Char,
      (∃ err, ParseEpisodeString tok = .error err) ↔
        (tok = [] ∨ (¬ ∃ d1 d2, IsEpisodeToken (TrimSpace tok) d1 d2) ∨
          ∃ d1 d2, IsEpisodeToken (TrimSpace tok) d1 d2 ∧
            (intLimit ≤ decimalValue d1 ∨
              ∃ e, d2 = some e ∧ (intLimit ≤ decimalValue e ∨ decimalValue e < decimalValue d1))))
    ∧ ParseEpisodeString "".toList = .error .emptyString
    ∧ ParseEpisodeString "ABC".toList = .error .invalidFormat
    ∧ ParseEpisodeString "22@23".toList = .error .invalidFormat
    ∧ ParseEpisodeString "23-22".toList = .error .startGreaterThanEnd
    ∧ ParseEpisodeString "E22--E23".toList = .error .invalidFormat := by
  refine ⟨?_, by decide, by decide, by decide, by decide, by decide⟩
  intro tok
  by_cases htok : tok = []
  · subst htok
    exact ⟨fun _ => Or.inl rfl, fun _ => ⟨.emptyString, rfl⟩⟩
  by_cases hg : ∃ d1 d2, IsEpisodeToken (TrimSpace tok) d1 d2
  · obtain ⟨d1, d2, h⟩ := hg
    have hp := ParseEpisodeString_of_token tok d1 d2 h
    constructor
    · rintro ⟨err, herr⟩
      refine Or.inr (Or.inr ⟨d1, d2, h, ?_⟩)
      by_cases hv1 : decimalValue d1 < intLimit
      · right
        cases d2 with
        | none => rw [hp] at herr; simp [hv1] at herr
        | some e =>
          refine ⟨e, rfl, ?_⟩
          by_cases hv2 : decimalValue e < intLimit
          · right
            by_contra hlt
            rw [hp] at herr
            simp [hv1, hv2, hlt] at herr
          · exact Or.inl (Nat.not_lt.mp hv2)
      · exact Or.inl (Nat.not_lt.mp hv1)
    · rintro (h0 | h0 | ⟨a1, a2, ha, hbad⟩)
      · exact absurd h0 htok
      · exact absurd ⟨d1, d2, h⟩ h0
      · have hpa := ParseEpisodeString_of_token tok a1 a2 ha
        rcases hbad with hbad | ⟨e, he, hbad⟩
        · exact ⟨.badStart, by rw [hpa]; simp [Nat.not_lt.mpr hbad]⟩
        · subst he
          by_cases hv1 : decimalValue a1 < intLimit
          · rcases hbad with hbad | hbad
            · exact ⟨.badEnd, by rw [hpa]; simp [hv1, Nat.not_lt.mpr hbad]⟩
            · by_cases hv2 : decimalValue e < intLimit
              · exact ⟨.startGreaterThanEnd, by rw [hpa]; simp [hv1, hv2, hbad]⟩
              · exact ⟨.badEnd, by rw [hpa]; simp [hv1, hv2]⟩
          · exact ⟨.badStart, by rw [hpa]; simp [hv1]⟩
  · exact ⟨fun _ => Or.inr (Or.inl hg),
      fun _ => ⟨.invalidFormat, ParseEpisodeString_not_token tok htok hg⟩⟩

/-- The numbers of a successful parse: both below 2^63, in order. -/
theorem ParseEpisodeString_ok_inv (tok : List Char) (i : EpisodeInfo)
    (h : ParseEpisodeString tok = .ok i) :
    ∃ a b : Nat, a < intLimit ∧ b < intLimit ∧ a ≤ b ∧ (i.IsRange = false → b = a) ∧
      i = ⟨a, b, i.IsRange⟩ := by
  by_cases htok : tok = []
  · subst htok
    cases h
  by_cases hg : ∃ d1 d2, IsEpisodeToken (TrimSpace tok) d1 d2
  · obtain ⟨d1, d2, ht⟩ := hg
    rw [ParseEpisodeString_of_token tok d1 d2 ht] at h
    by_cases hv1 : decimalValue d1 < intLimit
    · cases d2 with
      | none =>
        simp [hv1] at h
        exact ⟨decimalValue d1, decimalValue d1, hv1, hv1, le_refl _, fun _ => rfl, by rw [← h]⟩
      | some e =>
        by_cases hv2 : decimalValue e < intLimit
        · by_cases hlt : decimalValue e < decimalValue d1
          · simp [hv1, hv2, hlt] at h
          · simp [hv1, hv2, hlt] at h
            exact ⟨decimalValue d1, decimalValue e, hv1, hv2, Nat.not_lt.mp hlt,
              fun hr => (by rw [← h] at hr; cases hr), by rw [← h]⟩
        · simp [hv1, hv2] at h
    · simp [hv1] at h
  · rw [ParseEpisodeString_not_token tok htok hg] at h
    cases h

/-- C4: on every input on which ParseEpisodeString succeeds, the result
satisfies 0 <= Start <= End, and End = Start whenever IsRange is false. -/
theorem ParseEpisodeString_start_le_end (tok : List Char) (i : EpisodeInfo)
    (h : ParseEpisodeString tok = .ok i) :
    0 ≤ i.Start ∧ i.Start ≤ i.End ∧ (i.IsRange = false → i.End = i.Start) := by
  obtain ⟨a, b, _, _, hab, hr, hi⟩ := ParseEpisodeString_ok_inv tok i h
  rw [hi]
  refine ⟨Int.ofNat_nonneg a, Int.ofNat_le.mpr hab, ?_⟩
  intro h0
  simp only at h0
  show (b : Int) = a
  rw [hr h0]

/-- C4 (witness): the parse of "22-23". -/
theorem ParseEpisodeString_start_le_end_witness :
    ParseEpisodeString "22-23".toList = .ok ⟨22, 23, true⟩ ∧
      ((0 : Int) ≤ 22 ∧ (22 : Int) ≤ 23 ∧ (true = false → (23 : Int) = 22)) :=
  ⟨by decide, ParseEpisodeString_start_le_end "22-23".toList ⟨22, 23, true⟩ (by decide)⟩

/-- C3: for every token on which ParseEpisodeString succeeds with result i,
rendering i with GetEpisodeRange and parsing that rendering again succeeds
and yields the same Start, End and IsRange. -/
theorem ParseEpisodeString_round_trip (tok : List Char) (i : EpisodeInfo)
    (h : ParseEpisodeString tok = .ok i) :
    ParseEpisodeString i.GetEpisodeRange = .ok i := by
  obtain ⟨a, b, ha, hb, hab, hr, hi⟩ := ParseEpisodeString_ok_inv tok i h
  obtain ⟨ra, va, _⟩ := natDigits_spec a
  obtain ⟨rb, vb, _⟩ := natDigits_spec b
  cases hrange : i.IsRange with
  | false =>
    have hba : b = a := hr hrange
    subst hba
    rw [hrange] at hi
    rw [hi]
    simp only [EpisodeInfo.GetEpisodeRange, Bool.false_eq_true, if_false, fmtD_natCast]
    have htrim : TrimSpace (natDigits b) = natDigits b :=
      TrimSpace_eq_self _ (fun x t hx => digitRun_head _ [] ra x t (by simpa using hx))
        (fun x t hx => digitRun_head _ [] (digitRun_reverse _ ra) x t (by simpa using hx))
    have htoken : IsEpisodeToken (TrimSpace (natDigits b)) (natDigits b) none := by
      rw [htrim]
      exact ⟨[], Or.inl rfl, ra, rfl⟩
    rw [ParseEpisodeString_of_token _ _ _ htoken]
    simp [va, ha]
  | true =>
    rw [hrange] at hi
    rw [hi]
    simp only [EpisodeInfo.GetEpisodeRange, if_true, fmtD_natCast]
    have htrim : TrimSpace (natDigits a ++ '-' :: natDigits b) = natDigits a ++ '-' :: natDigits b :=
      TrimSpace_eq_self _ (fun x t hx => digitRun_head _ _ ra x t hx)
        (fun x t hx => digitRun_head _ ('-' :: (natDigits a).reverse) (digitRun_reverse _ rb) x t
          (by simpa using hx))
    have htoken : IsEpisodeToken (TrimSpace (natDigits a ++ '-' :: natDigits b)) (natDigits a)
        (some (natDigits b)) := by
      rw [htrim]
      exact ⟨[], Or.inl rfl, ra, rb, ['-'], Or.inl rfl, by simp⟩
    rw [ParseEpisodeString_of_token _ _ _ htoken]
    simp [va, vb, ha, hb, Nat.not_lt.mpr hab]

/-- C3 (witness): "E22E23" parses to {22,23,true}, rendered "22-23". -/
theorem ParseEpisodeString_round_trip_witness :
    ParseEpisodeString "E22E23".toList = .ok ⟨22, 23, true⟩ ∧
      ParseEpisodeString (EpisodeInfo.GetEpisodeRange ⟨22, 23, true⟩) = .ok ⟨22, 23, true⟩ :=
  ⟨by decide, ParseEpisodeString_round_trip "E22E23".toList ⟨22, 23, true⟩ (by decide)⟩

theorem fmtD_isDecimalOf (n : Int) : IsDecimalOf (fmtD n) n := by
  obtain ⟨r, v, hz⟩ := natDigits_spec n.natAbs
  exact ⟨natDigits n.natAbs, r, v, hz, by unfold fmtD; split <;> rfl⟩

/-- C5: for every EpisodeInfo, GetEpisodeRange returns the unpadded decimal
rendering of Start alone when IsRange is false, and the renderings of Start
and End joined by exactly one dash when IsRange is true; {22,22,false} gives
"22", {22,23,true} gives "22-23" and {1,100,true} gives "1-100". -/
theorem GetEpisodeRange_decimal :
    (∀ ei : EpisodeInfo, ∃ a b, IsDecimalOf a ei.Start ∧ IsDecimalOf b ei.End ∧
      ei.GetEpisodeRange = if ei.IsRange = true then a ++ ['-'] ++ b else a)
    ∧ EpisodeInfo.GetEpisodeRange ⟨22, 22, false⟩ = "22".toList
    ∧ EpisodeInfo.GetEpisodeRange ⟨22, 23, true⟩ = "22-23".toList
    ∧ EpisodeInfo.GetEpisodeRange ⟨1, 100, true⟩ = "1-100".toList := by
  refine ⟨?_, by decide, by decide, by decide⟩
  intro ei
  refine ⟨fmtD ei.Start, fmtD ei.End, fmtD_isDecimalOf _, fmtD_isDecimalOf _, ?_⟩
  unfold EpisodeInfo.GetEpisodeRange
  split <;> simp

/-! ## Claims on the classification -/

/-- C6: for every path with a recognised video extension and options with
neither force flag set and lookup disabled, if the matching pass leaves a
non-empty season then the result has IsSeries = true and IsMovie = false,
whether or not a year was found. -/
theorem NewParsedFile_season_is_series (env : Env) (fuel : Nat) (path : List Char)
    (o : Options) (g : ParsedFile)
    (hext : SupportedVideoExtensions (Ext path) = true)
    (hl : o.Lookup = false) (hfm : o.ForceMovie = false) (hfs : o.ForceSeries = false)
    (hm : matchingPass (initialFile env path [o]).Filename order (initialFile env path [o])
      = some g)
    (hs : g.Season ≠ []) :
    ∃ f, NewParsedFile env (fuel + 1) path [o] = some f ∧ f.IsSeries = true ∧
      f.IsMovie = false ∧ f.Season = g.Season ∧ f.Year = g.Year := by
  obtain ⟨g0, hg0, hfr⟩ := matchingPass_total (initialFile env path [o]).Filename order
    (initialFile env path [o]) order_matcherFits
  rw [hm] at hg0
  cases hg0
  have hc : classify g (getOpts env [o]) path = .done { g with IsSeries := true } := by
    simp [classify, (getOpts_flags env o).2.1, (getOpts_flags env o).2.2.1, hfm, hfs, hs]
  obtain ⟨r, hr, hrec⟩ := NewParsedFile_classified env fuel path o g _ hext hl hm hc rfl
  refine ⟨r, hr, ?_, ?_, ?_, ?_⟩
  · rw [hrec]
  · rw [hrec]; exact hfr.2.2.1.trans (initialFile_fields env path o).2.1
  · rw [hrec]
  · rw [hrec]


set_option maxRecDepth 100000 in
/-- C6 (witness): "Breaking.Bad.S01E05.mkv" is a series with Season "01",
Episode "05" and CleanName "Breaking Bad". -/
theorem NewParsedFile_season_is_series_witness :
    SupportedVideoExtensions (Ext "Breaking.Bad.S01E05.mkv".toList) = true ∧
    matchingPass (initialFile offlineEnv "Breaking.Bad.S01E05.mkv".toList [{}]).Filename order
        (initialFile offlineEnv "Breaking.Bad.S01E05.mkv".toList [{}])
      = some { initialFile offlineEnv "Breaking.Bad.S01E05.mkv".toList [{}] with
          Season := "01".toList, Episode := "05".toList } ∧
    (∃ f, NewParsedFile offlineEnv 1 "Breaking.Bad.S01E05.mkv".toList [{}] = some f ∧
      f.IsSeries = true ∧ f.IsMovie = false ∧ f.Season = "01".toList ∧ f.Year = []) ∧
    (NewParsedFile offlineEnv 1 "Breaking.Bad.S01E05.mkv".toList [{}]).map
        (fun f => (f.IsSeries, f.IsMovie, f.Season, f.Episode, f.CleanName))
      = some (true, false, "01".toList, "05".toList, "Breaking Bad".toList) :=
  ⟨by decide, by decide,
    NewParsedFile_season_is_series offlineEnv 0 "Breaking.Bad.S01E05.mkv".toList {}
      { initialFile offlineEnv "Breaking.Bad.S01E05.mkv".toList [{}] with
          Season := "01".toList, Episode := "05".toList }
      (by decide) rfl rfl rfl (by decide) (by decide),
    by decide⟩

/-- C7: for every path with a recognised video extension and options with
neither force flag set and lookup disabled, if the matching pass finds a
year, no season and no episode, the result has IsMovie = true,
IsSeries = false and the Year found by the matching pass. -/
theorem NewParsedFile_year_is_movie (env : Env) (fuel : Nat) (path : List Char)
    (o : Options) (g : ParsedFile)
    (hext : SupportedVideoExtensions (Ext path) = true)
    (hl : o.Lookup = false) (hfm : o.ForceMovie = false) (hfs : o.ForceSeries = false)
    (hm : matchingPass (initialFile env path [o]).Filename order (initialFile env path [o])
      = some g)
    (hy : g.Year ≠ []) (hs : g.Season = []) (he : g.Episode = []) :
    ∃ f, NewParsedFile env (fuel + 1) path [o] = some f ∧ f.IsMovie = true ∧
      f.IsSeries = false ∧ f.Year = g.Year ∧ f.Season = [] ∧ f.Episode = [] ∧
      f.Year.length = 4 ∧ ∀ c ∈ f.Year, isDigit c = true := by
  obtain ⟨g0, hg0, hfr⟩ := matchingPass_total (initialFile env path [o]).Filename order
    (initialFile env path [o]) order_matcherFits
  rw [hm] at hg0
  cases hg0
  have hc : classify g (getOpts env [o]) path = .done { g with IsMovie := true } := by
    simp [classify, (getOpts_flags env o).2.1, (getOpts_flags env o).2.2.1, hfm, hfs, hs, hy, he]
  obtain ⟨r, hr, hrec⟩ := NewParsedFile_classified env fuel path o g _ hext hl hm hc rfl
  have hdig : g.Year.length = 4 ∧ ∀ c ∈ g.Year, isDigit c = true := by
    rcases matchingPass_Year _ _ g rfl hm with h0 | h0
    · exact absurd h0 hy
    · exact h0
  refine ⟨r, hr, ?_, ?_, ?_, ?_, ?_, ?_⟩
  · rw [hrec]
  · rw [hrec]; exact hfr.2.1.trans (initialFile_fields env path o).2.2.1
  · rw [hrec]
  · rw [hrec]; exact hs
  · rw [hrec]; exact he
  · rw [hrec]; exact hdig

set_option maxRecDepth 100000 in
/-- C7 (witness): "The Matrix Revolutions - 2003.mkv" is a movie with Year
"2003" and CleanName "The Matrix Revolutions". -/
theorem NewParsedFile_year_is_movie_witness :
    SupportedVideoExtensions (Ext "The Matrix Revolutions - 2003.mkv".toList) = true ∧
    matchingPass (initialFile offlineEnv "The Matrix Revolutions - 2003.mkv".toList [{}]).Filename
        order (initialFile offlineEnv "The Matrix Revolutions - 2003.mkv".toList [{}])
      = some { initialFile offlineEnv "The Matrix Revolutions - 2003.mkv".toList [{}] with
          Year := "2003".toList } ∧
    (∃ f, NewParsedFile offlineEnv 1 "The Matrix Revolutions - 2003.mkv".toList [{}] = some f ∧
      f.IsMovie = true ∧ f.IsSeries = false ∧ f.Year = "2003".toList ∧ f.Season = [] ∧
      f.Episode = [] ∧ f.Year.length = 4 ∧ ∀ c ∈ f.Year, isDigit c = true) ∧
    (NewParsedFile offlineEnv 1 "The Matrix Revolutions - 2003.mkv".toList [{}]).map
        (fun f => (f.IsMovie, f.IsSeries, f.Year, f.CleanName))
      = some (true, false, "2003".toList, "The Matrix Revolutions".toList) :=
  ⟨by decide, by decide,
    NewParsedFile_year_is_movie offlineEnv 0 "The Matrix Revolutions - 2003.mkv".toList {}
      { initialFile offlineEnv "The Matrix Revolutions - 2003.mkv".toList [{}] with
          Year := "2003".toList }
      (by decide) rfl rfl rfl (by decide) (by decide) rfl rfl,
    by decide⟩


/-- C8: for every path with a recognised video extension and options with
neither force flag set and lookup disabled, if the matching pass finds a
year and an episode but no season, the result is a movie (IsMovie = true,
IsSeries = false) whose Episode and Season are both empty and whose Year is
kept. -/
theorem NewParsedFile_year_episode_is_movie (env : Env) (fuel : Nat) (path : List Char)
    (o : Options) (g : ParsedFile)
    (hext : SupportedVideoExtensions (Ext path) = true)
    (hl : o.Lookup = false) (hfm : o.ForceMovie = false) (hfs : o.ForceSeries = false)
    (hm : matchingPass (initialFile env path [o]).Filename order (initialFile env path [o])
      = some g)
    (hy : g.Year ≠ []) (he : g.Episode ≠ []) (hs : g.Season = []) :
    ∃ f, NewParsedFile env (fuel + 1) path [o] = some f ∧ f.IsMovie = true ∧
      f.IsSeries = false ∧ f.Episode = [] ∧ f.Season = [] ∧ f.Year = g.Year := by
  obtain ⟨g0, hg0, hfr⟩ := matchingPass_total (initialFile env path [o]).Filename order
    (initialFile env path [o]) order_matcherFits
  rw [hm] at hg0
  cases hg0
  have hc : classify g (getOpts env [o]) path
      = .done { g with IsMovie := true, Episode := [], Season := [] } := by
    simp [classify, (getOpts_flags env o).2.1, (getOpts_flags env o).2.2.1, hfm, hfs, hs, hy, he]
  obtain ⟨r, hr, hrec⟩ := NewParsedFile_classified env fuel path o g _ hext hl hm hc rfl
  refine ⟨r, hr, ?_, ?_, ?_, ?_, ?_⟩
  · rw [hrec]
  · rw [hrec]; exact hfr.2.1.trans (initialFile_fields env path o).2.2.1
  · rw [hrec]
  · rw [hrec]
  · rw [hrec]

set_option maxRecDepth 100000 in
/-- C8 (witness): in "Inception.2010.1080p.BluRay.x264.mkv" the codec tag
x264 matches the episode pattern (Episode "26" after the matching pass); the
result is a movie with Year "2010" and Episode "". -/
theorem NewParsedFile_year_episode_is_movie_witness :
    SupportedVideoExtensions (Ext "Inception.2010.1080p.BluRay.x264.mkv".toList) = true ∧
    matchingPass
        (initialFile offlineEnv "Inception.2010.1080p.BluRay.x264.mkv".toList [{}]).Filename
        order (initialFile offlineEnv "Inception.2010.1080p.BluRay.x264.mkv".toList [{}])
      = some { initialFile offlineEnv "Inception.2010.1080p.BluRay.x264.mkv".toList [{}] with
          Year := "2010".toList, Episode := "26".toList, Resolution := "1080p".toList,
          Quality := "BluRay".toList } ∧
    (∃ f, NewParsedFile offlineEnv 1 "Inception.2010.1080p.BluRay.x264.mkv".toList [{}]
        = some f ∧
      f.IsMovie = true ∧ f.IsSeries = false ∧ f.Episode = [] ∧ f.Season = [] ∧
      f.Year = "2010".toList) ∧
    (NewParsedFile offlineEnv 1 "Inception.2010.1080p.BluRay.x264.mkv".toList [{}]).map
        (fun f => (f.IsMovie, f.IsSeries, f.Year, f.Episode, f.CleanName))
      = some (true, false, "2010".toList, "".toList, "Inception".toList) :=
  ⟨by decide, by decide,
    NewParsedFile_year_episode_is_movie offlineEnv 0
      "Inception.2010.1080p.BluRay.x264.mkv".toList {}
      { initialFile offlineEnv "Inception.2010.1080p.BluRay.x264.mkv".toList [{}] with
          Year := "2010".toList, Episode := "26".toList, Resolution := "1080p".toList,
          Quality := "BluRay".toList }
      (by decide) rfl rfl rfl (by decide) (by decide) (by decide) rfl,
    by decide⟩

/-- C9: for every path with a recognised video extension and every options
value with ForceMovie = true and lookup disabled, NewParsedFile returns
IsMovie = true, IsSeries = false, Season = "" and Episode = "", whatever the
file name contains and whatever ForceSeries is, and the record is that of
the path itself: no fallback to the parent directory happens. -/
theorem NewParsedFile_force_movie (env : Env) (fuel : Nat) (path : List Char) (o : Options)
    (hext : SupportedVideoExtensions (Ext path) = true)
    (hl : o.Lookup = false) (hfm : o.ForceMovie = true) :
    ∃ f, NewParsedFile env (fuel + 1) path [o] = some f ∧ f.IsMovie = true ∧
      f.IsSeries = false ∧ f.Season = [] ∧ f.Episode = [] ∧
      f.Filepath = path ∧ f.OriginalFile = o.OriginalFile := by
  obtain ⟨g, hm, hfr⟩ := matchingPass_total (initialFile env path [o]).Filename order
    (initialFile env path [o]) order_matcherFits
  have hc : classify g (getOpts env [o]) path
      = .done { g with IsMovie := true, Episode := [], Season := [] } := by
    simp [classify, (getOpts_flags env o).2.1, hfm]
  obtain ⟨r, hr, hrec⟩ := NewParsedFile_classified env fuel path o g _ hext hl hm hc rfl
  refine ⟨r, hr, ?_, ?_, ?_, ?_, ?_, ?_⟩
  · rw [hrec]
  · rw [hrec]; exact hfr.2.1.trans (initialFile_fields env path o).2.2.1
  · rw [hrec]
  · rw [hrec]
  · rw [hrec]; exact hfr.2.2.2.2.2.2.1.trans (initialFile_fields env path o).2.2.2.1
  · rw [hrec]; exact hfr.2.2.2.2.2.2.2.1.trans (initialFile_fields env path o).2.2.2.2

set_option maxRecDepth 100000 in
/-- C9 (witness): "This.Is.A.Series.S01E22.mkv" with ForceMovie. -/
theorem NewParsedFile_force_movie_witness :
    SupportedVideoExtensions (Ext "This.Is.A.Series.S01E22.mkv".toList) = true ∧
    (∃ f, NewParsedFile offlineEnv 1 "This.Is.A.Series.S01E22.mkv".toList
        [{ ForceMovie := true }] = some f ∧
      f.IsMovie = true ∧ f.IsSeries = false ∧ f.Season = [] ∧ f.Episode = [] ∧
      f.Filepath = "This.Is.A.Series.S01E22.mkv".toList ∧ f.OriginalFile = []) ∧
    (NewParsedFile offlineEnv 1 "This.Is.A.Series.S01E22.mkv".toList
        [{ ForceMovie := true }]).map (fun f => (f.IsMovie, f.IsSeries, f.Season, f.Episode))
      = some (true, false, "".toList, "".toList) :=
  ⟨by decide,
    NewParsedFile_force_movie offlineEnv 0 "This.Is.A.Series.S01E22.mkv".toList
      { ForceMovie := true } (by decide) rfl rfl,
    by decide⟩

/-- C10: for every path with a recognised video extension and every options
value with ForceSeries = true, ForceMovie = false and lookup disabled,
NewParsedFile returns IsSeries = true and IsMovie = false, with Year, Season
and Episode exactly as left by the matching pass, and the record is that of
the path itself (no fallback to the parent directory), even when no season,
episode or year was found. -/
theorem NewParsedFile_force_series (env : Env) (fuel : Nat) (path : List Char) (o : Options)
    (hext : SupportedVideoExtensions (Ext path) = true)
    (hl : o.Lookup = false) (hfs : o.ForceSeries = true) (hfm : o.ForceMovie = false) :
    ∃ g f, matchingPass (initialFile env path [o]).Filename order (initialFile env path [o])
        = some g ∧
      NewParsedFile env (fuel + 1) path [o] = some f ∧ f.IsSeries = true ∧
      f.IsMovie = false ∧ f.Year = g.Year ∧ f.Season = g.Season ∧ f.Episode = g.Episode ∧
      f.Filepath = path ∧ f.OriginalFile = o.OriginalFile := by
  obtain ⟨g, hm, hfr⟩ := matchingPass_total (initialFile env path [o]).Filename order
    (initialFile env path [o]) order_matcherFits
  have hc : classify g (getOpts env [o]) path = .done { g with IsSeries := true } := by
    simp [classify, (getOpts_flags env o).2.1, (getOpts_flags env o).2.2.1, hfm, hfs]
  obtain ⟨r, hr, hrec⟩ := NewParsedFile_classified env fuel path o g _ hext hl hm hc rfl
  refine ⟨g, r, hm, hr, ?_, ?_, ?_, ?_, ?_, ?_, ?_⟩
  · rw [hrec]
  · rw [hrec]; exact hfr.2.2.1.trans (initialFile_fields env path o).2.1
  · rw [hrec]
  · rw [hrec]
  · rw [hrec]
  · rw [hrec]; exact hfr.2.2.2.2.2.2.1.trans (initialFile_fields env path o).2.2.2.1
  · rw [hrec]; exact hfr.2.2.2.2.2.2.2.1.trans (initialFile_fields env path o).2.2.2.2

set_option maxRecDepth 100000 in
/-- C10 (witness): "Ambiguous.File.mkv" with ForceSeries is a series with
no year, season or episode. -/
theorem NewParsedFile_force_series_witness :
    SupportedVideoExtensions (Ext "Ambiguous.File.mkv".toList) = true ∧
    (∃ g f, matchingPass
          (initialFile offlineEnv "Ambiguous.File.mkv".toList [{ ForceSeries := true }]).Filename
          order (initialFile offlineEnv "Ambiguous.File.mkv".toList [{ ForceSeries := true }])
        = some g ∧
      NewParsedFile offlineEnv 1 "Ambiguous.File.mkv".toList [{ ForceSeries := true }] = some f ∧
      f.IsSeries = true ∧ f.IsMovie = false ∧ f.Year = g.Year ∧ f.Season = g.Season ∧
      f.Episode = g.Episode ∧ f.Filepath = "Ambiguous.File.mkv".toList ∧ f.OriginalFile = []) ∧
    (NewParsedFile offlineEnv 1 "Ambiguous.File.mkv".toList [{ ForceSeries := true }]).map
        (fun f => (f.IsSeries, f.IsMovie, f.Year, f.Season, f.Episode))
      = some (true, false, "".toList, "".toList, "".toList) :=
  ⟨by decide,
    NewParsedFile_force_series offlineEnv 0 "Ambiguous.File.mkv".toList
      { ForceSeries := true } (by decide) rfl rfl rfl,
    by decide⟩


/-! ## Totality of NewParsedFile -/

/-- Invariants of the matching pass: a property kept by every step of the
`switch`, for submatches the matcher really returns, holds at the end. -/
theorem matchingPass_induct (filename : List Char) (P : ParsedFile → Prop) :
    ∀ (names : List String),
      (∀ name re res f g, name ∈ names → matcher name = some re →
        re.FindStringSubmatch filename = some res → P f → applyMatch f name res = some g → P g) →
      ∀ f g, P f → matchingPass filename names f = some g → P g := by
  intro names
  induction names with
  | nil => intro _ f g hf h; cases h; exact hf
  | cons name rest ih =>
    intro hstep f g hf h
    have hrest := ih (fun n re res f g hn => hstep n re res f g (List.mem_cons_of_mem _ hn))
    simp only [matchingPass] at h
    cases hm : matcher name with
    | none => rw [hm] at h; cases h
    | some re =>
      rw [hm] at h
      simp only at h
      cases hfind : re.FindStringSubmatch filename with
      | none => rw [hfind] at h; exact hrest f g hf h
      | some res =>
        rw [hfind] at h
        simp only at h
        by_cases hpos : 0 < res.length
        · rw [if_pos hpos] at h
          cases ha : applyMatch f name res with
          | none => rw [ha] at h; cases h
          | some f1 =>
            rw [ha] at h
            exact hrest f1 g (hstep name re res f f1 (List.mem_cons_self _ _) hm hfind hf ha) h
        · rw [if_neg hpos] at h
          exact hrest f g hf h

theorem foldl_digits_bound (d : List Char) (hd : ∀ c ∈ d, isDigit c = true) :
    ∀ acc, d.foldl (fun a c => a * 10 + (c.toNat - 48)) acc + 1 ≤ (acc + 1) * 10 ^ d.length := by
  induction d with
  | nil => intro acc; simp
  | cons x t ih =>
    intro acc
    have hx : isDigit x = true := hd x (List.mem_cons_self _ _)
    have hx9 : x.toNat - 48 ≤ 9 := by
      simp only [isDigit, Bool.and_eq_true, decide_eq_true_eq] at hx
      have h2 : '9'.toNat = 57 := rfl
      omega
    have := ih (fun c hc => hd c (List.mem_cons_of_mem _ hc)) (acc * 10 + (x.toNat - 48))
    simp only [List.foldl_cons, List.length_cons, pow_succ]
    calc _ ≤ (acc * 10 + (x.toNat - 48) + 1) * 10 ^ t.length := this
      _ ≤ ((acc + 1) * 10) * 10 ^ t.length := Nat.mul_le_mul_right _ (by omega)
      _ = (acc + 1) * (10 ^ t.length * 10) := by ring

/-- A run of `k` digits denotes a number below `10 ^ k`. -/
theorem decimalValue_lt (d : List Char) (hd : ∀ c ∈ d, isDigit c = true) :
    decimalValue d < 10 ^ d.length := by
  have := foldl_digits_bound d hd 0
  simp only [Nat.zero_add, Nat.one_mul] at this
  exact this

theorem natDigitsAux_length :
    ∀ (fuel n k : Nat) (acc : List Char), n < fuel → 1 ≤ k → n < 10 ^ k →
      (natDigitsAux fuel n acc).length ≤ k + acc.length := by
  intro fuel
  induction fuel with
  | zero => intro n k acc h; omega
  | succ f ih =>
    intro n k acc h hk hn
    by_cases h10 : n < 10
    · simp [natDigitsAux, h10]; omega
    · simp only [natDigitsAux, h10, if_false]
      have hk2 : 2 ≤ k := by
        by_contra hc
        have : k = 1 := by omega
        subst this
        simp at hn
        omega
      have hdiv : n / 10 < 10 ^ (k - 1) := by
        have : 10 ^ k = 10 ^ (k - 1) * 10 := by
          rw [← pow_succ]; congr 1; omega
        rw [this] at hn
        exact Nat.div_lt_of_lt_mul (by rw [Nat.mul_comm]; exact hn)
      have := ih (n / 10) (k - 1) (digitChar (n % 10) :: acc) (by omega) (by omega) hdiv
      simp only [List.length_cons] at this
      omega

/-- The number of digits of the rendering of a number below `10 ^ k`. -/
theorem natDigits_length (n k : Nat) (hk : 1 ≤ k) (hn : n < 10 ^ k) :
    (natDigits n).length ≤ k := by
  have := natDigitsAux_length (n + 1) n k [] (Nat.lt_succ_self n) hk hn
  simpa [natDigits] using this

theorem fmt02d_length (n k : Nat) (hk : 2 ≤ k) (hn : n < 10 ^ k) :
    (fmt02d (n : Int)).length ≤ k := by
  have h := natDigits_length n k (by omega) hn
  simp only [fmt02d, Int.natAbs_ofNat, padZero]
  have : ¬ ((n : Int) < 0) := by omega
  simp only [this, if_false, List.length_append, List.length_replicate]
  omega

theorem fmt02s_length (s : List Char) (h : s.length ≤ 2) : (fmt02s s).length = 2 := by
  simp only [fmt02s, padZero, List.length_append, List.length_replicate]
  omega



theorem trimRightBy_length (p : Char → Bool) (s : List Char) :
    (trimRightBy p s).length ≤ s.length := by
  unfold trimRightBy
  rw [List.length_reverse]
  have h := (List.dropWhile_sublist p (l := s.reverse)).length_le
  simpa using h

theorem TrimSpace_length (s : List Char) : (TrimSpace s).length ≤ s.length := by
  unfold TrimSpace
  have h1 := trimRightBy_length isSpace (s.dropWhile isSpace)
  have h2 := (List.dropWhile_sublist isSpace (l := s)).length_le
  omega

theorem trimBlank_length (s : List Char) : (trimBlank s).length ≤ s.length := by
  unfold trimBlank
  have h1 := trimRightBy_length (fun c => c == ' ') (s.dropWhile (fun c => c == ' '))
  have h2 := (List.dropWhile_sublist (fun c => c == ' ') (l := s)).length_le
  omega

theorem token_lengths {s d1 : List Char} {d2 : Option (List Char)}
    (h : IsEpisodeToken s d1 d2) :
    d1.length ≤ s.length ∧ ∀ e, d2 = some e → e.length ≤ s.length := by
  obtain ⟨pre, _, _, hrest⟩ := h
  cases d2 with
  | none =>
    simp only at hrest
    subst hrest
    exact ⟨by simp, fun e he => by cases he⟩
  | some e =>
    obtain ⟨_, sep, _, hs⟩ := hrest
    subst hs
    refine ⟨by simp; omega, fun e' he => ?_⟩
    cases he
    simp
    omega

/-- The numbers of a successful parse of a text of at most `k` characters
are natural numbers below `10 ^ k`. -/
theorem ParseEpisodeString_bounds (tok : List Char) (i : EpisodeInfo) (k : Nat)
    (hlen : tok.length ≤ k) (h : ParseEpisodeString tok = .ok i) :
    ∃ a b : Nat, i.Start = a ∧ i.End = b ∧ a < 10 ^ k ∧ b < 10 ^ k := by
  by_cases htok : tok = []
  · subst htok; cases h
  by_cases hg : ∃ d1 d2, IsEpisodeToken (TrimSpace tok) d1 d2
  · obtain ⟨d1, d2, ht⟩ := hg
    have hl := token_lengths ht
    have htl := TrimSpace_length tok
    have hbound : ∀ d : List Char, IsDigitRun d → d.length ≤ (TrimSpace tok).length →
        decimalValue d < 10 ^ k := by
      intro d hd hdl
      have h1 := decimalValue_lt d hd.2
      have h2 : 10 ^ d.length ≤ 10 ^ k := Nat.pow_le_pow_right (by decide) (by omega)
      exact Nat.lt_of_lt_of_le h1 h2
    have hrun1 : IsDigitRun d1 := by
      obtain ⟨pre, _, h1, _⟩ := ht
      exact h1
    rw [ParseEpisodeString_of_token tok d1 d2 ht] at h
    by_cases hv1 : decimalValue d1 < intLimit
    · cases d2 with
      | none =>
        simp [hv1] at h
        rw [← h]
        exact ⟨_, _, rfl, rfl, hbound d1 hrun1 hl.1, hbound d1 hrun1 hl.1⟩
      | some e =>
        have hrun2 : IsDigitRun e := by
          obtain ⟨pre, _, _, h2, _⟩ := ht
          exact h2
        by_cases hv2 : decimalValue e < intLimit
        · by_cases hlt : decimalValue e < decimalValue d1
          · simp [hv1, hv2, hlt] at h
          · simp [hv1, hv2, hlt] at h
            rw [← h]
            exact ⟨_, _, rfl, rfl, hbound d1 hrun1 hl.1, hbound e hrun2 (hl.2 e rfl)⟩
        · simp [hv1, hv2] at h
    · simp [hv1] at h
  · rw [ParseEpisodeString_not_token tok htok hg] at h
    cases h

/-- What the episode matcher matches and captures. -/
theorem episode_matcher_facts (re : Regexp) (hre : matcher "episode" = some re) :
    re.ngroups = 2 ∧ (∀ w, re.re.Matches w → w.length ≤ 8) ∧
      ∀ v, re.re.Captures 1 v → v.length = 2 := by
  simp [matcher, matchers] at hre
  subst hre
  refine ⟨rfl, ?_, ?_⟩
  · intro w hw
    simp only [Re.Matches, seqs, opt, classEX, oneOf, chr, digit] at hw
    obtain ⟨u1, v1, rfl, ⟨x, rfl, _⟩, u2, v2, rfl, ⟨a, b, rfl, ⟨y, rfl, _⟩, ⟨z, rfl, _⟩⟩, htail⟩ := hw
    rcases htail with ⟨u3, v3, rfl, hd, u4, v4, rfl, he, a', b', rfl, ⟨y', rfl, _⟩, ⟨z', rfl, _⟩⟩ | rfl
    · rcases hd with ⟨_, rfl, _⟩ | rfl <;> rcases he with ⟨_, rfl, _⟩ | rfl <;> simp
    · simp
  · intro v hv
    simp only [Re.Captures, Re.Matches, seqs, opt, classEX, oneOf, chr, digit, false_or,
      or_false, true_and] at hv
    simp at hv
    obtain ⟨u, w, rfl, ⟨x, rfl, _⟩, ⟨y, rfl, _⟩⟩ := hv
    rfl

/-- What the anime episode matcher matches. -/
theorem episodeAnime_matcher_facts (re : Regexp) (hre : matcher "episodeAnime" = some re) :
    re.ngroups = 2 ∧ ∀ w, re.re.Matches w → w.length ≤ 6 := by
  simp [matcher, matchers] at hre
  subst hre
  refine ⟨rfl, ?_⟩
  intro w hw
  simp only [Re.Matches, seqs, opt, oneOf, digit] at hw
  obtain ⟨u1, v1, rfl, ⟨x, rfl, _⟩, u2, v2, rfl, ⟨a, b, rfl, ⟨y, rfl, _⟩, ⟨z, rfl, _⟩⟩,
    u3, v3, rfl, ⟨s, rfl, _⟩, htail⟩ := hw
  rcases htail with ⟨a', b', rfl, ⟨y', rfl, _⟩, ⟨z', rfl, _⟩⟩ | rfl <;> simp


theorem applyMatch_Episode_of_ne (f g : ParsedFile) (name : String) (res : Caps)
    (h1 : name ≠ "episode") (h2 : name ≠ "episodeAnime")
    (h : applyMatch f name res = some g) : g.Episode = f.Episode := by
  unfold applyMatch at h
  repeat' split at h
  all_goals first
    | exact absurd (by assumption) h1
    | exact absurd (by assumption) h2
    | (cases h <;> rfl)

/-- What the `episode` case of the matching pass writes. -/
theorem applyMatch_episode (f g : ParsedFile) (res : Caps) (r0 r1 : List Char)
    (h0 : res[0]? = some r0) (h1 : res[1]? = some r1)
    (h : applyMatch f "episode" res = some g) :
    (∃ e, ParseEpisodeString r0 = .error e ∧ g = { f with Episode := fmt02s r1 }) ∨
    (∃ i, ParseEpisodeString r0 = .ok i ∧ i.IsRange = true ∧
      g = { f with Episode := fmt02d i.Start ++ "-E".toList ++ fmt02d i.End }) ∨
    (∃ i, ParseEpisodeString r0 = .ok i ∧ i.IsRange = false ∧
      g = { f with Episode := fmt02d i.Start }) := by
  simp [applyMatch, h0, h1] at h
  cases hp : ParseEpisodeString r0 with
  | error e =>
    rw [hp] at h
    cases e <;> simp at h <;> exact Or.inl ⟨_, rfl, h.symm⟩
  | ok i =>
    rw [hp] at h
    simp only at h
    by_cases hr : i.IsRange = true
    · rw [if_pos hr] at h
      simp only [Option.some.injEq] at h
      exact Or.inr (Or.inl ⟨i, rfl, hr, by rw [← h]; simp⟩)
    · rw [if_neg hr] at h
      simp only [Option.some.injEq] at h
      exact Or.inr (Or.inr ⟨i, rfl, by simpa using hr, h.symm⟩)

/-- The matching pass leaves an episode of at most 18 characters. -/
theorem matchingPass_Episode_length (filename : List Char) (names : List String)
    (f g : ParsedFile) (hf : f.Episode.length ≤ 18)
    (h : matchingPass filename names f = some g) : g.Episode.length ≤ 18 := by
  refine matchingPass_induct filename (fun x => x.Episode.length ≤ 18) names ?_ f g hf h
  intro name re res f1 g1 _ hm hfind hP ha
  by_cases he : name = "episode"
  · subst he
    obtain ⟨hng, hlen, hcap⟩ := episode_matcher_facts re hm
    obtain ⟨⟨pre, w, post, _, hw, h0⟩, hcaps⟩ := FindStringSubmatch_sound re filename res hfind
    obtain ⟨v, hv, hvcap⟩ := hcaps 1 (by decide) (by omega)
    have hvl : v.length ≤ 2 := by
      rcases hvcap with h0 | h0
      · subst h0; simp
      · rw [hcap v h0]
    have hwl := hlen w hw
    have h10 : (10 : Nat) ^ 8 = 100000000 := by norm_num
    rcases applyMatch_episode f1 g1 res w v h0 hv ha with ⟨e, _, hg⟩ | ⟨i, hp, _, hg⟩ | ⟨i, hp, _, hg⟩
    · rw [hg]
      show (fmt02s v).length ≤ 18
      rw [fmt02s_length v hvl]
      decide
    · obtain ⟨a, b, ha1, hb1, hal, hbl⟩ := ParseEpisodeString_bounds w i 8 hwl hp
      rw [hg, ha1, hb1]
      have l1 := fmt02d_length a 8 (by decide) hal
      have l2 := fmt02d_length b 8 (by decide) hbl
      show (fmt02d (a : Int) ++ "-E".toList ++ fmt02d (b : Int)).length ≤ 18
      simp only [List.length_append]
      have : "-E".toList.length = 2 := rfl
      omega
    · obtain ⟨a, b, ha1, hb1, hal, hbl⟩ := ParseEpisodeString_bounds w i 8 hwl hp
      rw [hg, ha1]
      have l1 := fmt02d_length a 8 (by decide) hal
      show (fmt02d (a : Int)).length ≤ 18
      omega
  · by_cases hea : name = "episodeAnime"
    · subst hea
      obtain ⟨hng, hlen⟩ := episodeAnime_matcher_facts re hm
      obtain ⟨⟨pre, w, post, _, hw, h0⟩, _⟩ := FindStringSubmatch_sound re filename res hfind
      have hwl := hlen w hw
      simp [applyMatch, h0] at ha
      by_cases hE : f1.Episode = []
      · rw [if_pos hE] at ha
        simp at ha
        rw [← ha]
        show (trimBlank w).length ≤ 18
        have := trimBlank_length w
        omega
      · rw [if_neg hE] at ha
        simp at ha
        rw [← ha]
        exact hP
    · rw [applyMatch_Episode_of_ne f1 g1 name res he hea ha]
      exact hP


theorem SameIdentity.rfl' (f : ParsedFile) : SameIdentity f f :=
  ⟨rfl, rfl, rfl, rfl, rfl, rfl, rfl, rfl, rfl, rfl⟩

theorem queryTmdb_eq (env : Env) (p : ParsedFile) :
    queryTmdb env p =
      if p.IsSeries then
        match env.SearchTv p.CleanName (tmdbOptions p) with
        | none => some p
        | some [] => some p
        | some (tv :: _) =>
          match Atoi (adoptSeries p tv).Season with
          | none => some (adoptSeries p tv)
          | some seasonNum => queryEpisodes env (adoptSeries p tv) tv.ID seasonNum (tmdbOptions p)
      else if p.IsMovie then
        match env.SearchMovie p.CleanName (tmdbOptions p) with
        | none => some p
        | some [] => some p
        | some (mov :: _) =>
          some { p with ExternalID := mov.ID, ExternalName := mov.Title, CleanName := mov.Title }
      else some p := rfl

theorem adoptSeries_identity (p : ParsedFile) (tv : TvShort) :
    SameIdentity p (adoptSeries p tv) := by
  unfold adoptSeries
  dsimp only
  split_ifs <;> exact ⟨rfl, rfl, rfl, rfl, rfl, rfl, rfl, rfl, rfl, rfl⟩

theorem SameIdentity.chain {f g h : ParsedFile} (a : SameIdentity f g) (b : SameIdentity g h) :
    SameIdentity f h := by
  obtain ⟨a1, a2, a3, a4, a5, a6, a7, a8, a9, a10⟩ := a
  obtain ⟨b1, b2, b3, b4, b5, b6, b7, b8, b9, b10⟩ := b
  exact ⟨b1.trans a1, b2.trans a2, b3.trans a3, b4.trans a4, b5.trans a5, b6.trans a6,
    b7.trans a7, b8.trans a8, b9.trans a9, b10.trans a10⟩

theorem queryEpisodes_total (env : Env) (p : ParsedFile) (tvID seasonNum : Int)
    (options : List (String × List Char)) (hlen : p.Episode.length ≤ 18) :
    ∃ r, queryEpisodes env p tvID seasonNum options = some r ∧ SameIdentity p r := by
  have h63 : (intLimit : Int) = 9223372036854775808 := rfl
  have hidx := ParseEpisodeString_no_index_error p.Episode
  unfold queryEpisodes
  cases hp : ParseEpisodeString p.Episode with
  | error e =>
    cases e
    case indexOutOfRange => exact absurd hp hidx
    all_goals
      dsimp only
      rw [if_neg (by rw [h63]; intro h; omega)]
      split_ifs
      · exact ⟨_, rfl, rfl, rfl, rfl, rfl, rfl, rfl, rfl, rfl, rfl, rfl⟩
      · exact ⟨_, rfl, SameIdentity.rfl' p⟩
  | ok i =>
    dsimp only
    obtain ⟨a, b, _, hb, _, hbl⟩ := ParseEpisodeString_bounds p.Episode i 18 hlen hp
    have h10 : (10 : Nat) ^ 18 = 1000000000000000000 := by norm_num
    rw [if_neg (by rw [h63, hb]; intro h; omega)]
    split_ifs
    · exact ⟨_, rfl, rfl, rfl, rfl, rfl, rfl, rfl, rfl, rfl, rfl, rfl⟩
    · exact ⟨_, rfl, SameIdentity.rfl' p⟩

/-- The catalog lookup returns, and leaves the classification alone. -/
theorem queryTmdb_total (env : Env) (p : ParsedFile) (hlen : p.Episode.length ≤ 18) :
    ∃ r, queryTmdb env p = some r ∧ SameIdentity p r := by
  rw [queryTmdb_eq]
  split_ifs
  · split
    · exact ⟨_, rfl, SameIdentity.rfl' p⟩
    · exact ⟨_, rfl, SameIdentity.rfl' p⟩
    · rename_i tv rest hsearch
      have hid := adoptSeries_identity p tv
      split
      · exact ⟨_, rfl, hid⟩
      · obtain ⟨r, hr, hrid⟩ := queryEpisodes_total env (adoptSeries p tv) tv.ID _ (tmdbOptions p)
          (by rw [hid.2.2.2.2.2.2.2.2.1]; exact hlen)
        exact ⟨r, hr, hid.chain hrid⟩
  · split
    · exact ⟨_, rfl, SameIdentity.rfl' p⟩
    · exact ⟨_, rfl, SameIdentity.rfl' p⟩
    · exact ⟨_, rfl, ⟨rfl, rfl, rfl, rfl, rfl, rfl, rfl, rfl, rfl, rfl⟩⟩
  · exact ⟨_, rfl, SameIdentity.rfl' p⟩


theorem translateSeason_identity (env : Env) (f : ParsedFile) :
    SameIdentity f (translateSeason env f) ∧ (translateSeason env f).Year = f.Year ∧
      (translateSeason env f).CleanName = f.CleanName := by
  unfold translateSeason
  split_ifs
  · dsimp only
    cases List.find? (fun s => s.Name == "Season ".toList ++ f.Season)
        (env.GetTvInfo f.ExternalID [("language", f.Options.TMDBLanguage)]) with
    | some s => exact ⟨⟨rfl, rfl, rfl, rfl, rfl, rfl, rfl, rfl, rfl, rfl⟩, rfl, rfl⟩
    | none => exact ⟨SameIdentity.rfl' f, rfl, rfl⟩
  · exact ⟨SameIdentity.rfl' f, rfl, rfl⟩

/-- The end of NewParsedFile returns a record and leaves the classification
alone, whatever the lookup option. -/
theorem finish_total (env : Env) (opts : Options) (f : ParsedFile) (cleanName : List Char)
    (hlen : f.Episode.length ≤ 18) :
    ∃ r, finish env opts f cleanName = some r ∧ SameIdentity f r := by
  unfold finish
  dsimp only
  have h0 : SameIdentity f { f with CleanName := Replace cleanName [':'] [] } :=
    ⟨rfl, rfl, rfl, rfl, rfl, rfl, rfl, rfl, rfl, rfl⟩
  have hq : ∃ q, (if opts.Lookup = true then
      queryTmdb env { f with CleanName := Replace cleanName [':'] [] }
      else some { f with CleanName := Replace cleanName [':'] [] }) = some q ∧
      SameIdentity f q := by
    split_ifs
    · obtain ⟨q, hq, hid⟩ := queryTmdb_total env { f with CleanName := Replace cleanName [':'] [] }
        hlen
      exact ⟨q, hq, h0.chain hid⟩
    · exact ⟨_, rfl, h0⟩
  obtain ⟨q, hq1, hq2⟩ := hq
  rw [hq1]
  dsimp only
  have ht := (translateSeason_identity env q).1
  split_ifs
  · exact ⟨_, rfl, hq2.chain (ht.chain ⟨rfl, rfl, rfl, rfl, rfl, rfl, rfl, rfl, rfl, rfl⟩)⟩
  · exact ⟨_, rfl, hq2.chain (ht.chain ⟨rfl, rfl, rfl, rfl, rfl, rfl, rfl, rfl, rfl, rfl⟩)⟩

/-- What the decision chain returns when it classifies. -/
theorem classify_done (g f1 : ParsedFile) (opts : Options) (path : List Char)
    (h : classify g opts path = .done f1) :
    f1.IsMusic = g.IsMusic ∧ f1.Filename = g.Filename ∧ f1.Filepath = g.Filepath ∧
      f1.OriginalFile = g.OriginalFile ∧ f1.Extension = g.Extension ∧ f1.Options = g.Options ∧
      f1.ExternalID = g.ExternalID ∧ f1.Year = g.Year ∧ f1.AnimeGroup = g.AnimeGroup ∧
      f1.hasYearAsSeason = g.hasYearAsSeason ∧
      (f1.Episode = g.Episode ∨ f1.Episode = []) ∧ (f1.Season = g.Season ∨ f1.Season = []) ∧
      ((f1.IsMovie = true ∧ f1.IsSeries = g.IsSeries) ∨
        (f1.IsSeries = true ∧ f1.IsMovie = g.IsMovie) ∨
        (f1.IsMovie = g.IsMovie ∧ f1.IsSeries = g.IsSeries)) := by
  unfold classify at h
  dsimp only at h
  split_ifs at h <;> cases h <;>
    exact ⟨rfl, rfl, rfl, rfl, rfl, rfl, rfl, rfl, rfl, rfl, by simp, by simp, by simp⟩

/-- The fallback to the parent directory is only taken on a first call, and
hands the path on as OriginalFile. -/
theorem classify_retry (g : ParsedFile) (opts o1 : Options) (path p1 : List Char)
    (h : classify g opts path = .retry p1 o1) :
    opts.ForceMovie = false ∧ opts.ForceSeries = false ∧ g.Season = [] ∧ g.Year = [] ∧
      opts.OriginalFile = [] ∧ Base (Dir path) ≠ ['.'] ∧
      p1 = Base (Dir path) ++ g.Extension ∧ o1 = { opts with OriginalFile := path } := by
  unfold classify at h
  dsimp only at h
  split_ifs at h with h1 h2 h3 h4 h5 h6 h7
  cases h
  refine ⟨by simpa using h1, by simpa using h2, by simpa using h3, ?_, h7.2.1, h7.2.2, rfl, rfl⟩
  by_contra hy
  by_cases he : g.Episode = []
  · exact h4 ⟨hy, he⟩
  · exact h5 ⟨hy, he⟩

theorem NewParsedFile_video_retry (env : Env) (fuel : Nat) (path p1 : List Char)
    (o : List Options) (o1 : Options) (g : ParsedFile)
    (hext : SupportedVideoExtensions (Ext path) = true)
    (hm : matchingPass (initialFile env path o).Filename order (initialFile env path o) = some g)
    (hc : classify g (getOpts env o) path = .retry p1 o1) :
    NewParsedFile env (fuel + 1) path o = NewParsedFile env fuel p1 [o1] := by
  obtain ⟨g0, hg0, hfr⟩ := matchingPass_total (initialFile env path o).Filename order
    (initialFile env path o) order_matcherFits
  rw [hm] at hg0
  cases hg0
  have hmusic : g.IsMusic = false := hfr.1
  have hext2 : SupportedVideoExtensions (initialFile env path o).Extension = true := hext
  simp only [NewParsedFile, hext2, if_true, hm, hmusic, Bool.not_false, hc]

theorem NewParsedFile_not_video (env : Env) (fuel : Nat) (path : List Char) (o : List Options)
    (hext : SupportedVideoExtensions (Ext path) = false) :
    NewParsedFile env (fuel + 1) path o =
      some (if SupportedMusicExtensions (Ext path) = true then
        { initialFile env path o with IsMusic := true } else initialFile env path o) := by
  have hext2 : SupportedVideoExtensions (initialFile env path o).Extension = false := hext
  have he : (initialFile env path o).Extension = Ext path := rfl
  simp only [NewParsedFile, hext2, he]
  split_ifs <;> simp_all


theorem flagCount_congr {f r : ParsedFile} (h : SameIdentity f r) :
    flagCount r = flagCount f := by
  unfold flagCount
  rw [h.1, h.2.1, h.2.2.1]

theorem initialFile_Episode (env : Env) (path : List Char) (o : List Options) :
    (initialFile env path o).Episode = [] ∧ (initialFile env path o).Year = [] ∧
      (initialFile env path o).Season = [] ∧ (initialFile env path o).IsMovie = false ∧
      (initialFile env path o).IsSeries = false ∧ (initialFile env path o).IsMusic = false ∧
      (initialFile env path o).Filepath = path ∧
      (initialFile env path o).OriginalFile = (getOpts env o).OriginalFile ∧
      (initialFile env path o).Extension = Ext path ∧
      (initialFile env path o).Filename = Base (TrimSuffix path (Ext path)) ∧
      (initialFile env path o).ExternalID = 0 ∧
      (initialFile env path o).hasYearAsSeason = false :=
  ⟨rfl, rfl, rfl, rfl, rfl, rfl, rfl, rfl, rfl, rfl, rfl, rfl⟩

/-- A video file that the decision chain classifies: NewParsedFile returns a
record, whatever the fuel and the lookup option, with the classification of
the decision chain. -/
theorem NewParsedFile_done_total (env : Env) (fuel : Nat) (path : List Char)
    (o : List Options) (g f1 : ParsedFile)
    (hext : SupportedVideoExtensions (Ext path) = true)
    (hm : matchingPass (initialFile env path o).Filename order (initialFile env path o) = some g)
    (hc : classify g (getOpts env o) path = .done f1) :
    ∃ r, NewParsedFile env (fuel + 1) path o = some r ∧ NewParsedFile env 1 path o = some r ∧
      SameIdentity f1 r := by
  have hge : g.Episode.length ≤ 18 :=
    matchingPass_Episode_length _ order _ g (by simp [(initialFile_Episode env path o).1]) hm
  have hf1 : f1.Episode.length ≤ 18 := by
    rcases (classify_done g f1 _ path hc).2.2.2.2.2.2.2.2.2.2.1 with h | h <;> rw [h]
    · exact hge
    · simp
  rw [NewParsedFile_video_done env fuel path o g f1 hext hm hc,
    NewParsedFile_video_done env 0 path o g f1 hext hm hc]
  obtain ⟨c, hc1⟩ := cleaningPass_total f1 order (Replace g.Filename ['.'] [' '])
    order_matcherFits
  rw [hc1]
  obtain ⟨r, hr, hid⟩ := finish_total env (getOpts env o) f1 (polish env f1 c) hf1
  exact ⟨r, hr, hr, hid⟩

theorem video_path_ne_nil (path : List Char)
    (hext : SupportedVideoExtensions (Ext path) = true) : path ≠ [] := by
  rintro rfl
  revert hext
  decide

/-- One call of NewParsedFile either returns a record (the same for every
fuel, with at most one flag set, for the path it was given) or is the
fallback call on the parent directory name, made with OriginalFile set to
the path. -/
theorem NewParsedFile_call (env : Env) (path : List Char) (o : List Options) :
    (∃ f, (∀ fuel, NewParsedFile env (fuel + 1) path o = some f) ∧
      flagCount f ≤ 1 ∧ f.Filepath = path ∧ f.OriginalFile = (getOpts env o).OriginalFile ∧
      f.Filename = Base (TrimSuffix path (Ext path))) ∨
    (∃ p1 o1, (∀ fuel, NewParsedFile env (fuel + 1) path o = NewParsedFile env fuel p1 [o1]) ∧
      (getOpts env o).OriginalFile = [] ∧ o1.OriginalFile = path ∧ path ≠ [] ∧
      o1.Lookup = (getOpts env o).Lookup) := by
  have hi := initialFile_Episode env path o
  by_cases hext : SupportedVideoExtensions (Ext path) = true
  · obtain ⟨g, hm, hfr⟩ := matchingPass_total (initialFile env path o).Filename order
      (initialFile env path o) order_matcherFits
    cases hc : classify g (getOpts env o) path with
    | done f1 =>
      obtain ⟨r, _, hr1, hid⟩ := NewParsedFile_done_total env 0 path o g f1 hext hm hc
      have hd := classify_done g f1 _ path hc
      refine Or.inl ⟨r, ?_, ?_, ?_, ?_, ?_⟩
      · intro fuel
        obtain ⟨r2, hr2, hr21, _⟩ := NewParsedFile_done_total env fuel path o g f1 hext hm hc
        rw [hr1] at hr21
        cases hr21
        exact hr2
      · rw [flagCount_congr hid]
        unfold flagCount
        have hmu : f1.IsMusic = false := hd.1.trans (hfr.1.trans hi.2.2.2.2.2.1)
        have hse : g.IsSeries = false := hfr.2.1.trans hi.2.2.2.2.1
        have hmo : g.IsMovie = false := hfr.2.2.1.trans hi.2.2.2.1
        rcases hd.2.2.2.2.2.2.2.2.2.2.2.2 with ⟨h1, h2⟩ | ⟨h1, h2⟩ | ⟨h1, h2⟩ <;>
          simp [h1, h2, hmu, hse, hmo]
      · rw [hid.2.2.2.2.1, hd.2.2.1, hfr.2.2.2.2.2.2.1, hi.2.2.2.2.2.2.1]
      · rw [hid.2.2.2.2.2.1, hd.2.2.2.1, hfr.2.2.2.2.2.2.2.1, hi.2.2.2.2.2.2.2.1]
      · rw [hid.2.2.2.1, hd.2.1, hfr.2.2.2.2.1, hi.2.2.2.2.2.2.2.2.2.1]
    | retry p1 o1 =>
      have hr := classify_retry g _ o1 path p1 hc
      refine Or.inr ⟨p1, o1,
        fun fuel => NewParsedFile_video_retry env fuel path p1 o o1 g hext hm hc,
        hr.2.2.2.2.1, ?_, video_path_ne_nil path hext, ?_⟩
      · rw [hr.2.2.2.2.2.2.2]
      · rw [hr.2.2.2.2.2.2.2]
  · have hext2 : SupportedVideoExtensions (Ext path) = false := by simpa using hext
    refine Or.inl ⟨_, fun fuel => NewParsedFile_not_video env fuel path o hext2, ?_, ?_, ?_, ?_⟩
    · split_ifs <;> simp [flagCount, hi.2.2.2.1, hi.2.2.2.2.1, hi.2.2.2.2.2.1]
    · split_ifs <;> exact hi.2.2.2.2.2.2.1
    · split_ifs <;> exact hi.2.2.2.2.2.2.2.1
    · split_ifs <;> exact hi.2.2.2.2.2.2.2.2.2.1

theorem getOpts_singleton_OriginalFile (env : Env) (o : Options) :
    (getOpts env [o]).OriginalFile = o.OriginalFile := (getOpts_flags env o).2.2.2.1

/-- NewParsedFile returns a record on every path and options value as soon
as the fuel is 2 (the fallback is entered at most once), and the record has
at most one classification flag set. -/
theorem NewParsedFile_total (env : Env) (path : List Char) (o : List Options) :
    ∃ f, (∀ fuel, NewParsedFile env (fuel + 2) path o = some f) ∧ flagCount f ≤ 1 := by
  rcases NewParsedFile_call env path o with ⟨f, hf, hc, _⟩ | ⟨p1, o1, he, _, ho1, hp, _⟩
  · exact ⟨f, fun fuel => hf (fuel + 1), hc⟩
  · rcases NewParsedFile_call env p1 [o1] with ⟨f, hf, hc, _⟩ | ⟨p2, o2, _, hnil, _⟩
    · exact ⟨f, fun fuel => (he (fuel + 1)).trans (hf fuel), hc⟩
    · rw [getOpts_singleton_OriginalFile, ho1] at hnil
      exact absurd hnil hp

/-! ## The fields written by the matching pass -/

theorem matchingPass_single (filename : List Char) (name : String) (f g : ParsedFile)
    (h : matchingPass filename [name] f = some g) :
    (submatch name filename = none ∧ g = f) ∨
      ∃ res, submatch name filename = some res ∧ applyMatch f name res = some g := by
  simp only [matchingPass] at h
  unfold submatch
  cases hm : matcher name with
  | none => rw [hm] at h; cases h
  | some re =>
    rw [hm] at h
    simp only at h ⊢
    cases hf : re.FindStringSubmatch filename with
    | none => rw [hf] at h; cases h; exact Or.inl ⟨rfl, rfl⟩
    | some res =>
      rw [hf] at h
      simp only at h
      have hlen := FindStringSubmatch_length re filename res hf
      rw [if_pos (by omega)] at h
      cases ha : applyMatch f name res with
      | none => rw [ha] at h; cases h
      | some f1 => rw [ha] at h; cases h; exact Or.inr ⟨res, rfl, ha⟩

theorem submatch_length (name : String) (filename : List Char) (res : Caps)
    (h : submatch name filename = some res) :
    ∃ re, matcher name = some re ∧ re.FindStringSubmatch filename = some res ∧
      res.length = re.ngroups + 1 := by
  unfold submatch at h
  cases hm : matcher name with
  | none => rw [hm] at h; cases h
  | some re =>
    rw [hm] at h
    exact ⟨re, rfl, h, FindStringSubmatch_length re filename res h⟩

theorem getD_of_getElem? {res : Caps} {n : Nat} {v : List Char} (h : res[n]? = some v) :
    res.getD n [] = v := by
  simp [List.getD, h]

theorem getElem?_of_length (res : Caps) (n : Nat) (h : n < res.length) :
    res[n]? = some (res.getD n []) := by
  simp [List.getD, List.getElem?_eq_getElem h]


theorem core_matcher_ngroups (name : String) (re : Regexp)
    (hn : name = "yearAsSeason" ∨ name = "year" ∨ name = "season" ∨ name = "episode" ∨
      name = "episodeAnime")
    (hm : matcher name = some re) : re.ngroups = 2 := by
  rcases hn with h | h | h | h | h <;> subst h <;> simp [matcher, matchers] at hm <;>
    rw [← hm]

theorem core_submatch_entries (name : String) (filename : List Char) (res : Caps)
    (hn : name = "yearAsSeason" ∨ name = "year" ∨ name = "season" ∨ name = "episode" ∨
      name = "episodeAnime")
    (h : submatch name filename = some res) : ∃ r0 r1 r2, res = [r0, r1, r2] := by
  obtain ⟨re, hm, _, hlen⟩ := submatch_length name filename res h
  rw [core_matcher_ngroups name re hn hm] at hlen
  match res, hlen with
  | [r0, r1, r2], _ => exact ⟨r0, r1, r2, rfl⟩

theorem step_yearAsSeason (filename : List Char) (f g : ParsedFile)
    (h : matchingPass filename ["yearAsSeason"] f = some g) :
    g.Season = (match submatch "yearAsSeason" filename with
      | some res => res.getD 2 []
      | none => f.Season) ∧
    g.hasYearAsSeason = (f.hasYearAsSeason || (submatch "yearAsSeason" filename).isSome) ∧
    g.Year = f.Year ∧ g.Episode = f.Episode := by
  rcases matchingPass_single filename _ f g h with ⟨hn, rfl⟩ | ⟨res, hs, ha⟩
  · simp [hn]
  · obtain ⟨r0, r1, r2, rfl⟩ := core_submatch_entries _ filename res (Or.inl rfl) hs
    simp [applyMatch] at ha
    rw [← ha, hs]
    simp

theorem step_year (filename : List Char) (f g : ParsedFile)
    (h : matchingPass filename ["year"] f = some g) :
    g.Year = (match submatch "year" filename with
      | some res => if f.Season = res.getD 2 [] then f.Year else res.getD 2 []
      | none => f.Year) ∧
    g.Season = f.Season ∧ g.hasYearAsSeason = f.hasYearAsSeason ∧ g.Episode = f.Episode := by
  rcases matchingPass_single filename _ f g h with ⟨hn, rfl⟩ | ⟨res, hs, ha⟩
  · simp [hn]
  · obtain ⟨r0, r1, r2, rfl⟩ := core_submatch_entries _ filename res (Or.inr (Or.inl rfl)) hs
    simp [applyMatch] at ha
    rw [hs]
    by_cases hc : f.Season = r2
    · rw [if_pos hc] at ha
      simp at ha
      rw [← ha]
      simp [hc]
    · rw [if_neg hc] at ha
      simp at ha
      rw [← ha]
      simp [hc]

theorem step_season (filename : List Char) (f g : ParsedFile)
    (h : matchingPass filename ["season"] f = some g) :
    g.Season = (if f.Season = [] then
      (match submatch "season" filename with
        | some res => fmt02s (res.getD 2 [])
        | none => [])
      else f.Season) ∧
    g.Year = f.Year ∧ g.hasYearAsSeason = f.hasYearAsSeason ∧ g.Episode = f.Episode := by
  rcases matchingPass_single filename _ f g h with ⟨hn, rfl⟩ | ⟨res, hs, ha⟩
  · simp only [hn, and_self, and_true]
    split_ifs with h0
    · exact h0
    · rfl
  · obtain ⟨r0, r1, r2, rfl⟩ :=
      core_submatch_entries _ filename res (Or.inr (Or.inr (Or.inl rfl))) hs
    simp [applyMatch] at ha
    rw [hs]
    by_cases hc : f.Season = []
    · rw [if_pos hc] at ha
      simp at ha
      rw [← ha]
      simp [hc]
    · rw [if_neg hc] at ha
      simp at ha
      rw [← ha]
      simp [hc]

theorem applyMatch_episode_text (f g : ParsedFile) (r0 r1 r2 : List Char)
    (h : applyMatch f "episode" [r0, r1, r2] = some g) :
    g = { f with Episode := episodeText [r0, r1, r2] } := by
  unfold episodeText
  rcases applyMatch_episode f g [r0, r1, r2] r0 r1 rfl rfl h with
    ⟨e, he, hg⟩ | ⟨i, hi, hr, hg⟩ | ⟨i, hi, hr, hg⟩
  · rw [hg]
    simp only [List.getD_cons_zero, List.getD_cons_succ, he]
  · rw [hg]
    simp only [List.getD_cons_zero, List.getD_cons_succ, hi, hr, if_true]
  · rw [hg]
    simp only [List.getD_cons_zero, List.getD_cons_succ, hi, hr, Bool.false_eq_true, if_false]

theorem step_episode (filename : List Char) (f g : ParsedFile)
    (h : matchingPass filename ["episode"] f = some g) :
    g.Episode = (match submatch "episode" filename with
      | some res => episodeText res
      | none => f.Episode) ∧
    g.Season = f.Season ∧ g.Year = f.Year ∧ g.hasYearAsSeason = f.hasYearAsSeason := by
  rcases matchingPass_single filename _ f g h with ⟨hn, rfl⟩ | ⟨res, hs, ha⟩
  · simp [hn]
  · obtain ⟨r0, r1, r2, rfl⟩ :=
      core_submatch_entries _ filename res (Or.inr (Or.inr (Or.inr (Or.inl rfl)))) hs
    rw [applyMatch_episode_text f g r0 r1 r2 ha, hs]
    exact ⟨rfl, rfl, rfl, rfl⟩

theorem step_episodeAnime (filename : List Char) (f g : ParsedFile)
    (h : matchingPass filename ["episodeAnime"] f = some g) :
    (g.Episode, g.Season) = (match submatch "episodeAnime" filename with
      | some res =>
        if f.Episode = [] then (trimBlank (res.getD 0 []), "00".toList)
        else (f.Episode, f.Season)
      | none => (f.Episode, f.Season)) ∧
    g.Year = f.Year ∧ g.hasYearAsSeason = f.hasYearAsSeason := by
  rcases matchingPass_single filename _ f g h with ⟨hn, rfl⟩ | ⟨res, hs, ha⟩
  · simp [hn]
  · obtain ⟨r0, r1, r2, rfl⟩ :=
      core_submatch_entries _ filename res (Or.inr (Or.inr (Or.inr (Or.inr rfl)))) hs
    simp [applyMatch] at ha
    rw [hs]
    by_cases hc : f.Episode = []
    · rw [if_pos hc] at ha
      simp at ha
      rw [← ha]
      simp [hc]
    · rw [if_neg hc] at ha
      simp at ha
      rw [← ha]
      simp [hc]

theorem applyMatch_core_of_ne (f g : ParsedFile) (name : String) (res : Caps)
    (hn : name ∉ ["yearAsSeason", "year", "season", "episode", "episodeAnime"])
    (h : applyMatch f name res = some g) :
    g.Season = f.Season ∧ g.Year = f.Year ∧ g.Episode = f.Episode ∧
      g.hasYearAsSeason = f.hasYearAsSeason := by
  simp only [List.mem_cons, List.mem_singleton, List.not_mem_nil, or_false, not_or] at hn
  obtain ⟨n1, n2, n3, n4, n5⟩ := hn
  unfold applyMatch at h
  rw [if_neg n1, if_neg n2, if_neg n3, if_neg n4] at h
  repeat' split at h
  all_goals first
    | exact absurd (by assumption) n5
    | (cases h <;> exact ⟨rfl, rfl, rfl, rfl⟩)

theorem matchingPass_core_of_rest (filename : List Char) (names : List String)
    (hn : ∀ n ∈ names, n ∉ ["yearAsSeason", "year", "season", "episode", "episodeAnime"])
    (f g : ParsedFile) (h : matchingPass filename names f = some g) :
    g.Season = f.Season ∧ g.Year = f.Year ∧ g.Episode = f.Episode ∧
      g.hasYearAsSeason = f.hasYearAsSeason := by
  refine matchingPass_induct filename (fun x => x.Season = f.Season ∧ x.Year = f.Year ∧
    x.Episode = f.Episode ∧ x.hasYearAsSeason = f.hasYearAsSeason) names ?_ f g
    ⟨rfl, rfl, rfl, rfl⟩ h
  intro name re res f1 g1 hmem _ _ hP ha
  obtain ⟨a1, a2, a3, a4⟩ := applyMatch_core_of_ne f1 g1 name res (hn name hmem) ha
  exact ⟨a1.trans hP.1, a2.trans hP.2.1, a3.trans hP.2.2.1, a4.trans hP.2.2.2⟩

theorem order_eq : order = "yearAsSeason" :: "year" :: "season" :: "episode" ::
    "episodeAnime" :: ["groupAnime", "audio", "resolution", "quality", "codec", "group",
      "proper", "repack", "hardcoded", "extended", "internal"] := rfl

/-- The season, year, episode and year-as-season mark the matching pass
leaves on a fresh record, by the matches of the five matchers that write
them. -/
theorem matchingPass_fields (filename : List Char) (f g : ParsedFile)
    (hS : f.Season = []) (hY : f.Year = []) (hE : f.Episode = [])
    (hH : f.hasYearAsSeason = false)
    (h : matchingPass filename order f = some g) :
    g.Season = matchedSeason filename ∧ g.Year = matchedYear filename ∧
      g.Episode = matchedEpisode filename ∧
      g.hasYearAsSeason = (submatch "yearAsSeason" filename).isSome := by
  rw [order_eq] at h
  obtain ⟨f1, h1, h⟩ := matchingPass_cons filename _ _ f g h
  obtain ⟨f2, h2, h⟩ := matchingPass_cons filename _ _ f1 g h
  obtain ⟨f3, h3, h⟩ := matchingPass_cons filename _ _ f2 g h
  obtain ⟨f4, h4, h⟩ := matchingPass_cons filename _ _ f3 g h
  obtain ⟨f5, h5, h⟩ := matchingPass_cons filename _ _ f4 g h
  obtain ⟨a1, a2, a3, a4⟩ := step_yearAsSeason filename f f1 h1
  obtain ⟨b1, b2, b3, b4⟩ := step_year filename f1 f2 h2
  obtain ⟨c1, c2, c3, c4⟩ := step_season filename f2 f3 h3
  obtain ⟨d1, d2, d3, d4⟩ := step_episode filename f3 f4 h4
  obtain ⟨e1, e2, e3⟩ := step_episodeAnime filename f4 f5 h5
  obtain ⟨r1, r2, r3, r4⟩ := matchingPass_core_of_rest filename _ (by decide) f5 g h
  have s1 : f1.Season = seasonOfYear filename := by
    rw [a1, hS]; rfl
  have y2 : f2.Year = matchedYear filename := by
    rw [b1, s1, a3, hY]; rfl
  have s3 : f3.Season = seasonOfSeason filename := by
    rw [c1, b2, s1]; rfl
  have p4 : f4.Episode = episodeOfEpisode filename := by
    rw [d1, c4, b4, a4, hE]; rfl
  have hh : g.hasYearAsSeason = (submatch "yearAsSeason" filename).isSome := by
    rw [r4, e3, d4, c3, b3, a2, hH]; rfl
  have hy : g.Year = matchedYear filename := by
    rw [r2, e2, d3, c2, y2]
  rw [p4, d2, s3] at e1
  have hpair : (g.Episode, g.Season) = (matchedEpisode filename, matchedSeason filename) := by
    rw [r3, r1, e1]
    unfold matchedEpisode matchedSeason animeHonoured
    cases hm : submatch "episodeAnime" filename with
    | none => simp
    | some res =>
      by_cases he : episodeOfEpisode filename = []
      · simp [he]
      · simp [he]
  exact ⟨(Prod.ext_iff.1 hpair).2, hy, (Prod.ext_iff.1 hpair).1, hh⟩

theorem RunSpec.seq {a b : Re} {i j1 j2 : Nat} {s s1 s2 : List Char} {c0 c1 c2 : Caps}
    (ha : RunSpec a i s c0 j1 s1 c1) (hb : RunSpec b j1 s1 c1 j2 s2 c2) :
    RunSpec (.seq a b) i s c0 j2 s2 c2 := by
  obtain ⟨⟨w1, hs1, hj1, hw1⟩, hl1, hc1⟩ := ha
  obtain ⟨⟨w2, hs2, hj2, hw2⟩, hl2, hc2⟩ := hb
  refine ⟨⟨w1 ++ w2, ?_, ?_, w1, w2, rfl, hw1, hw2⟩, hl2.trans hl1, ?_⟩
  · rw [hs1, hs2, List.append_assoc]
  · rw [hj2, hj1, List.length_append]; omega
  · intro m
    rcases hc2 m with e2 | ⟨v, hv, hcap⟩
    · rcases hc1 m with e1 | ⟨v, hv, hcap⟩
      · exact Or.inl (e2.trans e1)
      · exact Or.inr ⟨v, e2.trans hv, Or.inl hcap⟩
    · exact Or.inr ⟨v, hv, Or.inr hcap⟩

theorem RunSpec.alt_left {a : Re} (b : Re) {i j : Nat} {s s1 : List Char} {c0 c1 : Caps}
    (ha : RunSpec a i s c0 j s1 c1) : RunSpec (.alt a b) i s c0 j s1 c1 := by
  obtain ⟨⟨w1, hs1, hj1, hw1⟩, hl1, hc1⟩ := ha
  refine ⟨⟨w1, hs1, hj1, Or.inl hw1⟩, hl1, ?_⟩
  intro m
  rcases hc1 m with e1 | ⟨v, hv, hcap⟩
  · exact Or.inl e1
  · exact Or.inr ⟨v, hv, Or.inl hcap⟩

theorem RunSpec.alt_right (a : Re) {b : Re} {i j : Nat} {s s1 : List Char} {c0 c1 : Caps}
    (hb : RunSpec b i s c0 j s1 c1) : RunSpec (.alt a b) i s c0 j s1 c1 := by
  obtain ⟨⟨w1, hs1, hj1, hw1⟩, hl1, hc1⟩ := hb
  refine ⟨⟨w1, hs1, hj1, Or.inr hw1⟩, hl1, ?_⟩
  intro m
  rcases hc1 m with e1 | ⟨v, hv, hcap⟩
  · exact Or.inl e1
  · exact Or.inr ⟨v, hv, Or.inr hcap⟩

/-- The text a capture group records is the text its pattern matched. -/
theorem RunSpec.take {a : Re} {i j : Nat} {s s1 : List Char} {c0 c1 : Caps}
    (ha : RunSpec a i s c0 j s1 c1) : a.Matches (s.take (j - i)) := by
  obtain ⟨⟨w1, hs1, hj1, hw1⟩, _, _⟩ := ha
  have htake : s.take (j - i) = w1 := by
    rw [hs1, hj1]
    simp
  rw [htake]
  exact hw1

theorem RunSpec.cap (n : Nat) {a : Re} {i j : Nat} {s s1 : List Char} {c0 c1 : Caps}
    (ha : RunSpec a i s c0 j s1 c1) :
    RunSpec (.cap n a) i s c0 j s1 (c1.set n (s.take (j - i))) := by
  have hw := ha.take
  obtain ⟨⟨w1, hs1, hj1, hw1⟩, hl1, hc1⟩ := ha
  refine ⟨⟨w1, hs1, hj1, hw1⟩, by simpa using hl1, ?_⟩
  intro m
  by_cases hmn : n = m
  · subst hmn
    by_cases hlt : n < c1.length
    · exact Or.inr ⟨_, by simp [List.getElem?_set, hlt], Or.inl ⟨rfl, hw⟩⟩
    · have e1 : (c1.set n (s.take (j - i)))[n]? = c1[n]? := by
        simp [List.getElem?_set, hlt]
        omega
      rcases hc1 n with e | ⟨v, hv, hcap⟩
      · exact Or.inl (e1.trans e)
      · exact Or.inr ⟨v, e1.trans hv, Or.inr hcap⟩
  · have e1 : (c1.set n (s.take (j - i)))[m]? = c1[m]? := by
      simp [List.getElem?_set, hmn]
    rcases hc1 m with e | ⟨v, hv, hcap⟩
    · exact Or.inl (e1.trans e)
    · exact Or.inr ⟨v, e1.trans hv, Or.inr hcap⟩

/-- A successful run hands its continuation capture slots in which every
group that lies on every path through the pattern holds a capture of the
pattern. -/
theorem run_sets :
    ∀ (re : Re) (i : Nat) (s : List Char) (c : Caps) (k : Cont) (r : MatchEnd),
      re.run i s c k = some r → ∃ j s1 c1, k j s1 c1 = some r ∧ RunSpec re i s c j s1 c1 ∧
        ∀ n, re.Sets n → n < c.length → ∃ v, c1[n]? = some v ∧ re.Captures n v := by
  intro re
  induction re with
  | eps =>
    intro i s c k r h
    obtain ⟨j, s1, c1, hk, hspec⟩ := run_sound _ i s c k r h
    exact ⟨j, s1, c1, hk, hspec, fun n hn => hn.elim⟩
  | cls p =>
    intro i s c k r h
    obtain ⟨j, s1, c1, hk, hspec⟩ := run_sound _ i s c k r h
    exact ⟨j, s1, c1, hk, hspec, fun n hn => hn.elim⟩
  | bot =>
    intro i s c k r h
    obtain ⟨j, s1, c1, hk, hspec⟩ := run_sound _ i s c k r h
    exact ⟨j, s1, c1, hk, hspec, fun n hn => hn.elim⟩
  | eot =>
    intro i s c k r h
    obtain ⟨j, s1, c1, hk, hspec⟩ := run_sound _ i s c k r h
    exact ⟨j, s1, c1, hk, hspec, fun n hn => hn.elim⟩
  | star a _ =>
    intro i s c k r h
    obtain ⟨j, s1, c1, hk, hspec⟩ := run_sound _ i s c k r h
    exact ⟨j, s1, c1, hk, hspec, fun n hn => hn.elim⟩
  | seq a b iha ihb =>
    intro i s c k r h
    simp only [Re.run] at h
    obtain ⟨j1, s1, c1, hk1, hsa, hseta⟩ := iha i s c _ r h
    obtain ⟨j2, s2, c2, hk2, hsb, hsetb⟩ := ihb j1 s1 c1 k r hk1
    refine ⟨j2, s2, c2, hk2, hsa.seq hsb, ?_⟩
    intro n hn hlt
    rcases hn with hn | hn
    · obtain ⟨v, hv, hcap⟩ := hseta n hn hlt
      rcases hsb.2.2 n with e | ⟨v2, hv2, hcap2⟩
      · exact ⟨v, e.trans hv, Or.inl hcap⟩
      · exact ⟨v2, hv2, Or.inr hcap2⟩
    · obtain ⟨v, hv, hcap⟩ := hsetb n hn (by rw [hsa.2.1]; exact hlt)
      exact ⟨v, hv, Or.inr hcap⟩
  | alt a b iha ihb =>
    intro i s c k r h
    simp only [Re.run] at h
    rcases orElse_some h with h1 | h1
    · obtain ⟨j1, s1, c1, hk1, hsa, hseta⟩ := iha i s c k r h1
      refine ⟨j1, s1, c1, hk1, hsa.alt_left b, ?_⟩
      intro n hn hlt
      obtain ⟨v, hv, hcap⟩ := hseta n hn.1 hlt
      exact ⟨v, hv, Or.inl hcap⟩
    · obtain ⟨j1, s1, c1, hk1, hsb, hsetb⟩ := ihb i s c k r h1
      refine ⟨j1, s1, c1, hk1, hsb.alt_right a, ?_⟩
      intro n hn hlt
      obtain ⟨v, hv, hcap⟩ := hsetb n hn.2 hlt
      exact ⟨v, hv, Or.inr hcap⟩
  | cap m a iha =>
    intro i s c k r h
    simp only [Re.run] at h
    obtain ⟨j1, s1, c1, hk1, hsa, hseta⟩ := iha i s c _ r h
    refine ⟨j1, s1, _, hk1, hsa.cap m, ?_⟩
    intro n hn hlt
    have hlt1 : n < c1.length := by rw [hsa.2.1]; exact hlt
    by_cases hmn : m = n
    · subst hmn
      exact ⟨_, by simp [List.getElem?_set, hlt1], Or.inl ⟨rfl, hsa.take⟩⟩
    · rcases hn with hn | hn
      · exact absurd hn hmn
      · obtain ⟨v, hv, hcap⟩ := hseta n hn hlt
        refine ⟨v, ?_, Or.inr hcap⟩
        rw [← hv]
        simp [List.getElem?_set, hmn]

theorem matchAt_sets (r : Regexp) (i : Nat) (s : List Char) (m : MatchEnd)
    (h : r.matchAt i s = some m) (n : Nat) (hn : 0 < n) (hle : n ≤ r.ngroups)
    (hset : r.re.Sets n) : ∃ v, m.2[n]? = some v ∧ r.re.Captures n v := by
  unfold Regexp.matchAt at h
  cases hrun : r.re.run i s (List.replicate (r.ngroups + 1) []) (fun j _ c => some (j, c)) with
  | none => rw [hrun] at h; cases h
  | some m1 =>
    rw [hrun] at h
    obtain ⟨j, s1, c1, hk, _, hsets⟩ := run_sets r.re i s _ _ m1 hrun
    simp only [Option.some.injEq] at hk
    subst hk
    simp only [Option.some.injEq] at h
    subst h
    obtain ⟨v, hv, hcap⟩ := hsets n hset (by simp; omega)
    refine ⟨v, ?_, hcap⟩
    rw [← hv]
    simp [List.getElem?_set, Nat.pos_iff_ne_zero.mp hn]
    intro h0; omega

theorem findFrom_matchAt (r : Regexp) :
    ∀ (t : List Char) (i : Nat) (m : Nat × Nat × Caps), r.findFrom i t = some m →
      ∃ i1 t1, r.matchAt i1 t1 = some (m.2.1, m.2.2) := by
  intro t
  induction t with
  | nil =>
    intro i m hm
    simp only [Regexp.findFrom] at hm
    cases hma : r.matchAt i [] with
    | none => rw [hma] at hm; cases hm
    | some m1 =>
      rw [hma] at hm
      obtain ⟨j, c1⟩ := m1
      simp only [Option.some.injEq] at hm
      subst hm
      exact ⟨i, [], hma⟩
  | cons x t ih =>
    intro i m hm
    simp only [Regexp.findFrom] at hm
    cases hma : r.matchAt i (x :: t) with
    | none =>
      rw [hma] at hm
      exact ih (i + 1) m hm
    | some m1 =>
      rw [hma] at hm
      obtain ⟨j, c1⟩ := m1
      simp only [Option.some.injEq] at hm
      subst hm
      exact ⟨i, x :: t, hma⟩

/-- A group that lies on every path through the pattern holds one of its
captures in the submatches. -/
theorem FindStringSubmatch_sets (r : Regexp) (s : List Char) (res : Caps)
    (h : r.FindStringSubmatch s = some res) (n : Nat) (hn : 0 < n) (hle : n ≤ r.ngroups)
    (hset : r.re.Sets n) : ∃ v, res[n]? = some v ∧ r.re.Captures n v := by
  unfold Regexp.FindStringSubmatch at h
  cases hf : r.findFrom 0 s with
  | none => rw [hf] at h; cases h
  | some m =>
    rw [hf] at h
    obtain ⟨a, b, c1⟩ := m
    simp only [Option.some.injEq] at h
    subst h
    obtain ⟨i1, t1, hma⟩ := findFrom_matchAt r s 0 _ hf
    exact matchAt_sets r i1 t1 _ hma n hn hle hset

/-- Capture group 2 of the year-as-season matcher holds four digits. -/
theorem yearAsSeason_capture (filename : List Char) (res : Caps)
    (h : submatch "yearAsSeason" filename = some res) :
    (res.getD 2 []).length = 4 ∧ ∀ c ∈ res.getD 2 [], isDigit c = true := by
  obtain ⟨re, hre, hf, _⟩ := submatch_length _ filename res h
  simp [matcher, matchers] at hre
  subst hre
  obtain ⟨v, hv, hcap⟩ := FindStringSubmatch_sets _ filename res hf 2 (by decide) (by decide)
    (by simp [Re.Sets, seqs])
  rw [getD_of_getElem? hv]
  simp only [Re.Captures, Re.Matches, seqs, opt, oneOf, chrI, classEX, digit,
    false_or, or_false, true_and] at hcap
  simp at hcap
  obtain ⟨u1, t1, rfl, ⟨x1, rfl, h1⟩, u2, t2, rfl, ⟨x2, rfl, h2⟩, u3, t3, rfl, ⟨x3, rfl, h3⟩,
    x4, rfl, h4⟩ := hcap
  refine ⟨rfl, ?_⟩
  intro c hc
  simp at hc
  rcases hc with h | h | h | h <;> subst h <;> assumption

/-! ## Paths and options -/

theorem lastElement_no_slash (x : List Char) : ∀ c ∈ lastElement x, c ≠ '/' := by
  intro c hc
  unfold lastElement at hc
  rw [List.mem_reverse] at hc
  have := List.mem_takeWhile_imp hc
  simpa using this

theorem Base_of_no_slash (p : List Char) (hne : p ≠ []) (h : ∀ c ∈ p, c ≠ '/') :
    Base p = p := by
  have h1 : trimRightBy (fun c => c == '/') p = p := by
    unfold trimRightBy
    have : p.reverse.dropWhile (fun c => c == '/') = p.reverse := by
      cases hr : p.reverse with
      | nil => rfl
      | cons a t =>
        have ha : a ∈ p := by
          rw [← List.mem_reverse, hr]
          exact List.mem_cons_self _ _
        have : (a == '/') = false := by simpa using h a ha
        simp [List.dropWhile, this]
    rw [this, List.reverse_reverse]
  have h2 : lastElement p = p := by
    unfold lastElement
    have : p.reverse.takeWhile (fun c => c != '/') = p.reverse := by
      rw [List.takeWhile_eq_self_iff]
      intro c hc
      rw [List.mem_reverse] at hc
      simpa using h c hc
    rw [this, List.reverse_reverse]
  unfold Base
  rw [if_neg hne]
  simp only [h1, h2, if_neg hne]

theorem Base_ne_nil (x : List Char) : Base x ≠ [] := by
  unfold Base
  dsimp only
  split_ifs with h1 h2
  · simp
  · simp
  · exact h2

/-- Go `filepath.Base` returns its own results unchanged. -/
theorem Base_idem (x : List Char) : Base (Base x) = Base x := by
  by_cases h1 : x = []
  · subst h1; rfl
  · by_cases h2 : lastElement (trimRightBy (fun c => c == '/') x) = []
    · have : Base x = ['/'] := by
        unfold Base
        rw [if_neg h1]
        simp only [h2, if_true]
      rw [this]; rfl
    · have : Base x = lastElement (trimRightBy (fun c => c == '/') x) := by
        unfold Base
        rw [if_neg h1]
        simp only [h2, if_false]
      rw [this]
      exact Base_of_no_slash _ h2 (lastElement_no_slash _)

theorem video_extension_cases (e : List Char) (h : SupportedVideoExtensions e = true) :
    e = ".mp4".toList ∨ e = ".mkv".toList ∨ e = ".mov".toList ∨ e = ".avi".toList ∨
      e = ".webm".toList ∨ e = ".wmv".toList ∨ e = ".mpg".toList ∨ e = ".mpeg".toList ∨
      e = ".m2ts".toList := by
  simp only [SupportedVideoExtensions, inTable, List.any_cons, List.any_nil, Bool.or_false,
    Bool.or_eq_true, beq_iff_eq] at h
  rcases h with h | h | h | h | h | h | h | h | h <;> simp [← h]

/-- A recognised video extension appended to a name is the extension of the
result. -/
theorem Ext_append_video (d e : List Char) (h : SupportedVideoExtensions e = true) :
    Ext (d ++ e) = e := by
  rcases video_extension_cases e h with h | h | h | h | h | h | h | h | h <;>
    subst h <;> simp [Ext, extScan]

theorem TrimSuffix_append (d e : List Char) : TrimSuffix (d ++ e) e = d := by
  unfold TrimSuffix
  have : e.isSuffixOf (d ++ e) = true := by
    rw [List.isSuffixOf_iff_suffix]
    exact List.suffix_append d e
  rw [if_pos this]
  simp

theorem getOpts_OriginalFile_update (env : Env) (o : Options) (p : List Char) :
    getOpts env [{ getOpts env [o] with OriginalFile := p }] =
      getOpts env [{ o with OriginalFile := p }] := by
  obtain ⟨l, fm, fs, orig, mf, sf, dr, tl⟩ := o
  unfold getOpts
  dsimp only
  by_cases h1 : mf = [] <;> by_cases h2 : sf = [] <;> by_cases h3 : tl = [] <;>
    simp [h1, h2, h3, DefaultMovieFormat, DefaultSeriesFormat]

/-- NewParsedFile reads its options through getOpts only. -/
theorem NewParsedFile_congr (env : Env) (fuel : Nat) (path : List Char) (o o1 : List Options)
    (h : getOpts env o = getOpts env o1) :
    NewParsedFile env fuel path o = NewParsedFile env fuel path o1 := by
  cases fuel with
  | zero => rfl
  | succ n => simp only [NewParsedFile, initialFile, h]

/-! ## Claims on the matching pass -/

/-- C11 (as stated, refuted): on "Show S2005E - 01 [720p].mkv" the
year-as-season matcher matches "2005" followed by E, the episode matcher
finds nothing and the anime episode matcher matches " 01 ", so the season of
the result is "00" and not "2005". -/
theorem NewParsedFile_year_as_season_overridden :
    submatch "yearAsSeason" "Show S2005E - 01 [720p]".toList
      = some ["S2005E".toList, "S2005".toList, "2005".toList] ∧
    submatch "episode" "Show S2005E - 01 [720p]".toList = none ∧
    submatch "episodeAnime" "Show S2005E - 01 [720p]".toList
      = some [" 01 ".toList, "01".toList, "".toList] ∧
    (NewParsedFile offlineEnv 1 "Show S2005E - 01 [720p].mkv".toList
        [{ Lookup := false }]).map
        (fun f => (f.IsSeries, f.Season, f.Episode, f.Year, f.hasYearAsSeason))
      = some (true, "00".toList, "01".toList, "".toList, true) := by
  refine ⟨by decide, by decide, by decide, by decide⟩

/-- C11 (amended): for every path with a recognised video extension and
options with lookup disabled and no force flag, if the year-as-season matcher
matches the file name with group 2 equal to Y, then Y is four digits, the
season after the year-as-season, year and season matchers is Y, and the
result is a series marked hasYearAsSeason whose Season is Y, unless the episode
matcher finds nothing and the anime episode matcher matches, in which case it
is "00"; its Year is never Y, and is empty when the digits of the year
matcher equal Y. -/
theorem NewParsedFile_year_as_season (env : Env) (fuel : Nat) (path : List Char)
    (o : Options) (res : Caps)
    (hext : SupportedVideoExtensions (Ext path) = true)
    (hl : o.Lookup = false) (hfm : o.ForceMovie = false) (hfs : o.ForceSeries = false)
    (hres : submatch "yearAsSeason" (Base (TrimSuffix path (Ext path))) = some res) :
    ((res.getD 2 []).length = 4 ∧ ∀ c ∈ res.getD 2 [], isDigit c = true) ∧
    seasonOfSeason (Base (TrimSuffix path (Ext path))) = res.getD 2 [] ∧
    ∃ f, NewParsedFile env (fuel + 1) path [o] = some f ∧
      f.IsSeries = true ∧ f.IsMovie = false ∧ f.IsMusic = false ∧ f.hasYearAsSeason = true ∧
      f.Season = (if animeHonoured (Base (TrimSuffix path (Ext path))) = true then "00".toList
        else res.getD 2 []) ∧
      f.Year ≠ res.getD 2 [] ∧
      (∀ ry, submatch "year" (Base (TrimSuffix path (Ext path))) = some ry →
        ry.getD 2 [] = res.getD 2 [] → f.Year = []) ∧
      f.Episode = matchedEpisode (Base (TrimSuffix path (Ext path))) := by
  obtain ⟨g, hm, hfr⟩ := matchingPass_total (initialFile env path [o]).Filename order
    (initialFile env path [o]) order_matcherFits
  obtain ⟨hS, hY, hE, hH⟩ := matchingPass_fields _ _ g rfl rfl rfl rfl hm
  have hfn : (initialFile env path [o]).Filename = Base (TrimSuffix path (Ext path)) := rfl
  rw [hfn] at hS hY hE hH
  have hdig := yearAsSeason_capture _ res hres
  have hYne : res.getD 2 [] ≠ [] := by
    intro h0
    rw [h0] at hdig
    simp at hdig
  have hsY : seasonOfYear (Base (TrimSuffix path (Ext path))) = res.getD 2 [] := by
    unfold seasonOfYear
    rw [hres]
  have hss : seasonOfSeason (Base (TrimSuffix path (Ext path))) = res.getD 2 [] := by
    unfold seasonOfSeason
    rw [hsY, if_neg hYne]
  have hms : g.Season = (if animeHonoured (Base (TrimSuffix path (Ext path))) = true then
      "00".toList else res.getD 2 []) := by
    rw [hS]
    unfold matchedSeason
    rw [hss]
  have hgs : g.Season ≠ [] := by
    rw [hms]
    split_ifs
    · simp
    · exact hYne
  have hc : classify g (getOpts env [o]) path = .done { g with IsSeries := true } := by
    simp [classify, (getOpts_flags env o).2.1, (getOpts_flags env o).2.2.1, hfm, hfs, hgs]
  obtain ⟨r, hr, hrec⟩ := NewParsedFile_classified env fuel path o g _ hext hl hm hc rfl
  have hyear : g.Year ≠ res.getD 2 [] ∧
      (∀ ry, submatch "year" (Base (TrimSuffix path (Ext path))) = some ry →
        ry.getD 2 [] = res.getD 2 [] → g.Year = []) := by
    rw [hY]
    unfold matchedYear
    rw [hsY]
    cases hyr : submatch "year" (Base (TrimSuffix path (Ext path))) with
    | none =>
      refine ⟨fun h0 => hYne h0.symm, ?_⟩
      intro ry h
      cases h
    | some ry0 =>
      refine ⟨?_, ?_⟩
      · simp only
        split_ifs with he
        · exact fun h0 => hYne h0.symm
        · exact fun h0 => he h0.symm
      · intro ry h heq
        cases h
        simp only
        rw [if_pos heq.symm]
  refine ⟨hdig, hss, r, hr, ?_, ?_, ?_, ?_, ?_, ?_, ?_, ?_⟩
  · rw [hrec]
  · rw [hrec]; exact hfr.2.2.1.trans (initialFile_fields env path o).2.1
  · rw [hrec]; exact hfr.1
  · rw [hrec]; simp only; rw [hH, hres]; rfl
  · rw [hrec]; exact hms
  · rw [hrec]; exact hyear.1
  · rw [hrec]; exact hyear.2
  · rw [hrec]; exact hE

set_option maxRecDepth 100000 in
/-- C11 (witness): "Mythbusters.S2005E03.Brown.Note.mkv" is a series with
Season "2005", Episode "03" and Year "". -/
theorem NewParsedFile_year_as_season_witness :
    (SupportedVideoExtensions (Ext "Mythbusters.S2005E03.Brown.Note.mkv".toList) = true ∧
      submatch "yearAsSeason"
          (Base (TrimSuffix "Mythbusters.S2005E03.Brown.Note.mkv".toList
            (Ext "Mythbusters.S2005E03.Brown.Note.mkv".toList)))
        = some ["S2005E".toList, "S2005".toList, "2005".toList]) ∧
    (("2005".toList.length = 4 ∧ ∀ c ∈ "2005".toList, isDigit c = true) ∧
      seasonOfSeason (Base (TrimSuffix "Mythbusters.S2005E03.Brown.Note.mkv".toList
        (Ext "Mythbusters.S2005E03.Brown.Note.mkv".toList))) = "2005".toList ∧
      ∃ f, NewParsedFile offlineEnv 1 "Mythbusters.S2005E03.Brown.Note.mkv".toList [{}]
          = some f ∧
        f.IsSeries = true ∧ f.IsMovie = false ∧ f.IsMusic = false ∧ f.hasYearAsSeason = true ∧
        f.Season = (if animeHonoured (Base (TrimSuffix
            "Mythbusters.S2005E03.Brown.Note.mkv".toList
            (Ext "Mythbusters.S2005E03.Brown.Note.mkv".toList))) = true then "00".toList
          else "2005".toList) ∧
        f.Year ≠ "2005".toList ∧
        (∀ ry, submatch "year" (Base (TrimSuffix "Mythbusters.S2005E03.Brown.Note.mkv".toList
            (Ext "Mythbusters.S2005E03.Brown.Note.mkv".toList))) = some ry →
          ry.getD 2 [] = "2005".toList → f.Year = []) ∧
        f.Episode = matchedEpisode (Base (TrimSuffix
          "Mythbusters.S2005E03.Brown.Note.mkv".toList
          (Ext "Mythbusters.S2005E03.Brown.Note.mkv".toList)))) ∧
    (NewParsedFile offlineEnv 1 "Mythbusters.S2005E03.Brown.Note.mkv".toList [{}]).map
        (fun f => (f.IsSeries, f.Season, f.Episode, f.Year, f.CleanName))
      = some (true, "2005".toList, "03".toList, "".toList, "Mythbusters".toList) :=
  ⟨⟨by decide, by decide⟩,
    NewParsedFile_year_as_season offlineEnv 0 "Mythbusters.S2005E03.Brown.Note.mkv".toList {}
      ["S2005E".toList, "S2005".toList, "2005".toList] (by decide) rfl rfl rfl (by decide),
    by decide⟩

set_option maxRecDepth 100000 in
/-- C12: on "Spidey.S01E22E23.mkv" and "Series.S02E10-E11.mkv" the episode
matcher finds the tokens "E22E23" and "E10-E11", both parse as ranges, and the
Episode of the result joins the two zero-padded numbers by "-E": "22-E23"
and "10-E11", not "22-23" and "10-11". -/
theorem NewParsedFile_episode_range_text :
    (submatch "episode" "Spidey.S01E22E23".toList
        = some ["E22E23".toList, "22".toList, "23".toList] ∧
      ParseEpisodeString "E22E23".toList = .ok ⟨22, 23, true⟩ ∧
      (NewParsedFile offlineEnv 1 "Spidey.S01E22E23.mkv".toList [{ Lookup := false }]).map
          (fun f => (f.IsSeries, f.Season, f.Episode))
        = some (true, "01".toList, "22-E23".toList)) ∧
    (submatch "episode" "Series.S02E10-E11".toList
        = some ["E10-E11".toList, "10".toList, "11".toList] ∧
      ParseEpisodeString "E10-E11".toList = .ok ⟨10, 11, true⟩ ∧
      (NewParsedFile offlineEnv 1 "Series.S02E10-E11.mkv".toList [{ Lookup := false }]).map
          (fun f => (f.IsSeries, f.Season, f.Episode))
        = some (true, "02".toList, "10-E11".toList)) ∧
    "22-E23".toList ≠ "22-23".toList ∧ "10-E11".toList ≠ "10-11".toList := by
  refine ⟨⟨by decide, by decide, by decide⟩, ⟨by decide, by decide, by decide⟩,
    by decide, by decide⟩

/-! ## Claims on the classification flags and the fallback -/

/-- C13: for every path whose extension is not a recognised video extension
and every options value, NewParsedFile returns at once: IsMusic is true
exactly when the extension is a recognised audio extension, IsMovie and
IsSeries are false, and Year, Season, Episode and CleanName are empty. -/
theorem NewParsedFile_not_video_extension (env : Env) (fuel : Nat) (path : List Char)
    (o : List Options) (hext : SupportedVideoExtensions (Ext path) = false) :
    ∃ f, NewParsedFile env (fuel + 1) path o = some f ∧
      f.IsMusic = SupportedMusicExtensions (Ext path) ∧ f.IsMovie = false ∧
      f.IsSeries = false ∧ f.Year = [] ∧ f.Season = [] ∧ f.Episode = [] ∧ f.CleanName = [] := by
  refine ⟨_, NewParsedFile_not_video env fuel path o hext, ?_⟩
  by_cases hmu : SupportedMusicExtensions (Ext path) = true
  · rw [if_pos hmu, hmu]
    exact ⟨rfl, rfl, rfl, rfl, rfl, rfl, rfl⟩
  · rw [if_neg hmu]
    have hmu2 : SupportedMusicExtensions (Ext path) = false := by simpa using hmu
    rw [hmu2]
    exact ⟨rfl, rfl, rfl, rfl, rfl, rfl, rfl⟩

/-- C13 (witness): "song.mp3" is music and nothing else; "notes.txt",
"setup.exe" and "movie.MKV" (the extension is compared case-sensitively) have
all three flags false; in each case nothing is parsed. -/
theorem NewParsedFile_not_video_extension_witness :
    SupportedVideoExtensions (Ext "song.mp3".toList) = false ∧
    (∃ f, NewParsedFile offlineEnv 1 "song.mp3".toList [] = some f ∧
      f.IsMusic = SupportedMusicExtensions (Ext "song.mp3".toList) ∧ f.IsMovie = false ∧
      f.IsSeries = false ∧ f.Year = [] ∧ f.Season = [] ∧ f.Episode = [] ∧ f.CleanName = []) ∧
    (NewParsedFile offlineEnv 1 "song.mp3".toList []).map
        (fun f => (f.IsMusic, f.IsMovie, f.IsSeries, f.CleanName))
      = some (true, false, false, "".toList) ∧
    (NewParsedFile offlineEnv 1 "notes.txt".toList []).map
        (fun f => (f.IsMusic, f.IsMovie, f.IsSeries, f.CleanName))
      = some (false, false, false, "".toList) ∧
    (NewParsedFile offlineEnv 1 "setup.exe".toList []).map
        (fun f => (f.IsMusic, f.IsMovie, f.IsSeries, f.CleanName))
      = some (false, false, false, "".toList) ∧
    (NewParsedFile offlineEnv 1 "movie.MKV".toList []).map
        (fun f => (f.IsMusic, f.IsMovie, f.IsSeries, f.CleanName))
      = some (false, false, false, "".toList) :=
  ⟨by decide, NewParsedFile_not_video_extension offlineEnv 0 "song.mp3".toList [] (by decide),
    by decide, by decide, by decide, by decide⟩

/-- C14: for every path and every options value (lookup enabled or not),
NewParsedFile returns a record as soon as the fuel is 2, and at most one of
IsMovie, IsSeries and IsMusic is true in it. -/
theorem NewParsedFile_flags_exclusive (env : Env) (path : List Char) (o : List Options) :
    ∃ f, (∀ fuel, NewParsedFile env (fuel + 2) path o = some f) ∧
      ¬ (f.IsMovie = true ∧ f.IsSeries = true) ∧ ¬ (f.IsMovie = true ∧ f.IsMusic = true) ∧
      ¬ (f.IsSeries = true ∧ f.IsMusic = true) := by
  obtain ⟨f, hf, hc⟩ := NewParsedFile_total env path o
  refine ⟨f, hf, ?_, ?_, ?_⟩ <;>
  · rintro ⟨h1, h2⟩
    simp [flagCount, h1, h2] at hc
    try omega

/-! ## The decision chain, case by case -/

/-- A force flag, a season or a year ends the decision chain with exactly
one of the flags IsMovie and IsSeries raised. -/
theorem classify_found (g : ParsedFile) (opts : Options) (path : List Char)
    (h : opts.ForceMovie = true ∨ opts.ForceSeries = true ∨ g.Season ≠ [] ∨ g.Year ≠ []) :
    ∃ f1, classify g opts path = .done f1 ∧
      ((f1.IsMovie = true ∧ f1.IsSeries = g.IsSeries) ∨
        (f1.IsSeries = true ∧ f1.IsMovie = g.IsMovie)) := by
  unfold classify
  dsimp only
  by_cases h1 : opts.ForceMovie = true
  · rw [if_pos h1]
    exact ⟨_, rfl, Or.inl ⟨rfl, rfl⟩⟩
  rw [if_neg h1]
  by_cases h2 : opts.ForceSeries = true
  · rw [if_pos h2]
    exact ⟨_, rfl, Or.inr ⟨rfl, rfl⟩⟩
  rw [if_neg h2]
  by_cases h3 : g.Season ≠ []
  · rw [if_pos h3]
    exact ⟨_, rfl, Or.inr ⟨rfl, rfl⟩⟩
  rw [if_neg h3]
  have hy : g.Year ≠ [] := by
    rcases h with h | h | h | h
    · exact absurd h h1
    · exact absurd h h2
    · exact absurd h h3
    · exact h
  by_cases h4 : g.Episode = []
  · rw [if_pos ⟨hy, h4⟩]
    exact ⟨_, rfl, Or.inl ⟨rfl, rfl⟩⟩
  · rw [if_neg (fun hh => h4 hh.2), if_pos ⟨hy, h4⟩]
    exact ⟨_, rfl, Or.inl ⟨rfl, rfl⟩⟩

/-- Without a force flag, a season or a year, and with no parent directory
to fall back to (or on a call that is itself the fallback), the decision
chain leaves the record as it is. -/
theorem classify_plain (g : ParsedFile) (opts : Options) (path : List Char)
    (hfm : opts.ForceMovie = false) (hfs : opts.ForceSeries = false)
    (hs : g.Season = []) (hy : g.Year = [])
    (hfb : Base (Dir path) = ['.'] ∨ opts.OriginalFile ≠ []) :
    classify g opts path = .done g := by
  unfold classify
  dsimp only
  rw [if_neg (by simp [hfm]), if_neg (by simp [hfs]), if_neg (by simp [hs]),
    if_neg (by simp [hy]), if_neg (by simp [hy]), if_neg (by simp [hs])]
  rw [if_neg]
  rintro ⟨_, h2, h3⟩
  rcases hfb with h | h
  · exact h3 h
  · exact h h2

/-- Without a force flag, a season or a year, on a first call for a path with
a parent directory, the decision chain asks for the fallback call. -/
theorem classify_fallback (g : ParsedFile) (opts : Options) (path : List Char)
    (hfm : opts.ForceMovie = false) (hfs : opts.ForceSeries = false)
    (hs : g.Season = []) (hy : g.Year = [])
    (hd : Base (Dir path) ≠ ['.']) (ho : opts.OriginalFile = []) :
    classify g opts path =
      .retry (Base (Dir path) ++ g.Extension) { opts with OriginalFile := path } := by
  unfold classify
  dsimp only
  rw [if_neg (by simp [hfm]), if_neg (by simp [hfs]), if_neg (by simp [hs]),
    if_neg (by simp [hy]), if_neg (by simp [hy]), if_neg (by simp [hs])]
  rw [if_pos ⟨Base_ne_nil _, ho, hd⟩]

/-- A video file on which the decision chain ends without the fallback:
NewParsedFile returns the same record for every fuel, with the flags, file
name, paths and episode of the decision chain. -/
theorem NewParsedFile_of_done (env : Env) (path : List Char) (o : List Options)
    (g f1 : ParsedFile) (hext : SupportedVideoExtensions (Ext path) = true)
    (hm : matchingPass (initialFile env path o).Filename order (initialFile env path o) = some g)
    (hc : classify g (getOpts env o) path = .done f1) :
    ∃ r, (∀ fuel, NewParsedFile env (fuel + 1) path o = some r) ∧ SameIdentity f1 r := by
  obtain ⟨r, _, hr1, hid⟩ := NewParsedFile_done_total env 0 path o g f1 hext hm hc
  refine ⟨r, ?_, hid⟩
  intro fuel
  obtain ⟨r2, hr2, hr21, _⟩ := NewParsedFile_done_total env fuel path o g f1 hext hm hc
  rw [hr1] at hr21
  cases hr21
  exact hr2

/-- The fallback call: a first call on a video file with a parent directory,
with no force flag, season or year, is the call on the parent directory name
with the extension appended and OriginalFile set to the path. -/
theorem NewParsedFile_fallback_eq (env : Env) (fuel : Nat) (path : List Char) (o : Options)
    (g : ParsedFile) (hext : SupportedVideoExtensions (Ext path) = true)
    (hfm : o.ForceMovie = false) (hfs : o.ForceSeries = false) (ho : o.OriginalFile = [])
    (hm : matchingPass (initialFile env path [o]).Filename order (initialFile env path [o])
      = some g)
    (hs : g.Season = []) (hy : g.Year = []) (hd : Base (Dir path) ≠ ['.']) :
    NewParsedFile env (fuel + 1) path [o] =
      NewParsedFile env fuel (Base (Dir path) ++ Ext path) [{ o with OriginalFile := path }] := by
  obtain ⟨g0, hg0, hfr⟩ := matchingPass_total (initialFile env path [o]).Filename order
    (initialFile env path [o]) order_matcherFits
  rw [hm] at hg0
  cases hg0
  have hge : g.Extension = Ext path := hfr.2.2.2.2.2.1
  have hc := classify_fallback g (getOpts env [o]) path
    ((getOpts_flags env o).2.1.trans hfm) ((getOpts_flags env o).2.2.1.trans hfs) hs hy hd
    ((getOpts_flags env o).2.2.2.1.trans ho)
  rw [NewParsedFile_video_retry env fuel path _ [o] _ g hext hm hc, hge]
  exact NewParsedFile_congr env fuel _ _ _ (getOpts_OriginalFile_update env o path)

/-- C15 (as stated, refuted): "holiday.mp4" has a recognised video extension
and none of IsMovie, IsSeries and IsMusic is true in the result. -/
theorem NewParsedFile_video_without_flag :
    SupportedVideoExtensions (Ext "holiday.mp4".toList) = true ∧
    (NewParsedFile offlineEnv 2 "holiday.mp4".toList [{}]).map
        (fun f => (f.IsMovie, f.IsSeries, f.IsMusic, f.CleanName))
      = some (false, false, false, "Holiday".toList) := by
  refine ⟨by decide, by decide⟩

/-- C15 (amended): for every path whose extension is a recognised video or
audio extension and every options value, NewParsedFile returns a record f
(fuel 2 suffices). If the extension is not a video extension, IsMusic alone is
true. If it is a video extension and g is the record after the matching pass:
with a force flag, a season or a year, IsMusic is false and exactly one of
IsMovie and IsSeries is true; with none of these, all three flags are false
when there is no parent directory or the call is itself a fallback, and
otherwise f is the result of the fallback call on the parent directory
name. -/
theorem NewParsedFile_flag_count (env : Env) (path : List Char) (o : Options)
    (hsup : SupportedVideoExtensions (Ext path) = true ∨
      SupportedMusicExtensions (Ext path) = true) :
    ∃ f, (∀ fuel, NewParsedFile env (fuel + 2) path [o] = some f) ∧
      (SupportedVideoExtensions (Ext path) = false →
        f.IsMusic = true ∧ f.IsMovie = false ∧ f.IsSeries = false) ∧
      (SupportedVideoExtensions (Ext path) = true →
        ∀ g, matchingPass (initialFile env path [o]).Filename order (initialFile env path [o])
            = some g →
          ((o.ForceMovie = true ∨ o.ForceSeries = true ∨ g.Season ≠ [] ∨ g.Year ≠ []) →
            f.IsMusic = false ∧
              ((f.IsMovie = true ∧ f.IsSeries = false) ∨
                (f.IsMovie = false ∧ f.IsSeries = true))) ∧
          (o.ForceMovie = false → o.ForceSeries = false → g.Season = [] → g.Year = [] →
            ((Base (Dir path) = ['.'] ∨ o.OriginalFile ≠ []) →
              f.IsMovie = false ∧ f.IsSeries = false ∧ f.IsMusic = false) ∧
            (Base (Dir path) ≠ ['.'] → o.OriginalFile = [] →
              ∀ fuel, NewParsedFile env (fuel + 1) (Base (Dir path) ++ Ext path)
                [{ o with OriginalFile := path }] = some f))) := by
  obtain ⟨f, hf, _⟩ := NewParsedFile_total env path [o]
  have hi := initialFile_Episode env path [o]
  refine ⟨f, hf, ?_, ?_⟩
  · intro hv
    have hmu : SupportedMusicExtensions (Ext path) = true := by
      rcases hsup with h | h
      · rw [hv] at h; cases h
      · exact h
    have h1 := NewParsedFile_not_video env 1 path [o] hv
    rw [hf 0, if_pos hmu] at h1
    cases h1
    exact ⟨rfl, rfl, rfl⟩
  · intro hv g hm
    obtain ⟨g0, hg0, hfr⟩ := matchingPass_total (initialFile env path [o]).Filename order
      (initialFile env path [o]) order_matcherFits
    rw [hm] at hg0
    cases hg0
    have hgmu : g.IsMusic = false := hfr.1.trans hi.2.2.2.2.2.1
    have hgse : g.IsSeries = false := hfr.2.1.trans hi.2.2.2.2.1
    have hgmo : g.IsMovie = false := hfr.2.2.1.trans hi.2.2.2.1
    refine ⟨?_, ?_⟩
    · intro hfound
      have hfound2 : (getOpts env [o]).ForceMovie = true ∨ (getOpts env [o]).ForceSeries = true ∨
          g.Season ≠ [] ∨ g.Year ≠ [] := by
        rw [(getOpts_flags env o).2.1, (getOpts_flags env o).2.2.1]
        exact hfound
      obtain ⟨f1, hc, hfl⟩ := classify_found g (getOpts env [o]) path hfound2
      obtain ⟨r, hr, hid⟩ := NewParsedFile_of_done env path [o] g f1 hv hm hc
      have hrf : r = f := by
        have := hr 1
        rw [hf 0] at this
        cases this
        rfl
      subst hrf
      have hd := classify_done g f1 _ path hc
      refine ⟨hid.2.2.1.trans (hd.1.trans hgmu), ?_⟩
      rcases hfl with ⟨h1, h2⟩ | ⟨h1, h2⟩
      · exact Or.inl ⟨hid.1.trans h1, hid.2.1.trans (h2.trans hgse)⟩
      · exact Or.inr ⟨hid.1.trans (h2.trans hgmo), hid.2.1.trans h1⟩
    · intro hfm hfs hs hy
      refine ⟨?_, ?_⟩
      · intro hfb
        have hfb2 : Base (Dir path) = ['.'] ∨ (getOpts env [o]).OriginalFile ≠ [] := by
          rw [(getOpts_flags env o).2.2.2.1]
          exact hfb
        have hc := classify_plain g (getOpts env [o]) path
          ((getOpts_flags env o).2.1.trans hfm) ((getOpts_flags env o).2.2.1.trans hfs) hs hy hfb2
        obtain ⟨r, hr, hid⟩ := NewParsedFile_of_done env path [o] g g hv hm hc
        have hrf : r = f := by
          have := hr 1
          rw [hf 0] at this
          cases this
          rfl
        subst hrf
        exact ⟨hid.1.trans hgmo, hid.2.1.trans hgse, hid.2.2.1.trans hgmu⟩
      · intro hd ho fuel
        rw [← NewParsedFile_fallback_eq env (fuel + 1) path o g hv hfm hfs ho hm hs hy hd]
        exact hf fuel

set_option maxRecDepth 100000 in
/-- C15 (witness): "song.flac" is music only; "The Matrix Revolutions -
2003.mkv" is a movie only. -/
theorem NewParsedFile_flag_count_witness :
    (SupportedVideoExtensions (Ext "song.flac".toList) = true ∨
      SupportedMusicExtensions (Ext "song.flac".toList) = true) ∧
    (∃ f, (∀ fuel, NewParsedFile offlineEnv (fuel + 2) "song.flac".toList [{}] = some f) ∧
      (SupportedVideoExtensions (Ext "song.flac".toList) = false →
        f.IsMusic = true ∧ f.IsMovie = false ∧ f.IsSeries = false)) ∧
    (NewParsedFile offlineEnv 2 "song.flac".toList [{}]).map
        (fun f => (f.IsMovie, f.IsSeries, f.IsMusic)) = some (false, false, true) ∧
    (NewParsedFile offlineEnv 2 "The Matrix Revolutions - 2003.mkv".toList [{}]).map
        (fun f => (f.IsMovie, f.IsSeries, f.IsMusic)) = some (true, false, false) :=
  ⟨by decide,
    (NewParsedFile_flag_count offlineEnv "song.flac".toList {} (by decide)).imp
      (fun _ h => ⟨h.1, h.2.1⟩),
    by decide, by decide⟩

/-- C16: for every video path p and options o with no force flag and empty
OriginalFile, if the matching pass on the file name of p finds neither a
season nor a year and the parent directory name d = Base (Dir p) is not "."
(it is never empty), then NewParsedFile(p, o) is NewParsedFile(d + e, o with
OriginalFile = p) for the extension e of p, whatever the lookup option; it
returns a record whose OriginalFile is p, whose Filename is d, whose Filepath
is d + e and whose SourcePath is p. -/
theorem NewParsedFile_parent_fallback (env : Env) (fuel : Nat) (path : List Char)
    (o : Options) (g : ParsedFile)
    (hext : SupportedVideoExtensions (Ext path) = true)
    (hfm : o.ForceMovie = false) (hfs : o.ForceSeries = false) (ho : o.OriginalFile = [])
    (hm : matchingPass (initialFile env path [o]).Filename order (initialFile env path [o])
      = some g)
    (hs : g.Season = []) (hy : g.Year = []) (hd : Base (Dir path) ≠ ['.']) :
    Base (Dir path) ≠ [] ∧
    NewParsedFile env (fuel + 2) path [o] =
      NewParsedFile env (fuel + 1) (Base (Dir path) ++ Ext path)
        [{ o with OriginalFile := path }] ∧
    ∃ f, NewParsedFile env (fuel + 2) path [o] = some f ∧ f.OriginalFile = path ∧
      f.Filename = Base (Dir path) ∧ f.Filepath = Base (Dir path) ++ Ext path ∧
      f.SourcePath = path := by
  have heq := NewParsedFile_fallback_eq env (fuel + 1) path o g hext hfm hfs ho hm hs hy hd
  have hpne : path ≠ [] := video_path_ne_nil path hext
  refine ⟨Base_ne_nil _, heq, ?_⟩
  rcases NewParsedFile_call env (Base (Dir path) ++ Ext path) [{ o with OriginalFile := path }]
    with ⟨f, hf, _, hfp, hof, hfn⟩ | ⟨p2, o2, _, hnil, _⟩
  · rw [getOpts_singleton_OriginalFile] at hof
    have hof2 : f.OriginalFile = path := hof
    refine ⟨f, heq.trans (hf fuel), hof2, ?_, hfp, ?_⟩
    · rw [hfn, Ext_append_video _ _ hext, TrimSuffix_append, Base_idem]
    · unfold ParsedFile.SourcePath
      rw [hof2, if_neg hpne]
  · rw [getOpts_singleton_OriginalFile] at hnil
    exact absurd hnil hpne

set_option maxRecDepth 100000 in
/-- C16 (witness): on
"path/to/The.Flash.2014.S06E07.720p.HDTV.x264-SVA/jioasdjioasd9012.mkv" the
file name yields nothing, the parent directory name is parsed instead, and
the result is a series with Filename
"The.Flash.2014.S06E07.720p.HDTV.x264-SVA", Season "06" and Episode "07". -/
theorem NewParsedFile_parent_fallback_witness :
    (SupportedVideoExtensions (Ext
        "path/to/The.Flash.2014.S06E07.720p.HDTV.x264-SVA/jioasdjioasd9012.mkv".toList) = true ∧
      matchingPass (initialFile offlineEnv
          "path/to/The.Flash.2014.S06E07.720p.HDTV.x264-SVA/jioasdjioasd9012.mkv".toList
          [{}]).Filename order
          (initialFile offlineEnv
            "path/to/The.Flash.2014.S06E07.720p.HDTV.x264-SVA/jioasdjioasd9012.mkv".toList [{}])
        = some (initialFile offlineEnv
            "path/to/The.Flash.2014.S06E07.720p.HDTV.x264-SVA/jioasdjioasd9012.mkv".toList [{}]) ∧
      Base (Dir "path/to/The.Flash.2014.S06E07.720p.HDTV.x264-SVA/jioasdjioasd9012.mkv".toList)
        = "The.Flash.2014.S06E07.720p.HDTV.x264-SVA".toList) ∧
    (NewParsedFile offlineEnv 2
        "path/to/The.Flash.2014.S06E07.720p.HDTV.x264-SVA/jioasdjioasd9012.mkv".toList [{}] =
      NewParsedFile offlineEnv 1
        (Base (Dir
          "path/to/The.Flash.2014.S06E07.720p.HDTV.x264-SVA/jioasdjioasd9012.mkv".toList) ++
          Ext "path/to/The.Flash.2014.S06E07.720p.HDTV.x264-SVA/jioasdjioasd9012.mkv".toList)
        [{ OriginalFile :=
          "path/to/The.Flash.2014.S06E07.720p.HDTV.x264-SVA/jioasdjioasd9012.mkv".toList }]) ∧
    (NewParsedFile offlineEnv 2
        "path/to/The.Flash.2014.S06E07.720p.HDTV.x264-SVA/jioasdjioasd9012.mkv".toList [{}]).map
        (fun f => (f.IsSeries, f.Filename, f.Season, f.Episode, f.SourcePath))
      = some (true, "The.Flash.2014.S06E07.720p.HDTV.x264-SVA".toList, "06".toList,
          "07".toList,
          "path/to/The.Flash.2014.S06E07.720p.HDTV.x264-SVA/jioasdjioasd9012.mkv".toList) :=
  ⟨⟨by decide, by decide, by decide⟩,
    (NewParsedFile_parent_fallback offlineEnv 0
      "path/to/The.Flash.2014.S06E07.720p.HDTV.x264-SVA/jioasdjioasd9012.mkv".toList {}
      (initialFile offlineEnv
        "path/to/The.Flash.2014.S06E07.720p.HDTV.x264-SVA/jioasdjioasd9012.mkv".toList [{}])
      (by decide) rfl rfl rfl (by decide) rfl rfl (by decide)).2.1,
    by decide⟩

/-- C17: NewParsedFile returns on every path and options value once the fuel
is 2, that is, after at most one fallback call. A call either returns without
a recursive call (fuel 1 suffices), or it is the call on some path with one
options value whose OriginalFile is not empty, and that call returns without
a recursive call. A call whose options carry a non-empty OriginalFile returns
without a recursive call. -/
theorem NewParsedFile_terminates (env : Env) (path : List Char) (o : List Options) :
    (∃ f, ∀ fuel, NewParsedFile env (fuel + 2) path o = some f) ∧
    ((∃ f, ∀ fuel, NewParsedFile env (fuel + 1) path o = some f) ∨
      ∃ p1 o1, o1.OriginalFile ≠ [] ∧
        (∀ fuel, NewParsedFile env (fuel + 1) path o = NewParsedFile env fuel p1 [o1]) ∧
        ∃ f, ∀ fuel, NewParsedFile env (fuel + 1) p1 [o1] = some f) ∧
    ((getOpts env o).OriginalFile ≠ [] →
      ∃ f, ∀ fuel, NewParsedFile env (fuel + 1) path o = some f) := by
  have hnever : ∀ (p : List Char) (oo : List Options), (getOpts env oo).OriginalFile ≠ [] →
      ∃ f, ∀ fuel, NewParsedFile env (fuel + 1) p oo = some f := by
    intro p oo hne
    rcases NewParsedFile_call env p oo with ⟨f, hf, _⟩ | ⟨p1, o1, _, hnil, _⟩
    · exact ⟨f, hf⟩
    · exact absurd hnil hne
  refine ⟨?_, ?_, hnever path o⟩
  · obtain ⟨f, hf, _⟩ := NewParsedFile_total env path o
    exact ⟨f, hf⟩
  · rcases NewParsedFile_call env path o with ⟨f, hf, _⟩ | ⟨p1, o1, he, _, ho1, hp, _⟩
    · exact Or.inl ⟨f, hf⟩
    · have hne : o1.OriginalFile ≠ [] := by rw [ho1]; exact hp
      refine Or.inr ⟨p1, o1, hne, he, hnever p1 [o1] ?_⟩
      rw [getOpts_singleton_OriginalFile]
      exact hne

/-- C18: for every video path and options with lookup disabled and no force
flag, if the matching pass on the file name finds neither a season nor a
year, and the path has no parent directory component (Base (Dir path) is ".")
or the call is already a fallback (OriginalFile is not empty), the result has
IsMovie = IsSeries = IsMusic = false, with empty Year and Season. -/
theorem NewParsedFile_unclassified (env : Env) (fuel : Nat) (path : List Char)
    (o : Options) (g : ParsedFile)
    (hext : SupportedVideoExtensions (Ext path) = true)
    (hl : o.Lookup = false) (hfm : o.ForceMovie = false) (hfs : o.ForceSeries = false)
    (hm : matchingPass (initialFile env path [o]).Filename order (initialFile env path [o])
      = some g)
    (hs : g.Season = []) (hy : g.Year = [])
    (hfb : Base (Dir path) = ['.'] ∨ o.OriginalFile ≠ []) :
    ∃ f, NewParsedFile env (fuel + 1) path [o] = some f ∧ f.IsMovie = false ∧
      f.IsSeries = false ∧ f.IsMusic = false ∧ f.Year = [] ∧ f.Season = [] ∧
      f.Filename = Base (TrimSuffix path (Ext path)) ∧ f.OriginalFile = o.OriginalFile := by
  obtain ⟨g0, hg0, hfr⟩ := matchingPass_total (initialFile env path [o]).Filename order
    (initialFile env path [o]) order_matcherFits
  rw [hm] at hg0
  cases hg0
  have hi := initialFile_Episode env path [o]
  have hfb2 : Base (Dir path) = ['.'] ∨ (getOpts env [o]).OriginalFile ≠ [] := by
    rw [(getOpts_flags env o).2.2.2.1]
    exact hfb
  have hc := classify_plain g (getOpts env [o]) path
    ((getOpts_flags env o).2.1.trans hfm) ((getOpts_flags env o).2.2.1.trans hfs) hs hy hfb2
  obtain ⟨r, hr, hrec⟩ := NewParsedFile_classified env fuel path o g g hext hl hm hc rfl
  refine ⟨r, hr, ?_, ?_, ?_, ?_, ?_, ?_, ?_⟩
  · rw [hrec]; exact hfr.2.2.1.trans hi.2.2.2.1
  · rw [hrec]; exact hfr.2.1.trans hi.2.2.2.2.1
  · rw [hrec]; exact hfr.1.trans hi.2.2.2.2.2.1
  · rw [hrec]; exact hy
  · rw [hrec]; exact hs
  · rw [hrec]; exact hfr.2.2.2.2.1.trans hi.2.2.2.2.2.2.2.2.2.1
  · rw [hrec]; exact hfr.2.2.2.2.2.2.2.1.trans (initialFile_fields env path o).2.2.2.2

set_option maxRecDepth 100000 in
/-- C18 (witness): "/home/test/letsnotrecurse.mkv" falls back to "test.mkv"
with OriginalFile set; that call finds nothing and does not fall back again,
and the result is unclassified with Filename "test" and CleanName "Test". -/
theorem NewParsedFile_unclassified_witness :
    (SupportedVideoExtensions (Ext "test.mkv".toList) = true ∧
      matchingPass (initialFile offlineEnv "test.mkv".toList
          [{ OriginalFile := "/home/test/letsnotrecurse.mkv".toList }]).Filename order
          (initialFile offlineEnv "test.mkv".toList
            [{ OriginalFile := "/home/test/letsnotrecurse.mkv".toList }])
        = some (initialFile offlineEnv "test.mkv".toList
            [{ OriginalFile := "/home/test/letsnotrecurse.mkv".toList }])) ∧
    (∃ f, NewParsedFile offlineEnv 1 "test.mkv".toList
        [{ OriginalFile := "/home/test/letsnotrecurse.mkv".toList }] = some f ∧
      f.IsMovie = false ∧ f.IsSeries = false ∧ f.IsMusic = false ∧ f.Year = [] ∧
      f.Season = [] ∧
      f.Filename = Base (TrimSuffix "test.mkv".toList (Ext "test.mkv".toList)) ∧
      f.OriginalFile = "/home/test/letsnotrecurse.mkv".toList) ∧
    NewParsedFile offlineEnv 2 "/home/test/letsnotrecurse.mkv".toList [{}] =
      NewParsedFile offlineEnv 1 "test.mkv".toList
        [{ OriginalFile := "/home/test/letsnotrecurse.mkv".toList }] ∧
    (NewParsedFile offlineEnv 2 "/home/test/letsnotrecurse.mkv".toList [{}]).map
        (fun f => (f.IsMovie, f.IsSeries, f.IsMusic, f.Filename, f.CleanName))
      = some (false, false, false, "test".toList, "Test".toList) :=
  ⟨⟨by decide, by decide⟩,
    NewParsedFile_unclassified offlineEnv 0 "test.mkv".toList
      { OriginalFile := "/home/test/letsnotrecurse.mkv".toList }
      (initialFile offlineEnv "test.mkv".toList
        [{ OriginalFile := "/home/test/letsnotrecurse.mkv".toList }])
      (by decide) rfl rfl rfl (by decide) rfl rfl (Or.inr (by decide)),
    by decide, by decide⟩

set_option maxRecDepth 100000 in
/-- C17 (witness): a call whose options carry an OriginalFile returns with
fuel 1; the nested path of the fallback example needs fuel 2, one recursive
call. -/
theorem NewParsedFile_terminates_witness :
    (getOpts offlineEnv [{ OriginalFile := "a/b.mkv".toList }]).OriginalFile ≠ [] ∧
    (∃ f, ∀ fuel, NewParsedFile offlineEnv (fuel + 1) "b.mkv".toList
      [{ OriginalFile := "a/b.mkv".toList }] = some f) ∧
    NewParsedFile offlineEnv 1
      "path/to/The.Flash.2014.S06E07.720p.HDTV.x264-SVA/jioasdjioasd9012.mkv".toList [{}]
      = none ∧
    (NewParsedFile offlineEnv 2
      "path/to/The.Flash.2014.S06E07.720p.HDTV.x264-SVA/jioasdjioasd9012.mkv".toList
      [{}]).isSome = true :=
  ⟨by decide,
    (NewParsedFile_terminates offlineEnv "b.mkv".toList
      [{ OriginalFile := "a/b.mkv".toList }]).2.2 (by decide),
    by decide, by decide⟩

set_option maxRecDepth 100000 in
/-- C19 (the code at the failing input): NewParsedFile("The Godfather
1080p.mkv", Options{Lookup: false}) is not identified as a movie. In every
environment and for every fuel it returns a record with IsMovie = IsSeries =
IsMusic = false and empty Year, Season and Episode: the name carries no year
and no season, there is no parent directory, and the decision chain returns
the record unclassified. With the text functions of Go its CleanName is
"The Godfather 1080P", which contains "The Godfather": the cleaning pass
makes no replacement on an unclassified file and title-casing capitalises
the first letter of "1080p". -/
theorem NewParsedFile_godfather_unclassified :
    (∀ (env : Env) (fuel : Nat),
      ∃ f, NewParsedFile env (fuel + 1) "The Godfather 1080p.mkv".toList [{ Lookup := false }]
          = some f ∧
        f.IsMovie = false ∧ f.IsSeries = false ∧ f.IsMusic = false ∧ f.Year = [] ∧
        f.Season = [] ∧ f.Episode = [] ∧ f.Filename = "The Godfather 1080p".toList) ∧
    (NewParsedFile offlineEnv 1 "The Godfather 1080p.mkv".toList [{ Lookup := false }]).map
        (fun f => (f.IsMovie, f.IsSeries, f.IsMusic, f.CleanName))
      = some (false, false, false, "The Godfather 1080P".toList) := by
  refine ⟨?_, by decide⟩
  intro env fuel
  have hext : SupportedVideoExtensions (Ext "The Godfather 1080p.mkv".toList) = true := by
    decide
  have hfn : (initialFile env "The Godfather 1080p.mkv".toList [{ Lookup := false }]).Filename
      = "The Godfather 1080p".toList := by
    rw [(initialFile_Episode env _ _).2.2.2.2.2.2.2.2.2.1]
    decide
  obtain ⟨g, hm, hfr⟩ := matchingPass_total
    (initialFile env "The Godfather 1080p.mkv".toList [{ Lookup := false }]).Filename order
    (initialFile env "The Godfather 1080p.mkv".toList [{ Lookup := false }]) order_matcherFits
  obtain ⟨hS, hY, hE, _⟩ := matchingPass_fields _ _ g rfl rfl rfl rfl hm
  rw [hfn] at hS hY hE
  have hs : g.Season = [] := hS.trans (by decide)
  have hy : g.Year = [] := hY.trans (by decide)
  have he : g.Episode = [] := hE.trans (by decide)
  have hi := initialFile_Episode env "The Godfather 1080p.mkv".toList [{ Lookup := false }]
  have hc := classify_plain g (getOpts env [{ Lookup := false }])
    "The Godfather 1080p.mkv".toList (getOpts_flags env _).2.1 (getOpts_flags env _).2.2.1
    hs hy (Or.inl (by decide))
  obtain ⟨r, hr, hrec⟩ := NewParsedFile_classified env fuel _ { Lookup := false } g g hext rfl
    hm hc rfl
  refine ⟨r, hr, ?_, ?_, ?_, ?_, ?_, ?_, ?_⟩
  · rw [hrec]; exact hfr.2.2.1.trans hi.2.2.2.1
  · rw [hrec]; exact hfr.2.1.trans hi.2.2.2.2.1
  · rw [hrec]; exact hfr.1.trans hi.2.2.2.2.2.1
  · rw [hrec]; exact hy
  · rw [hrec]; exact hs
  · rw [hrec]; exact he
  · rw [hrec]; exact hfr.2.2.2.2.1.trans hfn

/-! ## Title-casing -/

theorem smallWords_iff (w : List Char) : smallWords w = true ↔ w ∈ minorWords := by
  simp only [smallWords, inTable, minorWords, List.any_cons, List.any_nil, Bool.or_false,
    Bool.or_eq_true, beq_iff_eq, List.mem_cons, List.mem_singleton, List.not_mem_nil,
    or_false, @eq_comm _ w]

theorem titleWords_enumFrom (env : Env) :
    ∀ (ws : List (List Char)) (k : Nat),
      titleWords env (decide (k = 0)) ws =
        (ws.enumFrom k).map (fun p => titleCaseWord env p.1 p.2) := by
  intro ws
  induction ws with
  | nil => intro k; rfl
  | cons w rest ih =>
    intro k
    have hrest := ih (k + 1)
    simp only [Nat.add_one_ne_zero, decide_False] at hrest
    simp only [titleWords, List.enumFrom_cons, List.map_cons, hrest]
    congr 1
    unfold titleCaseWord
    by_cases hk : k = 0
    · simp [hk]
    · by_cases hm : env.ToLower w ∈ minorWords
      · simp [hk, hm, (smallWords_iff _).2 hm]
      · have hs : smallWords (env.ToLower w) = false := by
          cases h : smallWords (env.ToLower w) with
          | false => rfl
          | true => exact absurd ((smallWords_iff _).1 h) hm
        simp [hk, hm, hs]

theorem fieldsAux_space (c : Char) (t : List Char) (hc : isSpace c = true) :
    fieldsAux (c :: t) [] = fieldsAux t [] := by
  simp [fieldsAux, hc]

theorem fieldsAux_word (w : List Char) (hw : ∀ c ∈ w, isSpace c = false) :
    ∀ (cur rest : List Char), fieldsAux (w ++ rest) cur = fieldsAux rest (w.reverse ++ cur) := by
  induction w with
  | nil => intro cur rest; rfl
  | cons x t ih =>
    intro cur rest
    have hx : isSpace x = false := hw x (List.mem_cons_self _ _)
    have ht : ∀ c ∈ t, isSpace c = false := fun c hc => hw c (List.mem_cons_of_mem _ hc)
    have hstep : fieldsAux (x :: (t ++ rest)) cur = fieldsAux (t ++ rest) (x :: cur) := by
      simp [fieldsAux, hx]
    rw [List.cons_append, hstep, ih ht]
    simp

theorem fieldsAux_flatten :
    ∀ (s cur : List Char),
      (fieldsAux s cur).flatten = cur.reverse ++ s.filter (fun c => !isSpace c) := by
  intro s
  induction s with
  | nil =>
    intro cur
    by_cases h : cur = []
    · simp [fieldsAux, h]
    · simp [fieldsAux, h]
  | cons c t ih =>
    intro cur
    by_cases hc : isSpace c = true
    · by_cases h : cur = []
      · simp [fieldsAux, hc, h, ih]
      · simp [fieldsAux, hc, h, ih]
    · have hc2 : isSpace c = false := by simpa using hc
      simp [fieldsAux, hc2, ih]

theorem fieldsAux_words :
    ∀ (s cur : List Char), (∀ c ∈ cur, isSpace c = false) →
      ∀ w ∈ fieldsAux s cur, w ≠ [] ∧ ∀ c ∈ w, isSpace c = false := by
  intro s
  induction s with
  | nil =>
    intro cur hcur w hw
    by_cases h : cur = []
    · simp [fieldsAux, h] at hw
    · simp only [fieldsAux, h, if_false, List.mem_singleton] at hw
      subst hw
      exact ⟨by simpa using h, fun c hc => hcur c (List.mem_reverse.1 hc)⟩
  | cons x t ih =>
    intro cur hcur w hw
    by_cases hx : isSpace x = true
    · by_cases h : cur = []
      · simp only [fieldsAux, hx, h, if_true] at hw
        exact ih [] (fun c hc => by cases hc) w hw
      · simp only [fieldsAux, hx, h, if_true, if_false, List.mem_cons] at hw
        rcases hw with hw | hw
        · subst hw
          exact ⟨by simpa using h, fun c hc => hcur c (List.mem_reverse.1 hc)⟩
        · exact ih [] (fun c hc => by cases hc) w hw
    · have hx2 : isSpace x = false := by simpa using hx
      simp only [fieldsAux, hx2, Bool.false_eq_true, if_false] at hw
      refine ih (x :: cur) ?_ w hw
      intro c hc
      rcases List.mem_cons.1 hc with h | h
      · rw [h]; exact hx2
      · exact hcur c h

/-- A word followed by the end of the text or by a space is the first field. -/
theorem Fields_word (w rest : List Char) (hne : w ≠ []) (hw : ∀ c ∈ w, isSpace c = false)
    (hrest : rest = [] ∨ ∃ c t, rest = c :: t ∧ isSpace c = true) :
    Fields (w ++ rest) = w :: Fields rest := by
  unfold Fields
  rw [fieldsAux_word w hw]
  have hrev : w.reverse ++ [] ≠ [] := by simpa using hne
  rcases hrest with h | ⟨c, t, h, hc⟩
  · subst h
    simp [fieldsAux, hne]
  · subst h
    simp [fieldsAux, hc, hne]

/-- C20: for every string s, properTitleCase(s) is the title-casing in the
words of the specification: the words of s (the maximal runs of characters
that are not white space, none of them empty, which together are s without its
white space), joined by single spaces, where the first word is lower-cased and
capitalised, a later word whose lower-case form is one of the fifteen minor
words is written in lower case, and every other word is lower-cased and
capitalised. With ASCII casing "the" gives "The", and
"Maleficent.Mistress.of.Evil.2019.720p.BluRay.x264-SPARKS.mkv" gives the
CleanName "Maleficent Mistress of Evil". -/
theorem properTitleCase_spec :
    (∀ (env : Env) (s : List Char),
      properTitleCase env s = properTitleCaseSpec env s ∧
      (∀ w ∈ Fields s, w ≠ [] ∧ ∀ c ∈ w, isSpace c = false) ∧
      (Fields s).flatten = s.filter (fun c => !isSpace c)) ∧
    Fields [] = [] ∧
    (∀ (c : Char) (t : List Char), isSpace c = true → Fields (c :: t) = Fields t) ∧
    (∀ (w rest : List Char), w ≠ [] → (∀ c ∈ w, isSpace c = false) →
      (rest = [] ∨ ∃ c t, rest = c :: t ∧ isSpace c = true) →
      Fields (w ++ rest) = w :: Fields rest) ∧
    properTitleCase offlineEnv "the".toList = "The".toList ∧
    properTitleCase offlineEnv "the  lord OF the RINGS".toList
      = "The Lord of the Rings".toList ∧
    (NewParsedFile offlineEnv 1
        "Maleficent.Mistress.of.Evil.2019.720p.BluRay.x264-SPARKS.mkv".toList [{}]).map
        (fun f => (f.IsMovie, f.Year, f.CleanName))
      = some (true, "2019".toList, "Maleficent Mistress of Evil".toList) := by
  refine ⟨?_, rfl, fun c t hc => fieldsAux_space c t hc, Fields_word, by decide, by decide,
    by decide⟩
  intro env s
  refine ⟨?_, fieldsAux_words s [] (fun c hc => by cases hc), ?_⟩
  · unfold properTitleCase properTitleCaseSpec
    have := titleWords_enumFrom env (Fields s) 0
    simp only [decide_True] at this
    rw [this]
    rfl
  · have := fieldsAux_flatten s []
    simpa using this

/-! ## The characters of the cleaned name -/

theorem mem_replaceScan (old new : List Char) :
    ∀ (s : List Char) (skip : Nat) (x : Char),
      x ∈ replaceScan old new skip s → x ∈ s ∨ x ∈ new := by
  intro s
  induction s with
  | nil => intro skip x hx; cases skip <;> simp [replaceScan] at hx
  | cons c t ih =>
    intro skip x hx
    cases skip with
    | succ n =>
      simp only [replaceScan] at hx
      rcases ih n x hx with h | h
      · exact Or.inl (List.mem_cons_of_mem _ h)
      · exact Or.inr h
    | zero =>
      simp only [replaceScan] at hx
      split_ifs at hx
      · rcases List.mem_append.1 hx with h | h
        · exact Or.inr h
        · rcases ih _ x h with h | h
          · exact Or.inl (List.mem_cons_of_mem _ h)
          · exact Or.inr h
      · rcases List.mem_cons.1 hx with h | h
        · exact Or.inl (by rw [h]; exact List.mem_cons_self _ _)
        · rcases ih _ x h with h | h
          · exact Or.inl (List.mem_cons_of_mem _ h)
          · exact Or.inr h

/-- Go `strings.Replace` writes characters of the text and of the
replacement only. -/
theorem mem_Replace (s old new : List Char) (x : Char) (hx : x ∈ Replace s old new) :
    x ∈ s ∨ x ∈ new := by
  unfold Replace at hx
  cases old with
  | nil =>
    simp only [List.mem_append, List.mem_flatMap, List.mem_cons] at hx
    rcases hx with h | ⟨a, ha, h | h⟩
    · exact Or.inr h
    · exact Or.inl (by rw [h]; exact ha)
    · exact Or.inr h
  | cons a t => exact mem_replaceScan _ _ s 0 x hx

/-- Replacing a single character by a text without it removes it. -/
theorem not_mem_Replace_single (s new : List Char) (a : Char) (hnew : a ∉ new) :
    a ∉ Replace s [a] new := by
  unfold Replace
  simp only
  induction s with
  | nil => simp [replaceScan]
  | cons c t ih =>
    simp only [replaceScan, List.isPrefixOf, List.length_singleton, Nat.sub_self]
    by_cases hc : a = c
    · subst hc
      simp only [beq_self_eq_true, Bool.true_and, if_true, List.mem_append, not_or]
      exact ⟨hnew, ih⟩
    · have : (a == c) = false := by simpa using hc
      simp only [this, Bool.false_and, Bool.false_eq_true, if_false, List.mem_cons, not_or]
      exact ⟨hc, ih⟩

theorem mem_trimRightBy (p : Char → Bool) (s : List Char) (x : Char)
    (hx : x ∈ trimRightBy p s) : x ∈ s := by
  unfold trimRightBy at hx
  rw [List.mem_reverse] at hx
  exact List.mem_reverse.1 ((List.dropWhile_sublist p).subset hx)

theorem mem_trimBlank (s : List Char) (x : Char) (hx : x ∈ trimBlank s) : x ∈ s := by
  unfold trimBlank at hx
  exact (List.dropWhile_sublist _).subset (mem_trimRightBy _ _ x hx)

theorem mem_loop_pieces (pending rest ins repl tail : List Char) (x : Char) (a : Nat)
    (hins : ∀ y ∈ ins, y ∈ repl) (htail : x ∈ tail → x ∈ pending ∨ x ∈ rest ∨ x ∈ repl)
    (hx : x ∈ pending ++ rest.take a ++ ins ++ tail) : x ∈ pending ∨ x ∈ rest ∨ x ∈ repl := by
  simp only [List.mem_append] at hx
  rcases hx with ((h | h) | h) | h
  · exact Or.inl h
  · exact Or.inr (Or.inl (List.mem_of_mem_take h))
  · exact Or.inr (Or.inr (hins x h))
  · exact htail h

theorem mem_replaceAllLoop (r : Regexp) (repl : List Char) :
    ∀ (fuel last pos : Nat) (pending rest : List Char) (x : Char),
      x ∈ replaceAllLoop r repl fuel last pos pending rest →
        x ∈ pending ∨ x ∈ rest ∨ x ∈ repl := by
  intro fuel
  induction fuel with
  | zero =>
    intro last pos pending rest x hx
    simp only [replaceAllLoop, List.mem_append] at hx
    rcases hx with h | h
    · exact Or.inl h
    · exact Or.inr (Or.inl h)
  | succ n ih =>
    intro last pos pending rest x hx
    simp only [replaceAllLoop] at hx
    cases hf : r.findFrom pos rest with
    | none =>
      rw [hf] at hx
      simp only [List.mem_append] at hx
      rcases hx with h | h
      · exact Or.inl h
      · exact Or.inr (Or.inl h)
    | some m =>
      obtain ⟨a0, a1, c1⟩ := m
      rw [hf] at hx
      simp only at hx
      have hins : ∀ y, y ∈ (if (decide (last < a1) || a0 == 0) = true then repl else []) →
          y ∈ repl := by
        intro y hy
        by_cases hb : (decide (last < a1) || a0 == 0) = true
        · rw [if_pos hb] at hy; exact hy
        · rw [if_neg hb] at hy; cases hy
      by_cases heq : (a1 == pos) = true
      · rw [if_pos heq] at hx
        cases rest with
        | nil =>
          simp only at hx
          refine mem_loop_pieces pending [] _ repl [] x (a0 - pos) hins (fun h => by cases h) ?_
          simpa using hx
        | cons y t =>
          simp only at hx
          refine mem_loop_pieces pending (y :: t) _ repl _ x (a0 - pos) hins ?_ hx
          intro h
          rcases ih _ _ _ _ x h with h | h | h
          · simp only [List.mem_singleton] at h
            exact Or.inr (Or.inl (by rw [h]; exact List.mem_cons_self _ _))
          · exact Or.inr (Or.inl (List.mem_cons_of_mem _ h))
          · exact Or.inr (Or.inr h)
      · rw [if_neg heq] at hx
        refine mem_loop_pieces pending rest _ repl _ x (a0 - pos) hins ?_ hx
        intro h
        rcases ih _ _ _ _ x h with h | h | h
        · cases h
        · exact Or.inr (Or.inl (List.mem_of_mem_drop h))
        · exact Or.inr (Or.inr h)

/-- Go `ReplaceAllString` writes characters of the text and of the
replacement only. -/
theorem mem_ReplaceAllString (r : Regexp) (src repl : List Char) (x : Char)
    (hx : x ∈ r.ReplaceAllString src repl) : x ∈ src ∨ x ∈ repl := by
  unfold Regexp.ReplaceAllString at hx
  rcases mem_replaceAllLoop r repl _ _ _ _ _ x hx with h | h | h
  · cases h
  · exact Or.inl h
  · exact Or.inr h

/-- One replacement of the cleaning pass writes characters of the name and
spaces only. -/
theorem mem_cleanStep (f : ParsedFile) (name : String) (re : Regexp) (res : Caps)
    (c c1 : List Char) (h : cleanStep f name re res c = some c1) (x : Char) (hx : x ∈ c1) :
    x ∈ c ∨ x = ' ' := by
  have hrep : ∀ r0, x ∈ Replace c r0 [' '] → x ∈ c ∨ x = ' ' := by
    intro r0 h0
    rcases mem_Replace _ _ _ x h0 with h1 | h1
    · exact Or.inl h1
    · exact Or.inr (List.mem_singleton.1 h1)
  unfold cleanStep at h
  dsimp only at h
  split_ifs at h with hgo h1 h2 h3 h4
  · cases h0 : res[0]? with
    | none => rw [h0] at h; cases h
    | some r0 => rw [h0] at h; cases h; exact hrep r0 hx
  · cases h0 : res[1]? with
    | none => rw [h0] at h; cases h
    | some r0 => rw [h0] at h; cases h; exact hrep r0 hx
  · cases h0 : res[1]? with
    | none => rw [h0] at h; cases h
    | some r0 => rw [h0] at h; cases h; exact hrep r0 hx
  · cases h; exact Or.inl hx
  · cases h
    rcases mem_ReplaceAllString _ _ _ x hx with h1 | h1
    · exact Or.inl h1
    · exact Or.inr (List.mem_singleton.1 h1)
  · cases h; exact Or.inl hx

/-- An induction rule for the cleaning pass: a property of the name that
every replacement keeps holds of the cleaned name. -/
theorem cleaningPass_induct (f : ParsedFile) (P : List Char → Prop) :
    ∀ (names : List String),
      (∀ name re res c c1, name ∈ names → matcher name = some re →
        re.FindStringSubmatch c = some res → P c → cleanStep f name re res c = some c1 → P c1) →
      ∀ c0 c, P c0 → cleaningPass f names c0 = some c → P c := by
  intro names
  induction names with
  | nil => intro _ c0 c h0 h; cases h; exact h0
  | cons name rest ih =>
    intro hstep c0 c h0 h
    have hrest := ih (fun n re res c c1 hn => hstep n re res c c1 (List.mem_cons_of_mem _ hn))
    simp only [cleaningPass] at h
    cases hm : matcher name with
    | none => rw [hm] at h; cases h
    | some re =>
      rw [hm] at h
      simp only at h
      cases hfind : re.FindStringSubmatch c0 with
      | none => rw [hfind] at h; exact hrest c0 c h0 h
      | some res =>
        rw [hfind] at h
        simp only at h
        by_cases hpos : 0 < res.length
        · rw [if_pos hpos] at h
          cases ha : cleanStep f name re res c0 with
          | none => rw [ha] at h; cases h
          | some c1 =>
            rw [ha] at h
            exact hrest c1 c (hstep name re res c0 c1 (List.mem_cons_self _ _) hm hfind h0 ha) h
        · rw [if_neg hpos] at h
          exact hrest c0 c h0 h

theorem not_mem_cleaningPass (f : ParsedFile) (a : Char) (ha : a ≠ ' ') (names : List String)
    (c0 c : List Char) (h0 : a ∉ c0) (h : cleaningPass f names c0 = some c) : a ∉ c := by
  refine cleaningPass_induct f (fun s => a ∉ s) names ?_ c0 c h0 h
  intro name re res c1 c2 _ _ _ hP hs hmem
  rcases mem_cleanStep f name re res c1 c2 hs a hmem with h1 | h1
  · exact hP h1
  · exact ha h1

theorem mem_Fields (s w : List Char) (hw : w ∈ Fields s) (x : Char) (hx : x ∈ w) : x ∈ s := by
  have hfl : x ∈ (Fields s).flatten := List.mem_flatten.2 ⟨w, hw, hx⟩
  unfold Fields at hfl
  rw [fieldsAux_flatten] at hfl
  simp only [List.reverse_nil, List.nil_append] at hfl
  exact List.mem_of_mem_filter hfl

theorem mem_titleWords (env : Env) :
    ∀ (ws : List (List Char)) (first : Bool) (w1 : List Char), w1 ∈ titleWords env first ws →
      ∃ w ∈ ws, w1 = env.Title (env.ToLower w) ∨ w1 = env.ToLower w := by
  intro ws
  induction ws with
  | nil => intro first w1 h; cases h
  | cons w rest ih =>
    intro first w1 h
    simp only [titleWords, List.mem_cons] at h
    rcases h with h | h
    · refine ⟨w, List.mem_cons_self _ _, ?_⟩
      rw [h]
      split_ifs
      · exact Or.inl rfl
      · exact Or.inr rfl
    · obtain ⟨w0, hw0, hres⟩ := ih false w1 h
      exact ⟨w0, List.mem_cons_of_mem _ hw0, hres⟩

theorem mem_Join (sep : List Char) :
    ∀ (ws : List (List Char)) (x : Char), x ∈ Join ws sep → x ∈ sep ∨ ∃ w ∈ ws, x ∈ w := by
  intro ws
  induction ws with
  | nil => intro x h; cases h
  | cons w rest ih =>
    intro x h
    cases rest with
    | nil =>
      simp only [Join] at h
      exact Or.inr ⟨w, List.mem_cons_self _ _, h⟩
    | cons w2 rest2 =>
      simp only [Join, List.mem_append] at h
      rcases h with (h | h) | h
      · exact Or.inr ⟨w, List.mem_cons_self _ _, h⟩
      · exact Or.inl h
      · rcases ih x h with h1 | ⟨w0, hw0, h1⟩
        · exact Or.inl h1
        · exact Or.inr ⟨w0, List.mem_cons_of_mem _ hw0, h1⟩

/-- Title-casing writes a character other than the space only if the text
has it, provided the text functions of the environment do the same. -/
theorem not_mem_properTitleCase (env : Env) (a : Char) (ha : a ≠ ' ') (henv : env.KeepsOut a)
    (s : List Char) (hs : a ∉ s) : a ∉ properTitleCase env s := by
  intro hmem
  unfold properTitleCase at hmem
  rcases mem_Join _ _ a hmem with h | ⟨w1, hw1, h⟩
  · exact ha (List.mem_singleton.1 h)
  · obtain ⟨w, hw, hres⟩ := mem_titleWords env _ _ w1 hw1
    have hwa : a ∉ w := fun h0 => hs (mem_Fields s w hw a h0)
    rcases hres with h1 | h1
    · rw [h1] at h
      exact (henv _ (henv w hwa).1).2 h
    · rw [h1] at h
      exact (henv w hwa).1 h

theorem not_mem_polish (env : Env) (f : ParsedFile) (a : Char) (ha : a ≠ ' ')
    (henv : env.KeepsOut a) (c : List Char) (hc : a ∉ c) : a ∉ polish env f c := by
  have ht : a ∉ trimBlank c := fun h => hc (mem_trimBlank c a h)
  unfold polish
  dsimp only
  split_ifs
  · refine not_mem_properTitleCase env a ha henv _ ?_
    intro h
    rcases mem_ReplaceAllString _ _ _ a h with h1 | h1
    · exact ht h1
    · cases h1
  · exact ht

/-- Without lookup and with no external ID, the clean name NewParsedFile
ends with: the colons are removed, and the year is appended in brackets for
the listed series names. -/
theorem finish_CleanName (env : Env) (opts : Options) (f r : ParsedFile) (c : List Char)
    (hl : opts.Lookup = false) (hid : f.ExternalID = 0) (h : finish env opts f c = some r) :
    r.CleanName = Replace (Replace c [':'] []) [':'] [] ∨
      r.CleanName =
        Replace (Replace c [':'] [] ++ " (".toList ++ f.Year ++ ")".toList) [':'] [] := by
  unfold finish at h
  simp only [hl, Bool.false_eq_true, if_false] at h
  have ht : translateSeason env { f with CleanName := Replace c [':'] [] } =
      { f with CleanName := Replace c [':'] [] } := by
    unfold translateSeason
    simp [hid]
  rw [ht] at h
  split_ifs at h <;> cases h
  · exact Or.inr rfl
  · exact Or.inl rfl

/-- The end of NewParsedFile leaves no colon in the clean name, with or
without lookup. -/
theorem finish_no_colon (env : Env) (opts : Options) (f r : ParsedFile) (c : List Char)
    (h : finish env opts f c = some r) : ':' ∉ r.CleanName := by
  unfold finish at h
  dsimp only at h
  cases hq : (if opts.Lookup = true then queryTmdb env { f with CleanName := Replace c [':'] [] }
      else some { f with CleanName := Replace c [':'] [] }) with
  | none => rw [hq] at h; cases h
  | some q =>
    rw [hq] at h
    dsimp only at h
    split_ifs at h <;> cases h <;> exact not_mem_Replace_single _ [] ':' (by simp)

/-- An induction rule for the results of NewParsedFile over options that
satisfy `R`: a property that holds of the records returned for other
extensions and of the records the end of the function returns for a video
file holds of every result, through the fallback call. -/
theorem NewParsedFile_result (env : Env) (R : Options → Prop) (Q : ParsedFile → Prop)
    (hR : ∀ opts path, R opts → R (getOpts env [{ opts with OriginalFile := path }]))
    (hnv : ∀ path o, R (getOpts env o) → SupportedVideoExtensions (Ext path) = false →
      Q (initialFile env path o) ∧ Q { initialFile env path o with IsMusic := true })
    (hv : ∀ path o g f1 c r, R (getOpts env o) → SupportedVideoExtensions (Ext path) = true →
      matchingPass (initialFile env path o).Filename order (initialFile env path o) = some g →
      classify g (getOpts env o) path = .done f1 →
      cleaningPass f1 order (Replace g.Filename ['.'] [' ']) = some c →
      finish env (getOpts env o) f1 (polish env f1 c) = some r → Q r) :
    ∀ (fuel : Nat) (path : List Char) (o : List Options) (r : ParsedFile),
      R (getOpts env o) → NewParsedFile env fuel path o = some r → Q r := by
  intro fuel
  induction fuel with
  | zero => intro path o r _ h; cases h
  | succ n ih =>
    intro path o r hr h
    by_cases hext : SupportedVideoExtensions (Ext path) = true
    · obtain ⟨g, hm, _⟩ := matchingPass_total (initialFile env path o).Filename order
        (initialFile env path o) order_matcherFits
      cases hc : classify g (getOpts env o) path with
      | done f1 =>
        rw [NewParsedFile_video_done env n path o g f1 hext hm hc] at h
        cases hcl : cleaningPass f1 order (Replace g.Filename ['.'] [' ']) with
        | none => rw [hcl] at h; cases h
        | some c =>
          rw [hcl] at h
          exact hv path o g f1 c r hr hext hm hc hcl h
      | retry p1 o1 =>
        rw [NewParsedFile_video_retry env n path p1 o o1 g hext hm hc] at h
        have ho1 := (classify_retry g _ o1 path p1 hc).2.2.2.2.2.2.2
        refine ih p1 [o1] r ?_ h
        rw [ho1]
        exact hR _ path hr
    · have hext2 : SupportedVideoExtensions (Ext path) = false := by simpa using hext
      rw [NewParsedFile_not_video env n path o hext2] at h
      cases h
      split_ifs
      · exact (hnv path o hr hext2).2
      · exact (hnv path o hr hext2).1

theorem getOpts_Lookup_update (env : Env) (opts : Options) (path : List Char)
    (h : opts.Lookup = false) :
    (getOpts env [{ opts with OriginalFile := path }]).Lookup = false :=
  (getOpts_flags env _).1.trans h

/-! ## Claims on the title cleaner -/

/-- The cleaning pass of a movie keeps at least two bytes before the trailing
spaces. -/
theorem cleaningPass_movie_length (f : ParsedFile) (hmo : f.IsMovie = true)
    (hse : f.IsSeries = false) (c0 c : List Char)
    (h0 : 2 ≤ utf8Len (trimRightBlank c0)) (h : cleaningPass f order c0 = some c) :
    2 ≤ utf8Len (trimRightBlank c) := by
  refine cleaningPass_induct f (fun s => 2 ≤ utf8Len (trimRightBlank s)) order ?_ c0 c h0 h
  intro name re res c1 c2 _ _ _ hP hs
  unfold cleanStep at hs
  simp only [hmo, hse, Bool.or_false, Bool.true_and] at hs
  by_cases hig : ignoreMovie name = true
  · simp only [hig, Bool.not_true, Bool.false_eq_true, if_false] at hs
    cases hs
    exact hP
  · have hig2 : ignoreMovie name = false := by simpa using hig
    simp only [hig2, Bool.not_false, if_true] at hs
    have he : name ≠ "episode" := by
      rintro rfl
      exact hig (by decide)
    have hsn : name ≠ "season" := by
      rintro rfl
      exact hig (by decide)
    have hga : name ≠ "groupAnime" := by
      rintro rfl
      exact hig (by decide)
    rw [if_neg he, if_neg hsn, if_neg hga] at hs
    split_ifs at hs with hlt
    · cases hs
      exact hP
    · cases hs
      omega

set_option maxRecDepth 100000 in
/-- C21 (as stated, refuted): on "S01E05.mkv" (a series) the replacement of
the episode text leaves no character but spaces and is not rolled back, so the
CleanName is empty; on " a.2012.mkv" (a movie) the replacement of the year
leaves " a", one character that is not a space, and is not rolled back either,
because the code measures the bytes left once the trailing spaces are
removed. -/
theorem cleaningPass_replacement_kept :
    (NewParsedFile offlineEnv 1 "S01E05.mkv".toList [{ Lookup := false }]).map
        (fun f => (f.IsSeries, f.Season, f.Episode, f.CleanName))
      = some (true, "01".toList, "05".toList, "".toList) ∧
    cleaningPass { IsSeries := true } ["season", "episode"] "S01E05".toList
      = some "  ".toList ∧
    (NewParsedFile offlineEnv 1 " a.2012.mkv".toList [{ Lookup := false }]).map
        (fun f => (f.IsMovie, f.Year, f.CleanName))
      = some (true, "2012".toList, "A".toList) ∧
    cleaningPass { IsMovie := true } ["year"] " a 2012".toList = some " a  ".toList := by
  refine ⟨by decide, by decide, by decide, by decide⟩

set_option maxRecDepth 100000 in
/-- C21 (amended): during title cleaning, for every matcher other than
season, episode and anime-group, a substitution whose result, once its
trailing spaces are removed, is shorter than two bytes is rolled back, and
cleaning continues with the text as it was; the substitutions for episode,
season and anime-group replace the captured text by a space and are never
rolled back. So the cleaning pass of a movie, which skips these three, keeps a
name of at least two bytes before its trailing spaces. "2012.mkv" is a movie
with Year "2012" whose CleanName stays "2012". -/
theorem cleaningPass_rollback :
    (∀ (f : ParsedFile) (name : String) (re : Regexp) (res : Caps) (c : List Char),
      ((f.IsMovie && !ignoreMovie name) || f.IsSeries) = true →
      name ≠ "episode" → name ≠ "season" → name ≠ "groupAnime" →
      cleanStep f name re res c =
        some (if utf8Len (trimRightBlank (re.ReplaceAllString c [' '])) < 2 then c
          else re.ReplaceAllString c [' '])) ∧
    (∀ (f : ParsedFile) (re : Regexp) (res : Caps) (c r0 r1 : List Char),
      f.IsSeries = true → res[0]? = some r0 → res[1]? = some r1 →
      cleanStep f "episode" re res c = some (Replace c r0 [' ']) ∧
      cleanStep f "season" re res c = some (Replace c r1 [' ']) ∧
      cleanStep f "groupAnime" re res c = some (Replace c r1 [' '])) ∧
    (∀ (f : ParsedFile) (c0 c : List Char), f.IsMovie = true → f.IsSeries = false →
      2 ≤ utf8Len (trimRightBlank c0) → cleaningPass f order c0 = some c →
      2 ≤ utf8Len (trimRightBlank c)) ∧
    (NewParsedFile offlineEnv 1 "2012.mkv".toList [{ Lookup := false }]).map
        (fun f => (f.IsMovie, f.Year, f.CleanName))
      = some (true, "2012".toList, "2012".toList) := by
  refine ⟨?_, ?_, ?_, by decide⟩
  · intro f name re res c hgo he hs hg
    unfold cleanStep
    rw [if_pos hgo, if_neg he, if_neg hs, if_neg hg]
    dsimp only
    split_ifs <;> rfl
  · intro f re res c r0 r1 hse h0 h1
    simp [cleanStep, hse, h0, h1]
  · intro f c0 c hmo hse h0 h
    exact cleaningPass_movie_length f hmo hse c0 c h0 h

/-- ASCII lower-casing yields a period only from a period. -/
theorem asciiLower_eq_period (c : Char) (h : asciiLower c = '.') : c = '.' := by
  unfold asciiLower at h
  split_ifs at h with hu
  · exfalso
    simp only [Char.isUpper, ge_iff_le, Bool.and_eq_true, decide_eq_true_eq] at hu
    have h1 : 65 ≤ c.toNat := hu.1
    have h2 : c.toNat ≤ 90 := hu.2
    generalize c.toNat = n at h h1 h2
    interval_cases n <;> revert h <;> decide
  · exact h

/-- ASCII upper-casing yields a period only from a period. -/
theorem asciiUpper_eq_period (c : Char) (h : asciiUpper c = '.') : c = '.' := by
  unfold asciiUpper at h
  split_ifs at h with hu
  · exfalso
    simp only [Char.isLower, ge_iff_le, Bool.and_eq_true, decide_eq_true_eq] at hu
    have h1 : 97 ≤ c.toNat := hu.1
    have h2 : c.toNat ≤ 122 := hu.2
    generalize c.toNat = n at h h1 h2
    interval_cases n <;> revert h <;> decide
  · exact h

/-- ASCII title-casing yields a period only from a period. -/
theorem asciiTitle_period :
    ∀ (s : List Char) (midWord wasMid : Bool),
      '.' ∈ asciiTitle midWord wasMid s → '.' ∈ s := by
  intro s
  induction s with
  | nil => intro midWord wasMid h; cases h
  | cons c t ih =>
    intro midWord wasMid h
    simp only [asciiTitle] at h
    split_ifs at h <;>
      rcases List.mem_cons.1 h with h | h <;>
      first
        | exact List.mem_cons_of_mem _ (ih _ _ h)
        | (rw [asciiUpper_eq_period c h.symm]; exact List.mem_cons_self _ _)
        | (rw [asciiLower_eq_period c h.symm]; exact List.mem_cons_self _ _)
        | (rw [← h]; exact List.mem_cons_self _ _)

/-- The ASCII text functions write no period into a text without one. -/
theorem offlineEnv_keepsOut_period : offlineEnv.KeepsOut '.' := by
  intro s hs
  refine ⟨?_, ?_⟩
  · intro h
    simp only [offlineEnv, List.mem_map] at h
    obtain ⟨c, hc, he⟩ := h
    rw [asciiLower_eq_period c he] at hc
    exact hs hc
  · intro h
    exact hs (asciiTitle_period s false false h)

set_option maxRecDepth 100000 in
/-- C22 (as stated, refuted): the CleanName of "My_Movie_2010.mkv" contains
underscores; only the dots of the file name are replaced by spaces. -/
theorem CleanName_keeps_underscore :
    (NewParsedFile offlineEnv 1 "My_Movie_2010.mkv".toList [{ Lookup := false }]).map
        (fun f => (f.IsMovie, f.Year, f.CleanName))
      = some (true, "2010".toList, "My_movie_".toList) ∧
    '_' ∈ "My_movie_".toList ∧
    Replace "My_Movie_2010".toList ['.'] [' '] = "My_Movie_2010".toList := by
  refine ⟨by decide, by decide, by decide⟩

/-- C22 (amended): the title cleaner works on the file name with every dot
replaced by a space (underscores are kept), so for every path, with a
recognised video extension or not, and options with lookup disabled, the
CleanName of the result contains no '.', provided the lower-casing and
title-casing of the environment write no '.' of their own. -/
theorem CleanName_without_period (env : Env) (path : List Char) (o : Options)
    (henv : env.KeepsOut '.') (hl : o.Lookup = false) :
    (∀ fn : List Char, '.' ∉ Replace fn ['.'] [' ']) ∧
    ∃ f, (∀ fuel, NewParsedFile env (fuel + 2) path [o] = some f) ∧ '.' ∉ f.CleanName := by
  refine ⟨fun fn => not_mem_Replace_single fn [' '] '.' (by decide), ?_⟩
  obtain ⟨f, hf, _⟩ := NewParsedFile_total env path [o]
  refine ⟨f, hf, ?_⟩
  refine NewParsedFile_result env (fun opts => opts.Lookup = false) (fun r => '.' ∉ r.CleanName)
    (fun opts p h => getOpts_Lookup_update env opts p h) ?_ ?_ 2 path [o] f
    ((getOpts_flags env o).1.trans hl) (hf 0)
  · intro p oo _ _
    exact ⟨by simp [initialFile], by simp [initialFile]⟩
  · intro p oo g f1 c r hlo hv hm hc hcl hfin
    obtain ⟨g0, hg0, hfr⟩ := matchingPass_total (initialFile env p oo).Filename order
      (initialFile env p oo) order_matcherFits
    rw [hm] at hg0
    cases hg0
    have hd := classify_done g f1 _ p hc
    have hid : f1.ExternalID = 0 :=
      hd.2.2.2.2.2.2.1.trans (hfr.2.2.2.1.trans (initialFile_Episode env p oo).2.2.2.2.2.2.2.2.2.2.1)
    have hyear : '.' ∉ f1.Year := by
      rw [hd.2.2.2.2.2.2.2.1]
      rcases matchingPass_Year _ _ g rfl hm with h0 | ⟨_, h0⟩
      · rw [h0]; simp
      · intro hmem
        have := h0 '.' hmem
        revert this
        decide
    have h1 : '.' ∉ Replace g.Filename ['.'] [' '] :=
      not_mem_Replace_single _ [' '] '.' (by decide)
    have h2 : '.' ∉ c := not_mem_cleaningPass f1 '.' (by decide) order _ c h1 hcl
    have h3 : '.' ∉ polish env f1 c := not_mem_polish env f1 '.' (by decide) henv c h2
    have h4 : '.' ∉ Replace (polish env f1 c) [':'] [] := by
      intro hmem
      rcases mem_Replace _ _ _ _ hmem with h | h
      · exact h3 h
      · cases h
    rcases finish_CleanName env _ f1 r _ hlo hid hfin with h | h
    · show '.' ∉ r.CleanName
      rw [h]
      intro hmem
      rcases mem_Replace _ _ _ _ hmem with h | h
      · exact h4 h
      · cases h
    · show '.' ∉ r.CleanName
      rw [h]
      intro hmem
      rcases mem_Replace _ _ _ _ hmem with h | h
      · simp only [List.mem_append] at h
        rcases h with ((h | h) | h) | h
        · exact h4 h
        · revert h; decide
        · exact hyear h
        · revert h; decide
      · cases h

set_option maxRecDepth 100000 in
/-- C22 (witness): the CleanName of "The.Matrix.1999.mkv" is "The Matrix". -/
theorem CleanName_without_period_witness :
    (SupportedVideoExtensions (Ext "The.Matrix.1999.mkv".toList) = true) ∧
    ((∀ fn : List Char, '.' ∉ Replace fn ['.'] [' ']) ∧
      ∃ f, (∀ fuel, NewParsedFile offlineEnv (fuel + 2) "The.Matrix.1999.mkv".toList [{}]
          = some f) ∧ '.' ∉ f.CleanName) ∧
    (NewParsedFile offlineEnv 2 "The.Matrix.1999.mkv".toList [{}]).map
        (fun f => (f.IsMovie, f.Year, f.CleanName))
      = some (true, "1999".toList, "The Matrix".toList) :=
  ⟨by decide,
    CleanName_without_period offlineEnv "The.Matrix.1999.mkv".toList {}
      offlineEnv_keepsOut_period rfl,
    by decide⟩

set_option maxRecDepth 100000 in
/-- C23: for every path and every options value, lookup enabled or not,
NewParsedFile returns a record (fuel 2 suffices) whose CleanName contains no
colon. "Alien: Covenant 2017.mkv" gives the CleanName "Alien Covenant". -/
theorem CleanName_without_colon :
    (∀ (env : Env) (path : List Char) (o : List Options),
      ∃ f, (∀ fuel, NewParsedFile env (fuel + 2) path o = some f) ∧ ':' ∉ f.CleanName) ∧
    (NewParsedFile offlineEnv 1 "Alien: Covenant 2017.mkv".toList [{}]).map
        (fun f => (f.IsMovie, f.Year, f.CleanName))
      = some (true, "2017".toList, "Alien Covenant".toList) := by
  refine ⟨?_, by decide⟩
  intro env path o
  obtain ⟨f, hf, _⟩ := NewParsedFile_total env path o
  refine ⟨f, hf, ?_⟩
  refine NewParsedFile_result env (fun _ => True) (fun r => ':' ∉ r.CleanName)
    (fun _ _ _ => trivial) ?_ ?_ 2 path o f trivial (hf 0)
  · intro p oo _ _
    exact ⟨by simp [initialFile], by simp [initialFile]⟩
  · intro p oo g f1 c r _ _ _ _ _ hfin
    exact finish_no_colon env _ f1 r _ hfin

/-! ## The season and episode texts -/

/-- Capture group 2 of the season matcher holds one or two digits. -/
theorem season_capture (filename : List Char) (res : Caps)
    (h : submatch "season" filename = some res) :
    (1 ≤ (res.getD 2 []).length ∧ (res.getD 2 []).length ≤ 2) ∧
      ∀ c ∈ res.getD 2 [], isDigit c = true := by
  obtain ⟨re, hre, hf, _⟩ := submatch_length _ filename res h
  simp [matcher, matchers] at hre
  subst hre
  obtain ⟨v, hv, hcap⟩ := FindStringSubmatch_sets _ filename res hf 2 (by decide) (by decide)
    (by simp [Re.Sets, seqs])
  rw [getD_of_getElem? hv]
  simp only [Re.Captures, Re.Matches, seqs, opt, oneOf, chrI, classEX, digit,
    false_or, or_false, true_and] at hcap
  simp at hcap
  obtain ⟨u1, t1, rfl, ⟨x1, rfl, h1⟩, h2⟩ := hcap
  rcases h2 with ⟨x2, rfl, h2⟩ | rfl
  · refine ⟨by simp, ?_⟩
    intro c hc
    simp at hc
    rcases hc with h | h <;> subst h <;> assumption
  · refine ⟨by simp, ?_⟩
    intro c hc
    simp at hc
    subst hc
    exact h1

/-- Capture group 1 of the episode matcher holds two digits. -/
theorem episode_capture (filename : List Char) (res : Caps)
    (h : submatch "episode" filename = some res) :
    (res.getD 1 []).length = 2 ∧ ∀ c ∈ res.getD 1 [], isDigit c = true := by
  obtain ⟨re, hre, hf, _⟩ := submatch_length _ filename res h
  simp [matcher, matchers] at hre
  subst hre
  obtain ⟨v, hv, hcap⟩ := FindStringSubmatch_sets _ filename res hf 1 (by decide) (by decide)
    (by simp [Re.Sets, seqs])
  rw [getD_of_getElem? hv]
  simp only [Re.Captures, Re.Matches, seqs, opt, oneOf, chr, classEX, digit,
    false_or, or_false, true_and] at hcap
  simp at hcap
  obtain ⟨u1, t1, rfl, ⟨x1, rfl, h1⟩, x2, rfl, h2⟩ := hcap
  refine ⟨rfl, ?_⟩
  intro c hc
  simp at hc
  rcases hc with h | h <;> subst h <;> assumption

theorem fmt02s_of_length_two (s : List Char) (h : s.length = 2) : fmt02s s = s := by
  simp [fmt02s, padZero, h]

theorem fmt02s_digits (s : List Char) (h : ∀ c ∈ s, isDigit c = true) :
    2 ≤ (fmt02s s).length ∧ ∀ c ∈ fmt02s s, isDigit c = true := by
  refine ⟨?_, ?_⟩
  · simp only [fmt02s, padZero, List.length_append, List.length_replicate]
    omega
  · intro c hc
    simp only [fmt02s, padZero, List.mem_append] at hc
    rcases hc with hc | hc
    · rw [List.eq_of_mem_replicate hc]
      decide
    · exact h c hc

theorem fmt02s_ne_nil (s : List Char) : fmt02s s ≠ [] := by
  intro h
  have : (fmt02s s).length = 0 := by rw [h]; rfl
  simp only [fmt02s, padZero, List.length_append, List.length_replicate] at this
  omega

theorem fmt02d_ne_nil (n : Int) : fmt02d n ≠ [] := by
  unfold fmt02d
  split_ifs
  · simp
  · intro h
    have : (padZero 2 (natDigits n.natAbs)).length = 0 := by rw [h]; rfl
    simp only [padZero, List.length_append, List.length_replicate] at this
    omega

/-- The episode matcher never writes an empty episode. -/
theorem episodeText_ne_nil (res : Caps) : episodeText res ≠ [] := by
  unfold episodeText
  cases ParseEpisodeString (res.getD 0 []) with
  | error e => exact fmt02s_ne_nil _
  | ok i =>
    simp only
    split_ifs
    · intro h
      have := congrArg List.length h
      simp only [List.length_append, List.length_nil] at this
      have h2 : (fmt02d i.Start).length ≠ 0 := fun h0 =>
        fmt02d_ne_nil _ (List.length_eq_zero.1 h0)
      omega
    · exact fmt02d_ne_nil _

/-- The season the matching pass leaves is a season text. -/
theorem matchedSeason_text (filename : List Char) : IsSeasonText (matchedSeason filename) := by
  unfold matchedSeason
  split_ifs
  · exact Or.inr ⟨by decide, by decide⟩
  · unfold seasonOfSeason
    have hyr : IsSeasonText (seasonOfYear filename) := by
      unfold seasonOfYear
      cases hs : submatch "yearAsSeason" filename with
      | none => exact Or.inl rfl
      | some res =>
        obtain ⟨h1, h2⟩ := yearAsSeason_capture filename res hs
        exact Or.inr ⟨by simp only; omega, h2⟩
    split_ifs
    · cases hs : submatch "season" filename with
      | none => exact Or.inl rfl
      | some res =>
        simp only
        exact Or.inr (fmt02s_digits _ (season_capture filename res hs).2)
    · exact hyr

/-! ## Claims on the season and episode fields -/

set_option maxRecDepth 100000 in
/-- C28: for every path and options with lookup disabled, NewParsedFile
returns a record (fuel 2 suffices) whose Season is empty or has at least two
characters, all of them decimal digits. "Downton Abbey 5x06 HDTV x264-FoV
[eztv].mkv" gives "05", "Mythbusters.S2005E03.Brown.Note.mkv" gives "2005" and
"[Group] Series - 01 [1080p].mkv" gives "00". -/
theorem NewParsedFile_season_text :
    (∀ (env : Env) (path : List Char) (o : Options), o.Lookup = false →
      ∃ f, (∀ fuel, NewParsedFile env (fuel + 2) path [o] = some f) ∧
        (f.Season = [] ∨ (2 ≤ f.Season.length ∧ ∀ c ∈ f.Season, isDigit c = true))) ∧
    (NewParsedFile offlineEnv 1 "Downton Abbey 5x06 HDTV x264-FoV [eztv].mkv".toList [{}]).map
        (fun f => f.Season) = some "05".toList ∧
    (NewParsedFile offlineEnv 1 "Mythbusters.S2005E03.Brown.Note.mkv".toList [{}]).map
        (fun f => f.Season) = some "2005".toList ∧
    (NewParsedFile offlineEnv 1 "[Group] Series - 01 [1080p].mkv".toList [{}]).map
        (fun f => f.Season) = some "00".toList := by
  refine ⟨?_, by decide, by decide, by decide⟩
  intro env path o hl
  obtain ⟨f, hf, _⟩ := NewParsedFile_total env path [o]
  refine ⟨f, hf, ?_⟩
  refine NewParsedFile_result env (fun opts => opts.Lookup = false)
    (fun r => IsSeasonText r.Season)
    (fun opts p h => getOpts_Lookup_update env opts p h) ?_ ?_ 2 path [o] f
    ((getOpts_flags env o).1.trans hl) (hf 0)
  · intro p oo _ _
    exact ⟨Or.inl rfl, Or.inl rfl⟩
  · intro p oo g f1 c r hlo hv hm hc hcl hfin
    obtain ⟨g0, hg0, hfr⟩ := matchingPass_total (initialFile env p oo).Filename order
      (initialFile env p oo) order_matcherFits
    rw [hm] at hg0
    cases hg0
    have hd := classify_done g f1 _ p hc
    have hid : f1.ExternalID = 0 :=
      hd.2.2.2.2.2.2.1.trans (hfr.2.2.2.1.trans (initialFile_Episode env p oo).2.2.2.2.2.2.2.2.2.2.1)
    obtain ⟨r1, hr1, hrec⟩ := finish_no_lookup env _ f1 (polish env f1 c) hlo hid
    rw [hfin] at hr1
    cases hr1
    have hS := (matchingPass_fields _ _ g rfl rfl rfl rfl hm).1
    show IsSeasonText r.Season
    rw [hrec]
    rcases hd.2.2.2.2.2.2.2.2.2.2.2.1 with h | h
    · show IsSeasonText f1.Season
      rw [h, hS]
      exact matchedSeason_text _
    · exact Or.inl h

/-- C29: when the episode matcher matches the file name of a video path and
ParseEpisodeString rejects the matched text, NewParsedFile does not fail (it
returns a record with fuel 2, whatever the options): the matching pass sets
Episode to the first captured group, which is two digits, and this is the
Episode of the result whenever the file is classified as a series by a season
or by ForceSeries (ForceMovie not set). -/
theorem NewParsedFile_episode_fallback (env : Env) (path : List Char) (o : Options)
    (res : Caps) (e : EpError)
    (hext : SupportedVideoExtensions (Ext path) = true)
    (hres : submatch "episode" (Base (TrimSuffix path (Ext path))) = some res)
    (hparse : ParseEpisodeString (res.getD 0 []) = .error e) :
    ((res.getD 1 []).length = 2 ∧ ∀ c ∈ res.getD 1 [], isDigit c = true) ∧
    ∃ g f, matchingPass (initialFile env path [o]).Filename order (initialFile env path [o])
        = some g ∧
      g.Episode = res.getD 1 [] ∧
      (∀ fuel, NewParsedFile env (fuel + 2) path [o] = some f) ∧
      (o.ForceMovie = false → (o.ForceSeries = true ∨ g.Season ≠ []) →
        f.IsSeries = true ∧ f.IsMovie = false ∧ f.Episode = res.getD 1 []) := by
  have hcap := episode_capture _ res hres
  obtain ⟨g, hm, hfr⟩ := matchingPass_total (initialFile env path [o]).Filename order
    (initialFile env path [o]) order_matcherFits
  obtain ⟨_, _, hE, _⟩ := matchingPass_fields _ _ g rfl rfl rfl rfl hm
  have hfn : (initialFile env path [o]).Filename = Base (TrimSuffix path (Ext path)) := rfl
  rw [hfn] at hE
  have hep : episodeOfEpisode (Base (TrimSuffix path (Ext path))) = res.getD 1 [] := by
    unfold episodeOfEpisode
    rw [hres]
    simp only [episodeText, hparse]
    exact fmt02s_of_length_two _ hcap.1
  have hne : res.getD 1 [] ≠ [] := by
    intro h0
    have := hcap.1
    rw [h0] at this
    cases this
  have hgE : g.Episode = res.getD 1 [] := by
    rw [hE]
    unfold matchedEpisode animeHonoured
    rw [hep]
    have hb : (res.getD 1 [] == ([] : List Char)) = false := beq_eq_false_iff_ne.2 hne
    simp only [hb, Bool.false_and, Bool.false_eq_true, if_false]
  obtain ⟨f, hf, _⟩ := NewParsedFile_total env path [o]
  refine ⟨hcap, g, f, hm, hgE, hf, ?_⟩
  intro hfm hser
  have hc : classify g (getOpts env [o]) path = .done { g with IsSeries := true } := by
    unfold classify
    rw [if_neg (by rw [(getOpts_flags env o).2.1, hfm]; simp)]
    by_cases hfs : (getOpts env [o]).ForceSeries = true
    · rw [if_pos hfs]
    · rw [if_neg hfs]
      have hs : g.Season ≠ [] := by
        rcases hser with h | h
        · exact absurd ((getOpts_flags env o).2.2.1.trans h) hfs
        · exact h
      rw [if_pos hs]
  obtain ⟨r, hr, hid⟩ := NewParsedFile_of_done env path [o] g _ hext hm hc
  have hrf : r = f := by
    have := hr 1
    rw [hf 0] at this
    cases this
    rfl
  subst hrf
  refine ⟨hid.2.1, ?_, ?_⟩
  · rw [hid.1]
    exact hfr.2.2.1.trans (initialFile_fields env path o).2.1
  · rw [hid.2.2.2.2.2.2.2.2.1]
    exact hgE

set_option maxRecDepth 100000 in
/-- C29 (witness): "Downton Abbey 5x06 HDTV x264-FoV [eztv].mkv" is a series
with Season "05" and Episode "06"; the matched text "x06" is rejected by
ParseEpisodeString, as are "e05" and the descending pair "E23E22". -/
theorem NewParsedFile_episode_fallback_witness :
    (SupportedVideoExtensions
        (Ext "Downton Abbey 5x06 HDTV x264-FoV [eztv].mkv".toList) = true ∧
      submatch "episode" (Base (TrimSuffix
          "Downton Abbey 5x06 HDTV x264-FoV [eztv].mkv".toList
          (Ext "Downton Abbey 5x06 HDTV x264-FoV [eztv].mkv".toList)))
        = some ["x06".toList, "06".toList, "".toList] ∧
      ParseEpisodeString "x06".toList = .error .invalidFormat) ∧
    (("06".toList.length = 2 ∧ ∀ c ∈ "06".toList, isDigit c = true) ∧
      ∃ g f, matchingPass
          (initialFile offlineEnv "Downton Abbey 5x06 HDTV x264-FoV [eztv].mkv".toList
            [{}]).Filename order
          (initialFile offlineEnv "Downton Abbey 5x06 HDTV x264-FoV [eztv].mkv".toList [{}])
          = some g ∧
        g.Episode = "06".toList ∧
        (∀ fuel, NewParsedFile offlineEnv (fuel + 2)
          "Downton Abbey 5x06 HDTV x264-FoV [eztv].mkv".toList [{}] = some f) ∧
        (({} : Options).ForceMovie = false →
          (({} : Options).ForceSeries = true ∨ g.Season ≠ []) →
          f.IsSeries = true ∧ f.IsMovie = false ∧ f.Episode = "06".toList)) ∧
    (NewParsedFile offlineEnv 1 "Downton Abbey 5x06 HDTV x264-FoV [eztv].mkv".toList [{}]).map
        (fun f => (f.IsSeries, f.Season, f.Episode, f.CleanName))
      = some (true, "05".toList, "06".toList, "Downton Abbey".toList) ∧
    (NewParsedFile offlineEnv 1 "Show.S01e05.mkv".toList [{}]).map
        (fun f => (f.IsSeries, f.Season, f.Episode))
      = some (true, "01".toList, "05".toList) ∧
    (NewParsedFile offlineEnv 1 "Show.E23E22.mkv".toList [{}]).map
        (fun f => (f.IsSeries, f.Episode)) = some (true, "23".toList) :=
  ⟨⟨by decide, by decide, by decide⟩,
    NewParsedFile_episode_fallback offlineEnv
      "Downton Abbey 5x06 HDTV x264-FoV [eztv].mkv".toList {}
      ["x06".toList, "06".toList, "".toList] .invalidFormat (by decide) (by decide) (by decide),
    by decide, by decide, by decide⟩

/-- C30: on a video path, the anime-episode match is applied exactly when the
anime-episode matcher matches the file name and the episode matcher does not
(so that no episode is set). When it is applied, the matching pass leaves
Season "00", whatever season was found earlier, and the trimmed match as
Episode, and the result is a series and not a movie unless ForceMovie is set
(then it is a movie); with lookup disabled its Season is "00". When it is not
applied, Season and Episode are those of the earlier matchers. -/
theorem NewParsedFile_anime_episode (env : Env) (path : List Char) (o : Options)
    (hext : SupportedVideoExtensions (Ext path) = true) :
    ∃ g f, matchingPass (initialFile env path [o]).Filename order (initialFile env path [o])
        = some g ∧
      (∀ fuel, NewParsedFile env (fuel + 2) path [o] = some f) ∧
      (∀ res, submatch "episode" (Base (TrimSuffix path (Ext path))) = some res →
        g.Episode = episodeText res ∧ g.Episode ≠ [] ∧
        g.Season = seasonOfSeason (Base (TrimSuffix path (Ext path)))) ∧
      (submatch "episodeAnime" (Base (TrimSuffix path (Ext path))) = none →
        g.Episode = episodeOfEpisode (Base (TrimSuffix path (Ext path))) ∧
        g.Season = seasonOfSeason (Base (TrimSuffix path (Ext path)))) ∧
      (∀ ra, submatch "episodeAnime" (Base (TrimSuffix path (Ext path))) = some ra →
        submatch "episode" (Base (TrimSuffix path (Ext path))) = none →
        g.Season = "00".toList ∧ g.Episode = trimBlank (ra.getD 0 []) ∧
        (o.ForceMovie = false → f.IsSeries = true ∧ f.IsMovie = false ∧
          (o.Lookup = false → f.Season = "00".toList)) ∧
        (o.ForceMovie = true → f.IsMovie = true ∧ f.IsSeries = false)) := by
  obtain ⟨g, hm, hfr⟩ := matchingPass_total (initialFile env path [o]).Filename order
    (initialFile env path [o]) order_matcherFits
  obtain ⟨hS, _, hE, _⟩ := matchingPass_fields _ _ g rfl rfl rfl rfl hm
  have hfn : (initialFile env path [o]).Filename = Base (TrimSuffix path (Ext path)) := rfl
  rw [hfn] at hS hE
  obtain ⟨f, hf, _⟩ := NewParsedFile_total env path [o]
  have hi := initialFile_fields env path o
  refine ⟨g, f, hm, hf, ?_, ?_, ?_⟩
  · intro res hres
    have hep : episodeOfEpisode (Base (TrimSuffix path (Ext path))) = episodeText res := by
      unfold episodeOfEpisode
      rw [hres]
    have hb : (episodeText res == ([] : List Char)) = false :=
      beq_eq_false_iff_ne.2 (episodeText_ne_nil res)
    have han : animeHonoured (Base (TrimSuffix path (Ext path))) = false := by
      unfold animeHonoured
      rw [hep, hb]
      rfl
    refine ⟨?_, ?_, ?_⟩
    · rw [hE]
      unfold matchedEpisode
      rw [han, hep]
      rfl
    · rw [hE]
      unfold matchedEpisode
      rw [han, hep]
      exact episodeText_ne_nil res
    · rw [hS]
      unfold matchedSeason
      rw [han]
      rfl
  · intro hnone
    have han : animeHonoured (Base (TrimSuffix path (Ext path))) = false := by
      unfold animeHonoured
      rw [hnone]
      simp
    refine ⟨?_, ?_⟩
    · rw [hE]
      unfold matchedEpisode
      rw [han]
      rfl
    · rw [hS]
      unfold matchedSeason
      rw [han]
      rfl
  · intro ra hra hnone
    have hep : episodeOfEpisode (Base (TrimSuffix path (Ext path))) = [] := by
      unfold episodeOfEpisode
      rw [hnone]
    have han : animeHonoured (Base (TrimSuffix path (Ext path))) = true := by
      unfold animeHonoured
      rw [hep, hra]
      rfl
    have hgS : g.Season = "00".toList := by
      rw [hS]
      unfold matchedSeason
      rw [han]
      rfl
    have hgE : g.Episode = trimBlank (ra.getD 0 []) := by
      rw [hE]
      unfold matchedEpisode
      rw [han, hra]
      rfl
    have hsne : g.Season ≠ [] := by
      rw [hgS]
      decide
    refine ⟨hgS, hgE, ?_, ?_⟩
    · intro hfm
      have hc : classify g (getOpts env [o]) path = .done { g with IsSeries := true } := by
        unfold classify
        rw [if_neg (by rw [(getOpts_flags env o).2.1, hfm]; simp)]
        by_cases hfs : (getOpts env [o]).ForceSeries = true
        · rw [if_pos hfs]
        · rw [if_neg hfs, if_pos hsne]
      obtain ⟨r, hr, hid⟩ := NewParsedFile_of_done env path [o] g _ hext hm hc
      have hrf : r = f := by
        have := hr 1
        rw [hf 0] at this
        cases this
        rfl
      subst hrf
      refine ⟨hid.2.1, ?_, ?_⟩
      · rw [hid.1]
        exact hfr.2.2.1.trans hi.2.1
      · intro hl
        obtain ⟨r2, hr2, hrec⟩ := NewParsedFile_classified env 1 path o g _ hext hl hm hc rfl
        rw [hf 0] at hr2
        cases hr2
        rw [hrec]
        exact hgS
    · intro hfm
      have hc : classify g (getOpts env [o]) path =
          .done { g with IsMovie := true, Episode := [], Season := [] } := by
        unfold classify
        rw [if_pos (by rw [(getOpts_flags env o).2.1, hfm])]
      obtain ⟨r, hr, hid⟩ := NewParsedFile_of_done env path [o] g _ hext hm hc
      have hrf : r = f := by
        have := hr 1
        rw [hf 0] at this
        cases this
        rfl
      subst hrf
      refine ⟨hid.1, ?_⟩
      rw [hid.2.1]
      exact hfr.2.1.trans hi.2.2.1

set_option maxRecDepth 100000 in
/-- C30 (witness): "[Group] Series - 01 [1080p].mkv" is a series, not a movie,
with Season "00", Episode "01" and CleanName "Series". -/
theorem NewParsedFile_anime_episode_witness :
    SupportedVideoExtensions (Ext "[Group] Series - 01 [1080p].mkv".toList) = true ∧
    (∃ g f, matchingPass
        (initialFile offlineEnv "[Group] Series - 01 [1080p].mkv".toList [{}]).Filename order
        (initialFile offlineEnv "[Group] Series - 01 [1080p].mkv".toList [{}]) = some g ∧
      (∀ fuel, NewParsedFile offlineEnv (fuel + 2) "[Group] Series - 01 [1080p].mkv".toList
        [{}] = some f)) ∧
    submatch "episodeAnime" "[Group] Series - 01 [1080p]".toList
      = some [" 01 ".toList, "01".toList, "".toList] ∧
    submatch "episode" "[Group] Series - 01 [1080p]".toList = none ∧
    (NewParsedFile offlineEnv 1 "[Group] Series - 01 [1080p].mkv".toList [{}]).map
        (fun f => (f.IsSeries, f.IsMovie, f.Season, f.Episode, f.CleanName))
      = some (true, false, "00".toList, "01".toList, "Series".toList) :=
  ⟨by decide,
    (NewParsedFile_anime_episode offlineEnv "[Group] Series - 01 [1080p].mkv".toList {}
      (by decide)).imp (fun _ h => h.imp (fun _ h2 => ⟨h2.1, h2.2.1⟩)),
    by decide, by decide, by decide⟩

/-! ## Templates -/

theorem fillTemplate_cons_of_ne (tbl : List (Char × List Char)) (c : Char) (t : List Char)
    (hc : c ≠ '{') : fillTemplate tbl (c :: t) = c :: fillTemplate tbl t := by
  cases t with
  | nil => rfl
  | cons k t1 =>
    cases t1 with
    | nil =>
      cases tbl <;> rfl
    | cons c2 t2 =>
      rw [fillTemplate]
      rw [if_neg (fun h => hc h.1)]

theorem fillTemplate_append_of_no_open (tbl : List (Char × List Char)) (w r : List Char)
    (hw : ∀ c ∈ w, c ≠ '{') : fillTemplate tbl (w ++ r) = w ++ fillTemplate tbl r := by
  induction w with
  | nil => rfl
  | cons c t ih =>
    rw [List.cons_append, fillTemplate_cons_of_ne tbl c _ (hw c (List.mem_cons_self _ _)),
      ih (fun x hx => hw x (List.mem_cons_of_mem _ hx)), List.cons_append]

/-- A token whose key is in the table is replaced by its value. -/
theorem fillTemplate_token (tbl : List (Char × List Char)) (k : Char) (v t : List Char)
    (h : placeholderValue tbl k = some v) :
    fillTemplate tbl ('{' :: k :: '}' :: t) = v ++ fillTemplate tbl t := by
  rw [fillTemplate, if_pos ⟨rfl, rfl⟩, h]

/-- An opening brace that does not start a token of the table is copied. -/
theorem fillTemplate_open (tbl : List (Char × List Char)) (t : List Char)
    (h : ∀ k t2, t = k :: '}' :: t2 → placeholderValue tbl k = none) :
    fillTemplate tbl ('{' :: t) = '{' :: fillTemplate tbl t := by
  cases t with
  | nil => rfl
  | cons k t1 =>
    cases t1 with
    | nil => cases tbl <;> rfl
    | cons c2 t2 =>
      rw [fillTemplate]
      by_cases hc : c2 = '}'
      · subst hc
        rw [if_pos ⟨rfl, rfl⟩, h k t2 rfl]
      · rw [if_neg (fun hh => hc hh.2)]

theorem placeholderValue_single (k k1 : Char) (v : List Char) :
    placeholderValue [(k, v)] k1 = if k = k1 then some v else none := by
  unfold placeholderValue
  by_cases h : k = k1
  · subst h
    simp
  · have : (k == k1) = false := by simpa using h
    simp [List.find?, this, h]

theorem placeholderValue_append (t1 t2 : List (Char × List Char)) (k : Char) :
    placeholderValue (t1 ++ t2) k =
      match placeholderValue t1 k with
      | some v => some v
      | none => placeholderValue t2 k := by
  unfold placeholderValue
  rw [List.find?_append]
  cases List.find? (fun p => p.1 == k) t1 <;> rfl

theorem replaceScan_token_hit (k : Char) (v t : List Char) :
    replaceScan ['{', k, '}'] v 0 ('{' :: k :: '}' :: t) = v ++ replaceScan ['{', k, '}'] v 0 t := by
  simp [replaceScan, List.isPrefixOf]

theorem replaceScan_token_miss (k c : Char) (v t : List Char)
    (h : ¬ (c = '{' ∧ ∃ t2, t = k :: '}' :: t2)) :
    replaceScan ['{', k, '}'] v 0 (c :: t) = c :: replaceScan ['{', k, '}'] v 0 t := by
  rw [replaceScan, if_neg]
  intro hp
  apply h
  cases t with
  | nil => simp [List.isPrefixOf] at hp
  | cons a t1 =>
    cases t1 with
    | nil => simp [List.isPrefixOf] at hp
    | cons b t2 =>
      simp only [List.isPrefixOf, Bool.and_eq_true, beq_iff_eq, Bool.and_true] at hp
      obtain ⟨h1, h2, h3⟩ := hp
      exact ⟨h1.symm, t2, by rw [← h2, ← h3]⟩

/-- Go `strings.Replace` of one placeholder token is one pass over the
text with the table of that placeholder alone. -/
theorem Replace_token (k : Char) (v : List Char) :
    ∀ s : List Char, Replace s ['{', k, '}'] v = fillTemplate [(k, v)] s := by
  have key : ∀ (n : Nat) (s : List Char), s.length ≤ n →
      replaceScan ['{', k, '}'] v 0 s = fillTemplate [(k, v)] s := by
    intro n
    induction n with
    | zero =>
      intro s hs
      have : s = [] := List.length_eq_zero.1 (by omega)
      subst this
      rfl
    | succ n ih =>
      intro s hs
      cases s with
      | nil => rfl
      | cons c t =>
        have hlt : t.length ≤ n := by simpa using hs
        by_cases hhit : c = '{' ∧ ∃ t2, t = k :: '}' :: t2
        · obtain ⟨rfl, t2, rfl⟩ := hhit
          rw [replaceScan_token_hit, fillTemplate_token _ k v t2 (by
            rw [placeholderValue_single]; simp)]
          rw [ih t2 (by simp at hlt; omega)]
        · rw [replaceScan_token_miss k c v t hhit, ih t hlt]
          by_cases hc : c = '{'
          · subst hc
            rw [fillTemplate_open]
            intro k1 t2 ht
            rw [placeholderValue_single]
            by_cases hk : k = k1
            · subst hk
              exact absurd ⟨rfl, t2, ht⟩ hhit
            · rw [if_neg hk]
          · rw [fillTemplate_cons_of_ne _ c t hc]
  intro s
  exact key s.length s (le_refl _)

/-- A brace token whose text is not a key of the table is copied. -/
theorem fillTemplate_group (tbl : List (Char × List Char)) (w t : List Char)
    (hw : ∀ c ∈ w, c ≠ '{' ∧ c ≠ '}')
    (hmiss : ∀ k, w = [k] → placeholderValue tbl k = none)
    (hclose : placeholderValue tbl '}' = none) :
    fillTemplate tbl ('{' :: (w ++ '}' :: t)) = '{' :: (w ++ '}' :: fillTemplate tbl t) := by
  rw [fillTemplate_open, fillTemplate_append_of_no_open tbl w _ (fun c hc => (hw c hc).1),
    fillTemplate_cons_of_ne tbl '}' t (by decide)]
  intro k t2 ht
  cases w with
  | nil =>
    simp only [List.nil_append, List.cons.injEq] at ht
    rw [← ht.1]
    exact hclose
  | cons a w1 =>
    cases w1 with
    | nil =>
      simp only [List.cons_append, List.nil_append, List.cons.injEq] at ht
      rw [← ht.1]
      exact hmiss a rfl
    | cons b w2 =>
      simp only [List.cons_append, List.cons.injEq] at ht
      exact absurd ht.2.1 (hw b (List.mem_cons_of_mem _ (List.mem_cons_self _ _))).2

theorem bracesFlat_inside (t : List Char) (h : bracesFlat true t = true) :
    ∃ w t1, t = w ++ '}' :: t1 ∧ (∀ c ∈ w, c ≠ '{' ∧ c ≠ '}') ∧ bracesFlat false t1 = true := by
  induction t with
  | nil => simp [bracesFlat] at h
  | cons c t ih =>
    simp only [bracesFlat] at h
    by_cases h1 : c = '{'
    · rw [if_pos h1] at h; cases h
    · rw [if_neg h1] at h
      by_cases h2 : c = '}'
      · rw [if_pos h2] at h
        exact ⟨[], t, by rw [h2]; rfl, fun c hc => (by cases hc), h⟩
      · rw [if_neg h2] at h
        obtain ⟨w, t1, hw, hall, hflat⟩ := ih h
        refine ⟨c :: w, t1, by rw [hw]; rfl, ?_, hflat⟩
        intro x hx
        rcases List.mem_cons.1 hx with hx | hx
        · rw [hx]; exact ⟨h1, h2⟩
        · exact hall x hx

/-- An induction rule for texts whose braces are flat: the empty text, a
character that is not a brace before a flat text, and a brace token before a
flat text. -/
theorem bracesFlat_induct (P : List Char → Prop) (h0 : P [])
    (h1 : ∀ c t, c ≠ '{' → c ≠ '}' → bracesFlat false t = true → P t → P (c :: t))
    (h2 : ∀ w t, (∀ c ∈ w, c ≠ '{' ∧ c ≠ '}') → bracesFlat false t = true → P t →
      P ('{' :: (w ++ '}' :: t))) :
    ∀ s, bracesFlat false s = true → P s := by
  have key : ∀ (n : Nat) (s : List Char), s.length ≤ n → bracesFlat false s = true → P s := by
    intro n
    induction n with
    | zero =>
      intro s hs _
      have : s = [] := List.length_eq_zero.1 (by omega)
      subst this
      exact h0
    | succ n ih =>
      intro s hs hflat
      cases s with
      | nil => exact h0
      | cons c t =>
        have hlt : t.length ≤ n := by simpa using hs
        simp only [bracesFlat] at hflat
        by_cases hc : c = '{'
        · rw [if_pos hc] at hflat
          obtain ⟨w, t1, ht, hall, hf1⟩ := bracesFlat_inside t hflat
          subst hc
          subst ht
          refine h2 w t1 hall hf1 (ih t1 ?_ hf1)
          simp only [List.length_append, List.length_cons] at hlt
          omega
        · rw [if_neg hc] at hflat
          by_cases hc2 : c = '}'
          · rw [if_pos hc2] at hflat; cases hflat
          · rw [if_neg hc2] at hflat
            exact h1 c t hc hc2 hflat (ih t hlt hflat)
  intro s hs
  exact key s.length s (le_refl _) hs

/-- Two passes over a flat template are one pass with both tables, when the
values of the first table contain no opening brace. -/
theorem fillTemplate_compose (t1 t2 : List (Char × List Char))
    (hv : ∀ p ∈ t1, '{' ∉ p.2)
    (hc1 : placeholderValue t1 '}' = none) (hc2 : placeholderValue t2 '}' = none) :
    ∀ s, bracesFlat false s = true →
      fillTemplate t2 (fillTemplate t1 s) = fillTemplate (t1 ++ t2) s := by
  have hc12 : placeholderValue (t1 ++ t2) '}' = none := by
    rw [placeholderValue_append, hc1]
    exact hc2
  have hval : ∀ k v, placeholderValue t1 k = some v → '{' ∉ v := by
    intro k v h
    unfold placeholderValue at h
    cases hf : List.find? (fun p => p.1 == k) t1 with
    | none => rw [hf] at h; cases h
    | some p =>
      rw [hf] at h
      simp only [Option.map_some', Option.some.injEq] at h
      rw [← h]
      exact hv p (List.mem_of_find?_eq_some hf)
  refine bracesFlat_induct _ rfl ?_ ?_
  · intro c t hc _ _ ih
    rw [fillTemplate_cons_of_ne _ c t hc, fillTemplate_cons_of_ne _ c _ hc,
      fillTemplate_cons_of_ne _ c t hc, ih]
  · intro w t hw _ ih
    by_cases hhit : ∃ k v, w = [k] ∧ placeholderValue t1 k = some v
    · obtain ⟨k, v, rfl, hk⟩ := hhit
      have hk12 : placeholderValue (t1 ++ t2) k = some v := by
        rw [placeholderValue_append, hk]
      simp only [List.singleton_append]
      rw [fillTemplate_token t1 k v t hk, fillTemplate_token _ k v t hk12,
        fillTemplate_append_of_no_open t2 v _ (fun c hc h => hval k v hk (h ▸ hc)), ih]
    · have hmiss1 : ∀ k, w = [k] → placeholderValue t1 k = none := by
        intro k hk
        cases h : placeholderValue t1 k with
        | none => rfl
        | some v => exact absurd ⟨k, v, hk, h⟩ hhit
      rw [fillTemplate_group t1 w t hw hmiss1 hc1]
      by_cases hhit2 : ∃ k v, w = [k] ∧ placeholderValue t2 k = some v
      · obtain ⟨k, v, rfl, hk⟩ := hhit2
        have hk12 : placeholderValue (t1 ++ t2) k = some v := by
          rw [placeholderValue_append, hmiss1 k rfl]
          exact hk
        simp only [List.singleton_append]
        rw [fillTemplate_token t2 k v _ hk, fillTemplate_token _ k v t hk12, ih]
      · have hmiss2 : ∀ k, w = [k] → placeholderValue t2 k = none := by
          intro k hk
          cases h : placeholderValue t2 k with
          | none => rfl
          | some v => exact absurd ⟨k, v, hk, h⟩ hhit2
        have hmiss12 : ∀ k, w = [k] → placeholderValue (t1 ++ t2) k = none := by
          intro k hk
          rw [placeholderValue_append, hmiss1 k hk]
          exact hmiss2 k hk
        rw [fillTemplate_group t2 w _ hw hmiss2 hc2, fillTemplate_group _ w t hw hmiss12 hc12,
          ih]

theorem Replace_fillTemplate (T : List (Char × List Char)) (k : Char) (v s : List Char)
    (hflat : bracesFlat false s = true) (hv : ∀ p ∈ T, '{' ∉ p.2)
    (hc : placeholderValue T '}' = none) (hk : k ≠ '}') :
    Replace (fillTemplate T s) ['{', k, '}'] v = fillTemplate (T ++ [(k, v)]) s := by
  rw [Replace_token, fillTemplate_compose T [(k, v)] hv hc
    (by rw [placeholderValue_single, if_neg hk]) s hflat]

/-- The replacements of TargetName, made one after the other, are one pass
over the template with the placeholder table, when the braces of the template
are flat and no value contains an opening brace. -/
theorem substituted_eq_fillTemplate (p : ParsedFile)
    (hflat : bracesFlat false (nameTemplate p) = true)
    (hvals : ∀ kv ∈ placeholders p, '{' ∉ kv.2) :
    p.substituted = fillTemplate (placeholders p) (nameTemplate p) := by
  unfold ParsedFile.substituted
  by_cases hser : p.IsMovie = false ∧ p.IsSeries = true
  · have hmo : p.IsMovie = false := hser.1
    have hse : p.IsSeries = true := hser.2
    have hpl : placeholders p = [('s', p.Season), ('e', p.Episode), ('x', p.EpisodeName),
        ('n', p.CleanName), ('r', p.Resolution), ('q', p.Quality), ('y', p.Year)] := by
      simp [placeholders, hmo, hse]
    have hnt : nameTemplate p = p.Options.SeriesFormat := by
      simp [nameTemplate, hmo, hse]
    rw [hpl] at hvals ⊢
    rw [hnt] at hflat ⊢
    simp only [hmo, hse, Bool.false_eq_true, if_false, if_true]
    have v1 := hvals ('s', p.Season) (by simp)
    have v2 := hvals ('e', p.Episode) (by simp)
    have v3 := hvals ('x', p.EpisodeName) (by simp)
    have v4 := hvals ('n', p.CleanName) (by simp)
    have v5 := hvals ('r', p.Resolution) (by simp)
    have v6 := hvals ('q', p.Quality) (by simp)
    have e1 := Replace_fillTemplate [('s', p.Season)] 'e' p.Episode _ hflat
      (by simpa using v1) rfl (by decide)
    have e2 := Replace_fillTemplate ([('s', p.Season)] ++ [('e', p.Episode)]) 'x'
      p.EpisodeName _ hflat (by simpa using ⟨v1, v2⟩) rfl (by decide)
    have e3 := Replace_fillTemplate
      ([('s', p.Season)] ++ [('e', p.Episode)] ++ [('x', p.EpisodeName)]) 'n' p.CleanName _
      hflat (by simpa using ⟨v1, v2, v3⟩) rfl (by decide)
    have e4 := Replace_fillTemplate
      ([('s', p.Season)] ++ [('e', p.Episode)] ++ [('x', p.EpisodeName)] ++
        [('n', p.CleanName)]) 'r' p.Resolution _ hflat (by simpa using ⟨v1, v2, v3, v4⟩) rfl
      (by decide)
    have e5 := Replace_fillTemplate
      ([('s', p.Season)] ++ [('e', p.Episode)] ++ [('x', p.EpisodeName)] ++
        [('n', p.CleanName)] ++ [('r', p.Resolution)]) 'q' p.Quality _ hflat
      (by simpa using ⟨v1, v2, v3, v4, v5⟩) rfl (by decide)
    have e6 := Replace_fillTemplate
      ([('s', p.Season)] ++ [('e', p.Episode)] ++ [('x', p.EpisodeName)] ++
        [('n', p.CleanName)] ++ [('r', p.Resolution)] ++ [('q', p.Quality)]) 'y' p.Year _
      hflat (by simpa using ⟨v1, v2, v3, v4, v5, v6⟩) rfl (by decide)
    rw [Replace_token 's', e1, e2, e3, e4, e5, e6]
    rfl
  · have hpl : placeholders p = [('n', p.CleanName), ('r', p.Resolution), ('q', p.Quality),
        ('y', p.Year)] := by
      simp [placeholders, hser]
    have hsub : (if p.IsMovie = true then p.Options.MovieFormat
        else if p.IsSeries = true then
          Replace (Replace (Replace p.Options.SeriesFormat ['{', 's', '}'] p.Season)
            ['{', 'e', '}'] p.Episode) ['{', 'x', '}'] p.EpisodeName
        else p.Filename) = nameTemplate p := by
      unfold nameTemplate
      by_cases hmo : p.IsMovie = true
      · rw [if_pos hmo, if_pos hmo]
      · rw [if_neg hmo, if_neg hmo]
        have hse : ¬ p.IsSeries = true := fun h => hser ⟨by simpa using hmo, h⟩
        rw [if_neg hse, if_neg hse]
    rw [hpl] at hvals ⊢
    dsimp only
    rw [hsub]
    have v4 := hvals ('n', p.CleanName) (by simp)
    have v5 := hvals ('r', p.Resolution) (by simp)
    have v6 := hvals ('q', p.Quality) (by simp)
    have e1 := Replace_fillTemplate [('n', p.CleanName)] 'r' p.Resolution _ hflat
      (by simpa using v4) rfl (by decide)
    have e2 := Replace_fillTemplate ([('n', p.CleanName)] ++ [('r', p.Resolution)]) 'q'
      p.Quality _ hflat (by simpa using ⟨v4, v5⟩) rfl (by decide)
    have e3 := Replace_fillTemplate
      ([('n', p.CleanName)] ++ [('r', p.Resolution)] ++ [('q', p.Quality)]) 'y' p.Year _
      hflat (by simpa using ⟨v4, v5, v6⟩) rfl (by decide)
    rw [Replace_token 'n', e1, e2, e3]
    rfl

/-- The three outcomes of TargetName, by the trimmed name. -/
theorem TargetName_cases (p : ParsedFile) :
    (trimBlank p.substituted = [] → p.TargetName = none) ∧
    (∀ u, trimBlank p.substituted = u ++ ['.'] → p.TargetName = some (u ++ p.Extension)) ∧
    (trimBlank p.substituted ≠ [] → (trimBlank p.substituted).getLast? ≠ some '.' →
      p.TargetName = some (trimBlank p.substituted ++ p.Extension)) := by
  unfold ParsedFile.TargetName
  dsimp only
  refine ⟨?_, ?_, ?_⟩
  · intro h
    rw [h]
    rfl
  · intro u h
    rw [h]
    simp
  · intro hne hlast
    cases hl : (trimBlank p.substituted).getLast? with
    | none => exact absurd (List.getLast?_eq_none_iff.1 hl) hne
    | some last =>
      simp only
      have : last ≠ '.' := by
        rintro rfl
        exact hlast hl
      rw [if_neg this]

theorem TargetName_dropPeriod (p : ParsedFile) (h : trimBlank p.substituted ≠ []) :
    p.TargetName = some (dropPeriod (trimBlank p.substituted) ++ p.Extension) := by
  unfold ParsedFile.TargetName dropPeriod
  dsimp only
  cases hl : (trimBlank p.substituted).getLast? with
  | none => exact absurd (List.getLast?_eq_none_iff.1 hl) h
  | some last =>
    simp only
    by_cases hp : last = '.'
    · subst hp
      simp
    · rw [if_neg hp, if_neg]
      intro h2
      exact hp (Option.some.inj h2)

/-! ## Trimming -/

theorem head?_dropWhile_blank (s : List Char) :
    (s.dropWhile (fun c => c == ' ')).head? ≠ some ' ' := by
  induction s with
  | nil => simp
  | cons c t ih =>
    by_cases hc : c = ' '
    · subst hc
      simpa [List.dropWhile] using ih
    · have : (c == ' ') = false := by simpa using hc
      simp [List.dropWhile, this, hc]

theorem getLast?_dropWhile (p : Char → Bool) (l : List Char) (c : Char)
    (h : (l.dropWhile p).getLast? = some c) : l.getLast? = some c := by
  have hl : l = l.takeWhile p ++ l.dropWhile p := (List.takeWhile_append_dropWhile p l).symm
  have hne : l.dropWhile p ≠ [] := by
    intro h0
    rw [h0] at h
    cases h
  rw [hl, List.getLast?_append_of_ne_nil _ hne]
  exact h

/-- Go `strings.Trim(s, " ")` removes a run of spaces on each side and leaves
a text that neither starts nor ends with a space. -/
theorem trimBlank_spec (s : List Char) :
    (∃ a b, s = a ++ trimBlank s ++ b ∧ (∀ c ∈ a, c = ' ') ∧ (∀ c ∈ b, c = ' ')) ∧
      (trimBlank s).head? ≠ some ' ' ∧ (trimBlank s).getLast? ≠ some ' ' := by
  refine ⟨?_, ?_, ?_⟩
  · refine ⟨s.takeWhile (fun c => c == ' '),
      ((s.dropWhile (fun c => c == ' ')).reverse.takeWhile (fun c => c == ' ')).reverse,
      ?_, ?_, ?_⟩
    · unfold trimBlank trimRightBy
      rw [List.append_assoc, ← List.reverse_append, List.takeWhile_append_dropWhile,
        List.reverse_reverse, List.takeWhile_append_dropWhile]
    · intro c hc
      simpa using List.mem_takeWhile_imp hc
    · intro c hc
      rw [List.mem_reverse] at hc
      simpa using List.mem_takeWhile_imp hc
  · intro h
    unfold trimBlank trimRightBy at h
    rw [List.head?_reverse] at h
    have h2 := getLast?_dropWhile _ _ _ h
    rw [List.getLast?_reverse] at h2
    exact head?_dropWhile_blank s h2
  · intro h
    unfold trimBlank trimRightBy at h
    rw [List.getLast?_reverse] at h
    exact head?_dropWhile_blank _ h

/-! ## Claims on TargetName -/

/-- C24 (as stated, refuted): with the movie format "{n}.{q}", CleanName
"Inception" and an empty Quality, the substituted template is "Inception." and
TargetName returns "Inception.mkv", not "Inception..mkv": the trailing period
is removed. With the series format "{{s}}" and Season "n", where no field
value contains placeholder text, replacing {s} produces "{n}", which the next
replacement turns into the CleanName: TargetName returns "C.mkv", while the
template with its placeholders substituted is "{n}". -/
theorem TargetName_not_plain_substitution :
    (ParsedFile.TargetName
        { IsMovie := true,
          CleanName := "Inception".toList,
          Extension := ".mkv".toList,
          Options := { MovieFormat := "{n}.{q}".toList } }
      = some "Inception.mkv".toList ∧
      fillTemplate [('n', "Inception".toList), ('r', []), ('q', []), ('y', [])]
        "{n}.{q}".toList = "Inception.".toList) ∧
    (ParsedFile.TargetName
        { IsSeries := true,
          CleanName := "C".toList,
          Season := "n".toList,
          Extension := ".mkv".toList,
          Options := { SeriesFormat := ['{', '{', 's', '}', '}'] } }
      = some "C.mkv".toList ∧
      fillTemplate [('s', "n".toList), ('e', []), ('x', []), ('n', "C".toList), ('r', []),
        ('q', []), ('y', [])] ['{', '{', 's', '}', '}'] = ['{', 'n', '}']) := by
  refine ⟨⟨by decide, by decide⟩, ⟨by decide, by decide⟩⟩

/-- C24 (amended): TargetName takes Options.MovieFormat as template for a
movie, Options.SeriesFormat for a series and the bare Filename otherwise, and
replaces, one placeholder after the other, {s}, {e}, {x} (for a series only)
and then {n}, {r}, {q}, {y} by Season, Episode, EpisodeName, CleanName,
Resolution, Quality, Year. When the braces of the template are flat (no brace
inside a brace token) and no value contains an opening brace, the outcome is
one pass over the template in which exactly the tokens of these keys are
replaced and every other brace token is left verbatim; if this text, trimmed,
is not empty, TargetName returns it without one trailing period, if it has
one, followed by Extension. -/
theorem TargetName_template (p : ParsedFile)
    (hflat : bracesFlat false (nameTemplate p) = true)
    (hvals : ∀ kv ∈ placeholders p, '{' ∉ kv.2)
    (hne : trimBlank (fillTemplate (placeholders p) (nameTemplate p)) ≠ []) :
    p.substituted = fillTemplate (placeholders p) (nameTemplate p) ∧
    p.TargetName =
      some (dropPeriod (trimBlank (fillTemplate (placeholders p) (nameTemplate p))) ++
        p.Extension) := by
  have h := substituted_eq_fillTemplate p hflat hvals
  refine ⟨h, ?_⟩
  rw [← h] at hne ⊢
  exact TargetName_dropPeriod p hne

/-- C24 (witness): the format "{n} ({y})" with CleanName "Inception", Year
"2010" and extension ".mkv" gives "Inception (2010).mkv"; the series format
"{n}/Season {s}/{n} - S{s}E{e} - {x}" with "Breaking Bad", "01", "05" and
"Crazy Handful Of Dollars" gives "Breaking Bad/Season 01/Breaking Bad - S01E05
- Crazy Handful Of Dollars.mkv"; in a movie template {s} is left verbatim. -/
theorem TargetName_template_witness :
    (bracesFlat false "{n} ({y})".toList = true ∧
      ParsedFile.TargetName
          { IsMovie := true,
            CleanName := "Inception".toList,
            Year := "2010".toList,
            Extension := ".mkv".toList,
            Options := { MovieFormat := "{n} ({y})".toList } }
        = some (dropPeriod (trimBlank (fillTemplate
            [('n', "Inception".toList), ('r', []), ('q', []), ('y', "2010".toList)]
            "{n} ({y})".toList)) ++ ".mkv".toList)) ∧
    ParsedFile.TargetName
        { IsMovie := true,
          CleanName := "Inception".toList,
          Year := "2010".toList,
          Extension := ".mkv".toList,
          Options := { MovieFormat := "{n} ({y})".toList } }
      = some "Inception (2010).mkv".toList ∧
    ParsedFile.TargetName
        { IsSeries := true,
          CleanName := "Breaking Bad".toList,
          Season := "01".toList,
          Episode := "05".toList,
          EpisodeName := "Crazy Handful Of Dollars".toList,
          Extension := ".mkv".toList,
          Options := { SeriesFormat := "{n}/Season {s}/{n} - S{s}E{e} - {x}".toList } }
      = some
        "Breaking Bad/Season 01/Breaking Bad - S01E05 - Crazy Handful Of Dollars.mkv".toList ∧
    ParsedFile.TargetName
        { IsMovie := true,
          CleanName := "Inception".toList,
          Season := "01".toList,
          Extension := ".mkv".toList,
          Options := { MovieFormat := "{n} {s} {name}".toList } }
      = some "Inception {s} {name}.mkv".toList ∧
    ParsedFile.TargetName
        { CleanName := "Inception".toList,
          Filename := "a {n} b".toList,
          Extension := ".mkv".toList }
      = some "a Inception b.mkv".toList :=
  ⟨⟨by decide,
    (TargetName_template
        { IsMovie := true,
          CleanName := "Inception".toList,
          Year := "2010".toList,
          Extension := ".mkv".toList,
          Options := { MovieFormat := "{n} ({y})".toList } }
      (by decide) (by decide) (by decide)).2⟩,
    by decide, by decide, by decide, by decide⟩

/-- C25: TargetName trims the spaces around the substituted template (the
trimmed text differs from it by a run of spaces on each side and neither
starts nor ends with a space), then removes exactly one trailing period if the
trimmed text ends with one, whatever comes before it, and appends Extension
last: whenever TargetName returns, its result ends with Extension. A template
"a.." gives "a." and "a ." gives "a " before the extension. -/
theorem TargetName_trim_period :
    (∀ p : ParsedFile,
      ((∃ a b, p.substituted = a ++ trimBlank p.substituted ++ b ∧ (∀ c ∈ a, c = ' ') ∧
          (∀ c ∈ b, c = ' ')) ∧
        (trimBlank p.substituted).head? ≠ some ' ' ∧
        (trimBlank p.substituted).getLast? ≠ some ' ') ∧
      (∀ u, trimBlank p.substituted = u ++ ['.'] → p.TargetName = some (u ++ p.Extension)) ∧
      (trimBlank p.substituted ≠ [] → (trimBlank p.substituted).getLast? ≠ some '.' →
        p.TargetName = some (trimBlank p.substituted ++ p.Extension)) ∧
      (∀ r, p.TargetName = some r → p.Extension <:+ r)) ∧
    ParsedFile.TargetName
        { IsMovie := true,
          Extension := ".mkv".toList,
          Options := { MovieFormat := "  a..  ".toList } }
      = some "a..mkv".toList ∧
    ParsedFile.TargetName
        { IsMovie := true,
          Extension := ".mkv".toList,
          Options := { MovieFormat := "a .".toList } }
      = some "a .mkv".toList := by
  refine ⟨?_, by decide, by decide⟩
  intro p
  obtain ⟨h1, h2, h3⟩ := TargetName_cases p
  refine ⟨trimBlank_spec p.substituted, h2, h3, ?_⟩
  intro r hr
  by_cases hne : trimBlank p.substituted = []
  · rw [h1 hne] at hr
    cases hr
  · rw [TargetName_dropPeriod p hne] at hr
    cases hr
    exact List.suffix_append _ _

set_option maxRecDepth 100000 in
/-- C26: TargetName fails on a ParsedFile whose substituted template is empty
or made of spaces: the trimmed name is empty and the code reads its last
byte. This happens for a movie with an empty MovieFormat, for the template
"{n}" with an empty CleanName, and for the unclassified result of
NewParsedFile(" .mkv"), whose Filename is a single space. -/
theorem TargetName_fails_on_empty :
    (∀ p : ParsedFile, trimBlank p.substituted = [] → p.TargetName = none) ∧
    ParsedFile.TargetName
        { IsMovie := true,
          Extension := ".mkv".toList,
          Options := { MovieFormat := [] } }
      = none ∧
    ParsedFile.TargetName
        { IsMovie := true,
          CleanName := [],
          Extension := ".mkv".toList,
          Options := { MovieFormat := "{n}".toList } }
      = none ∧
    (NewParsedFile offlineEnv 1 " .mkv".toList [{}]).map
        (fun f => (f.IsMovie, f.IsSeries, f.IsMusic, f.Filename))
      = some (false, false, false, " ".toList) ∧
    (NewParsedFile offlineEnv 1 " .mkv".toList [{}]).map (fun f => f.TargetName)
      = some none := by
  refine ⟨fun p h => (TargetName_cases p).1 h, by decide, by decide, by decide, by decide⟩

/-! ## Claims on classifying a cleaned title again -/

/-- With a force flag, the decision chain raises the flag of ForceMovie if it
is set and the flag of ForceSeries otherwise. -/
theorem classify_forced (g : ParsedFile) (opts : Options) (path : List Char)
    (h : opts.ForceMovie = true ∨ opts.ForceSeries = true) :
    ∃ f1, classify g opts path = .done f1 ∧
      f1.IsMovie = (opts.ForceMovie || g.IsMovie) ∧
      f1.IsSeries = (!opts.ForceMovie || g.IsSeries) := by
  unfold classify
  by_cases h1 : opts.ForceMovie = true
  · rw [if_pos h1]
    exact ⟨_, rfl, by simp [h1], by simp [h1]⟩
  · rw [if_neg h1]
    have h2 : opts.ForceSeries = true := by
      rcases h with h | h
      · exact absurd h h1
      · exact h
    rw [if_pos h2]
    have h1f : opts.ForceMovie = false := by simpa using h1
    exact ⟨_, rfl, by simp [h1f], by simp [h1f]⟩

/-- The flags and the extension of the result on a video path with a force
flag. -/
theorem NewParsedFile_forced (env : Env) (path : List Char) (o : Options)
    (hext : SupportedVideoExtensions (Ext path) = true)
    (hforce : o.ForceMovie = true ∨ o.ForceSeries = true) :
    ∃ f, (∀ fuel, NewParsedFile env (fuel + 1) path [o] = some f) ∧
      f.IsMovie = o.ForceMovie ∧ f.IsSeries = (!o.ForceMovie) ∧ f.IsMusic = false ∧
      f.Extension = Ext path := by
  obtain ⟨g, hm, hfr⟩ := matchingPass_total (initialFile env path [o]).Filename order
    (initialFile env path [o]) order_matcherFits
  have hi := initialFile_Episode env path [o]
  have hforce2 : (getOpts env [o]).ForceMovie = true ∨ (getOpts env [o]).ForceSeries = true := by
    rw [(getOpts_flags env o).2.1, (getOpts_flags env o).2.2.1]
    exact hforce
  obtain ⟨f1, hc, hmo, hse⟩ := classify_forced g (getOpts env [o]) path hforce2
  obtain ⟨r, hr, hid⟩ := NewParsedFile_of_done env path [o] g f1 hext hm hc
  have hd := classify_done g f1 _ path hc
  refine ⟨r, hr, ?_, ?_, ?_, ?_⟩
  · rw [hid.1, hmo, (getOpts_flags env o).2.1, hfr.2.2.1, hi.2.2.2.1]
    simp
  · rw [hid.2.1, hse, (getOpts_flags env o).2.1, hfr.2.1, hi.2.2.2.2.1]
    simp
  · rw [hid.2.2.1, hd.1, hfr.1, hi.2.2.2.2.2.1]
  · rw [hid.2.2.2.2.2.2.1, hd.2.2.2.2.1, hfr.2.2.2.2.2.1, hi.2.2.2.2.2.2.2.2.1]

set_option maxRecDepth 100000 in
/-- C27 (as stated, refuted): "The Matrix Revolutions - 2003.mkv" is a movie
with CleanName "The Matrix Revolutions"; classifying "The Matrix
Revolutions.mkv" with the same options gives IsMovie = false. The series
"The.Flash.2014.S06E07.720p.HDTV.x264-SVA.mkv" has the CleanName "The Flash
(2014)", and "The Flash (2014).mkv" is a movie. -/
theorem NewParsedFile_reclassify_differs :
    (NewParsedFile offlineEnv 2 "The Matrix Revolutions - 2003.mkv".toList
        [{ Lookup := false }]).map
        (fun f => (f.IsMovie, f.IsSeries, f.IsMusic, f.CleanName ++ f.Extension))
      = some (true, false, false, "The Matrix Revolutions.mkv".toList) ∧
    (NewParsedFile offlineEnv 2 "The Matrix Revolutions.mkv".toList [{ Lookup := false }]).map
        (fun f => (f.IsMovie, f.IsSeries, f.IsMusic)) = some (false, false, false) ∧
    (NewParsedFile offlineEnv 2 "The.Flash.2014.S06E07.720p.HDTV.x264-SVA.mkv".toList
        [{ Lookup := false }]).map
        (fun f => (f.IsMovie, f.IsSeries, f.IsMusic, f.CleanName ++ f.Extension))
      = some (false, true, false, "The Flash (2014).mkv".toList) ∧
    (NewParsedFile offlineEnv 2 "The Flash (2014).mkv".toList [{ Lookup := false }]).map
        (fun f => (f.IsMovie, f.IsSeries, f.IsMusic)) = some (true, false, false) := by
  refine ⟨by decide, by decide, by decide, by decide⟩

/-- C27 (amended): classification is idempotent under a force flag. For every
video path p and options o with ForceMovie or ForceSeries set, if f is the
result of NewParsedFile(p, o), then NewParsedFile(f.CleanName + f.Extension, o)
returns a record with the same IsMovie, IsSeries and IsMusic flags as f. -/
theorem NewParsedFile_reclassify_forced (env : Env) (path : List Char) (o : Options)
    (hext : SupportedVideoExtensions (Ext path) = true)
    (hforce : o.ForceMovie = true ∨ o.ForceSeries = true) :
    ∃ f f2, (∀ fuel, NewParsedFile env (fuel + 1) path [o] = some f) ∧
      (∀ fuel, NewParsedFile env (fuel + 1) (f.CleanName ++ f.Extension) [o] = some f2) ∧
      f2.IsMovie = f.IsMovie ∧ f2.IsSeries = f.IsSeries ∧ f2.IsMusic = f.IsMusic := by
  obtain ⟨f, hf, h1, h2, h3, h4⟩ := NewParsedFile_forced env path o hext hforce
  have hext2 : SupportedVideoExtensions (Ext (f.CleanName ++ f.Extension)) = true := by
    rw [h4, Ext_append_video _ _ hext]
    exact hext
  obtain ⟨f2, hf2, k1, k2, k3, _⟩ := NewParsedFile_forced env _ o hext2 hforce
  exact ⟨f, f2, hf, hf2, k1.trans h1.symm, k2.trans h2.symm, k3.trans h3.symm⟩

set_option maxRecDepth 100000 in
/-- C27 (witness): with ForceMovie, "This.Is.A.Series.S01E22.mkv" is a movie,
and so is its cleaned title classified again. -/
theorem NewParsedFile_reclassify_forced_witness :
    SupportedVideoExtensions (Ext "This.Is.A.Series.S01E22.mkv".toList) = true ∧
    (∃ f f2, (∀ fuel, NewParsedFile offlineEnv (fuel + 1) "This.Is.A.Series.S01E22.mkv".toList
        [{ ForceMovie := true }] = some f) ∧
      (∀ fuel, NewParsedFile offlineEnv (fuel + 1) (f.CleanName ++ f.Extension)
        [{ ForceMovie := true }] = some f2) ∧
      f2.IsMovie = f.IsMovie ∧ f2.IsSeries = f.IsSeries ∧ f2.IsMusic = f.IsMusic) ∧
    (NewParsedFile offlineEnv 1 "This.Is.A.Series.S01E22.mkv".toList
        [{ ForceMovie := true }]).map
        (fun f => (f.IsMovie, f.IsSeries, f.IsMusic, f.CleanName ++ f.Extension))
      = some (true, false, false, "This Is a Series S01e22.mkv".toList) :=
  ⟨by decide,
    NewParsedFile_reclassify_forced offlineEnv "This.Is.A.Series.S01E22.mkv".toList
      { ForceMovie := true } (by decide) (Or.inl rfl),
    by decide⟩

/-! ## Claims on the matcher table and on run-time failures -/

/-- The matching pass visits the names of its list one after the other. -/
theorem matchingPass_foldlM (filename : List Char) :
    ∀ (names : List String) (f : ParsedFile),
      matchingPass filename names f =
        names.foldlM (fun g name => matchingPass filename [name] g) f := by
  intro names
  induction names with
  | nil => intro f; rfl
  | cons name rest ih =>
    intro f
    rw [List.foldlM_cons]
    cases hm : matcher name with
    | none => simp [matchingPass, hm]
    | some re =>
      cases hr : re.FindStringSubmatch filename with
      | none => simp [matchingPass, hm, hr, ih]
      | some res =>
        by_cases hl : 0 < res.length
        · cases ha : applyMatch f name res with
          | none => simp [matchingPass, hm, hr, hl, ha]
          | some f1 => simp [matchingPass, hm, hr, hl, ha, ih]
        · simp [matchingPass, hm, hr, hl, ih]

/-- The cleaning pass visits the names of its list one after the other. -/
theorem cleaningPass_foldlM (f : ParsedFile) :
    ∀ (names : List String) (c : List Char),
      cleaningPass f names c = names.foldlM (fun d name => cleaningPass f [name] d) c := by
  intro names
  induction names with
  | nil => intro c; rfl
  | cons name rest ih =>
    intro c
    rw [List.foldlM_cons]
    cases hm : matcher name with
    | none => simp [cleaningPass, hm]
    | some re =>
      cases hr : re.FindStringSubmatch c with
      | none => simp [cleaningPass, hm, hr, ih]
      | some res =>
        by_cases hl : 0 < res.length
        · cases ha : cleanStep f name re res c with
          | none => simp [cleaningPass, hm, hr, hl, ha]
          | some f1 => simp [cleaningPass, hm, hr, hl, ha, ih]
        · simp [cleaningPass, hm, hr, hl, ih]

/-- C34 (the matcher order list): the list `order` is exactly the sequence
year-as-season, year, season, episode, anime-episode, anime-group, audio,
resolution, quality, codec, release-group, proper, repack, hardcoded,
extended, internal; it has sixteen names and no duplicate; the matcher table
has no duplicate key and its keys are exactly the names of the list, each
name having its matcher; and the matching pass and the cleaning pass of
NewParsedFile both run over this list, one name after the other in its
order. -/
theorem order_exact (env : Env) :
    order = ["yearAsSeason", "year", "season", "episode", "episodeAnime", "groupAnime",
      "audio", "resolution", "quality", "codec", "group", "proper", "repack", "hardcoded",
      "extended", "internal"] ∧
    order.length = 16 ∧ order.Nodup ∧ (matchers.map (fun p => p.1)).Nodup ∧
    (∀ name, name ∈ order ↔ name ∈ matchers.map (fun p => p.1)) ∧
    (∀ name, name ∈ order → ∃ re, matcher name = some re ∧ (name, re) ∈ matchers) ∧
    (∀ filename f, matchingPass filename order f =
      order.foldlM (fun g name => matchingPass filename [name] g) f) ∧
    (∀ f c, cleaningPass f order c =
      order.foldlM (fun d name => cleaningPass f [name] d) c) ∧
    (∀ fuel path o g f1, SupportedVideoExtensions (Ext path) = true →
      matchingPass (initialFile env path o).Filename order (initialFile env path o) = some g →
      classify g (getOpts env o) path = .done f1 →
      NewParsedFile env (fuel + 1) path o =
        match cleaningPass f1 order (Replace g.Filename ['.'] [' ']) with
        | none => none
        | some c => finish env (getOpts env o) f1 (polish env f1 c)) := by
  refine ⟨rfl, rfl, by decide, by decide, ?_, ?_, fun filename f => matchingPass_foldlM filename order f,
    fun f c => cleaningPass_foldlM f order c,
    fun fuel path o g f1 hext hm hc => NewParsedFile_video_done env fuel path o g f1 hext hm hc⟩
  · intro name
    constructor
    · intro h
      have : ∀ n ∈ order, n ∈ matchers.map (fun p => p.1) := by decide
      exact this name h
    · intro h
      have : ∀ n ∈ matchers.map (fun p => p.1), n ∈ order := by decide
      exact this name h
  · intro name h
    have : ∀ n ∈ order, ∃ re, matcher n = some re ∧ (n, re) ∈ matchers := by
      intro n hn
      have hn2 : n ∈ order := hn
      simp only [order, List.mem_cons, List.mem_singleton, List.not_mem_nil, or_false] at hn
      rcases hn with rfl | rfl | rfl | rfl | rfl | rfl | rfl | rfl | rfl | rfl | rfl | rfl | rfl |
        rfl | rfl | rfl <;>
      exact ⟨_, rfl, by simp [matchers]⟩
    exact this name h

/-- C40 (no run-time failure): every name of the order list has a matcher in
the table; each matcher has the number of capture groups its pattern shows,
and a submatch list has one entry more than that; the indices the matching
pass and the cleaning pass read (at most 2) are below that length, so both
passes return for every text and record; and NewParsedFile returns a record
for every path and every options value with Lookup disabled, from fuel 2
on. -/
theorem NewParsedFile_no_failure (env : Env) :
    (∀ name, name ∈ order → ∃ re, matcher name = some re ∧
      re.re.groupCount = re.ngroups ∧ neededLength name ≤ re.ngroups + 1) ∧
    (∀ (re : Regexp) (s : List Char) (res : Caps),
      re.FindStringSubmatch s = some res → res.length = re.ngroups + 1) ∧
    (∀ name f res, neededLength name ≤ res.length →
      (∃ g, applyMatch f name res = some g) ∧
      ∀ re c, ∃ c1, cleanStep f name re res c = some c1) ∧
    (∀ filename f, ∃ g, matchingPass filename order f = some g) ∧
    (∀ f c, ∃ c1, cleaningPass f order c = some c1) ∧
    (∀ path (o : Options), o.Lookup = false →
      ∃ r, ∀ fuel, NewParsedFile env (fuel + 2) path [o] = some r) := by
  refine ⟨?_, fun re s res h => FindStringSubmatch_length re s res h,
    fun name f res h => ⟨applyMatch_isSome f name res h,
      fun re c => cleanStep_isSome f name re res c h⟩, ?_, ?_, ?_⟩
  · have : ∀ n ∈ order, ∃ re, matcher n = some re ∧
        re.re.groupCount = re.ngroups ∧ neededLength n ≤ re.ngroups + 1 := by
      intro n hn
      simp only [order, List.mem_cons, List.mem_singleton, List.not_mem_nil, or_false] at hn
      rcases hn with rfl | rfl | rfl | rfl | rfl | rfl | rfl | rfl | rfl | rfl | rfl | rfl | rfl |
        rfl | rfl | rfl <;>
      exact ⟨_, rfl, by decide, by decide⟩
    exact this
  · intro filename f
    obtain ⟨g, hg, _⟩ := matchingPass_total filename order f order_matcherFits
    exact ⟨g, hg⟩
  · intro f c
    exact cleaningPass_total f order c order_matcherFits
  · intro path o _
    obtain ⟨r, hr, _⟩ := NewParsedFile_total env path [o]
    exact ⟨r, hr⟩

/-! ## Claims on the classification without force flags -/

/-- The branch `f.Episode != "" && f.Season != ""` of the decision chain is
never the branch taken: the chain without it decides the same. -/
theorem classify_eq_classifyWithoutBoth (f : ParsedFile) (opts : Options) (path : List Char) :
    classify f opts path = classifyWithoutBoth f opts path := by
  unfold classify classifyWithoutBoth
  by_cases h1 : opts.ForceMovie = true
  · simp [h1]
  by_cases h2 : opts.ForceSeries = true
  · simp [h1, h2]
  by_cases h3 : f.Season = []
  · simp [h1, h2, h3]
  · simp [h1, h2, h3]

/-- What the decision chain without force flags leaves in a record that was
neither a series nor a movie before. -/
theorem classify_unforced (g f1 : ParsedFile) (opts : Options) (path : List Char)
    (hfm : opts.ForceMovie = false) (hfs : opts.ForceSeries = false)
    (hse : g.IsSeries = false) (hmo : g.IsMovie = false)
    (h : classify g opts path = .done f1) :
    f1.Year = g.Year ∧ (f1.IsSeries = true → f1.Season ≠ []) ∧
      (f1.IsMovie = true → f1.Year ≠ [] ∧ f1.Season = [] ∧ f1.Episode = []) := by
  unfold classify at h
  simp only [hfm, hfs, Bool.false_eq_true, if_false] at h
  split_ifs at h with h3 h4 h5 h6 h7
  · cases h; exact ⟨rfl, fun _ => h3, fun hm => by simp [hmo] at hm⟩
  · cases h
    exact ⟨rfl, fun hs => by simp [hse] at hs, fun _ => ⟨h4.1, not_not.1 h3, h4.2⟩⟩
  · cases h; exact ⟨rfl, fun hs => by simp [hse] at hs, fun _ => ⟨h5.1, rfl, rfl⟩⟩
  · exact absurd h6.2 h3
  · cases h; exact ⟨rfl, fun hs => by simp [hse] at hs, fun hm => by simp [hmo] at hm⟩

/-- C38 (classification invariant): with Lookup disabled and neither force
flag set, NewParsedFile returns a record (from fuel 2 on), and in every
record it returns IsSeries implies a non-empty Season and IsMovie implies a
non-empty Year with Season and Episode both empty. The branch "episode and
season both present" of the decision chain is never the branch taken: the
chain decides as the chain without that branch does, for every record,
options and path. -/
theorem NewParsedFile_classification_invariant (env : Env) (path : List Char) (o : Options)
    (hl : o.Lookup = false) (hfm : o.ForceMovie = false) (hfs : o.ForceSeries = false) :
    (∃ r, ∀ fuel, NewParsedFile env (fuel + 2) path [o] = some r) ∧
    (∀ fuel r, NewParsedFile env fuel path [o] = some r →
      (r.IsSeries = true → r.Season ≠ []) ∧
      (r.IsMovie = true → r.Year ≠ [] ∧ r.Season = [] ∧ r.Episode = [])) ∧
    (∀ g opts p, classify g opts p = classifyWithoutBoth g opts p) := by
  refine ⟨?_, ?_, classify_eq_classifyWithoutBoth⟩
  · obtain ⟨r, hr, _⟩ := NewParsedFile_total env path [o]
    exact ⟨r, hr⟩
  · intro fuel r h
    refine NewParsedFile_result env
      (fun opts => opts.Lookup = false ∧ opts.ForceMovie = false ∧ opts.ForceSeries = false)
      (fun r => (r.IsSeries = true → r.Season ≠ []) ∧
        (r.IsMovie = true → r.Year ≠ [] ∧ r.Season = [] ∧ r.Episode = []))
      ?_ ?_ ?_ fuel path [o] r ?_ h
    · intro opts p hR
      obtain ⟨a, b, c, _⟩ := getOpts_flags env { opts with OriginalFile := p }
      exact ⟨a.trans hR.1, b.trans hR.2.1, c.trans hR.2.2⟩
    · intro p o1 _ _
      constructor <;> constructor <;> intro hh <;> cases hh
    · intro p o1 g f1 c r hR hext hm hc hcl hfin
      obtain ⟨g2, hg2, hfr⟩ := matchingPass_total (initialFile env p o1).Filename order
        (initialFile env p o1) order_matcherFits
      rw [hm] at hg2
      cases hg2
      have hse : g.IsSeries = false := hfr.2.1
      have hmo : g.IsMovie = false := hfr.2.2.1
      have hid : g.ExternalID = 0 := hfr.2.2.2.1
      obtain ⟨hy, hS, hM⟩ := classify_unforced g f1 (getOpts env o1) p hR.2.1 hR.2.2 hse hmo hc
      have hd := classify_done g f1 (getOpts env o1) p hc
      have hid1 : f1.ExternalID = 0 := hd.2.2.2.2.2.2.1.trans hid
      obtain ⟨r2, hr2, heq⟩ := finish_no_lookup env (getOpts env o1) f1 (polish env f1 c)
        hR.1 hid1
      rw [hfin] at hr2
      cases hr2
      rw [heq]
      exact ⟨hS, hM⟩
    · obtain ⟨a, b, c, _⟩ := getOpts_flags env o
      exact ⟨a.trans hl, b.trans hfm, c.trans hfs⟩

set_option maxRecDepth 100000 in
/-- C38 (witness): "Show.S01E05.mkv" is a series with Season "01", and
"Movie 2010 x06.mkv" is a movie with Year "2010" whose Season and Episode are
empty. -/
theorem NewParsedFile_classification_invariant_witness :
    (NewParsedFile offlineEnv 2 "Show.S01E05.mkv".toList [{}]).map
        (fun r => (r.IsSeries, r.IsMovie, r.Season, r.Episode)) =
      some (true, false, "01".toList, "05".toList) ∧
    (NewParsedFile offlineEnv 2 "Movie 2010 x06.mkv".toList [{}]).map
        (fun r => (r.IsSeries, r.IsMovie, r.Year, r.Season, r.Episode)) =
      some (false, true, "2010".toList, [], []) ∧
    ((∃ r, ∀ fuel, NewParsedFile offlineEnv (fuel + 2) "Show.S01E05.mkv".toList [{}] = some r) ∧
    (∀ fuel r, NewParsedFile offlineEnv fuel "Show.S01E05.mkv".toList [{}] = some r →
      (r.IsSeries = true → r.Season ≠ []) ∧
      (r.IsMovie = true → r.Year ≠ [] ∧ r.Season = [] ∧ r.Episode = [])) ∧
    (∀ g opts p, classify g opts p = classifyWithoutBoth g opts p)) :=
  ⟨by decide, by decide,
    NewParsedFile_classification_invariant offlineEnv "Show.S01E05.mkv".toList {} rfl rfl rfl⟩

/-! ## Claims on the anime episode text -/

/-- The shape of a match of the anime episode matcher: a separator, two
digits, a separator, and possibly two more digits. -/
theorem episodeAnime_shape (filename : List Char) (res : Caps)
    (h : submatch "episodeAnime" filename = some res) :
    ∃ s1 a b s2 t, res.getD 0 [] = s1 :: a :: b :: s2 :: t ∧
      s1 ∈ ['-', '_', ' ', 'p', '.'] ∧ isDigit a = true ∧ isDigit b = true ∧
      s2 ∈ ['-', '_', ' ', '(', 'v', '['] ∧
      (t = [] ∨ ∃ c d, t = [c, d] ∧ isDigit c = true ∧ isDigit d = true) := by
  have hs : submatch "episodeAnime" filename =
      (⟨seqs [oneOf ['-', '_', ' ', 'p', '.'], .cap 1 (seqs [digit, digit]),
          oneOf ['-', '_', ' ', '(', 'v', '['], opt (.cap 2 (seqs [digit, digit]))], 2⟩ :
        Regexp).FindStringSubmatch filename := rfl
  rw [hs] at h
  obtain ⟨⟨pre, w, post, _, hw, h0⟩, _⟩ := FindStringSubmatch_sound _ _ _ h
  have hg : res.getD 0 [] = w := by
    rw [List.getD_eq_getElem?_getD, h0]; rfl
  simp only [seqs, Re.Matches, oneOf, digit, opt] at hw
  obtain ⟨u1, v1, rfl, ⟨s1, rfl, hs1⟩, u2, v2, rfl, ⟨ua, ub, rfl, ⟨a, rfl, ha⟩, ⟨b, rfl, hb⟩⟩,
    u3, v3, rfl, ⟨s2, rfl, hs2⟩, ht⟩ := hw
  refine ⟨s1, a, b, s2, v3, by simpa using hg, by simpa using hs1, ha, hb, by simpa using hs2, ?_⟩
  rcases ht with ⟨uc, ud, rfl, ⟨c, rfl, hc⟩, ⟨d, rfl, hd⟩⟩ | rfl
  · exact Or.inr ⟨c, d, rfl, hc, hd⟩
  · exact Or.inl rfl

/-- Trimming the spaces of an anime episode match leaves the two digits
exactly when both separators are spaces and no second number follows. -/
theorem trimBlank_anime (s1 a b s2 : Char) (t : List Char)
    (ha : isDigit a = true) (hb : isDigit b = true)
    (ht : t = [] ∨ ∃ c d, t = [c, d] ∧ isDigit c = true ∧ isDigit d = true) :
    trimBlank (s1 :: a :: b :: s2 :: t) = [a, b] ↔ s1 = ' ' ∧ s2 = ' ' ∧ t = [] := by
  have hda : ∀ x, isDigit x = true → x ≠ ' ' := by
    intro x hx hxe; subst hxe; exact absurd hx (by decide)
  constructor
  · intro h
    obtain ⟨⟨p, q, hpq, hp, hq⟩, _, _⟩ := trimBlank_spec (s1 :: a :: b :: s2 :: t)
    rw [h] at hpq
    have hlen := congrArg List.length hpq
    match p, hpq, hp with
    | [], hpq, _ =>
      simp at hpq
      obtain ⟨_, _, hq2⟩ := hpq
      have := hq b (by rw [← hq2]; simp)
      exact absurd this (hda b hb)
    | [x], hpq, hp =>
      simp at hpq
      obtain ⟨rfl, hq2⟩ := hpq
      have h1 : s1 = ' ' := hp s1 (by simp)
      have h2 : s2 = ' ' := hq s2 (by rw [← hq2]; simp)
      refine ⟨h1, h2, ?_⟩
      rcases ht with rfl | ⟨c, d, rfl, hc, _⟩
      · rfl
      · have := hq c (by rw [← hq2]; simp)
        exact absurd this (hda c hc)
    | x :: y :: p2, hpq, hp =>
      simp at hpq
      obtain ⟨rfl, rfl, _⟩ := hpq
      have := hp a (by simp)
      exact absurd this (hda a ha)
  · rintro ⟨rfl, rfl, rfl⟩
    have ha2 : (a == ' ') = false := beq_eq_false_iff_ne.2 (hda a ha)
    have hb2 : (b == ' ') = false := beq_eq_false_iff_ne.2 (hda b hb)
    simp [trimBlank, trimRightBy, List.dropWhile, ha2, hb2]

set_option maxRecDepth 100000 in
/-- C31 (the anime episode text): the anime episode case writes Season "00"
and, as Episode, the whole match with its spaces trimmed; the match is a
separator, two digits, a separator and possibly two more digits, and the
Episode is the bare two-digit number exactly when both separators are spaces
and no second number was matched. The two file names of the tests give
Episode "01" and Season "00". With the separators dash, underscore, dot, p,
parenthesis, v or bracket the separator stays in the Episode:
"[Grp] Show - 01v2 [720p].mkv" gives "01v", "Show-01-.mkv" gives "-01-",
"Show_01_.mkv" gives "_01_", "Show.01(x).mkv" gives ".01(",
"Showp01[x].mkv" gives "p01[", and a second number stays too:
"Show - 01 02.mkv" gives "01 02". -/
theorem anime_episode_keeps_separators :
    (∀ filename res f, submatch "episodeAnime" filename = some res → f.Episode = [] →
      ∃ s1 a b s2 t, res.getD 0 [] = s1 :: a :: b :: s2 :: t ∧
        s1 ∈ ['-', '_', ' ', 'p', '.'] ∧ isDigit a = true ∧ isDigit b = true ∧
        s2 ∈ ['-', '_', ' ', '(', 'v', '['] ∧
        (t = [] ∨ ∃ c d, t = [c, d] ∧ isDigit c = true ∧ isDigit d = true) ∧
        applyMatch f "episodeAnime" res =
          some { f with Episode := trimBlank (s1 :: a :: b :: s2 :: t), Season := "00".toList } ∧
        (trimBlank (s1 :: a :: b :: s2 :: t) = [a, b] ↔ s1 = ' ' ∧ s2 = ' ' ∧ t = [])) ∧
    (NewParsedFile offlineEnv 1
        "[HorribleSubs] Fruits Basket (2019) - 01 [1080p].mkv".toList [{}]).map
      (fun r => (r.Season, r.Episode)) = some ("00".toList, "01".toList) ∧
    (NewParsedFile offlineEnv 1
        "[HorribleSubs] Kaiji S2 - Against All Rules - 01 [480p].mkv".toList [{}]).map
      (fun r => (r.Season, r.Episode)) = some ("00".toList, "01".toList) ∧
    (NewParsedFile offlineEnv 1 "[Grp] Show - 01v2 [720p].mkv".toList [{}]).map
      (fun r => (r.IsSeries, r.Season, r.Episode)) = some (true, "00".toList, "01v".toList) ∧
    (NewParsedFile offlineEnv 1 "Show-01-.mkv".toList [{}]).map
      (fun r => (r.IsSeries, r.Season, r.Episode)) = some (true, "00".toList, "-01-".toList) ∧
    (NewParsedFile offlineEnv 1 "Show_01_.mkv".toList [{}]).map
      (fun r => (r.IsSeries, r.Season, r.Episode)) = some (true, "00".toList, "_01_".toList) ∧
    (NewParsedFile offlineEnv 1 "Show.01(x).mkv".toList [{}]).map
      (fun r => (r.IsSeries, r.Season, r.Episode)) = some (true, "00".toList, ".01(".toList) ∧
    (NewParsedFile offlineEnv 1 "Showp01[x].mkv".toList [{}]).map
      (fun r => (r.IsSeries, r.Season, r.Episode)) = some (true, "00".toList, "p01[".toList) ∧
    (NewParsedFile offlineEnv 1 "Show - 01 02.mkv".toList [{}]).map
      (fun r => (r.IsSeries, r.Season, r.Episode)) = some (true, "00".toList, "01 02".toList) := by
  refine ⟨?_, by decide, by decide, by decide, by decide, by decide, by decide, by decide,
    by decide⟩
  intro filename res f h hE
  obtain ⟨s1, a, b, s2, t, h0, hs1, ha, hb, hs2, ht⟩ := episodeAnime_shape filename res h
  refine ⟨s1, a, b, s2, t, h0, hs1, ha, hb, hs2, ht, ?_, trimBlank_anime s1 a b s2 t ha hb ht⟩
  have hr0 : res[0]? = some (s1 :: a :: b :: s2 :: t) := by
    cases res with
    | nil => simp at h0
    | cons r0 rest => simp at h0; simp [h0]
  simp [applyMatch, hE, hr0]

/-! ## Claims on the cleaning pass by kind of file -/

/-- The cleaning pass does nothing for a matcher whose step is skipped. -/
theorem cleaningPass_skip (f : ParsedFile) (name : String) (rest : List String)
    (c : List Char) (hn : matcherFits name = true)
    (hskip : ((f.IsMovie && !ignoreMovie name) || f.IsSeries) = false) :
    cleaningPass f (name :: rest) c = cleaningPass f rest c := by
  unfold matcherFits at hn
  cases hm : matcher name with
  | none => simp [hm] at hn
  | some re =>
    cases hr : re.FindStringSubmatch c with
    | none => simp [cleaningPass, hm, hr]
    | some res =>
      by_cases hl : 0 < res.length
      · simp [cleaningPass, hm, hr, hl, cleanStep, hskip]
      · simp [cleaningPass, hm, hr, hl]

/-- The cleaning pass of a movie runs over the matchers outside `ignoreMovie`
only. -/
theorem cleaningPass_movie_filter (f : ParsedFile) (hmo : f.IsMovie = true)
    (hse : f.IsSeries = false) :
    ∀ (names : List String) (c : List Char), names.all matcherFits = true →
      cleaningPass f names c = cleaningPass f (names.filter (fun n => !ignoreMovie n)) c := by
  intro names
  induction names with
  | nil => intro c _; rfl
  | cons name rest ih =>
    intro c hall
    rw [List.all_cons, Bool.and_eq_true] at hall
    by_cases hi : ignoreMovie name = true
    · rw [cleaningPass_skip f name rest c hall.1 (by simp [hmo, hse, hi]), ih c hall.2]
      simp [List.filter, hi]
    · have hi2 : ignoreMovie name = false := by simpa using hi
      have hfl : (name :: rest).filter (fun n => !ignoreMovie n) =
          name :: rest.filter (fun n => !ignoreMovie n) := by simp [List.filter, hi2]
      rw [hfl]
      unfold matcherFits at hall
      cases hm : matcher name with
      | none => simp [hm] at hall
      | some re =>
        cases hr : re.FindStringSubmatch c with
        | none => simp [cleaningPass, hm, hr, ih c hall.2]
        | some res =>
          by_cases hl : 0 < res.length
          · cases hs : cleanStep f name re res c with
            | none => simp [cleaningPass, hm, hr, hl, hs]
            | some c1 => simp [cleaningPass, hm, hr, hl, hs, ih c1 hall.2]
          · simp [cleaningPass, hm, hr, hl, ih c hall.2]

/-- The cleaning pass of a file that is neither movie nor series changes
nothing. -/
theorem cleaningPass_unclassified (f : ParsedFile) (hmo : f.IsMovie = false)
    (hse : f.IsSeries = false) :
    ∀ (names : List String) (c : List Char), names.all matcherFits = true →
      cleaningPass f names c = some c := by
  intro names
  induction names with
  | nil => intro c _; rfl
  | cons name rest ih =>
    intro c hall
    rw [List.all_cons, Bool.and_eq_true] at hall
    rw [cleaningPass_skip f name rest c hall.1 (by simp [hmo, hse]), ih c hall.2]

set_option maxRecDepth 100000 in
/-- C33 (as stated, refuted): "2012.mkv" is a movie; the year matcher, which is
not one of the four matchers skipped for a movie, matches the whole name
"2012"; its match is not removed: the cleaning pass returns "2012" and the
CleanName is "2012". -/
theorem cleaningPass_match_not_removed :
    (NewParsedFile offlineEnv 1 "2012.mkv".toList [{}]).map
      (fun r => (r.IsMovie, r.IsSeries, r.CleanName)) = some (true, false, "2012".toList) ∧
    ignoreMovie "year" = false ∧
    submatch "year" "2012".toList = some ["2012".toList, "2012".toList, "2012".toList] ∧
    cleaningPass { IsMovie := true } order "2012".toList = some "2012".toList := by
  refine ⟨by decide, by decide, by decide, by decide⟩

set_option maxRecDepth 100000 in
/-- C33 (amended): the matchers skipped for
a movie are exactly season, episode, anime-episode and anime-group; for a
movie their step leaves the name as it is, so the cleaning pass of a movie is
the pass over the twelve other matchers; each of those, when it matches,
replaces all its matches by a space, unless fewer than two bytes would be
left before the trailing spaces, in which case the name stays as it was.
For a file that is neither movie nor series the cleaning pass returns the
name unchanged. "Apollo.11.2019.1080p.mkv" is a movie with CleanName
"Apollo 11": when the anime-episode matcher is visited the name is
"Apollo 11   1080p", the matcher matches " 11 " in it, and the pass ends
with "Apollo 11    ". -/
theorem cleaningPass_by_kind :
    (∀ name, ignoreMovie name = true ↔
      name = "season" ∨ name = "episode" ∨ name = "episodeAnime" ∨ name = "groupAnime") ∧
    (∀ f name re res c, f.IsMovie = true → f.IsSeries = false → ignoreMovie name = true →
      cleanStep f name re res c = some c) ∧
    (∀ f c, f.IsMovie = true → f.IsSeries = false →
      cleaningPass f order c =
        cleaningPass f ["yearAsSeason", "year", "audio", "resolution", "quality", "codec",
          "group", "proper", "repack", "hardcoded", "extended", "internal"] c) ∧
    (∀ f name re res c, f.IsMovie = true → f.IsSeries = false → ignoreMovie name = false →
      cleanStep f name re res c =
        some (if utf8Len (trimRightBlank (re.ReplaceAllString c [' '])) < 2 then c
          else re.ReplaceAllString c [' '])) ∧
    (∀ f name re res c, f.IsMovie = false → f.IsSeries = false →
      cleanStep f name re res c = some c) ∧
    (∀ f c, f.IsMovie = false → f.IsSeries = false → cleaningPass f order c = some c) ∧
    (NewParsedFile offlineEnv 1 "Apollo.11.2019.1080p.mkv".toList [{}]).map
      (fun r => (r.IsMovie, r.IsSeries, r.CleanName, r.Year)) =
        some (true, false, "Apollo 11".toList, "2019".toList) ∧
    cleaningPass { IsMovie := true } ["yearAsSeason", "year", "season", "episode"]
      "Apollo 11 2019 1080p".toList = some "Apollo 11   1080p".toList ∧
    submatch "episodeAnime" "Apollo 11   1080p".toList =
      some [" 11 ".toList, "11".toList, []] ∧
    cleaningPass { IsMovie := true } order "Apollo 11 2019 1080p".toList =
      some "Apollo 11    ".toList := by
  refine ⟨?_, ?_, ?_, ?_, ?_, ?_, by decide, by decide, by decide, by decide⟩
  · intro name
    simp [ignoreMovie]
  · intro f name re res c hmo hse hi
    simp [cleanStep, hmo, hse, hi]
  · intro f c hmo hse
    exact cleaningPass_movie_filter f hmo hse order c order_matcherFits
  · intro f name re res c hmo hse hi
    have hne : name ≠ "episode" ∧ name ≠ "season" ∧ name ≠ "groupAnime" := by
      refine ⟨?_, ?_, ?_⟩ <;> intro h <;> subst h <;> exact absurd hi (by decide)
    simp only [cleanStep, hmo, hse, hi, hne.1, hne.2.1, hne.2.2, Bool.not_false, Bool.and_self,
      Bool.or_false, if_true, if_false]
    split_ifs <;> rfl
  · intro f name re res c hmo hse
    simp [cleanStep, hmo, hse]
  · intro f c hmo hse
    exact cleaningPass_unclassified f hmo hse order c order_matcherFits

/-! ## Claims on the year suffix -/

/-- The end of NewParsedFile in steps: lookup, season translation, year
suffix, removal of colons. -/
theorem finish_eq (env : Env) (opts : Options) (f : ParsedFile) (c : List Char) :
    finish env opts f c =
      (if opts.Lookup then queryTmdb env { f with CleanName := Replace c [':'] [] }
        else some { f with CleanName := Replace c [':'] [] }).map
        (fun q => { addYear (translateSeason env q) with
          CleanName := Replace (addYear (translateSeason env q)).CleanName [':'] [] }) := by
  unfold finish addYear
  dsimp only
  split <;> rename_i h <;> rw [h] <;> rfl

/-- Replacing a character that does not occur changes nothing. -/
theorem Replace_of_not_mem (s new : List Char) (a : Char) (h : a ∉ s) :
    Replace s [a] new = s := by
  show replaceScan [a] new 0 s = s
  induction s with
  | nil => rfl
  | cons x t ih =>
    have hx : a ≠ x := fun e => h (by simp [e])
    have ht : a ∉ t := fun e => h (by simp [e])
    have hp : List.isPrefixOf [a] (x :: t) = false := by
      simp [List.isPrefixOf, hx]
    rw [replaceScan, if_neg (by simp [hp]), ih ht]

/-- The clean name and year NewParsedFile returns for a classified video file
without lookup: the cleaned name, with the year appended when the name is in
the table and a year was found. -/
theorem NewParsedFile_year_suffix_result (env : Env) (fuel : Nat) (path : List Char)
    (o : Options) (g f1 : ParsedFile) (c : List Char)
    (hext : SupportedVideoExtensions (Ext path) = true) (hl : o.Lookup = false)
    (hm : matchingPass (initialFile env path [o]).Filename order (initialFile env path [o])
      = some g)
    (hc : classify g (getOpts env [o]) path = .done f1)
    (hcl : cleaningPass f1 order (Replace g.Filename ['.'] [' ']) = some c) :
    ∃ r, NewParsedFile env (fuel + 1) path [o] = some r ∧ r.Year = g.Year ∧
      r.IsSeries = f1.IsSeries ∧ r.IsMovie = f1.IsMovie ∧
      r.CleanName =
        if addYearToSeries (Replace (polish env f1 c) [':'] []) = true ∧ r.Year ≠ [] then
          Replace (polish env f1 c) [':'] [] ++ " (".toList ++ r.Year ++ ")".toList
        else Replace (polish env f1 c) [':'] [] := by
  obtain ⟨g2, hg2, hfr⟩ := matchingPass_total (initialFile env path [o]).Filename order
    (initialFile env path [o]) order_matcherFits
  rw [hm] at hg2
  cases hg2
  have hd := classify_done g f1 (getOpts env [o]) path hc
  have hid : f1.ExternalID = 0 := hd.2.2.2.2.2.2.1.trans hfr.2.2.2.1
  have hy1 : f1.Year = g.Year := hd.2.2.2.2.2.2.2.1
  have hyc : ':' ∉ g.Year := by
    rcases matchingPass_Year _ _ _ rfl hm with h0 | ⟨_, hdig⟩
    · rw [h0]; simp
    · intro hmem
      exact absurd (hdig _ hmem) (by decide)
  have hnc : ':' ∉ Replace (polish env f1 c) [':'] [] := not_mem_Replace_single _ _ _ (by simp)
  have hlk : (getOpts env [o]).Lookup = false := (getOpts_flags env o).1.trans hl
  rw [NewParsedFile_video_done env fuel path [o] g f1 hext hm hc, hcl]
  dsimp only
  rw [finish_eq]
  simp only [hlk, Bool.false_eq_true, if_false, Option.map_some']
  have ht : translateSeason env { f1 with CleanName := Replace (polish env f1 c) [':'] [] } =
      { f1 with CleanName := Replace (polish env f1 c) [':'] [] } := by
    unfold translateSeason
    simp [hid]
  rw [ht]
  unfold addYear
  dsimp only
  by_cases hcond : addYearToSeries (Replace (polish env f1 c) [':'] []) = true ∧ f1.Year ≠ []
  · rw [if_pos hcond]
    refine ⟨_, rfl, hy1, rfl, rfl, ?_⟩
    dsimp only
    rw [if_pos hcond]
    apply Replace_of_not_mem
    simp only [List.mem_append, not_or]
    exact ⟨⟨⟨hnc, by decide⟩, by rw [hy1]; exact hyc⟩, by decide⟩
  · rw [if_neg hcond]
    refine ⟨_, rfl, hy1, rfl, rfl, ?_⟩
    dsimp only
    rw [if_neg hcond]
    exact Replace_of_not_mem _ _ _ hnc

/-- The keys of the table `addYearToSeries`. -/
theorem addYearToSeries_iff (k : List Char) :
    addYearToSeries k = true ↔
      k = "The Flash".toList ∨ k = "Doctor Who".toList ∨ k = "Magnum P.I.".toList ∨
        k = "Charmed".toList := by
  simp only [addYearToSeries, inTable, List.any_cons, List.any_nil, Bool.or_false,
    Bool.or_eq_true, beq_iff_eq]
  constructor
  · rintro (h | h | h | h)
    · exact Or.inl h.symm
    · exact Or.inr (Or.inl h.symm)
    · exact Or.inr (Or.inr (Or.inl h.symm))
    · exact Or.inr (Or.inr (Or.inr h.symm))
  · rintro (h | h | h | h)
    · exact Or.inl h.symm
    · exact Or.inr (Or.inl h.symm)
    · exact Or.inr (Or.inr (Or.inl h.symm))
    · exact Or.inr (Or.inr (Or.inr h.symm))

set_option maxRecDepth 100000 in
/-- C35 (the year suffix): the table holds exactly the names "The Flash",
"Doctor Who", "Magnum P.I." and "Charmed". The year-suffix step of
NewParsedFile turns a record whose CleanName is in the table and whose Year is
not empty into the same record with CleanName "<name> (<year>)", whatever its
flags IsSeries and IsMovie are, and leaves every other record as it is; the
end of NewParsedFile is the lookup, the season translation, this step and the
removal of colons. For a classified video file parsed without lookup the
returned CleanName is the cleaned name followed by " (<year>)" when the
cleaned name is in the table and a year was found, and the cleaned name
itself otherwise. "The.Flash.2014.S06E07.720p.HDTV.x264-SVA.mkv" is a series
with CleanName "The Flash (2014)", Year "2014", Season "06", Episode "07",
Resolution "720p"; "Charmed.2018.mkv" is a movie with CleanName
"Charmed (2018)"; "Doctor.Who.S01E01.mkv" has no year and keeps
"Doctor Who". -/
theorem addYear_spec (env : Env) :
    (∀ k, addYearToSeries k = true ↔
      k = "The Flash".toList ∨ k = "Doctor Who".toList ∨ k = "Magnum P.I.".toList ∨
        k = "Charmed".toList) ∧
    (∀ f : ParsedFile, addYearToSeries f.CleanName = true → f.Year ≠ [] →
      addYear f = { f with CleanName := f.CleanName ++ " (".toList ++ f.Year ++ ")".toList }) ∧
    (∀ f : ParsedFile, ¬(addYearToSeries f.CleanName = true ∧ f.Year ≠ []) → addYear f = f) ∧
    (∀ opts f c, finish env opts f c =
      (if opts.Lookup then queryTmdb env { f with CleanName := Replace c [':'] [] }
        else some { f with CleanName := Replace c [':'] [] }).map
        (fun q => { addYear (translateSeason env q) with
          CleanName := Replace (addYear (translateSeason env q)).CleanName [':'] [] })) ∧
    (∀ fuel path (o : Options) g f1 c, SupportedVideoExtensions (Ext path) = true →
      o.Lookup = false →
      matchingPass (initialFile env path [o]).Filename order (initialFile env path [o])
        = some g →
      classify g (getOpts env [o]) path = .done f1 →
      cleaningPass f1 order (Replace g.Filename ['.'] [' ']) = some c →
      ∃ r, NewParsedFile env (fuel + 1) path [o] = some r ∧ r.Year = g.Year ∧
        r.IsSeries = f1.IsSeries ∧ r.IsMovie = f1.IsMovie ∧
        r.CleanName =
          if addYearToSeries (Replace (polish env f1 c) [':'] []) = true ∧ r.Year ≠ [] then
            Replace (polish env f1 c) [':'] [] ++ " (".toList ++ r.Year ++ ")".toList
          else Replace (polish env f1 c) [':'] []) ∧
    (NewParsedFile offlineEnv 1 "The.Flash.2014.S06E07.720p.HDTV.x264-SVA.mkv".toList [{}]).map
      (fun r => (r.IsSeries, r.IsMovie, r.CleanName, r.Year))
        = some (true, false, "The Flash (2014)".toList, "2014".toList) ∧
    (NewParsedFile offlineEnv 1 "The.Flash.2014.S06E07.720p.HDTV.x264-SVA.mkv".toList [{}]).map
      (fun r => (r.Season, r.Episode, r.Resolution))
        = some ("06".toList, "07".toList, "720p".toList) ∧
    (NewParsedFile offlineEnv 1 "Charmed.2018.mkv".toList [{}]).map
      (fun r => (r.IsSeries, r.IsMovie, r.CleanName, r.Year))
        = some (false, true, "Charmed (2018)".toList, "2018".toList) ∧
    (NewParsedFile offlineEnv 1 "Doctor.Who.S01E01.mkv".toList [{}]).map
      (fun r => (r.IsSeries, r.IsMovie, r.CleanName, r.Year))
        = some (true, false, "Doctor Who".toList, []) := by
  refine ⟨addYearToSeries_iff, ?_, ?_, finish_eq env, ?_, by decide, by decide, by decide,
    by decide⟩
  · intro f h1 h2
    simp [addYear, h1, h2]
  · intro f h
    simp only [addYear]
    rw [if_neg h]
  · intro fuel path o g f1 c hext hl hm hc hcl
    exact NewParsedFile_year_suffix_result env fuel path o g f1 c hext hl hm hc hcl

/-! ## Claims on the episode titles of the catalog lookup -/

/-- The episode numbers of the loop, as the numbers `Start + k`. -/
theorem episodeNumbers_eq (info : EpisodeInfo) :
    episodeNumbers info =
      (List.range (info.End + 1 - info.Start).toNat).map
        (fun (k : Nat) => info.Start + (k : Int)) := by
  unfold episodeNumbers
  induction (List.range (info.End + 1 - info.Start).toNat) with
  | nil => rfl
  | cons x t ih =>
    simp only [List.map_cons] at ih ⊢
    rw [← ih]
    rfl

/-- The episode numbers of the loop are the numbers from Start to End. -/
theorem mem_episodeNumbers (info : EpisodeInfo) (n : Int) :
    n ∈ episodeNumbers info ↔ info.Start ≤ n ∧ n ≤ info.End := by
  rw [episodeNumbers_eq]
  simp only [List.mem_map, List.mem_range]
  constructor
  · rintro ⟨k, hk, rfl⟩
    have := Int.lt_toNat.1 hk
    omega
  · rintro ⟨h1, h2⟩
    refine ⟨(n - info.Start).toNat, ?_, ?_⟩
    · apply Int.lt_toNat.2
      rw [Int.toNat_of_nonneg (by omega)]
      omega
    · rw [Int.toNat_of_nonneg (by omega)]
      omega

/-- The numbers `a, a + 1, ...` are in ascending order. -/
theorem pairwise_range_map (k : Nat) (a : Int) :
    ((List.range k).map (fun (i : Nat) => a + (i : Int))).Pairwise (fun x y => x < y) := by
  rw [List.pairwise_map]
  refine (List.pairwise_lt_range k).imp ?_
  intro x y h
  omega

/-- The episode numbers of the loop are in ascending order. -/
theorem episodeNumbers_pairwise (info : EpisodeInfo) :
    (episodeNumbers info).Pairwise (fun x y => x < y) := by
  rw [episodeNumbers_eq]
  exact pairwise_range_map _ _

/-- The list of the numbers from `a` on, one number longer. -/
theorem range_map_succ (k : Nat) (a : Int) :
    (List.range (k + 1)).map (fun (i : Nat) => a + (i : Int)) =
      a :: (List.range k).map (fun (i : Nat) => a + 1 + (i : Int)) := by
  rw [List.range_succ_eq_map, List.map_cons, List.map_map]
  simp only [Nat.cast_zero, add_zero, List.cons.injEq, true_and]
  apply List.map_congr_left
  intro i _
  simp only [Function.comp, Nat.cast_succ]
  omega

/-- The titles the code keeps are the kept titles. -/
theorem filterMap_titles (lookup : Int → Option (List Char)) (nums : List Int) :
    nums.filterMap (fun n =>
      match lookup n with
      | some name => if name ≠ [] then some name else none
      | none => none) = keptTitles lookup nums := by
  unfold keptTitles
  congr 1
  funext n
  cases lookup n with
  | none => rfl
  | some name => cases name <;> rfl

/-- The kept titles of a number followed by others. -/
theorem keptTitles_cons (lookup : Int → Option (List Char)) (n : Int) (nums : List Int) :
    keptTitles lookup (n :: nums) =
      (match lookup n with
        | some name => if 0 < name.length then [name] else []
        | none => []) ++ keptTitles lookup nums := by
  unfold keptTitles
  rw [List.filterMap_cons]
  cases lookup n with
  | none => rfl
  | some name => cases name <;> simp [Option.filter]

/-- The loop of the lookup, run from `episodeNum` with the last number below
the largest `int`: it ends, with the kept titles of the numbers up to the
last one appended in ascending order. -/
theorem episodeLoop_eq (lookup : Int → Option (List Char)) (last : Int)
    (hlast : last < (intLimit : Int) - 1) :
    ∀ (k : Nat) (episodeNum : Int) (titles : List (List Char)) (fuel : Nat),
      (last + 1 - episodeNum).toNat = k → k < fuel →
      episodeLoop lookup last fuel episodeNum titles =
        some (titles ++
          keptTitles lookup ((List.range k).map (fun (i : Nat) => episodeNum + (i : Int)))) := by
  intro k
  induction k with
  | zero =>
    intro n titles fuel hk hf
    obtain ⟨fuel, rfl⟩ : ∃ m, fuel = m + 1 := ⟨fuel - 1, by omega⟩
    rw [episodeLoop, if_neg (by omega)]
    simp [keptTitles]
  | succ k ih =>
    intro n titles fuel hk hf
    obtain ⟨fuel, rfl⟩ : ∃ m, fuel = m + 1 := ⟨fuel - 1, by omega⟩
    have hn : n ≤ last := by omega
    have hsucc : intSucc n = n + 1 := by
      unfold intSucc
      rw [if_neg (by omega)]
    rw [episodeLoop, if_pos hn, range_map_succ, keptTitles_cons, hsucc]
    cases hl : lookup n with
    | none =>
      dsimp only
      rw [ih (n + 1) titles fuel (by omega) (by omega)]
      simp
    | some name =>
      dsimp only
      by_cases hne : 0 < name.length
      · rw [if_pos hne, if_pos hne, ih (n + 1) (titles ++ [name]) fuel (by omega) (by omega)]
        simp
      · rw [if_neg hne, if_neg hne, ih (n + 1) titles fuel (by omega) (by omega)]
        simp

/-- The loop of the lookup with the largest `int` as last number never
ends. -/
theorem episodeLoop_diverges (lookup : Int → Option (List Char)) :
    ∀ (fuel : Nat) (episodeNum : Int) (titles : List (List Char)),
      -(intLimit : Int) ≤ episodeNum → episodeNum ≤ (intLimit : Int) - 1 →
      episodeLoop lookup ((intLimit : Int) - 1) fuel episodeNum titles = none := by
  intro fuel
  induction fuel with
  | zero => intro n titles _ _; rfl
  | succ fuel ih =>
    intro n titles h1 h2
    have h63 : (intLimit : Int) = 9223372036854775808 := rfl
    have hs1 : -(intLimit : Int) ≤ intSucc n := by
      unfold intSucc; split_ifs <;> omega
    have hs2 : intSucc n ≤ (intLimit : Int) - 1 := by
      unfold intSucc; split_ifs <;> omega
    rw [episodeLoop, if_pos h2]
    cases lookup n with
    | none => exact ih _ _ hs1 hs2
    | some name =>
      dsimp only
      split_ifs
      · exact ih _ _ hs1 hs2
      · exact ih _ _ hs1 hs2

/-- The part of the lookup that fetches the episode titles, for an Episode
text of at most 18 characters: the result in terms of the kept titles of the
numbers from Start to End. -/
theorem queryEpisodes_eq (env : Env) (p : ParsedFile) (tvID seasonNum : Int)
    (options : List (String × List Char)) (info : EpisodeInfo) (titles : List (List Char))
    (hlen : p.Episode.length ≤ 18)
    (hinfo : info = match ParseEpisodeString p.Episode with
      | .ok i => i
      | .error _ => ⟨1, 1, false⟩)
    (ht : titles = keptTitles (fun n => env.GetTvEpisodeInfo tvID seasonNum n options)
      (episodeNumbers info)) :
    info.End < (intLimit : Int) - 1 ∧
    queryEpisodes env p tvID seasonNum options =
      some (if titles = [] then p else { p with EpisodeName := Join titles " & ".toList }) := by
  have h63 : (intLimit : Int) = 9223372036854775808 := rfl
  have hidx := ParseEpisodeString_no_index_error p.Episode
  unfold queryEpisodes
  cases hp : ParseEpisodeString p.Episode with
  | error e =>
    rw [hp] at hinfo
    dsimp only at hinfo
    subst hinfo
    cases e
    case indexOutOfRange => exact absurd hp hidx
    all_goals
      have hft := filterMap_titles (fun n => env.GetTvEpisodeInfo tvID seasonNum n options)
        (episodeNumbers ⟨1, 1, false⟩)
      dsimp only at hft ⊢
      rw [if_neg (by rw [h63]; intro h; omega)]
      generalize hL : List.filterMap _ (episodeNumbers ⟨1, 1, false⟩) = L
      have hLt : L = titles := by rw [← hL, ht]; exact hft
      subst hLt
      refine ⟨by rw [h63]; omega, ?_⟩
      split_ifs <;> first | rfl | contradiction
  | ok i =>
    rw [hp] at hinfo
    dsimp only at hinfo
    subst hinfo
    have hft := filterMap_titles (fun n => env.GetTvEpisodeInfo tvID seasonNum n options)
      (episodeNumbers info)
    dsimp only at hft ⊢
    obtain ⟨a, b, _, hb, _, hbl⟩ := ParseEpisodeString_bounds p.Episode info 18 hlen hp
    have h10 : (10 : Nat) ^ 18 = 1000000000000000000 := by norm_num
    rw [if_neg (by rw [h63, hb]; intro h; omega)]
    generalize hL : List.filterMap _ (episodeNumbers info) = L
    have hLt : L = titles := by rw [← hL, ht]; exact hft
    subst hLt
    refine ⟨by rw [h63, hb]; omega, ?_⟩
    split_ifs <;> first | rfl | contradiction

/-- The fields the adoption of a search result writes and keeps. -/
theorem adoptSeries_fields (p : ParsedFile) (tv : TvShort) :
    (adoptSeries p tv).Season = p.Season ∧ (adoptSeries p tv).Episode = p.Episode ∧
      (adoptSeries p tv).EpisodeName = p.EpisodeName ∧ (adoptSeries p tv).ExternalID = tv.ID ∧
      (adoptSeries p tv).ExternalName = tv.Name ∧ (adoptSeries p tv).CleanName = tv.Name := by
  unfold adoptSeries
  dsimp only
  split_ifs <;> exact ⟨rfl, rfl, rfl, rfl, rfl, rfl⟩

/-- C37 (as stated, refuted): NewParsedFile on "Show.E05.mkv" with Lookup and
ForceSeries, and a catalog that knows the series and gives every episode of
every season the title "Pilot", returns a series with the catalog hit 7 and
Episode "05", which parses as the single episode 5; but its Season is empty,
`strconv.Atoi` fails on it, and the lookup returns before the loop: no title
is asked for and EpisodeName stays empty. -/
theorem queryTmdb_without_season :
    (NewParsedFile pilotEnv 1 "Show.E05.mkv".toList [{ Lookup := true, ForceSeries := true }]).map
      (fun r => (r.IsSeries, r.ExternalID, r.Season, r.Episode)) =
        some (true, 7, [], "05".toList) ∧
    (NewParsedFile pilotEnv 1 "Show.E05.mkv".toList [{ Lookup := true, ForceSeries := true }]).map
      (fun r => r.EpisodeName) = some [] ∧
    ParseEpisodeString "05".toList = .ok ⟨5, 5, false⟩ ∧
    (∀ season options, pilotEnv.GetTvEpisodeInfo 7 season 5 options = some "Pilot".toList) ∧
    Atoi [] = none := by
  refine ⟨by decide, by decide, by decide, fun _ _ => rfl, by decide⟩

/-- C37 (amended): for a series with a
catalog hit whose Season text is a decimal integer and whose Episode text has
at most 18 characters (as every Episode of NewParsedFile has), the lookup
returns; the Episode is parsed with ParseEpisodeString and a parse failure
is replaced by the single episode 1; the loop asks the catalog for each
number from Start to End in ascending order and ends; failed lookups and
empty titles are skipped; EpisodeName becomes the remaining titles joined by
" & " in that order, and is left unchanged if no title remains. -/
theorem queryTmdb_episode_names (env : Env) (p : ParsedFile) (tv : TvShort)
    (rest : List TvShort) (seasonNum : Int) (info : EpisodeInfo)
    (hs : p.IsSeries = true)
    (hhit : env.SearchTv p.CleanName (tmdbOptions p) = some (tv :: rest))
    (hseason : Atoi p.Season = some seasonNum) (hlen : p.Episode.length ≤ 18)
    (hinfo : info = match ParseEpisodeString p.Episode with
      | .ok i => i
      | .error _ => ⟨1, 1, false⟩) :
    ∃ r nums titles, queryTmdb env p = some r ∧
      nums.Pairwise (fun x y => x < y) ∧ (∀ n, n ∈ nums ↔ info.Start ≤ n ∧ n ≤ info.End) ∧
      titles = keptTitles (fun n => env.GetTvEpisodeInfo tv.ID seasonNum n (tmdbOptions p)) nums ∧
      (∀ fuel, nums.length < fuel →
        episodeLoop (fun n => env.GetTvEpisodeInfo tv.ID seasonNum n (tmdbOptions p)) info.End
          fuel info.Start [] = some titles) ∧
      r.EpisodeName = (if titles = [] then p.EpisodeName else Join titles " & ".toList) ∧
      r.ExternalID = tv.ID ∧ r.ExternalName = tv.Name ∧ r.CleanName = tv.Name := by
  obtain ⟨ha1, ha2, ha3, ha4, ha5, ha6⟩ := adoptSeries_fields p tv
  obtain ⟨titles, ht⟩ : ∃ t, t = keptTitles
      (fun n => env.GetTvEpisodeInfo tv.ID seasonNum n (tmdbOptions p)) (episodeNumbers info) :=
    ⟨_, rfl⟩
  obtain ⟨hend, hq⟩ := queryEpisodes_eq env (adoptSeries p tv) tv.ID seasonNum (tmdbOptions p)
    info titles (by rw [ha2]; exact hlen) (by rw [ha2]; exact hinfo) ht
  refine ⟨if titles = [] then adoptSeries p tv
      else { adoptSeries p tv with EpisodeName := Join titles " & ".toList },
    episodeNumbers info, titles, ?_, episodeNumbers_pairwise info,
    mem_episodeNumbers info, ht, ?_, ?_⟩
  · rw [queryTmdb_eq, if_pos hs, hhit]
    dsimp only
    have hse : Atoi (adoptSeries p tv).Season = some seasonNum := by rw [ha1]; exact hseason
    rw [hse]
    exact hq
  · intro fuel hf
    have hlen2 : (episodeNumbers info).length = (info.End + 1 - info.Start).toNat := by
      rw [episodeNumbers_eq]; simp
    rw [episodeLoop_eq _ info.End hend (info.End + 1 - info.Start).toNat info.Start [] fuel rfl
      (by rw [← hlen2]; exact hf), ht, episodeNumbers_eq]
    rfl
  · split_ifs with h
    · exact ⟨ha3, ha4, ha5, ha6⟩
    · exact ⟨rfl, ha4, ha5, ha6⟩

/-- C37 (witness): a series with Episode "05-E06" and a catalog that
gives every episode the title "Pilot": the lookup asks for the episodes 5
and 6, and EpisodeName becomes "Pilot & Pilot". -/
theorem queryTmdb_episode_names_witness :
    (queryTmdb pilotEnv pilotFile).map (fun r => r.EpisodeName) = some "Pilot & Pilot".toList ∧
    ∃ r nums titles, queryTmdb pilotEnv pilotFile = some r ∧
      nums.Pairwise (fun x y => x < y) ∧ (∀ n, n ∈ nums ↔ (5 : Int) ≤ n ∧ n ≤ 6) ∧
      titles = keptTitles (fun _ => some "Pilot".toList) nums ∧
      (∀ fuel, nums.length < fuel →
        episodeLoop (fun _ => some "Pilot".toList) 6 fuel 5 [] = some titles) ∧
      r.EpisodeName = (if titles = [] then [] else Join titles " & ".toList) ∧
      r.ExternalID = 7 ∧ r.ExternalName = "Show".toList ∧ r.CleanName = "Show".toList :=
  ⟨by decide,
    queryTmdb_episode_names pilotEnv pilotFile ⟨7, "Show".toList, []⟩ [] 1 ⟨5, 6, true⟩ rfl rfl
      (by decide) (by decide) (by decide)⟩

/-- The bound on the Episode text is needed: with the largest `int` as
episode number the loop of the lookup does not end. -/
theorem queryTmdb_largest_episode :
    ParseEpisodeString "9223372036854775807".toList =
      .ok ⟨9223372036854775807, 9223372036854775807, false⟩ ∧
    (∀ fuel titles, episodeLoop (fun _ => some "Pilot".toList) 9223372036854775807 fuel
      9223372036854775807 titles = none) ∧
    queryTmdb pilotEnv { pilotFile with Episode := "9223372036854775807".toList } = none := by
  refine ⟨by decide, ?_, by decide⟩
  intro fuel titles
  exact episodeLoop_diverges _ fuel _ titles (by decide) (by decide)

/-! ## The texts and numbers the episode matcher captures -/

/-- A run of a group of two digits: what it consumes and captures. -/
theorem two_digits_run (n i : Nat) (s : List Char) (c : Caps) (r : MatchEnd)
    (h : (Re.cap n (seqs [digit, digit])).run i s c K0 = some r) :
    ∃ x y post, s = x :: y :: post ∧ isDigit x = true ∧ isDigit y = true ∧
      r = (i + 2, c.set n [x, y]) := by
  simp only [seqs, Re.run, digit, K0] at h
  rcases s with _ | ⟨x, _ | ⟨y, post⟩⟩
  · simp at h
  · simp at h
  · by_cases hx : isDigit x = true
    · by_cases hy : isDigit y = true
      · simp only [hx, hy, if_true] at h
        have e : i + 1 + 1 - i = 2 := by omega
        rw [e] at h
        refine ⟨x, y, post, rfl, hx, hy, ?_⟩
        simpa using h.symm
      · simp [hx, hy] at h
    · simp [hx] at h

/-- A run of the part `[EX]?([0-9]{2})` of the episode matcher. -/
theorem episodeTail2_run (i : Nat) (s : List Char) (c : Caps) (r : MatchEnd)
    (h : episodeTail2.run i s c K0 = some r) :
    ∃ sep x y post, s = sep ++ x :: y :: post ∧ isDigit x = true ∧ isDigit y = true ∧
      (sep = [] ∨ ∃ e, sep = [e] ∧ ['E', 'X', 'e', 'x'].contains e = true) ∧
      r = (i + sep.length + 2, c.set 2 [x, y]) := by
  have hrun : episodeTail2.run i s c K0 =
      orElse (classEX.run i s c (fun j s1 c1 => (Re.cap 2 (seqs [digit, digit])).run j s1 c1 K0))
        ((Re.cap 2 (seqs [digit, digit])).run i s c K0) := rfl
  rw [hrun] at h
  cases h1 : classEX.run i s c (fun j s1 c1 => (Re.cap 2 (seqs [digit, digit])).run j s1 c1 K0) with
  | some r1 =>
    rw [h1] at h
    simp only [orElse] at h
    obtain rfl : r1 = r := Option.some.inj h
    rcases s with _ | ⟨e, t⟩
    · simp [classEX, oneOf, Re.run] at h1
    · simp only [classEX, oneOf, Re.run] at h1
      by_cases he : ['E', 'X', 'e', 'x'].contains e = true
      · rw [if_pos he] at h1
        obtain ⟨x, y, post, rfl, hx, hy, hr⟩ := two_digits_run 2 (i + 1) t c r1 h1
        exact ⟨[e], x, y, post, rfl, hx, hy, Or.inr ⟨e, rfl, he⟩, by rw [hr]; rfl⟩
      · rw [if_neg he] at h1
        cases h1
  | none =>
    rw [h1] at h
    simp only [orElse] at h
    obtain ⟨x, y, post, rfl, hx, hy, hr⟩ := two_digits_run 2 i s c r h
    exact ⟨[], x, y, post, rfl, hx, hy, Or.inl rfl, by rw [hr]; rfl⟩

/-- A run of the part `-?[EX]?([0-9]{2})` of the episode matcher. -/
theorem episodeTail_run (i : Nat) (s : List Char) (c : Caps) (r : MatchEnd)
    (h : episodeTail.run i s c K0 = some r) :
    ∃ sep x y post, s = sep ++ x :: y :: post ∧ isDigit x = true ∧ isDigit y = true ∧
      (sep = [] ∨ sep = ['-'] ∨
        ∃ e, (sep = [e] ∨ sep = ['-', e]) ∧ ['E', 'X', 'e', 'x'].contains e = true) ∧
      r = (i + sep.length + 2, c.set 2 [x, y]) := by
  have hrun : episodeTail.run i s c K0 =
      orElse ((chr '-').run i s c (fun j s1 c1 => episodeTail2.run j s1 c1 K0))
        (episodeTail2.run i s c K0) := rfl
  rw [hrun] at h
  cases h1 : (chr '-').run i s c (fun j s1 c1 => episodeTail2.run j s1 c1 K0) with
  | some r1 =>
    rw [h1] at h
    simp only [orElse] at h
    obtain rfl : r1 = r := Option.some.inj h
    rcases s with _ | ⟨e, t⟩
    · simp [chr, Re.run] at h1
    · simp only [chr, Re.run] at h1
      by_cases he : (e == '-') = true
      · rw [if_pos he] at h1
        have he2 : e = '-' := by simpa using he
        subst he2
        obtain ⟨sep, x, y, post, rfl, hx, hy, hsep, hr⟩ := episodeTail2_run (i + 1) t c r1 h1
        rcases hsep with rfl | ⟨e, rfl, he⟩
        · exact ⟨['-'], x, y, post, rfl, hx, hy, Or.inr (Or.inl rfl), by rw [hr]; rfl⟩
        · refine ⟨['-', e], x, y, post, rfl, hx, hy, Or.inr (Or.inr ⟨e, Or.inr rfl, he⟩), ?_⟩
          rw [hr]
          rfl
      · rw [if_neg he] at h1
        cases h1
  | none =>
    rw [h1] at h
    simp only [orElse] at h
    obtain ⟨sep, x, y, post, rfl, hx, hy, hsep, hr⟩ := episodeTail2_run i s c r h
    rcases hsep with rfl | ⟨e, rfl, he⟩
    · exact ⟨[], x, y, post, rfl, hx, hy, Or.inl rfl, hr⟩
    · exact ⟨[e], x, y, post, rfl, hx, hy, Or.inr (Or.inr ⟨e, Or.inl rfl, he⟩), hr⟩

/-- The episode matcher of the table. -/
theorem matcher_episode : matcher "episode" = some episodeMatcher := rfl

/-- A match of the episode matcher at one position: the matched text is a
marker, two digits, and possibly a separator and two more digits; group 1 is
the first two digits and group 2 the last two (empty when absent). -/
theorem episode_matchAt (i : Nat) (s : List Char) (r : MatchEnd)
    (h : episodeMatcher.matchAt i s = some r) :
    ∃ m a b sep second post, s = m :: a :: b :: sep ++ second ++ post ∧
      ['E', 'X', 'e', 'x'].contains m = true ∧ isDigit a = true ∧ isDigit b = true ∧
      r.2 = [m :: a :: b :: sep ++ second, [a, b], second] ∧
      ((sep = [] ∧ second = []) ∨
        ((∃ x y, second = [x, y] ∧ isDigit x = true ∧ isDigit y = true) ∧
          (sep = [] ∨ sep = ['-'] ∨
            ∃ e, (sep = [e] ∨ sep = ['-', e]) ∧ ['E', 'X', 'e', 'x'].contains e = true))) := by
  unfold Regexp.matchAt at h
  have hng : episodeMatcher.ngroups = 2 := rfl
  rw [hng] at h
  have hfail : ∀ t, (¬ ∃ m a b rest, t = m :: a :: b :: rest ∧
      ['E', 'X', 'e', 'x'].contains m = true ∧ isDigit a = true ∧ isDigit b = true) →
      episodeMatcher.re.run i t (List.replicate (2 + 1) []) (fun j _ c => some (j, c)) = none := by
    intro t ht
    rcases t with _ | ⟨m, _ | ⟨a, _ | ⟨b, rest⟩⟩⟩
    · rfl
    · simp only [episodeMatcher, seqs, Re.run, classEX, oneOf, digit]
      split_ifs <;> rfl
    · simp only [episodeMatcher, seqs, Re.run, classEX, oneOf, digit]
      split_ifs <;> rfl
    · simp only [episodeMatcher, seqs, Re.run, classEX, oneOf, digit]
      split_ifs with hm ha hb
      · exact absurd ⟨m, a, b, rest, rfl, hm, ha, hb⟩ ht
      all_goals rfl
  by_cases hshape : ∃ m a b rest, s = m :: a :: b :: rest ∧
      ['E', 'X', 'e', 'x'].contains m = true ∧ isDigit a = true ∧ isDigit b = true
  · obtain ⟨m, a, b, rest, rfl, hm, ha, hb⟩ := hshape
    have hrun : episodeMatcher.re.run i (m :: a :: b :: rest) (List.replicate (2 + 1) [])
        (fun j _ c => some (j, c)) =
        orElse (episodeTail.run (i + 3) rest [[], [a, b], []] K0)
          (some (i + 3, [[], [a, b], []])) := by
      simp only [episodeMatcher, seqs, Re.run, classEX, oneOf, digit, hm, ha, hb, if_true, opt]
      have e : i + 1 + 1 + 1 - (i + 1) = 2 := by omega
      simp only [e]
      rfl
    rw [hrun] at h
    cases ht : episodeTail.run (i + 3) rest [[], [a, b], []] K0 with
    | some r1 =>
      rw [ht] at h
      obtain ⟨sep, x, y, post, rfl, hx, hy, hsep, hr⟩ := episodeTail_run _ _ _ _ ht
      subst hr
      simp only [orElse] at h
      obtain rfl := Option.some.inj h
      refine ⟨m, a, b, sep, [x, y], post, by simp, hm, ha, hb, ?_,
        Or.inr ⟨⟨x, y, rfl, hx, hy⟩, hsep⟩⟩
      have e : i + 3 + sep.length + 2 - i = (m :: a :: b :: (sep ++ [x, y])).length := by
        simp only [List.length_cons, List.length_append, List.length_nil]
        omega
      have e2 : m :: a :: b :: (sep ++ x :: y :: post) = (m :: a :: b :: (sep ++ [x, y])) ++ post := by
        simp
      simp only [e, e2, List.take_left']
      simp
    | none =>
      rw [ht] at h
      simp only [orElse] at h
      obtain rfl := Option.some.inj h
      refine ⟨m, a, b, [], [], rest, by simp, hm, ha, hb, ?_, Or.inl ⟨rfl, rfl⟩⟩
      have e : i + 3 - i = 3 := by omega
      simp [e]
  · rw [hfail s hshape] at h
    cases h

/-- The submatches of the episode matcher on a file name. -/
theorem episode_submatch_shape (filename : List Char) (res : Caps)
    (h : submatch "episode" filename = some res) :
    ∃ m a b sep second, res = [m :: a :: b :: sep ++ second, [a, b], second] ∧
      ['E', 'X', 'e', 'x'].contains m = true ∧ isDigit a = true ∧ isDigit b = true ∧
      ((sep = [] ∧ second = []) ∨
        ((∃ x y, second = [x, y] ∧ isDigit x = true ∧ isDigit y = true) ∧
          (sep = [] ∨ sep = ['-'] ∨
            ∃ e, (sep = [e] ∨ sep = ['-', e]) ∧ ['E', 'X', 'e', 'x'].contains e = true))) := by
  have hs : submatch "episode" filename = episodeMatcher.FindStringSubmatch filename := rfl
  rw [hs] at h
  unfold Regexp.FindStringSubmatch at h
  cases hf : episodeMatcher.findFrom 0 filename with
  | none => rw [hf] at h; cases h
  | some m0 =>
    rw [hf] at h
    obtain ⟨a0, a1, c⟩ := m0
    dsimp only at h
    obtain rfl := Option.some.inj h
    obtain ⟨i1, t1, hm⟩ := findFrom_matchAt episodeMatcher filename 0 _ hf
    obtain ⟨m, a, b, sep, second, post, _, hm1, ha, hb, hr, hcases⟩ := episode_matchAt i1 t1 _ hm
    exact ⟨m, a, b, sep, second, hr, hm1, ha, hb, hcases⟩

/-- Go `strings.TrimSpace` leaves a text that neither starts nor ends with a
space character. -/
theorem TrimSpace_of_ends (s : List Char)
    (h1 : ∀ x t, s = x :: t → isSpace x = false)
    (h2 : ∀ x t, s.reverse = x :: t → isSpace x = false) : TrimSpace s = s := by
  have e1 : s.dropWhile isSpace = s := by
    cases s with
    | nil => rfl
    | cons x t => simp [List.dropWhile_cons, h1 x t rfl]
  unfold TrimSpace trimRightBy
  rw [e1]
  cases hr : s.reverse with
  | nil => simp at hr; simp [hr]
  | cons x t =>
    simp only [List.dropWhile_cons, h2 x t hr]
    rw [← hr]
    simp

/-- Every character of an episode token is a digit, an `E` or a dash. -/
theorem token_chars {s d1 : List Char} {d2 : Option (List Char)}
    (h : IsEpisodeToken s d1 d2) : ∀ c ∈ s, isDigit c = true ∨ c = 'E' ∨ c = '-' := by
  obtain ⟨pre, hpre, hd1, hrest⟩ := h
  have hp : ∀ c ∈ pre, isDigit c = true ∨ c = 'E' ∨ c = '-' := by
    intro c hc
    rcases hpre with rfl | rfl
    · cases hc
    · simp only [List.mem_singleton] at hc
      exact Or.inr (Or.inl hc)
  cases d2 with
  | none =>
    dsimp only at hrest
    subst hrest
    intro c hc
    rcases List.mem_append.1 hc with hc | hc
    · exact hp c hc
    · exact Or.inl (hd1.2 c hc)
  | some e =>
    obtain ⟨he, sep, hsep, rfl⟩ := hrest
    intro c hc
    simp only [List.mem_append] at hc
    rcases hc with ((hc | hc) | hc) | hc
    · exact hp c hc
    · exact Or.inl (hd1.2 c hc)
    · rcases hsep with rfl | rfl | rfl <;> simp at hc
      · exact Or.inr (Or.inr hc)
      · rcases hc with rfl | rfl
        · exact Or.inr (Or.inr rfl)
        · exact Or.inr (Or.inl rfl)
      · exact Or.inr (Or.inl hc)
    · exact Or.inl (he.2 c hc)

/-- The longest run of digits at the start of a run of digits followed by a
character that is no digit. -/
theorem takeWhile_digits (d : List Char) (c : Char) (rest : List Char)
    (hd : ∀ x ∈ d, isDigit x = true) (hc : isDigit c = false) :
    (d ++ c :: rest).takeWhile isDigit = d ∧ (d ++ c :: rest).dropWhile isDigit = c :: rest := by
  induction d with
  | nil => simp [List.takeWhile, List.dropWhile, hc]
  | cons x t ih =>
    have hx := hd x (by simp)
    have := ih (fun y hy => hd y (by simp [hy]))
    simp [List.takeWhile, List.dropWhile, hx, this.1, this.2]

/-- The longest run of digits at the start of a run of digits. -/
theorem takeWhile_all_digits (d : List Char) (hd : ∀ x ∈ d, isDigit x = true) :
    d.takeWhile isDigit = d ∧ d.dropWhile isDigit = [] := by
  induction d with
  | nil => simp
  | cons x t ih =>
    have hx := hd x (by simp)
    have := ih (fun y hy => hd y (by simp [hy]))
    simp [List.takeWhile, List.dropWhile, hx, this.1, this.2]

/-- A text between two runs of digits: it starts and ends with a character
that is no digit. -/
theorem split_unique (d1 d2 s1 s2 e1 e2 : List Char)
    (hd1 : ∀ c ∈ d1, isDigit c = true) (hd2 : ∀ c ∈ d2, isDigit c = true)
    (he1 : ∀ c ∈ e1, isDigit c = true) (he2 : ∀ c ∈ e2, isDigit c = true)
    (hs1 : ∃ c0 r0 l0 i0, s1 = c0 :: r0 ∧ isDigit c0 = false ∧ s1 = i0 ++ [l0] ∧
      isDigit l0 = false)
    (hs2 : ∃ c0 r0 l0 i0, s2 = c0 :: r0 ∧ isDigit c0 = false ∧ s2 = i0 ++ [l0] ∧
      isDigit l0 = false)
    (h : d1 ++ s1 ++ e1 = d2 ++ s2 ++ e2) : d1 = d2 ∧ s1 = s2 ∧ e1 = e2 := by
  obtain ⟨c1, r1, l1, i1, hc1, hc1d, hl1, hl1d⟩ := hs1
  obtain ⟨c2, r2, l2, i2, hc2, hc2d, hl2, hl2d⟩ := hs2
  have hA : d1 = d2 ∧ s1 ++ e1 = s2 ++ e2 := by
    have t1 := takeWhile_digits d1 c1 (r1 ++ e1) hd1 hc1d
    have t2 := takeWhile_digits d2 c2 (r2 ++ e2) hd2 hc2d
    have h' : d1 ++ c1 :: (r1 ++ e1) = d2 ++ c2 :: (r2 ++ e2) := by
      have := h
      rw [hc1, hc2] at this
      simpa using this
    have e1' : d1 = d2 := by rw [← t1.1, h', t2.1]
    have e2' : c1 :: (r1 ++ e1) = c2 :: (r2 ++ e2) := by rw [← t1.2, h', t2.2]
    refine ⟨e1', ?_⟩
    rw [hc1, hc2]
    simpa using e2'
  have hB : e1.reverse ++ l1 :: i1.reverse = e2.reverse ++ l2 :: i2.reverse := by
    have := congrArg List.reverse hA.2
    rw [hl1, hl2] at this
    simpa using this
  have t1 := takeWhile_digits e1.reverse l1 i1.reverse (fun c hc => he1 c (by simpa using hc)) hl1d
  have t2 := takeWhile_digits e2.reverse l2 i2.reverse (fun c hc => he2 c (by simpa using hc)) hl2d
  have e3 : e1.reverse = e2.reverse := by rw [← t1.1, hB, t2.1]
  have e4 : e1 = e2 := by simpa using congrArg List.reverse e3
  refine ⟨hA.1, ?_, e4⟩
  have := hA.2
  rw [e4] at this
  exact List.append_cancel_right this

/-- A marker of the episode matcher is no digit, no space and no dash. -/
theorem marker_facts (e : Char) (he : ['E', 'X', 'e', 'x'].contains e = true) :
    isDigit e = false ∧ isSpace e = false ∧ e ≠ '-' ∧ (e = 'E' ∨ e = 'X' ∨ e = 'e' ∨ e = 'x') := by
  have : e = 'E' ∨ e = 'X' ∨ e = 'e' ∨ e = 'x' := by simpa using he
  rcases this with rfl | rfl | rfl | rfl <;> refine ⟨by decide, by decide, by decide, by decide⟩

/-- The value of two digits is below 100. -/
theorem decimalValue_two (a b : Char) (ha : isDigit a = true) (hb : isDigit b = true) :
    decimalValue [a, b] < 100 := by
  have := decimalValue_lt [a, b] (by
    intro c hc
    simp only [List.mem_cons, List.mem_singleton, List.not_mem_nil, or_false] at hc
    rcases hc with rfl | rfl <;> assumption)
  simpa using this

/-- A match of the episode matcher that ParseEpisodeString accepts as a
range: the marker is an upper-case `E`, the separator is a dash, a dash and
an `E`, or an `E`, and the range goes from the first captured number to the
second. -/
theorem episode_range_inv (m a b : Char) (sep second : List Char) (i : EpisodeInfo)
    (hm : ['E', 'X', 'e', 'x'].contains m = true) (ha : isDigit a = true)
    (hb : isDigit b = true)
    (hcases : (sep = [] ∧ second = []) ∨
      ((∃ x y, second = [x, y] ∧ isDigit x = true ∧ isDigit y = true) ∧
        (sep = [] ∨ sep = ['-'] ∨
          ∃ e, (sep = [e] ∨ sep = ['-', e]) ∧ ['E', 'X', 'e', 'x'].contains e = true)))
    (hp : ParseEpisodeString (m :: a :: b :: sep ++ second) = .ok i)
    (hr : i.IsRange = true) :
    m = 'E' ∧ (sep = ['-'] ∨ sep = ['-', 'E'] ∨ sep = ['E']) ∧ second.length = 2 ∧
      i = ⟨decimalValue [a, b], decimalValue second, true⟩ ∧
      decimalValue [a, b] ≤ decimalValue second := by
  have hmf := marker_facts m hm
  have hsec : ∀ c ∈ second, isDigit c = true := by
    rcases hcases with ⟨_, rfl⟩ | ⟨⟨x, y, rfl, hx, hy⟩, _⟩
    · intro c hc; cases hc
    · intro c hc
      simp only [List.mem_cons, List.mem_singleton, List.not_mem_nil, or_false] at hc
      rcases hc with rfl | rfl <;> assumption
  have hab : ∀ c ∈ [a, b], isDigit c = true := by
    intro c hc
    simp only [List.mem_cons, List.mem_singleton, List.not_mem_nil, or_false] at hc
    rcases hc with rfl | rfl <;> assumption
  have htrim : TrimSpace (m :: a :: b :: sep ++ second) = m :: a :: b :: sep ++ second := by
    apply TrimSpace_of_ends
    · intro x t h
      cases h
      exact hmf.2.1
    · intro x t h
      rcases hcases with ⟨rfl, rfl⟩ | ⟨⟨x1, y1, rfl, hx, hy⟩, _⟩
      · simp at h
        rw [← h.1]
        exact isDigit_not_isSpace hb
      · simp at h
        rw [← h.1]
        exact isDigit_not_isSpace hy
  by_cases htok : ∃ d1 d2, IsEpisodeToken (TrimSpace (m :: a :: b :: sep ++ second)) d1 d2
  · obtain ⟨d1, d2, ht⟩ := htok
    rw [ParseEpisodeString_of_token _ d1 d2 ht] at hp
    rw [htrim] at ht
    have hch := token_chars ht
    have hmE : m = 'E' := by
      rcases hch m (by simp) with h | h | h
      · rw [hmf.1] at h; cases h
      · exact h
      · exact absurd h hmf.2.2.1
    cases d2 with
    | none =>
      dsimp only at hp
      split_ifs at hp
      cases hp
      cases hr
    | some e2 =>
      dsimp only at hp
      split_ifs at hp with h1 h2 h3
      obtain rfl := Except.ok.inj hp
      obtain ⟨pre, hpre, hd1, he2, sep2, hsep2, heq⟩ := ht
      rcases hpre with rfl | rfl
      · exfalso
        have := digitRun_head d1 (sep2 ++ e2) hd1 m (a :: b :: sep ++ second)
          (by simpa using heq.symm)
        rw [hmf.1] at this
        cases this
      · have heq2 : [a, b] ++ sep ++ second = d1 ++ sep2 ++ e2 := by
          simp only [List.cons_append, List.nil_append, List.singleton_append,
            List.cons.injEq] at heq
          simpa using heq.2
        have hs2 : ∃ c0 r0 l0 i0, sep2 = c0 :: r0 ∧ isDigit c0 = false ∧ sep2 = i0 ++ [l0] ∧
            isDigit l0 = false := by
          rcases hsep2 with rfl | rfl | rfl
          · exact ⟨'-', [], '-', [], rfl, by decide, rfl, by decide⟩
          · exact ⟨'-', ['E'], 'E', ['-'], rfl, by decide, rfl, by decide⟩
          · exact ⟨'E', [], 'E', [], rfl, by decide, rfl, by decide⟩
        have hsepne : sep ≠ [] := by
          rintro rfl
          obtain ⟨c0, r0, _, _, hc0, hc0d, _, _⟩ := hs2
          have hmem : c0 ∈ [a, b] ++ [] ++ second := by
            rw [heq2, hc0]; simp
          simp only [List.append_nil, List.mem_append] at hmem
          rcases hmem with h | h
          · rw [hab c0 h] at hc0d; cases hc0d
          · rw [hsec c0 h] at hc0d; cases hc0d
        have hs1 : ∃ c0 r0 l0 i0, sep = c0 :: r0 ∧ isDigit c0 = false ∧ sep = i0 ++ [l0] ∧
            isDigit l0 = false := by
          rcases hcases with ⟨h0, _⟩ | ⟨_, h0 | rfl | ⟨e, rfl | rfl, he⟩⟩
          · exact absurd h0 hsepne
          · exact absurd h0 hsepne
          · exact ⟨'-', [], '-', [], rfl, by decide, rfl, by decide⟩
          · exact ⟨e, [], e, [], rfl, (marker_facts e he).1, rfl, (marker_facts e he).1⟩
          · exact ⟨'-', [e], e, ['-'], rfl, by decide, rfl, (marker_facts e he).1⟩
        obtain ⟨e1, e2', e3⟩ := split_unique [a, b] d1 sep sep2 second e2 hab hd1.2 hsec he2.2
          hs1 hs2 heq2
        subst e1 e2' e3
        have hlen : second.length = 2 := by
          rcases hcases with ⟨h0, _⟩ | ⟨⟨x, y, rfl, _, _⟩, _⟩
          · exact absurd h0 hsepne
          · rfl
        exact ⟨hmE, hsep2, hlen, rfl, by omega⟩
  · rw [ParseEpisodeString_not_token _ (by simp) htok] at hp
    cases hp

/-- An ASCII digit is one of the ten digit characters. -/
theorem isDigit_mem (c : Char) (h : isDigit c = true) : c ∈ "0123456789".toList := by
  simp only [isDigit, Bool.and_eq_true, decide_eq_true_eq] at h
  have h1 : '0'.toNat = 48 := rfl
  have h2 : '9'.toNat = 57 := rfl
  rw [h1, h2] at h
  have hc : Char.ofNat c.toNat = c := Char.ofNat_toNat c
  obtain ⟨hlo, hhi⟩ := h
  rw [← hc]
  interval_cases c.toNat <;> decide

set_option maxRecDepth 100000 in
/-- The value of two digits, written with `%02d`, is the two digits. -/
theorem fmt02d_two_digits (a b : Char) (ha : isDigit a = true) (hb : isDigit b = true) :
    fmt02d (decimalValue [a, b] : Nat) = [a, b] := by
  have key : ∀ x ∈ "0123456789".toList, ∀ y ∈ "0123456789".toList,
      fmt02d (decimalValue [x, y] : Nat) = [x, y] := by decide
  exact key a (isDigit_mem a ha) b (isDigit_mem b hb)

/-- The text "aa-Ebb" of a range parses as the range from aa to bb. -/
theorem ParseEpisodeString_range_text (a b x y : Char) (pre sep : List Char)
    (hpre : pre = [] ∨ pre = ['E'])
    (hsep : sep = ['-'] ∨ sep = ['-', 'E'] ∨ sep = ['E'])
    (ha : isDigit a = true) (hb : isDigit b = true) (hx : isDigit x = true)
    (hy : isDigit y = true) (hle : decimalValue [a, b] ≤ decimalValue [x, y]) :
    ParseEpisodeString (pre ++ [a, b] ++ sep ++ [x, y]) =
      .ok ⟨decimalValue [a, b], decimalValue [x, y], true⟩ := by
  have hab : IsDigitRun [a, b] := ⟨by simp, by
    intro c hc
    simp only [List.mem_cons, List.mem_singleton, List.not_mem_nil, or_false] at hc
    rcases hc with rfl | rfl <;> assumption⟩
  have hxy : IsDigitRun [x, y] := ⟨by simp, by
    intro c hc
    simp only [List.mem_cons, List.mem_singleton, List.not_mem_nil, or_false] at hc
    rcases hc with rfl | rfl <;> assumption⟩
  have htrim : TrimSpace (pre ++ [a, b] ++ sep ++ [x, y]) = pre ++ [a, b] ++ sep ++ [x, y] := by
    apply TrimSpace_of_ends
    · intro c t h
      rcases hpre with rfl | rfl
      · simp at h
        rw [← h.1]; exact isDigit_not_isSpace ha
      · simp at h
        rw [← h.1]; decide
    · intro c t h
      simp at h
      rw [← h.1]; exact isDigit_not_isSpace hy
  have ht : IsEpisodeToken (TrimSpace (pre ++ [a, b] ++ sep ++ [x, y])) [a, b] (some [x, y]) := by
    rw [htrim]
    exact ⟨pre, hpre, hab, hxy, sep, hsep, rfl⟩
  rw [ParseEpisodeString_of_token _ _ _ ht]
  have h1 := decimalValue_two a b ha hb
  have h2 := decimalValue_two x y hx hy
  have h63 : intLimit = 9223372036854775808 := rfl
  rw [if_neg (by rw [h63]; omega)]
  dsimp only
  rw [if_neg (by rw [h63]; omega), if_neg (by omega)]

/-- C39 (as stated, refuted): on "Show.S01E0102.mkv", "Show.S01e01e02.mkv" and
"Show.S01E01X02.mkv" the episode matcher captures "01" and a second number
"02", and each file is a series (Lookup disabled); but the Episode is "102"
for the first, which denotes the single episode 102, and "01" for the other
two, which denotes the single episode 1: none denotes the range from 1 to
2. -/
theorem NewParsedFile_second_number_no_range :
    (submatch "episode" "Show.S01E0102".toList =
        some ["E0102".toList, "01".toList, "02".toList] ∧
      (NewParsedFile offlineEnv 1 "Show.S01E0102.mkv".toList [{}]).map
        (fun r => (r.IsSeries, r.Episode)) = some (true, "102".toList) ∧
      ParseEpisodeString "102".toList = .ok ⟨102, 102, false⟩) ∧
    (submatch "episode" "Show.S01e01e02".toList =
        some ["e01e02".toList, "01".toList, "02".toList] ∧
      (NewParsedFile offlineEnv 1 "Show.S01e01e02.mkv".toList [{}]).map
        (fun r => (r.IsSeries, r.Episode)) = some (true, "01".toList)) ∧
    (submatch "episode" "Show.S01E01X02".toList =
        some ["E01X02".toList, "01".toList, "02".toList] ∧
      (NewParsedFile offlineEnv 1 "Show.S01E01X02.mkv".toList [{}]).map
        (fun r => (r.IsSeries, r.Episode)) = some (true, "01".toList)) ∧
    ParseEpisodeString "01".toList = .ok ⟨1, 1, false⟩ := by
  refine ⟨⟨by decide, by decide, by decide⟩, ⟨by decide, by decide⟩, ⟨by decide, by decide⟩,
    by decide⟩

/-- C39 (amended): when the
episode matcher matches the file name of a video path and ParseEpisodeString
accepts the matched text as a range, the matched text is an upper-case `E`,
the first captured two-digit number, a separator "-", "-E" or "E", and the
second captured two-digit number, the first number not above the second; the
matching pass sets Episode to the two numbers joined by "-E", a text that
denotes the range from the first to the second; NewParsedFile returns a
record (from fuel 2 on), and this is its Episode whenever the file is
classified as a series by a season or by ForceSeries (ForceMovie not set).
Tokens such as E0102, e01e02 and E01X02, which ParseEpisodeString does not
accept as a range, yield no range. -/
theorem NewParsedFile_range_of_captured_numbers (env : Env) (path : List Char) (o : Options)
    (res : Caps) (i : EpisodeInfo)
    (hext : SupportedVideoExtensions (Ext path) = true)
    (hres : submatch "episode" (Base (TrimSuffix path (Ext path))) = some res)
    (hparse : ParseEpisodeString (res.getD 0 []) = .ok i) (hrange : i.IsRange = true) :
    ((res.getD 1 []).length = 2 ∧ (res.getD 2 []).length = 2 ∧
      (∀ c ∈ res.getD 1 [] ++ res.getD 2 [], isDigit c = true) ∧
      (∃ sep, (sep = ['-'] ∨ sep = ['-', 'E'] ∨ sep = ['E']) ∧
        res.getD 0 [] = 'E' :: res.getD 1 [] ++ sep ++ res.getD 2 []) ∧
      i = ⟨decimalValue (res.getD 1 []), decimalValue (res.getD 2 []), true⟩ ∧
      decimalValue (res.getD 1 []) ≤ decimalValue (res.getD 2 [])) ∧
    ∃ g f, matchingPass (initialFile env path [o]).Filename order (initialFile env path [o])
        = some g ∧
      g.Episode = res.getD 1 [] ++ "-E".toList ++ res.getD 2 [] ∧
      ParseEpisodeString g.Episode = .ok i ∧
      (∀ fuel, NewParsedFile env (fuel + 2) path [o] = some f) ∧
      (o.ForceMovie = false → (o.ForceSeries = true ∨ g.Season ≠ []) →
        f.IsSeries = true ∧ f.IsMovie = false ∧ f.Episode = g.Episode) := by
  obtain ⟨m, a, b, sep, second, rfl, hm1, ha, hb, hcases⟩ := episode_submatch_shape _ res hres
  have hp : ParseEpisodeString (m :: a :: b :: sep ++ second) = .ok i := hparse
  obtain ⟨hmE, hsep, hlen, hi, hle⟩ := episode_range_inv m a b sep second i hm1 ha hb hcases
    hp hrange
  obtain ⟨x, y, rfl, hx, hy⟩ : ∃ x y, second = [x, y] ∧ isDigit x = true ∧ isDigit y = true := by
    rcases hcases with ⟨_, rfl⟩ | ⟨h, _⟩
    · cases hlen
    · exact h
  subst hmE
  have hg0 : List.getD [('E' :: a :: b :: sep ++ [x, y]), [a, b], [x, y]] 0 [] =
      'E' :: a :: b :: sep ++ [x, y] := rfl
  have hg1 : List.getD [('E' :: a :: b :: sep ++ [x, y]), [a, b], [x, y]] 1 [] = [a, b] := rfl
  have hg2 : List.getD [('E' :: a :: b :: sep ++ [x, y]), [a, b], [x, y]] 2 [] = [x, y] := rfl
  rw [hg0, hg1, hg2]
  have hdig : ∀ c ∈ [a, b] ++ [x, y], isDigit c = true := by
    intro c hc
    simp only [List.cons_append, List.nil_append, List.mem_cons, List.mem_singleton,
      List.not_mem_nil, or_false] at hc
    rcases hc with rfl | rfl | rfl | rfl <;> assumption
  refine ⟨⟨rfl, rfl, hdig, ⟨sep, hsep, by simp⟩, hi, hle⟩, ?_⟩
  obtain ⟨g, hm, hfr⟩ := matchingPass_total (initialFile env path [o]).Filename order
    (initialFile env path [o]) order_matcherFits
  obtain ⟨_, _, hE, _⟩ := matchingPass_fields _ _ g rfl rfl rfl rfl hm
  have hfn : (initialFile env path [o]).Filename = Base (TrimSuffix path (Ext path)) := rfl
  rw [hfn] at hE
  have hep : episodeOfEpisode (Base (TrimSuffix path (Ext path))) =
      [a, b] ++ "-E".toList ++ [x, y] := by
    unfold episodeOfEpisode
    rw [hres]
    simp only [episodeText, hg0, hp, hrange, if_true]
    rw [hi]
    dsimp only
    rw [fmt02d_two_digits a b ha hb, fmt02d_two_digits x y hx hy]
  have hgE : g.Episode = [a, b] ++ "-E".toList ++ [x, y] := by
    rw [hE]
    unfold matchedEpisode animeHonoured
    rw [hep]
    rfl
  have hround : ParseEpisodeString g.Episode = .ok i := by
    rw [hgE, hi]
    exact ParseEpisodeString_range_text a b x y [] ['-', 'E'] (Or.inl rfl) (Or.inr (Or.inl rfl))
      ha hb hx hy hle
  obtain ⟨f, hf, _⟩ := NewParsedFile_total env path [o]
  refine ⟨g, f, hm, hgE, hround, hf, ?_⟩
  intro hfm hser
  have hc : classify g (getOpts env [o]) path = .done { g with IsSeries := true } := by
    unfold classify
    rw [if_neg (by rw [(getOpts_flags env o).2.1, hfm]; simp)]
    by_cases hfs : (getOpts env [o]).ForceSeries = true
    · rw [if_pos hfs]
    · rw [if_neg hfs]
      have hs : g.Season ≠ [] := by
        rcases hser with h | h
        · exact absurd ((getOpts_flags env o).2.2.1.trans h) hfs
        · exact h
      rw [if_pos hs]
  obtain ⟨r, hr, hid⟩ := NewParsedFile_of_done env path [o] g _ hext hm hc
  have hrf : r = f := by
    have := hr 1
    rw [hf 0] at this
    cases this
    rfl
  subst hrf
  refine ⟨hid.2.1, ?_, ?_⟩
  · rw [hid.1]
    exact hfr.2.2.1.trans (initialFile_fields env path o).2.1
  · rw [hid.2.2.2.2.2.2.2.2.1]

set_option maxRecDepth 100000 in
/-- C39 (witness): on "Show.S01E01E02.mkv" the matched text "E01E02" parses
as the range from 1 to 2 and the Episode is "01-E02"; "Show.S01E01-02.mkv"
and "Show.S01E01-E02.mkv" give the same Episode. -/
theorem NewParsedFile_range_of_captured_numbers_witness :
    (SupportedVideoExtensions (Ext "Show.S01E01E02.mkv".toList) = true ∧
      submatch "episode" (Base (TrimSuffix "Show.S01E01E02.mkv".toList
        (Ext "Show.S01E01E02.mkv".toList))) =
          some ["E01E02".toList, "01".toList, "02".toList] ∧
      ParseEpisodeString "E01E02".toList = .ok ⟨1, 2, true⟩) ∧
    (("01".toList.length = 2 ∧ "02".toList.length = 2 ∧
      (∀ c ∈ "01".toList ++ "02".toList, isDigit c = true) ∧
      (∃ sep, (sep = ['-'] ∨ sep = ['-', 'E'] ∨ sep = ['E']) ∧
        "E01E02".toList = 'E' :: "01".toList ++ sep ++ "02".toList) ∧
      (⟨1, 2, true⟩ : EpisodeInfo) =
        ⟨decimalValue "01".toList, decimalValue "02".toList, true⟩ ∧
      decimalValue "01".toList ≤ decimalValue "02".toList) ∧
    ∃ g f, matchingPass (initialFile offlineEnv "Show.S01E01E02.mkv".toList [{}]).Filename order
        (initialFile offlineEnv "Show.S01E01E02.mkv".toList [{}]) = some g ∧
      g.Episode = "01".toList ++ "-E".toList ++ "02".toList ∧
      ParseEpisodeString g.Episode = .ok ⟨1, 2, true⟩ ∧
      (∀ fuel, NewParsedFile offlineEnv (fuel + 2) "Show.S01E01E02.mkv".toList [{}] = some f) ∧
      (({} : Options).ForceMovie = false → (({} : Options).ForceSeries = true ∨ g.Season ≠ []) →
        f.IsSeries = true ∧ f.IsMovie = false ∧ f.Episode = g.Episode)) ∧
    (NewParsedFile offlineEnv 1 "Show.S01E01E02.mkv".toList [{}]).map
      (fun r => (r.IsSeries, r.Season, r.Episode)) =
        some (true, "01".toList, "01-E02".toList) ∧
    (NewParsedFile offlineEnv 1 "Show.S01E01-02.mkv".toList [{}]).map
      (fun r => (r.IsSeries, r.Season, r.Episode)) =
        some (true, "01".toList, "01-E02".toList) ∧
    (NewParsedFile offlineEnv 1 "Show.S01E01-E02.mkv".toList [{}]).map
      (fun r => (r.IsSeries, r.Season, r.Episode)) =
        some (true, "01".toList, "01-E02".toList) :=
  ⟨⟨by decide, by decide, by decide⟩,
    NewParsedFile_range_of_captured_numbers offlineEnv "Show.S01E01E02.mkv".toList {}
      ["E01E02".toList, "01".toList, "02".toList] ⟨1, 2, true⟩ (by decide) (by decide)
      (by decide) rfl,
    by decide, by decide, by decide⟩

/-! ## Claims on the dry-run option -/

/-- The defaults of getOpts do not depend on the dry-run flag. -/
theorem getOpts_withDryRun (env : Env) (o : Options) (b : Bool) :
    getOpts env [o.withDryRun b] = (getOpts env [o]).withDryRun b := by
  obtain ⟨l, fm, fs, of, mf, sf, dr, tl⟩ := o
  by_cases h1 : mf = [] <;> by_cases h2 : sf = [] <;> by_cases h3 : tl = [] <;>
    simp [getOpts, Options.withDryRun, h1, h2, h3]

/-- The record NewParsedFile starts from carries the dry-run flag and does
not depend on it otherwise. -/
theorem initialFile_withDryRun (env : Env) (path : List Char) (o : Options) (b : Bool) :
    initialFile env path [o.withDryRun b] = (initialFile env path [o]).withDryRun b := by
  unfold initialFile
  rw [getOpts_withDryRun]
  rfl

/-- A case of the matching pass does not read the dry-run flag. -/
theorem applyMatch_withDryRun (f : ParsedFile) (name : String) (res : Caps) (b : Bool) :
    applyMatch (f.withDryRun b) name res =
      (applyMatch f name res).map (fun g => g.withDryRun b) := by
  have hS : (f.withDryRun b).Season = f.Season := rfl
  have hE : (f.withDryRun b).Episode = f.Episode := rfl
  by_cases h1 : name = "yearAsSeason"
  · subst h1
    simp only [applyMatch, if_true]
    by_cases hl : 1 < res.length
    · rw [if_pos hl, if_pos hl]
      cases res[2]? <;> rfl
    · rw [if_neg hl, if_neg hl]; rfl
  by_cases h2 : name = "year"
  · subst h2
    simp only [applyMatch, h1, if_false, if_true, hS]
    cases res[2]? with
    | none => rfl
    | some r2 => dsimp only; split_ifs <;> rfl
  by_cases h3 : name = "season"
  · subst h3
    simp only [applyMatch, h1, h2, if_false, if_true, hS]
    by_cases hs : f.Season = []
    · rw [if_pos hs, if_pos hs]
      cases res[2]? <;> rfl
    · rw [if_neg hs, if_neg hs]; rfl
  by_cases h4 : name = "episode"
  · subst h4
    simp only [applyMatch, h1, h2, h3, if_false, if_true]
    cases res[0]? with
    | none => rfl
    | some r0 =>
      dsimp only
      cases hp : ParseEpisodeString r0 with
      | error e =>
        cases e <;> dsimp only <;> first | rfl | (cases res[1]? <;> rfl)
      | ok i =>
        dsimp only
        split_ifs <;> rfl
  by_cases h5 : name = "quality"
  · subst h5
    simp only [applyMatch, h1, h2, h3, h4, if_false, if_true]
    cases res[1]? <;> rfl
  by_cases h6 : name = "resolution"
  · subst h6
    simp only [applyMatch, h1, h2, h3, h4, h5, if_false, if_true]
    cases res[2]? <;> rfl
  by_cases h7 : name = "groupAnime"
  · subst h7
    simp only [applyMatch, h1, h2, h3, h4, h5, h6, if_false, if_true]
    cases res[1]? <;> rfl
  by_cases h8 : name = "episodeAnime"
  · subst h8
    simp only [applyMatch, h1, h2, h3, h4, h5, h6, h7, if_false, if_true, hE]
    by_cases he : f.Episode = []
    · rw [if_pos he, if_pos he]
      cases res[0]? <;> rfl
    · rw [if_neg he, if_neg he]; rfl
  · simp only [applyMatch, h1, h2, h3, h4, h5, h6, h7, h8, if_false]
    rfl

/-- The matching pass does not read the dry-run flag. -/
theorem matchingPass_withDryRun (filename : List Char) (b : Bool) :
    ∀ (names : List String) (f : ParsedFile),
      matchingPass filename names (f.withDryRun b) =
        (matchingPass filename names f).map (fun g => g.withDryRun b) := by
  intro names
  induction names with
  | nil => intro f; rfl
  | cons name rest ih =>
    intro f
    cases hm : matcher name with
    | none => simp [matchingPass, hm]
    | some re =>
      cases hr : re.FindStringSubmatch filename with
      | none => simp [matchingPass, hm, hr, ih]
      | some res =>
        by_cases hl : 0 < res.length
        · cases ha : applyMatch f name res with
          | none => simp [matchingPass, hm, hr, hl, applyMatch_withDryRun, ha]
          | some f1 => simp [matchingPass, hm, hr, hl, applyMatch_withDryRun, ha, ih]
        · simp [matchingPass, hm, hr, hl, ih]

/-- The decision chain does not read the dry-run flag. -/
theorem classify_withDryRun (g : ParsedFile) (opts : Options) (path : List Char) (b : Bool) :
    classify (g.withDryRun b) (opts.withDryRun b) path = (classify g opts path).withDryRun b := by
  unfold classify
  have h1 : (opts.withDryRun b).ForceMovie = opts.ForceMovie := rfl
  have h2 : (opts.withDryRun b).ForceSeries = opts.ForceSeries := rfl
  have h3 : (opts.withDryRun b).OriginalFile = opts.OriginalFile := rfl
  have h4 : (g.withDryRun b).Season = g.Season := rfl
  have h5 : (g.withDryRun b).Year = g.Year := rfl
  have h6 : (g.withDryRun b).Episode = g.Episode := rfl
  have h7 : (g.withDryRun b).Extension = g.Extension := rfl
  rw [h1, h2, h3, h4, h5, h6, h7]
  dsimp only
  split_ifs <;> rfl

/-- A step of the cleaning pass does not read the dry-run flag. -/
theorem cleanStep_withDryRun (f : ParsedFile) (name : String) (re : Regexp) (res : Caps)
    (c : List Char) (b : Bool) :
    cleanStep (f.withDryRun b) name re res c = cleanStep f name re res c := rfl

/-- The cleaning pass does not read the dry-run flag. -/
theorem cleaningPass_withDryRun (f : ParsedFile) (b : Bool) :
    ∀ (names : List String) (c : List Char),
      cleaningPass (f.withDryRun b) names c = cleaningPass f names c := by
  intro names
  induction names with
  | nil => intro c; rfl
  | cons name rest ih =>
    intro c
    cases hm : matcher name with
    | none => simp [cleaningPass, hm]
    | some re =>
      cases hr : re.FindStringSubmatch c with
      | none => simp [cleaningPass, hm, hr, ih]
      | some res =>
        by_cases hl : 0 < res.length
        · cases hs : cleanStep f name re res c with
          | none => simp [cleaningPass, hm, hr, hl, cleanStep_withDryRun, hs]
          | some c1 => simp [cleaningPass, hm, hr, hl, cleanStep_withDryRun, hs, ih]
        · simp [cleaningPass, hm, hr, hl, ih]

/-- The end of the cleaning does not read the dry-run flag. -/
theorem polish_withDryRun (env : Env) (f : ParsedFile) (c : List Char) (b : Bool) :
    polish env (f.withDryRun b) c = polish env f c := rfl

/-- The part of the lookup that fetches the episode titles does not read the
dry-run flag. -/
theorem queryEpisodes_withDryRun (env : Env) (p : ParsedFile) (tvID seasonNum : Int)
    (options : List (String × List Char)) (b : Bool) :
    queryEpisodes env (p.withDryRun b) tvID seasonNum options =
      (queryEpisodes env p tvID seasonNum options).map (fun r => r.withDryRun b) := by
  unfold queryEpisodes
  have hE : (p.withDryRun b).Episode = p.Episode := rfl
  rw [hE]
  cases hp : ParseEpisodeString p.Episode with
  | error e =>
    cases e <;> dsimp only <;> first | rfl | (split_ifs <;> rfl)
  | ok i =>
    dsimp only
    split_ifs <;> rfl

/-- The catalog lookup does not read the dry-run flag. -/
theorem queryTmdb_withDryRun (env : Env) (p : ParsedFile) (b : Bool) :
    queryTmdb env (p.withDryRun b) = (queryTmdb env p).map (fun r => r.withDryRun b) := by
  rw [queryTmdb_eq, queryTmdb_eq]
  have h1 : (p.withDryRun b).IsSeries = p.IsSeries := rfl
  have h2 : (p.withDryRun b).IsMovie = p.IsMovie := rfl
  have h3 : (p.withDryRun b).CleanName = p.CleanName := rfl
  have h4 : tmdbOptions (p.withDryRun b) = tmdbOptions p := rfl
  have h5 : ∀ tv, adoptSeries (p.withDryRun b) tv = (adoptSeries p tv).withDryRun b := by
    intro tv
    unfold adoptSeries
    dsimp only
    have hy : (p.withDryRun b).Year = p.Year := rfl
    rw [hy]
    split_ifs <;> rfl
  rw [h1, h2, h3, h4]
  by_cases hs : p.IsSeries = true
  · rw [if_pos hs, if_pos hs]
    cases env.SearchTv p.CleanName (tmdbOptions p) with
    | none => rfl
    | some l =>
      cases l with
      | nil => rfl
      | cons tv rest =>
        dsimp only
        rw [h5]
        have hse : ((adoptSeries p tv).withDryRun b).Season = (adoptSeries p tv).Season := rfl
        rw [hse]
        cases Atoi (adoptSeries p tv).Season with
        | none => rfl
        | some n =>
          dsimp only
          exact queryEpisodes_withDryRun env _ tv.ID n (tmdbOptions p) b
  · rw [if_neg hs, if_neg hs]
    by_cases hmo : p.IsMovie = true
    · rw [if_pos hmo, if_pos hmo]
      cases env.SearchMovie p.CleanName (tmdbOptions p) with
      | none => rfl
      | some l =>
        cases l with
        | nil => rfl
        | cons mov rest => rfl
    · rw [if_neg hmo, if_neg hmo]
      rfl

/-- The season translation does not read the dry-run flag. -/
theorem translateSeason_withDryRun (env : Env) (f : ParsedFile) (b : Bool) :
    translateSeason env (f.withDryRun b) = (translateSeason env f).withDryRun b := by
  unfold translateSeason
  have h1 : (f.withDryRun b).ExternalID = f.ExternalID := rfl
  have h2 : (f.withDryRun b).hasYearAsSeason = f.hasYearAsSeason := rfl
  have h3 : (f.withDryRun b).Options.TMDBLanguage = f.Options.TMDBLanguage := rfl
  have h4 : (f.withDryRun b).Season = f.Season := rfl
  rw [h1, h2, h3, h4]
  split_ifs
  · dsimp only
    cases List.find? (fun s => s.Name == "Season ".toList ++ f.Season)
        (env.GetTvInfo f.ExternalID [("language", f.Options.TMDBLanguage)]) <;> rfl
  · rfl

/-- The year suffix does not read the dry-run flag. -/
theorem addYear_withDryRun (f : ParsedFile) (b : Bool) :
    addYear (f.withDryRun b) = (addYear f).withDryRun b := by
  unfold addYear
  have h1 : (f.withDryRun b).CleanName = f.CleanName := rfl
  have h2 : (f.withDryRun b).Year = f.Year := rfl
  rw [h1, h2]
  split_ifs <;> rfl

/-- The end of NewParsedFile does not read the dry-run flag. -/
theorem finish_withDryRun (env : Env) (opts : Options) (f : ParsedFile) (c : List Char)
    (b : Bool) :
    finish env (opts.withDryRun b) (f.withDryRun b) c =
      (finish env opts f c).map (fun r => r.withDryRun b) := by
  rw [finish_eq, finish_eq]
  have h1 : (opts.withDryRun b).Lookup = opts.Lookup := rfl
  rw [h1]
  by_cases hl : opts.Lookup = true
  · rw [if_pos hl, if_pos hl]
    have hq := queryTmdb_withDryRun env { f with CleanName := Replace c [':'] [] } b
    have hq2 : queryTmdb env { f.withDryRun b with CleanName := Replace c [':'] [] } =
        (queryTmdb env { f with CleanName := Replace c [':'] [] }).map
          (fun r => r.withDryRun b) := hq
    rw [hq2]
    cases queryTmdb env { f with CleanName := Replace c [':'] [] } with
    | none => rfl
    | some q =>
      simp only [Option.map_some']
      rw [translateSeason_withDryRun, addYear_withDryRun]
      rfl
  · rw [if_neg hl, if_neg hl]
    simp only [Option.map_some']
    have hf : ({ f.withDryRun b with CleanName := Replace c [':'] [] } : ParsedFile) =
        ({ f with CleanName := Replace c [':'] [] } : ParsedFile).withDryRun b := rfl
    rw [hf, translateSeason_withDryRun, addYear_withDryRun]
    rfl

/-- NewParsedFile does not read the dry-run flag: setting the flag in the
options sets it in the result and changes nothing else. -/
theorem NewParsedFile_withDryRun (env : Env) (b : Bool) :
    ∀ (fuel : Nat) (path : List Char) (o : Options),
      NewParsedFile env fuel path [o.withDryRun b] =
        (NewParsedFile env fuel path [o]).map (fun r => r.withDryRun b) := by
  intro fuel
  induction fuel with
  | zero => intro path o; rfl
  | succ fuel ih =>
    intro path o
    by_cases hext : SupportedVideoExtensions (Ext path) = true
    · obtain ⟨g, hm, hfr⟩ := matchingPass_total (initialFile env path [o]).Filename order
        (initialFile env path [o]) order_matcherFits
      have hm2 : matchingPass (initialFile env path [o.withDryRun b]).Filename order
          (initialFile env path [o.withDryRun b]) = some (g.withDryRun b) := by
        rw [initialFile_withDryRun]
        have hfn : ((initialFile env path [o]).withDryRun b).Filename =
            (initialFile env path [o]).Filename := rfl
        rw [hfn, matchingPass_withDryRun, hm]
        rfl
      have hc2 : classify (g.withDryRun b) (getOpts env [o.withDryRun b]) path =
          (classify g (getOpts env [o]) path).withDryRun b := by
        rw [getOpts_withDryRun, classify_withDryRun]
      cases hc : classify g (getOpts env [o]) path with
      | done f1 =>
        rw [hc] at hc2
        rw [NewParsedFile_video_done env fuel path [o] g f1 hext hm hc,
          NewParsedFile_video_done env fuel path [o.withDryRun b] (g.withDryRun b)
            (f1.withDryRun b) hext hm2 hc2]
        have hfn : (g.withDryRun b).Filename = g.Filename := rfl
        rw [hfn, cleaningPass_withDryRun]
        cases cleaningPass f1 order (Replace g.Filename ['.'] [' ']) with
        | none => rfl
        | some c =>
          dsimp only
          rw [polish_withDryRun, getOpts_withDryRun, finish_withDryRun]
      | retry p1 o1 =>
        rw [hc] at hc2
        rw [NewParsedFile_video_retry env fuel path p1 [o] o1 g hext hm hc,
          NewParsedFile_video_retry env fuel path p1 [o.withDryRun b] (o1.withDryRun b)
            (g.withDryRun b) hext hm2 hc2]
        exact ih p1 o1
    · have hext2 : SupportedVideoExtensions (Ext path) = false := by simpa using hext
      rw [NewParsedFile_not_video env fuel path [o] hext2,
        NewParsedFile_not_video env fuel path [o.withDryRun b] hext2, initialFile_withDryRun]
      split_ifs <;> rfl

set_option maxRecDepth 100000 in
/-- C36 (the dry-run option does not affect parsing): for every catalog,
path and options, NewParsedFile with DryRun set and NewParsedFile with DryRun
cleared return, with the same fuel, either both nothing or two records that
agree on every field except Options.DryRun: the one is the other with
Options.DryRun changed. Both calls return a record from fuel 2 on, and
Options.DryRun of the result is the value the caller supplied.
"The.Flash.2014.S06E07.mkv" with DryRun set is a series and not a movie, and
"test.mkv" with DryRun set carries the flag. -/
theorem NewParsedFile_dry_run (env : Env) (fuel : Nat) (path : List Char) (o : Options) :
    NewParsedFile env fuel path [{ o with DryRun := true }] =
      (NewParsedFile env fuel path [{ o with DryRun := false }]).map
        (fun r => { r with Options := { r.Options with DryRun := true } }) ∧
    (∀ r1 r2, NewParsedFile env fuel path [{ o with DryRun := true }] = some r1 →
      NewParsedFile env fuel path [{ o with DryRun := false }] = some r2 →
      r1 = { r2 with Options := { r2.Options with DryRun := true } } ∧
      r2 = { r1 with Options := { r1.Options with DryRun := false } }) ∧
    (∀ b, ∃ r, ∀ k, NewParsedFile env (k + 2) path [{ o with DryRun := b }] = some r) ∧
    (∀ b r, NewParsedFile env fuel path [{ o with DryRun := b }] = some r →
      r.Options.DryRun = b) ∧
    (NewParsedFile offlineEnv 1 "The.Flash.2014.S06E07.mkv".toList [{ DryRun := true }]).map
      (fun r => (r.IsMovie, r.IsSeries, r.Options.DryRun)) = some (false, true, true) ∧
    (NewParsedFile offlineEnv 1 "test.mkv".toList [{ DryRun := true }]).map
      (fun r => r.Options.DryRun) = some true := by
  have key : ∀ b, NewParsedFile env fuel path [{ o with DryRun := b }] =
      (NewParsedFile env fuel path [o]).map (fun r => r.withDryRun b) :=
    fun b => NewParsedFile_withDryRun env b fuel path o
  have hT := NewParsedFile_withDryRun env true fuel path { o with DryRun := false }
  have hF := NewParsedFile_withDryRun env false fuel path { o with DryRun := true }
  have hT2 : NewParsedFile env fuel path [{ o with DryRun := true }] =
      (NewParsedFile env fuel path [{ o with DryRun := false }]).map
        (fun r => r.withDryRun true) := hT
  have hF2 : NewParsedFile env fuel path [{ o with DryRun := false }] =
      (NewParsedFile env fuel path [{ o with DryRun := true }]).map
        (fun r => r.withDryRun false) := hF
  refine ⟨hT2, ?_, ?_, ?_, by decide, by decide⟩
  · intro r1 r2 h1 h2
    constructor
    · rw [h2] at hT2
      rw [hT2] at h1
      exact (Option.some.inj h1).symm
    · rw [h1] at hF2
      rw [hF2] at h2
      exact (Option.some.inj h2).symm
  · intro b
    obtain ⟨r, hr, _⟩ := NewParsedFile_total env path [{ o with DryRun := b }]
    exact ⟨r, hr⟩
  · intro b r h
    rw [key b] at h
    cases h0 : NewParsedFile env fuel path [o] with
    | none => rw [h0] at h; cases h
    | some r0 =>
      rw [h0] at h
      obtain rfl := Option.some.inj h
      rfl

/-! ## The truncation at a run of spaces -/

/-- A character class on a text that starts with a character of the class. -/
theorem cls_run_cons (p : Char → Bool) (x : Char) (t : List Char) (i : Nat) (c : Caps)
    (k : Cont) (h : p x = true) : (Re.cls p).run i (x :: t) c k = k (i + 1) t c := by
  show (if p x = true then k (i + 1) t c else none) = _
  rw [if_pos h]

/-- A character class on a text that starts with another character. -/
theorem cls_run_cons_neg (p : Char → Bool) (x : Char) (t : List Char) (i : Nat) (c : Caps)
    (k : Cont) (h : p x = false) : (Re.cls p).run i (x :: t) c k = none := by
  show (if p x = true then k (i + 1) t c else none) = _
  rw [if_neg (by simp [h])]

/-- A greedy iteration of a character class before a continuation that
always succeeds takes the longest run of characters of the class. -/
theorem starLoop_cls (p : Char → Bool) (k : Cont) (hk : ∀ j s c, ∃ r, k j s c = some r) :
    ∀ (fuel i : Nat) (s : List Char) (c : Caps), s.length ≤ fuel →
      starLoop (Re.cls p).run fuel i s c k =
        k (i + (s.takeWhile p).length) (s.dropWhile p) c := by
  intro fuel
  induction fuel with
  | zero =>
    intro i s c hs
    have : s = [] := List.length_eq_zero.1 (by omega)
    subst this
    rfl
  | succ fuel ih =>
    intro i s c hs
    rw [starLoop]
    cases s with
    | nil => rfl
    | cons x t =>
      by_cases hp : p x = true
      · rw [cls_run_cons p x t i c _ hp, if_pos (by omega),
          ih (i + 1) t c (by simpa using hs)]
        obtain ⟨r, hr⟩ := hk (i + 1 + (t.takeWhile p).length) (t.dropWhile p) c
        simp only [List.takeWhile_cons, List.dropWhile_cons, hp, if_true, List.length_cons]
        have e : i + ((t.takeWhile p).length + 1) = i + 1 + (t.takeWhile p).length := by omega
        rw [e, hr]
        rfl
      · have hp2 : p x = false := by simpa using hp
        rw [cls_run_cons_neg p x t i c _ hp2]
        simp only [List.takeWhile_cons, List.dropWhile_cons, hp2, Bool.false_eq_true, if_false,
          List.length_nil, Nat.add_zero]
        rfl

/-- The longest run of characters other than a line break, in a text without
line break, is the text. -/
theorem takeWhile_no_newline (u : List Char) (hu : '\n' ∉ u) :
    u.takeWhile (fun c => c != '\n') = u := by
  rw [List.takeWhile_eq_self_iff]
  intro x hx
  simp only [bne_iff_ne, ne_eq]
  intro hxe
  exact hu (hxe ▸ hx)

/-- The pattern `\s{2,}.*` at a position: it matches exactly when the rest
starts with two whitespace characters, and then, on a text without a line
break, up to the end of the text. -/
theorem spacesTail_matchAt (i : Nat) (s : List Char) (hnl : '\n' ∉ s) :
    (∀ a b t, s = a :: b :: t → isReSpace a = true → isReSpace b = true →
      ∃ c, spacesTail.matchAt i s = some (i + s.length, c)) ∧
    ((¬ ∃ a b t, s = a :: b :: t ∧ isReSpace a = true ∧ isReSpace b = true) →
      spacesTail.matchAt i s = none) := by
  constructor
  · intro a b t hs ha hb
    subst hs
    have hk0 : ∀ j s c, ∃ r, K0 j s c = some r := fun j s c => ⟨_, rfl⟩
    have hk1 : ∀ j s c, ∃ r, (fun (j : Nat) (s : List Char) (c : Caps) =>
        starLoop (Re.cls (fun c => c != '\n')).run s.length j s c K0) j s c = some r := by
      intro j s c
      dsimp only
      rw [starLoop_cls _ _ hk0 s.length j s c (le_refl _)]
      exact ⟨_, rfl⟩
    have hrun : spacesTail.re.run i (a :: b :: t) (List.replicate (0 + 1) []) K0 =
        some (i + (a :: b :: t).length, List.replicate (0 + 1) []) := by
      show (Re.cls isReSpace).run i (a :: b :: t) (List.replicate (0 + 1) [])
        (fun j s1 c1 => (Re.cls isReSpace).run j s1 c1
          (fun j s1 c1 => starLoop (Re.cls isReSpace).run s1.length j s1 c1
            (fun j s c => starLoop (Re.cls (fun c => c != '\n')).run s.length j s c K0))) = _
      rw [cls_run_cons _ _ _ _ _ _ ha, cls_run_cons _ _ _ _ _ _ hb,
        starLoop_cls _ _ hk1 t.length (i + 1 + 1) t _ (le_refl _),
        starLoop_cls _ _ hk0 _ _ _ _ (le_refl _)]
      have hdrop : '\n' ∉ t.dropWhile isReSpace := by
        intro hmem
        exact hnl (by
          have := (List.dropWhile_sublist isReSpace (l := t)).subset hmem
          simp [this])
      rw [takeWhile_no_newline _ hdrop]
      have hlen : (t.takeWhile isReSpace).length + (t.dropWhile isReSpace).length = t.length := by
        have := congrArg List.length (List.takeWhile_append_dropWhile isReSpace t)
        rw [List.length_append] at this
        exact this
      simp only [K0, List.length_cons, Option.some.injEq, Prod.mk.injEq, and_true]
      omega
    have hm : spacesTail.matchAt i (a :: b :: t) =
        match spacesTail.re.run i (a :: b :: t) (List.replicate (0 + 1) []) K0 with
        | some (j, c) => some (j, c.set 0 ((a :: b :: t).take (j - i)))
        | none => none := rfl
    rw [hm, hrun]
    exact ⟨_, rfl⟩
  · intro hno
    have hm : spacesTail.matchAt i s =
        match (Re.cls isReSpace).run i s (List.replicate (0 + 1) [])
          (fun j s1 c1 => (Re.cls isReSpace).run j s1 c1
            (fun j s1 c1 => starLoop (Re.cls isReSpace).run s1.length j s1 c1
              (fun j s c => starLoop (Re.cls (fun c => c != '\n')).run s.length j s c K0))) with
        | some (j, c) => some (j, c.set 0 (s.take (j - i)))
        | none => none := rfl
    rw [hm]
    rcases s with _ | ⟨a, _ | ⟨b, t⟩⟩
    · rfl
    · by_cases ha : isReSpace a = true
      · rw [cls_run_cons _ _ _ _ _ _ ha]
        rfl
      · rw [cls_run_cons_neg _ _ _ _ _ _ (by simpa using ha)]
    · by_cases ha : isReSpace a = true
      · rw [cls_run_cons _ _ _ _ _ _ ha]
        by_cases hb : isReSpace b = true
        · exact absurd ⟨a, b, t, rfl, ha, hb⟩ hno
        · rw [cls_run_cons_neg _ _ _ _ _ _ (by simpa using hb)]
      · rw [cls_run_cons_neg _ _ _ _ _ _ (by simpa using ha)]

/-- The leftmost match of `\s{2,}.*` in a text without line break: it starts
where the cut text ends and goes to the end of the text. -/
theorem spacesTail_findFrom :
    ∀ (s : List Char) (pos : Nat), '\n' ∉ s →
      (spacesTail.findFrom pos s = none ∧ cutAtSpaces s = s) ∨
      (∃ k c, spacesTail.findFrom pos s = some (pos + k, pos + s.length, c) ∧
        s.take k = cutAtSpaces s ∧ k + 2 ≤ s.length) := by
  intro s
  induction s with
  | nil =>
    intro pos _
    left
    have h := (spacesTail_matchAt pos [] (by simp)).2 (by rintro ⟨a, b, t, h, _⟩; cases h)
    exact ⟨by rw [Regexp.findFrom, h], rfl⟩
  | cons a t ih =>
    intro pos hnl
    have hnl2 : '\n' ∉ t := fun h => hnl (by simp [h])
    cases t with
    | nil =>
      left
      have h := (spacesTail_matchAt pos [a] hnl).2 (by rintro ⟨a, b, t, h, _⟩; cases h)
      have h2 := (spacesTail_matchAt (pos + 1) [] (by simp)).2
        (by rintro ⟨a, b, t, h, _⟩; cases h)
      refine ⟨?_, rfl⟩
      rw [Regexp.findFrom, h]
      dsimp only
      rw [Regexp.findFrom, h2]
    | cons b t =>
      by_cases hab : isReSpace a = true ∧ isReSpace b = true
      · right
        obtain ⟨c, hc⟩ := (spacesTail_matchAt pos (a :: b :: t) hnl).1 a b t rfl hab.1 hab.2
        refine ⟨0, c, ?_, ?_, by simp⟩
        · rw [Regexp.findFrom, hc]
          rfl
        · simp [cutAtSpaces, hab.1, hab.2]
      · have hno : ¬ ∃ a1 b1 t1, a :: b :: t = a1 :: b1 :: t1 ∧ isReSpace a1 = true ∧
            isReSpace b1 = true := by
          rintro ⟨a1, b1, t1, h, h1, h2⟩
          simp only [List.cons.injEq] at h
          obtain ⟨rfl, rfl, _⟩ := h
          exact hab ⟨h1, h2⟩
        have hm := (spacesTail_matchAt pos (a :: b :: t) hnl).2 hno
        have hcut : cutAtSpaces (a :: b :: t) = a :: cutAtSpaces (b :: t) := by
          have hb2 : (isReSpace a && isReSpace b) = false := by
            simpa using hab
          simp [cutAtSpaces, hb2]
        have hff : spacesTail.findFrom pos (a :: b :: t) =
            spacesTail.findFrom (pos + 1) (b :: t) := by
          rw [Regexp.findFrom, hm]
        rcases ih (pos + 1) hnl2 with ⟨h1, h2⟩ | ⟨k, c, h1, h2, h3⟩
        · left
          exact ⟨by rw [hff, h1], by rw [hcut, h2]⟩
        · right
          refine ⟨k + 1, c, ?_, ?_, by simp at h3 ⊢; omega⟩
          · rw [hff, h1]
            simp only [List.length_cons, Option.some.injEq, Prod.mk.injEq, and_true]
            omega
          · rw [hcut, ← h2]
            rfl

/-- The statement `regexp.MustCompile("\\s{2,}.*").ReplaceAllString(cleanName,
"")` on a text without line break cuts everything from the first two adjacent
whitespace characters on. -/
theorem spacesTail_ReplaceAllString (s : List Char) (hnl : '\n' ∉ s) :
    spacesTail.ReplaceAllString s [] = cutAtSpaces s := by
  unfold Regexp.ReplaceAllString
  rw [replaceAllLoop]
  rcases spacesTail_findFrom s 0 hnl with ⟨h1, h2⟩ | ⟨k, c, h1, h2, h3⟩
  · rw [h1]
    simp [h2]
  · rw [h1]
    have hne : (s.length == 0) = false := by
      rw [beq_eq_false_iff_ne]; omega
    have hend : replaceAllLoop spacesTail [] (s.length + 1) s.length s.length [] [] = [] := by
      rw [replaceAllLoop]
      have h := (spacesTail_matchAt s.length [] (by simp)).2
        (by rintro ⟨a, b, t, h, _⟩; cases h)
      rw [Regexp.findFrom, h]
      rfl
    simp only [Nat.zero_add, hne, Bool.false_eq_true, if_false, Nat.sub_zero, List.nil_append,
      List.drop_length, ite_self, List.append_nil, hend, h2]

/-- The cut text, in words: the text splits into the cut text and a rest that
is empty or starts with two whitespace characters, and no two adjacent
whitespace characters come earlier. -/
theorem cutAtSpaces_spec :
    ∀ s : List Char, ∃ rest, s = cutAtSpaces s ++ rest ∧
      (rest = [] ∨ ∃ a b t, rest = a :: b :: t ∧ isReSpace a = true ∧ isReSpace b = true) ∧
      ∀ u a b v, cutAtSpaces s ++ rest.take 1 = u ++ a :: b :: v →
        ¬(isReSpace a = true ∧ isReSpace b = true) := by
  intro s
  induction s with
  | nil =>
    refine ⟨[], rfl, Or.inl rfl, ?_⟩
    intro u a b v h
    have := congrArg List.length h
    simp [cutAtSpaces] at this
    omega
  | cons x t ih =>
    cases t with
    | nil =>
      refine ⟨[], rfl, Or.inl rfl, ?_⟩
      intro u a b v h
      have := congrArg List.length h
      simp [cutAtSpaces] at this
      omega
    | cons y t =>
      by_cases hxy : isReSpace x = true ∧ isReSpace y = true
      · have hcut : cutAtSpaces (x :: y :: t) = [] := by simp [cutAtSpaces, hxy.1, hxy.2]
        refine ⟨x :: y :: t, by rw [hcut]; rfl, Or.inr ⟨x, y, t, rfl, hxy.1, hxy.2⟩, ?_⟩
        intro u a b v h
        have := congrArg List.length h
        rw [hcut] at this
        simp at this
        omega
      · have hb2 : (isReSpace x && isReSpace y) = false := by simpa using hxy
        have hcut : cutAtSpaces (x :: y :: t) = x :: cutAtSpaces (y :: t) := by
          simp [cutAtSpaces, hb2]
        obtain ⟨rest, hs, hrest, hfirst⟩ := ih
        refine ⟨rest, by rw [hcut, List.cons_append, ← hs], hrest, ?_⟩
        intro u a b v h
        rw [hcut, List.cons_append] at h
        cases u with
        | nil =>
          simp only [List.nil_append, List.cons.injEq] at h
          obtain ⟨hxa, hrest2⟩ := h
          have hy : ∃ w, cutAtSpaces (y :: t) ++ rest.take 1 = y :: w := by
            cases hc : cutAtSpaces (y :: t) with
            | nil =>
              rw [hc, List.nil_append] at hs
              rw [← hs]
              exact ⟨[], rfl⟩
            | cons z w =>
              rw [hc, List.cons_append] at hs
              simp only [List.cons.injEq] at hs
              rw [← hs.1]
              exact ⟨w ++ rest.take 1, rfl⟩
          obtain ⟨w, hw⟩ := hy
          rw [hw] at hrest2
          simp only [List.cons.injEq] at hrest2
          rw [← hxa, ← hrest2.1]
          exact hxy
        | cons z u =>
          simp only [List.cons_append, List.cons.injEq] at h
          exact hfirst u a b v h.2

/-- Go `filepath.Base` brings in no line break. -/
theorem not_mem_Base (p : List Char) (h : '\n' ∉ p) : '\n' ∉ Base p := by
  unfold Base
  by_cases h1 : p = []
  · rw [if_pos h1]; decide
  rw [if_neg h1]
  dsimp only
  by_cases h2 : lastElement (trimRightBy (fun c => c == '/') p) = []
  · rw [if_pos h2]; decide
  · rw [if_neg h2]
    intro hmem
    apply h
    unfold lastElement at hmem
    rw [List.mem_reverse] at hmem
    have h3 := (List.takeWhile_sublist (fun c => c != '/')).subset hmem
    rw [List.mem_reverse] at h3
    exact mem_trimRightBy _ _ _ h3

/-- Go `strings.TrimSuffix` brings in no character. -/
theorem mem_TrimSuffix (s suffix : List Char) (x : Char) (h : x ∈ TrimSuffix s suffix) :
    x ∈ s := by
  unfold TrimSuffix at h
  split_ifs at h
  · exact List.mem_of_mem_take h
  · exact h

/-! ## Claims on the end of the cleaning -/

/-- C32 (as stated, refuted): the file name "a  b" + line break + "c" has no
anime group and the cleaning pass leaves it as it is; the text before the
first run of two whitespace characters is "a", title-cased "A"; but the
pattern `\s{2,}.*` stops at the line break, the replacement leaves "a" +
line break + "c", and the CleanName is "A C". -/
theorem polish_keeps_next_line :
    (NewParsedFile offlineEnv 1 "a  b\nc.mkv".toList [{}]).map
      (fun r => (r.AnimeGroup, r.IsMovie, r.IsSeries, r.CleanName)) =
        some ([], false, false, "A C".toList) ∧
    cleaningPass {} order "a  b\nc".toList = some "a  b\nc".toList ∧
    cutAtSpaces "a  b\nc".toList = "a".toList ∧
    properTitleCase offlineEnv "a".toList = "A".toList ∧
    spacesTail.ReplaceAllString "a  b\nc".toList [] = "a\nc".toList ∧
    polish offlineEnv {} "a  b\nc".toList = "A C".toList := by
  refine ⟨by decide, by decide, by decide, by decide, by decide, by decide⟩

set_option maxRecDepth 100000 in
/-- C32 (amended): when an anime group was detected
the cleaner applies neither the truncation nor title-casing: the cleaned
name is the space-trimmed text left after the substitutions, its letter case
unchanged. When no anime group was detected and the text has no line break,
everything from the first two adjacent whitespace characters on is cut from
the space-trimmed text before title-casing (no two adjacent whitespace
characters come before the cut, and what is cut is nothing or starts with
two whitespace characters). For a classified video file whose path has no
line break, parsed without lookup, CleanName is the cleaned name with its
colons removed, followed by " (year)" for the four series names of the year
table. "[HorribleSubs] Kaiji S2 - Against All Rules - 01 [480p].mkv" yields
CleanName "Kaiji S2 - Against All Rules"; "[Grp] show  extra - 01 [720p].mkv"
keeps its two spaces and its lower case; "the show  extra.S01E02.mkv" yields
"The Show". -/
theorem polish_spec (env : Env) :
    (∀ (f : ParsedFile) c, f.AnimeGroup ≠ [] → polish env f c = trimBlank c) ∧
    (∀ (f : ParsedFile) c, f.AnimeGroup = [] → '\n' ∉ c →
      polish env f c = properTitleCase env (cutAtSpaces (trimBlank c))) ∧
    (∀ s : List Char, ∃ rest, s = cutAtSpaces s ++ rest ∧
      (rest = [] ∨ ∃ a b t, rest = a :: b :: t ∧ isReSpace a = true ∧ isReSpace b = true) ∧
      ∀ u a b v, cutAtSpaces s ++ rest.take 1 = u ++ a :: b :: v →
        ¬(isReSpace a = true ∧ isReSpace b = true)) ∧
    (∀ fuel path (o : Options) g f1 c, SupportedVideoExtensions (Ext path) = true →
      o.Lookup = false → '\n' ∉ path →
      matchingPass (initialFile env path [o]).Filename order (initialFile env path [o])
        = some g →
      classify g (getOpts env [o]) path = .done f1 →
      cleaningPass f1 order (Replace g.Filename ['.'] [' ']) = some c →
      '\n' ∉ c ∧ f1.AnimeGroup = g.AnimeGroup ∧
      ∃ r, NewParsedFile env (fuel + 1) path [o] = some r ∧ r.AnimeGroup = g.AnimeGroup ∧
        r.CleanName =
          if addYearToSeries (Replace (polish env f1 c) [':'] []) = true ∧ r.Year ≠ [] then
            Replace (polish env f1 c) [':'] [] ++ " (".toList ++ r.Year ++ ")".toList
          else Replace (polish env f1 c) [':'] []) ∧
    (NewParsedFile offlineEnv 1
        "[HorribleSubs] Kaiji S2 - Against All Rules - 01 [480p].mkv".toList [{}]).map
      (fun r => (r.AnimeGroup, r.CleanName)) =
        some ("[HorribleSubs]".toList, "Kaiji S2 - Against All Rules".toList) ∧
    (NewParsedFile offlineEnv 1 "[Grp] show  extra - 01 [720p].mkv".toList [{}]).map
      (fun r => (r.AnimeGroup, r.CleanName)) = some ("[Grp]".toList, "show  extra".toList) ∧
    (NewParsedFile offlineEnv 1 "the show  extra.S01E02.mkv".toList [{}]).map
      (fun r => (r.AnimeGroup, r.CleanName)) = some ([], "The Show".toList) := by
  refine ⟨?_, ?_, cutAtSpaces_spec, ?_, by decide, by decide, by decide⟩
  · intro f c h
    unfold polish
    dsimp only
    rw [if_neg h]
  · intro f c h hnl
    unfold polish
    dsimp only
    rw [if_pos h, spacesTail_ReplaceAllString _ (fun hm => hnl (mem_trimBlank _ _ hm))]
  · intro fuel path o g f1 c hext hl hnl hm hc hcl
    obtain ⟨g2, hg2, hfr⟩ := matchingPass_total (initialFile env path [o]).Filename order
      (initialFile env path [o]) order_matcherFits
    rw [hm] at hg2
    cases hg2
    have hd := classify_done g f1 (getOpts env [o]) path hc
    have hfn : g.Filename = Base (TrimSuffix path (Ext path)) := hfr.2.2.2.2.1
    have hnf : '\n' ∉ g.Filename := by
      rw [hfn]
      exact not_mem_Base _ (fun hmem => hnl (mem_TrimSuffix _ _ _ hmem))
    have hn0 : '\n' ∉ Replace g.Filename ['.'] [' '] := by
      intro hmem
      rcases mem_Replace _ _ _ _ hmem with h | h
      · exact hnf h
      · simp at h
    have hnc : '\n' ∉ c := not_mem_cleaningPass f1 '\n' (by decide) order _ c hn0 hcl
    have hag : f1.AnimeGroup = g.AnimeGroup := hd.2.2.2.2.2.2.2.2.1
    obtain ⟨r, hr, _, _, _, hcn⟩ := NewParsedFile_year_suffix_result env fuel path o g f1 c hext
      hl hm hc hcl
    obtain ⟨r2, hr2, heq⟩ := NewParsedFile_classified env fuel path o g f1 hext hl hm hc
      hd.2.2.2.2.2.2.1
    rw [hr] at hr2
    obtain rfl := Option.some.inj hr2
    refine ⟨hnc, hag, r, hr, ?_, hcn⟩
    rw [heq]
    exact hag

end Olaris
